import Mathlib

/-!
# bspwm: stacking list, subscriber broadcast, client request, run loop, geometry, parsing

A shallow embedding of `stack.c` and `subscribe.c`, of `main` of `bspc.c`, of the pending-rule
loop and the restart branch of `main` of `bspwm.c`, of the rectangle predicates of
`geometry.c`, of the word parsers of `parse.c` with the printing macros of `helpers.h`, of
`is_hex_color` and `tokenize_with_escape` of `helpers.c`, and of the JSON tokenizer `jsmn.c`.
Heap-allocated list entries live in an explicit heap (a map from addresses to
cells); `NULL` is `none`; dereferencing `NULL` or a freed entry makes an operation return
`none`.  Loops over pointer chains take a `fuel` bound.  C strings are lists of characters
without their NUL byte; `int` arithmetic is reduced with `wrap_int`, except the product in
`area` and the sums of `parse_degree`, which have no value when they overflow `int`.
Accesses to buffers and arrays are bounds-checked: an access outside makes the result `none`
(or the outcome `fault` in `jsmn.c`).
-/

namespace Bspwm

/-! ## Section 1: definitions -/

/-- Address of a heap-allocated list entry (`stacking_list_t *`, `subscriber_list_t *`). -/
abbrev Addr := Nat

/-- A `node_t *` (never `NULL`). -/
abbrev NodePtr := Nat

/-- Enum `client_state_t`, with the four enumerators named in `helpers.h` and `parse.c`. -/
inductive client_state_t
  | STATE_TILED
  | STATE_PSEUDO_TILED
  | STATE_FLOATING
  | STATE_FULLSCREEN
  deriving DecidableEq, Repr

/-- Enum `stack_layer_t`, with the three enumerators named in `helpers.h` and `parse.c`. -/
inductive stack_layer_t
  | LAYER_BELOW
  | LAYER_NORMAL
  | LAYER_ABOVE
  deriving DecidableEq, Repr

/-- The fields of `client_t` read by `stack.c`. -/
structure client_t where
  state : client_state_t
  layer : stack_layer_t
  deriving DecidableEq, Repr

/-- Value of a C `int` expression: the mathematical result reduced to 32-bit two's complement. -/
def wrap_int (x : Int) : Int := (x + 2 ^ 31) % 2 ^ 32 - 2 ^ 31

/-- Macro `IS_TILED(c)` of `helpers.h`. -/
def IS_TILED (c : client_t) : Bool :=
  c.state == client_state_t.STATE_TILED || c.state == client_state_t.STATE_PSEUDO_TILED

/-- Macro `IS_FLOATING(c)` of `helpers.h`. -/
def IS_FLOATING (c : client_t) : Bool := c.state == client_state_t.STATE_FLOATING

/-- Macro `IS_FULLSCREEN(c)` of `helpers.h`. -/
def IS_FULLSCREEN (c : client_t) : Bool := c.state == client_state_t.STATE_FULLSCREEN

/-- Function `stack_level` of `stack.c`. -/
def stack_level (c : client_t) : Int :=
  let layer_level : Int :=
    if c.layer = stack_layer_t.LAYER_NORMAL then 1
    else (if c.layer = stack_layer_t.LAYER_BELOW then 0 else 2)
  let state_level : Int := if IS_TILED c then 0 else (if IS_FLOATING c then 1 else 2)
  wrap_int (wrap_int (3 * layer_level) + state_level)

/-- Function `stack_cmp` of `stack.c`. -/
def stack_cmp (c1 c2 : client_t) : Int := wrap_int (stack_level c1 - stack_level c2)

/-- Layer rank in the words of the specification: below = 0, normal = 1, above = 2. -/
def layerRank : stack_layer_t → Int
  | stack_layer_t.LAYER_BELOW => 0
  | stack_layer_t.LAYER_NORMAL => 1
  | stack_layer_t.LAYER_ABOVE => 2

/-- State rank in the words of the specification: tiled = 0 (pseudo-tiled counts as tiled),
floating = 1, fullscreen = 2. -/
def stateRank : client_state_t → Int
  | client_state_t.STATE_TILED => 0
  | client_state_t.STATE_PSEUDO_TILED => 0
  | client_state_t.STATE_FLOATING => 1
  | client_state_t.STATE_FULLSCREEN => 2

/-! ### Heap cells of the two doubly linked lists -/

/-- One heap-allocated entry of a doubly linked list: the payload fields of the C struct
(`node` for `stacking_list_t`; `stream`, `fifo_path`, `field`, `count` for `subscriber_list_t`)
and its `prev` and `next` pointers. -/
structure Cell (α : Type) where
  val : α
  prev : Option Addr
  next : Option Addr
  deriving DecidableEq, Repr

/-- The heap: which addresses hold a live entry, and what it contains. -/
abbrev Heap (α : Type) := Addr → Option (Cell α)

/-- Assignment `a->next = v`; `none` when `a` is not a live entry. -/
def Heap.set_next {α : Type} (h : Heap α) (a : Addr) (v : Option Addr) : Option (Heap α) :=
  match h a with
  | none => none
  | some c => some (Function.update h a (some { c with next := v }))

/-- Assignment `a->prev = v`; `none` when `a` is not a live entry. -/
def Heap.set_prev {α : Type} (h : Heap α) (a : Addr) (v : Option Addr) : Option (Heap α) :=
  match h a with
  | none => none
  | some c => some (Function.update h a (some { c with prev := v }))

/-- Statement `if (a != NULL) { a->next = v; }`. -/
def Heap.set_next_opt {α : Type} (h : Heap α) (a : Option Addr) (v : Option Addr) :
    Option (Heap α) :=
  match a with
  | none => some h
  | some a => h.set_next a v

/-- Statement `if (b != NULL) { b->prev = v; }`. -/
def Heap.set_prev_opt {α : Type} (h : Heap α) (b : Option Addr) (v : Option Addr) :
    Option (Heap α) :=
  match b with
  | none => some h
  | some b => h.set_prev b v

/-- Call `free(s)`. -/
def Heap.free {α : Type} (h : Heap α) (s : Addr) : Heap α := Function.update h s none

/-- Address of the first entry of `l`, or `q` when `l` is empty. -/
def hdPtr {α : Type} : List (Addr × α) → Option Addr → Option Addr
  | [], q => q
  | e :: _, _ => some e.1

/-- Address of the last entry of `l`, or `p` when `l` is empty. -/
def lastPtr {α : Type} : Option Addr → List (Addr × α) → Option Addr
  | p, [] => p
  | _, e :: l => lastPtr (some e.1) l

/-- The entries `l` (address and payload, in list order) are chained in the heap: each one's
`next` is its successor (`q` for the last), each one's `prev` its predecessor (`p` for the
first). -/
def Seg {α : Type} (h : Heap α) : Option Addr → List (Addr × α) → Option Addr → Prop
  | _, [], _ => True
  | p, e :: l, q => h e.1 = some ⟨e.2, p, hdPtr l q⟩ ∧ Seg h (some e.1) l q

/-- The heap `h` with head pointer `hd` and tail pointer `tl` holds exactly the doubly linked
list `l`: distinct entries, chained from `NULL` to `NULL`, `hd` the first and `tl` the last. -/
structure IsList {α : Type} (h : Heap α) (hd tl : Option Addr) (l : List (Addr × α)) : Prop where
  nodup : (l.map Prod.fst).Nodup
  seg : Seg h none l none
  head_eq : hd = hdPtr l none
  tail_eq : tl = lastPtr none l

/-- Pointer `a` lies on the `next` chain that starts at pointer `p`. -/
inductive OnChain {α : Type} (h : Heap α) : Option Addr → Addr → Prop
  | here (a : Addr) : OnChain h (some a) a
  | step (b : Addr) (c : Cell α) (a : Addr) :
      h b = some c → OnChain h c.next a → OnChain h (some b) a

/-! ### `stack.c` -/

/-- Type `stacking_list_t`: payload `node`, links `prev` and `next`. -/
abbrev stacking_list_t := Cell NodePtr

/-- Field `node` of a stacking entry. -/
abbrev Cell.node (s : stacking_list_t) : NodePtr := s.val

/-- The fields of `node_t` read through a node pointer by `stack.c`. -/
structure node_t where
  id : Nat
  client : Option client_t
  deriving DecidableEq, Repr

/-- What `stack.c` reads and does not own: the node behind each node pointer, the setting
`auto_raise`, and the two leaf iterators `first_extrema` and `next_leaf` of `tree.c`, which are
not part of the sources and are taken as parameters.  The value `SBSC_MASK_NODE_STACK`
of the absent `subscribe.h` is a parameter too. -/
structure StackEnv where
  node : NodePtr → node_t
  first_extrema : NodePtr → Option NodePtr
  next_leaf : NodePtr → NodePtr → Option NodePtr
  auto_raise : Bool
  SBSC_MASK_NODE_STACK : Nat

/-- Global state of `stack.c`: the heap of stacking entries, `stack_head`, `stack_tail`, and the
next address `calloc` hands out. -/
structure StackState where
  heap : Heap NodePtr
  stack_head : Option Addr
  stack_tail : Option Addr
  brk : Addr

/-- The state set up by `bspwm.c`: `stack_head = stack_tail = NULL`, nothing allocated. -/
def StackState.empty : StackState :=
  { heap := fun _ => none, stack_head := none, stack_tail := none, brk := 0 }

/-- The subtree below a `node_t *` as `restack_presel_feedbacks_in` reads it: `NULL`, or a node
with the feedback window of its preselection (if `presel != NULL`) and its two children. -/
inductive node_tree
  | NULL
  | node (presel : Option Nat) (first_child second_child : node_tree)
  deriving DecidableEq, Repr

/-- The field of `desktop_t` read by `stack.c`. -/
structure desktop_t where
  root : node_tree
  deriving DecidableEq, Repr

/-- Calls that leave `stack.c`, in program order. -/
inductive StackEvent
  | window_below (w1 w2 : Nat)
  | window_above (w1 w2 : Nat)
  | put_status (mask : Nat) (fmt : String) (args : List Nat)
  | ewmh_update_client_list (stacking : Bool)
  deriving DecidableEq, Repr

/-- Function `make_stack`: a fresh zeroed entry holding `n`. -/
def make_stack (st : StackState) (n : NodePtr) : StackState × Addr :=
  let s := st.brk
  ({ st with heap := Function.update st.heap s (some ⟨n, none, none⟩), brk := st.brk + 1 }, s)

/-- Function `remove_stack`. -/
def remove_stack (st : StackState) (s : Option Addr) : Option StackState :=
  match s with
  | none => some st
  | some s =>
    match st.heap s with
    | none => none
    | some c =>
      let a := c.prev
      let b := c.next
      match st.heap.set_next_opt a b with
      | none => none
      | some h1 =>
        match h1.set_prev_opt b a with
        | none => none
        | some h2 =>
          let head := if some s = st.stack_head then b else st.stack_head
          let tail := if some s = st.stack_tail then a else st.stack_tail
          some { heap := h2.free s, stack_head := head, stack_tail := tail, brk := st.brk }

/-- Inner loop of `remove_stack_node`:
`for (s = ...; s != NULL; s = s->next) if (s->node == f) { remove_stack(s); break; }`. -/
def remove_stack_scan (st : StackState) (f : NodePtr) : Nat → Option Addr → Option StackState
  | 0, _ => none
  | _ + 1, none => some st
  | fuel + 1, some s =>
    match st.heap s with
    | none => none
    | some c => if c.node = f then remove_stack st (some s) else remove_stack_scan st f fuel c.next

/-- Outer loop of `remove_stack_node`, entered with the current leaf `f`:
`for (...; f != NULL; f = next_leaf(f, n))`. -/
def remove_stack_leaves (env : StackEnv) (n : NodePtr) (inner : Nat) :
    Nat → Option NodePtr → StackState → Option StackState
  | 0, _, _ => none
  | _ + 1, none, st => some st
  | fuel + 1, some f, st =>
    match remove_stack_scan st f inner st.stack_head with
    | none => none
    | some st1 => remove_stack_leaves env n inner fuel (env.next_leaf f n) st1

/-- Function `remove_stack_node`. -/
def remove_stack_node (env : StackEnv) (fuel : Nat) (st : StackState) (n : NodePtr) :
    Option StackState :=
  remove_stack_leaves env n fuel fuel (env.first_extrema n) st

/-- Function `stack_insert_after`. -/
def stack_insert_after (env : StackEnv) (fuel : Nat) (st : StackState) (a : Option Addr)
    (n : NodePtr) : Option StackState :=
  let (st0, s) := make_stack st n
  match a with
  | none => some { st0 with stack_head := some s, stack_tail := some s }
  | some a =>
    match st0.heap a with
    | none => none
    | some ca =>
      if ca.node = n then some { st0 with heap := st0.heap.free s }
      else
        match remove_stack_node env fuel st0 n with
        | none => none
        | some st1 =>
          match st1.heap a with
          | none => none
          | some ca1 =>
            let b := ca1.next
            match st1.heap.set_prev_opt b (some s) with
            | none => none
            | some h1 =>
              match h1.set_next s b with
              | none => none
              | some h2 =>
                match h2.set_prev s (some a) with
                | none => none
                | some h3 =>
                  match h3.set_next a (some s) with
                  | none => none
                  | some h4 =>
                    some { heap := h4
                           stack_head := st1.stack_head
                           stack_tail := if st1.stack_tail = some a then some s
                                         else st1.stack_tail
                           brk := st1.brk }

/-- Function `stack_insert_before`. -/
def stack_insert_before (env : StackEnv) (fuel : Nat) (st : StackState) (a : Option Addr)
    (n : NodePtr) : Option StackState :=
  let (st0, s) := make_stack st n
  match a with
  | none => some { st0 with stack_head := some s, stack_tail := some s }
  | some a =>
    match st0.heap a with
    | none => none
    | some ca =>
      if ca.node = n then some { st0 with heap := st0.heap.free s }
      else
        match remove_stack_node env fuel st0 n with
        | none => none
        | some st1 =>
          match st1.heap a with
          | none => none
          | some ca1 =>
            let b := ca1.prev
            match st1.heap.set_next_opt b (some s) with
            | none => none
            | some h1 =>
              match h1.set_prev s b with
              | none => none
              | some h2 =>
                match h2.set_next s (some a) with
                | none => none
                | some h3 =>
                  match h3.set_prev a (some s) with
                  | none => none
                  | some h4 =>
                    some { heap := h4
                           stack_head := if st1.stack_head = some a then some s
                                         else st1.stack_head
                           stack_tail := st1.stack_tail
                           brk := st1.brk }

/-- Loop of `limit_above`:
`while (s != NULL && stack_cmp(n->client, s->node->client) >= 0) s = s->next;`
returning the final `s`. -/
def limit_above_loop (env : StackEnv) (h : Heap NodePtr) (n : NodePtr) :
    Nat → Option Addr → Option (Option Addr)
  | 0, _ => none
  | _ + 1, none => some none
  | fuel + 1, some s =>
    match (env.node n).client, h s with
    | some nc, some c =>
      match (env.node c.node).client with
      | none => none
      | some sc =>
        if stack_cmp nc sc ≥ 0 then limit_above_loop env h n fuel c.next else some (some s)
    | _, _ => none

/-- Function `limit_above`. -/
def limit_above (env : StackEnv) (fuel : Nat) (st : StackState) (n : NodePtr) :
    Option (Option Addr) :=
  match limit_above_loop env st.heap n fuel st.stack_head with
  | none => none
  | some s0 =>
    let s1 := if s0 = none then st.stack_tail else s0
    match s1 with
    | none => none
    | some s =>
      match st.heap s with
      | none => none
      | some c => if c.node = n then some c.prev else some (some s)

/-- Loop of `limit_below`:
`while (s != NULL && stack_cmp(n->client, s->node->client) <= 0) s = s->prev;`
returning the final `s`. -/
def limit_below_loop (env : StackEnv) (h : Heap NodePtr) (n : NodePtr) :
    Nat → Option Addr → Option (Option Addr)
  | 0, _ => none
  | _ + 1, none => some none
  | fuel + 1, some s =>
    match (env.node n).client, h s with
    | some nc, some c =>
      match (env.node c.node).client with
      | none => none
      | some sc =>
        if stack_cmp nc sc ≤ 0 then limit_below_loop env h n fuel c.prev else some (some s)
    | _, _ => none

/-- Function `limit_below`. -/
def limit_below (env : StackEnv) (fuel : Nat) (st : StackState) (n : NodePtr) :
    Option (Option Addr) :=
  match limit_below_loop env st.heap n fuel st.stack_tail with
  | none => none
  | some s0 =>
    let s1 := if s0 = none then st.stack_head else s0
    match s1 with
    | none => none
    | some s =>
      match st.heap s with
      | none => none
      | some c => if c.node = n then some c.next else some (some s)

/-- Function `restack_presel_feedbacks_in`: the `window_above` calls it issues. -/
def restack_presel_feedbacks_in : node_tree → Nat → List StackEvent
  | node_tree.NULL, _ => []
  | node_tree.node presel first_child second_child, n_id =>
    (match presel with
      | some feedback => [StackEvent.window_above feedback n_id]
      | none => [])
    ++ restack_presel_feedbacks_in first_child n_id
    ++ restack_presel_feedbacks_in second_child n_id

/-- Loop of `restack_presel_feedbacks`:
`while (s != NULL && !IS_TILED(s->node->client)) s = s->prev;` returning the final `s`. -/
def restack_presel_loop (env : StackEnv) (h : Heap NodePtr) :
    Nat → Option Addr → Option (Option Addr)
  | 0, _ => none
  | _ + 1, none => some none
  | fuel + 1, some s =>
    match h s with
    | none => none
    | some c =>
      match (env.node c.node).client with
      | none => none
      | some sc => if !IS_TILED sc then restack_presel_loop env h fuel c.prev else some (some s)

/-- Function `restack_presel_feedbacks`: the `window_above` calls it issues. -/
def restack_presel_feedbacks (env : StackEnv) (fuel : Nat) (st : StackState) (d : desktop_t) :
    Option (List StackEvent) :=
  match restack_presel_loop env st.heap fuel st.stack_tail with
  | none => none
  | some none => some []
  | some (some s) =>
    match st.heap s with
    | none => none
    | some c => some (restack_presel_feedbacks_in d.root (env.node c.node).id)

/-- The part of the loop body of `stack` that runs once a non-`NULL` entry `s` has been chosen
for the leaf `f` with client `fc`: compare the levels, insert `f` before or after `s`,
restack the window and notify. -/
def stack_place (env : StackEnv) (fuel : Nat) (focused : Bool) (st : StackState) (f : NodePtr)
    (fc : client_t) (s : Addr) : Option (StackState × List StackEvent) :=
  match st.heap s with
  | none => none
  | some c =>
    match (env.node c.node).client with
    | none => none
    | some sc =>
      let i := stack_cmp fc sc
      if i < 0 || (i == 0 && !focused) then
        match stack_insert_before env fuel st (some s) f with
        | none => none
        | some st1 =>
          match st1.heap s with
          | none => none
          | some c1 =>
            some (st1,
              [StackEvent.window_below (env.node f).id (env.node c1.node).id,
               StackEvent.put_status env.SBSC_MASK_NODE_STACK
                 "node_stack 0x%08X below 0x%08X\n"
                 [(env.node f).id, (env.node c1.node).id]])
      else
        match stack_insert_after env fuel st (some s) f with
        | none => none
        | some st1 =>
          match st1.heap s with
          | none => none
          | some c1 =>
            some (st1,
              [StackEvent.window_above (env.node f).id (env.node c1.node).id,
               StackEvent.put_status env.SBSC_MASK_NODE_STACK
                 "node_stack 0x%08X above 0x%08X\n"
                 [(env.node f).id, (env.node c1.node).id]])

/-- Body of the loop of `stack` for one leaf `f`: the new state and the calls issued. -/
def stack_leaf (env : StackEnv) (fuel : Nat) (focused : Bool) (st : StackState) (f : NodePtr) :
    Option (StackState × List StackEvent) :=
  match (env.node f).client with
  | none => some (st, [])
  | some fc =>
    if IS_FLOATING fc && !env.auto_raise then some (st, [])
    else if st.stack_head = none then
      match stack_insert_after env fuel st none f with
      | none => none
      | some st1 => some (st1, [])
    else
      match (if focused then limit_above env fuel st f else limit_below env fuel st f) with
      | none => none
      | some none => some (st, [])
      | some (some s) => stack_place env fuel focused st f fc s

/-- Loop of `stack`, entered with the current leaf `f`:
`for (...; f != NULL; f = next_leaf(f, n))`. -/
def stack_leaves (env : StackEnv) (n : NodePtr) (focused : Bool) (inner : Nat) :
    Nat → Option NodePtr → StackState → Option (StackState × List StackEvent)
  | 0, _, _ => none
  | _ + 1, none, st => some (st, [])
  | fuel + 1, some f, st =>
    match stack_leaf env inner focused st f with
    | none => none
    | some (st1, ev1) =>
      match stack_leaves env n focused inner fuel (env.next_leaf f n) st1 with
      | none => none
      | some (st2, ev2) => some (st2, ev1 ++ ev2)

/-- Function `stack`: the new state and the calls issued, in order. -/
def stack (env : StackEnv) (fuel : Nat) (st : StackState) (d : desktop_t) (n : NodePtr)
    (focused : Bool) : Option (StackState × List StackEvent) :=
  match stack_leaves env n focused fuel fuel (env.first_extrema n) st with
  | none => none
  | some (st1, ev) =>
    match restack_presel_feedbacks env fuel st1 d with
    | none => none
    | some ev2 => some (st1, ev ++ [StackEvent.ewmh_update_client_list true] ++ ev2)

/-- The stacking list of `st` is `l` (entries with their nodes, from `stack_head` to
`stack_tail`), and every entry was handed out by `calloc`. -/
def StackRepr (st : StackState) (l : List (Addr × NodePtr)) : Prop :=
  IsList st.heap st.stack_head st.stack_tail l ∧ ∀ e ∈ l, e.1 < st.brk

/-- The iteration `for (f = first_extrema(n); f != NULL; f = next_leaf(f, n))`, entered with
the current value `cur` of `f`, visits exactly the nodes `fs`, in this order, and then ends. -/
def LeafWalk (env : StackEnv) (n : NodePtr) : Option NodePtr → List NodePtr → Prop
  | none, [] => True
  | some f, g :: rest => f = g ∧ LeafWalk env n (env.next_leaf f n) rest
  | none, _ :: _ => False
  | some _, [] => False

/-- Node `n` is a leaf: the leaf iteration of `n` visits `n` itself and then ends
(`first_extrema(n) == n` and `next_leaf(n, n) == NULL`). -/
def IsLeaf (env : StackEnv) (n : NodePtr) : Prop :=
  env.first_extrema n = some n ∧ env.next_leaf n n = none

instance (env : StackEnv) (n : NodePtr) : Decidable (IsLeaf env n) := by
  unfold IsLeaf; infer_instance

/-- The list `l` with the entry `x` put immediately after the entry at address `a`. -/
def insertAfterAddr {α : Type} (a : Addr) (x : Addr × α) : List (Addr × α) → List (Addr × α)
  | [] => []
  | e :: l => if e.1 = a then e :: x :: l else e :: insertAfterAddr a x l

/-- The list `l` with the entry `x` put immediately before the entry at address `a`. -/
def insertBeforeAddr {α : Type} (a : Addr) (x : Addr × α) : List (Addr × α) → List (Addr × α)
  | [] => []
  | e :: l => if e.1 = a then x :: e :: l else e :: insertBeforeAddr a x l

/-- One call of the stacking-list interface of `stack.c`. -/
inductive StackOp
  | stack_insert_after (a : Option Addr) (n : NodePtr)
  | stack_insert_before (a : Option Addr) (n : NodePtr)
  | remove_stack_node (n : NodePtr)
  deriving DecidableEq, Repr

/-- Running one call. -/
def StackOp.run (env : StackEnv) (fuel : Nat) (st : StackState) : StackOp → Option StackState
  | StackOp.stack_insert_after a n => Bspwm.stack_insert_after env fuel st a n
  | StackOp.stack_insert_before a n => Bspwm.stack_insert_before env fuel st a n
  | StackOp.remove_stack_node n => Bspwm.remove_stack_node env fuel st n

/-- The conditions of use of one call in state `st`: an anchor is `NULL` or an entry on the
`next` chain from `stack_head`, and an inserted node is a leaf; for a removed node, the leaf
iteration over its subtree comes to an end. -/
def StackOp.Admissible (env : StackEnv) (st : StackState) : StackOp → Prop
  | StackOp.stack_insert_after a n =>
      (∀ x, a = some x → OnChain st.heap st.stack_head x) ∧ IsLeaf env n
  | StackOp.stack_insert_before a n =>
      (∀ x, a = some x → OnChain st.heap st.stack_head x) ∧ IsLeaf env n
  | StackOp.remove_stack_node n => ∃ fs, LeafWalk env n (env.first_extrema n) fs

/-- States reached from the empty stacking list by admissible calls that return. -/
inductive StackReachable (env : StackEnv) : StackState → Prop
  | init : StackReachable env StackState.empty
  | step (st st' : StackState) (op : StackOp) (fuel : Nat) :
      StackReachable env st → op.Admissible env st → op.run env fuel st = some st' →
      StackReachable env st'

/-- A sample tree environment: node `10` is an inner node whose leaves are `1` and `2`, every
other node is a leaf; node `p` has window id `100 + p`; nodes `1`, `2`, `5` are tiled in the
normal layer, `3` is floating in the normal layer, `4` is fullscreen in the layer above, and
the remaining nodes have no client. -/
def sampleEnv : StackEnv :=
  { node := fun p =>
      { id := 100 + p
        client :=
          if p = 1 ∨ p = 2 ∨ p = 5 then
            some ⟨client_state_t.STATE_TILED, stack_layer_t.LAYER_NORMAL⟩
          else if p = 3 then some ⟨client_state_t.STATE_FLOATING, stack_layer_t.LAYER_NORMAL⟩
          else if p = 4 then some ⟨client_state_t.STATE_FULLSCREEN, stack_layer_t.LAYER_ABOVE⟩
          else none }
    first_extrema := fun n => if n = 10 then some 1 else some n
    next_leaf := fun f n => if n = 10 ∧ f = 1 then some 2 else none
    auto_raise := true
    SBSC_MASK_NODE_STACK := 1024 }

/-- A sample state: the stacking list holds nodes `1`, `2`, `3` in the entries at addresses
`0`, `1`, `2`. -/
def sampleStack : StackState :=
  { heap := fun a =>
      if a = 0 then some ⟨1, none, some 1⟩
      else if a = 1 then some ⟨2, some 0, some 2⟩
      else if a = 2 then some ⟨3, some 1, none⟩
      else none
    stack_head := some 0
    stack_tail := some 2
    brk := 3 }

/-- Stack level of the client of node `x` (`0` for a node without client). -/
def levelOf (env : StackEnv) (x : NodePtr) : Int :=
  match (env.node x).client with
  | some c => stack_level c
  | none => 0

/-- Entry `x` put into the list `l0` right after the leading entries whose level does not
exceed the level of `n`, that is, right before the first entry of strictly greater level. -/
def placeAbove (env : StackEnv) (n : NodePtr) (x : Addr × NodePtr)
    (l0 : List (Addr × NodePtr)) : List (Addr × NodePtr) :=
  l0.takeWhile (fun e => decide (levelOf env e.2 ≤ levelOf env n))
    ++ x :: l0.dropWhile (fun e => decide (levelOf env e.2 ≤ levelOf env n))

/-- Entry `x` put into the list `l0` right before the trailing entries whose level is at least
the level of `n`, that is, right after the last entry of strictly lower level. -/
def placeBelow (env : StackEnv) (n : NodePtr) (x : Addr × NodePtr)
    (l0 : List (Addr × NodePtr)) : List (Addr × NodePtr) :=
  l0.rdropWhile (fun e => decide (levelOf env n ≤ levelOf env e.2))
    ++ x :: l0.rtakeWhile (fun e => decide (levelOf env n ≤ levelOf env e.2))

/-- The two calls `stack` issues after it has inserted leaf `f` next to the entry of node `s`:
`window_above` or `window_below`, and the `node_stack` status line. -/
def stackEvents (env : StackEnv) (above : Bool) (f s : NodePtr) : List StackEvent :=
  if above then
    [StackEvent.window_above (env.node f).id (env.node s).id,
     StackEvent.put_status env.SBSC_MASK_NODE_STACK "node_stack 0x%08X above 0x%08X\n"
       [(env.node f).id, (env.node s).id]]
  else
    [StackEvent.window_below (env.node f).id (env.node s).id,
     StackEvent.put_status env.SBSC_MASK_NODE_STACK "node_stack 0x%08X below 0x%08X\n"
       [(env.node f).id, (env.node s).id]]

/-- What one pass of the loop body of `stack` does for a leaf `n` that is not skipped, in terms
of the list `l` before, the list `l'` after, the address `x` of the new entry and the calls
`ev` issued.  Either the list was empty and becomes the single entry of `n`; or `n` was its
only entry and nothing happens; or `n` is taken out and put back at the place the level rule
selects, next to a neighbour entry `(s, d)` named in the calls. -/
def StackLeafOutcome (env : StackEnv) (focused : Bool) (n : NodePtr) (x : Addr)
    (l l' : List (Addr × NodePtr)) (ev : List StackEvent) : Prop :=
  (l = [] ∧ l' = [(x, n)] ∧ ev = []) ∨
  (l ≠ [] ∧ l.filter (fun e => decide (e.2 ≠ n)) = [] ∧ l' = l ∧ ev = []) ∨
  (l.filter (fun e => decide (e.2 ≠ n)) ≠ [] ∧
    l' = (if focused then placeAbove env n (x, n) (l.filter (fun e => decide (e.2 ≠ n)))
          else placeBelow env n (x, n) (l.filter (fun e => decide (e.2 ≠ n)))) ∧
    ∃ s d, (s, d) ∈ l.filter (fun e => decide (e.2 ≠ n)) ∧
      ((ev = stackEvents env false n d ∧
          l' = insertBeforeAddr s (x, n) (l.filter (fun e => decide (e.2 ≠ n)))) ∨
       (ev = stackEvents env true n d ∧
          l' = insertAfterAddr s (x, n) (l.filter (fun e => decide (e.2 ≠ n))))))

/-- Test `!IS_TILED(s->node->client)` of `restack_presel_feedbacks` on the entry `e`. -/
def notTiledEntry (env : StackEnv) (e : Addr × NodePtr) : Bool :=
  match (env.node e.2).client with
  | some sc => !IS_TILED sc
  | none => false

/-- A sample desktop whose tree has a preselection feedback window `7` at the root and `9` at
the second child. -/
def sampleDesktop : desktop_t :=
  ⟨node_tree.node (some 7) (node_tree.node none node_tree.NULL node_tree.NULL)
    (node_tree.node (some 9) node_tree.NULL node_tree.NULL)⟩

/-! ### `subscribe.c` -/

/-- A `FILE *` stream. -/
abbrev FILE := Nat

/-- The payload fields of `subscriber_list_t`: `stream`, `fifo_path` (`NULL` or a path), the
event mask `field` (an `int` holding a set of mask bits, never negative) and `count`. -/
structure subscriber_fields where
  stream : FILE
  fifo_path : Option String
  field : Nat
  count : Int
  deriving DecidableEq, Repr

/-- Type `subscriber_list_t`: payload and links `prev`, `next`. -/
abbrev subscriber_list_t := Cell subscriber_fields

/-- Globals that `subscribe.c` reads and does not write: the flag `restart` of `bspwm.c` and
the mask value `SBSC_MASK_REPORT` of the absent `subscribe.h`, taken as a parameter. -/
structure SubEnv where
  restart : Bool
  SBSC_MASK_REPORT : Nat

/-- Global state of `subscribe.c`: the heap of subscriber entries, `subscribe_head`,
`subscribe_tail`, and the next address `calloc` hands out. -/
structure SubState where
  heap : Heap subscriber_fields
  subscribe_head : Option Addr
  subscribe_tail : Option Addr
  brk : Addr

/-- The state set up by `bspwm.c`: `subscribe_head = subscribe_tail = NULL`. -/
def SubState.empty : SubState :=
  { heap := fun _ => none, subscribe_head := none, subscribe_tail := none, brk := 0 }

/-- Calls on streams and files made by `subscribe.c`, in program order.
`print_report` stands for one call `print_report(stream)` (the report is written and the
stream flushed); `set_cloexec` and `clear_cloexec` for the two `fcntl(fd, F_SETFD, ...)`
calls that add or drop `FD_CLOEXEC`. -/
inductive SubEvent
  | print_report (stream : FILE)
  | vfprintf (stream : FILE) (fmt : String) (args : List Nat)
  | fflush (stream : FILE)
  | fclose (stream : FILE)
  | unlink (path : Option String)
  | set_cloexec (stream : FILE)
  | clear_cloexec (stream : FILE)
  deriving DecidableEq, Repr

/-- Assignment to the payload of the entry at `a` (such as `a->count = v`); `none` when `a` is
not a live entry. -/
def Heap.set_val {α : Type} (h : Heap α) (a : Addr) (v : α) : Option (Heap α) :=
  match h a with
  | none => none
  | some c => some (Function.update h a (some { c with val := v }))

/-- Function `make_subscriber`: a fresh zeroed entry with the given fields. -/
def make_subscriber (st : SubState) (stream : FILE) (fifo_path : Option String) (field : Nat)
    (count : Int) : SubState × Addr :=
  let sb := st.brk
  ({ st with heap := Function.update st.heap sb (some ⟨⟨stream, fifo_path, field, count⟩,
      none, none⟩), brk := st.brk + 1 }, sb)

/-- Function `remove_subscriber`: the new state and the calls issued. -/
def remove_subscriber (env : SubEnv) (st : SubState) (sb : Option Addr) :
    Option (SubState × List SubEvent) :=
  match sb with
  | none => some (st, [])
  | some sb =>
    match st.heap sb with
    | none => none
    | some c =>
      let a := c.prev
      let b := c.next
      match st.heap.set_next_opt a b with
      | none => none
      | some h1 =>
        match h1.set_prev_opt b a with
        | none => none
        | some h2 =>
          let head := if some sb = st.subscribe_head then b else st.subscribe_head
          let tail := if some sb = st.subscribe_tail then a else st.subscribe_tail
          let ev :=
            if env.restart then [SubEvent.clear_cloexec c.val.stream]
            else [SubEvent.fclose c.val.stream, SubEvent.unlink c.val.fifo_path]
          some ({ heap := h2.free sb, subscribe_head := head, subscribe_tail := tail,
                  brk := st.brk }, ev)

/-- Function `add_subscriber`: the new state and the calls issued. -/
def add_subscriber (env : SubEnv) (st : SubState) (sb : Addr) :
    Option (SubState × List SubEvent) :=
  let linked : Option SubState :=
    if st.subscribe_head = none then
      some { st with subscribe_head := some sb, subscribe_tail := some sb }
    else
      match st.subscribe_tail with
      | none => none
      | some t =>
        match st.heap.set_next t (some sb) with
        | none => none
        | some h1 =>
          match h1.set_prev sb (some t) with
          | none => none
          | some h2 => some { st with heap := h2, subscribe_tail := some sb }
  match linked with
  | none => none
  | some st1 =>
    match st1.heap sb with
    | none => none
    | some c =>
      let ev1 := [SubEvent.set_cloexec c.val.stream]
      if c.val.field &&& env.SBSC_MASK_REPORT ≠ 0 then
        let ev2 := [SubEvent.print_report c.val.stream]
        match st1.heap.set_val sb { c.val with count := wrap_int (c.val.count - 1) } with
        | none => none
        | some h2 =>
          let st2 := { st1 with heap := h2 }
          if c.val.count = 1 then
            match remove_subscriber env st2 (some sb) with
            | none => none
            | some (st3, ev3) => some (st3, ev1 ++ ev2 ++ ev3)
          else some (st2, ev1 ++ ev2)
      else some (st1, ev1)

/-- Statement `if (sb->count > 0) { sb->count--; }` of `put_status`, on the value of `count`;
under its guard the decrement cannot overflow. -/
def dec_count (count : Int) : Int := if count > 0 then count - 1 else count

/-- Loop of `put_status`, entered with the current subscriber `sb`.  The oracle `io` gives, for
a stream, the value `fflush` returns after the write to it (`print_report` returns it too). -/
def put_status_loop (env : SubEnv) (io : FILE → Int) (mask : Nat) (fmt : String)
    (args : List Nat) : Nat → Option Addr → SubState → Option (SubState × List SubEvent)
  | 0, _, _ => none
  | _ + 1, none, st => some (st, [])
  | fuel + 1, some sb, st =>
    match st.heap sb with
    | none => none
    | some c =>
      let next := c.next
      if c.val.field &&& mask ≠ 0 then
        let count1 := dec_count c.val.count
        match st.heap.set_val sb { c.val with count := count1 } with
        | none => none
        | some h1 =>
          let st1 := { st with heap := h1 }
          let ev :=
            if mask = env.SBSC_MASK_REPORT then [SubEvent.print_report c.val.stream]
            else [SubEvent.vfprintf c.val.stream fmt args, SubEvent.fflush c.val.stream]
          let ret := io c.val.stream
          if ret ≠ 0 ∨ count1 = 0 then
            match remove_subscriber env st1 (some sb) with
            | none => none
            | some (st2, ev2) =>
              match put_status_loop env io mask fmt args fuel next st2 with
              | none => none
              | some (st3, ev3) => some (st3, ev ++ ev2 ++ ev3)
          else
            match put_status_loop env io mask fmt args fuel next st1 with
            | none => none
            | some (st3, ev3) => some (st3, ev ++ ev3)
      else put_status_loop env io mask fmt args fuel next st

/-- Function `put_status(mask, fmt, ...)`: the new state and the calls issued. -/
def put_status (env : SubEnv) (io : FILE → Int) (fuel : Nat) (st : SubState) (mask : Nat)
    (fmt : String) (args : List Nat) : Option (SubState × List SubEvent) :=
  put_status_loop env io mask fmt args fuel st.subscribe_head st

/-- The subscriber list of `st` is `l` (entries with their fields, from `subscribe_head` to
`subscribe_tail`), and every entry was handed out by `calloc`. -/
def SubRepr (st : SubState) (l : List (Addr × subscriber_fields)) : Prop :=
  IsList st.heap st.subscribe_head st.subscribe_tail l ∧ ∀ e ∈ l, e.1 < st.brk

/-- Test `sb->field & mask` of `put_status`. -/
def subMatches (mask : Nat) (v : subscriber_fields) : Bool := v.field &&& mask != 0

/-- A subscriber that `put_status` removes: it is addressed by `mask`, and its write or flush
fails or its count is zero after the decrement. -/
def subRemoved (io : FILE → Int) (mask : Nat) (v : subscriber_fields) : Bool :=
  subMatches mask v && (io v.stream != 0 || dec_count v.count == 0)

/-- Fields of a subscriber after `put_status`: the count of an addressed subscriber is
decremented (when positive), nothing else changes. -/
def subUpdated (mask : Nat) (v : subscriber_fields) : subscriber_fields :=
  if subMatches mask v then { v with count := dec_count v.count } else v

/-- The subscriber list after `put_status`: the removed subscribers are left out, the others
stay in order with their updated fields. -/
def put_status_list (io : FILE → Int) (mask : Nat) (l : List (Addr × subscriber_fields)) :
    List (Addr × subscriber_fields) :=
  (l.filter (fun e => !subRemoved io mask e.2)).map (fun e => (e.1, subUpdated mask e.2))

/-- The calls `remove_subscriber` issues for a subscriber with fields `v`. -/
def removeEvents (env : SubEnv) (v : subscriber_fields) : List SubEvent :=
  if env.restart then [SubEvent.clear_cloexec v.stream]
  else [SubEvent.fclose v.stream, SubEvent.unlink v.fifo_path]

/-- The calls `put_status` issues for one subscriber with fields `v`. -/
def put_status_events (env : SubEnv) (io : FILE → Int) (mask : Nat) (fmt : String)
    (args : List Nat) (v : subscriber_fields) : List SubEvent :=
  if subMatches mask v then
    (if mask = env.SBSC_MASK_REPORT then [SubEvent.print_report v.stream]
     else [SubEvent.vfprintf v.stream fmt args, SubEvent.fflush v.stream])
    ++ (if subRemoved io mask v then removeEvents env v else [])
  else []

/-- The call that writes a message to a stream: `print_report` or `vfprintf`. -/
def isWrite : SubEvent → Bool
  | SubEvent.print_report _ => true
  | SubEvent.vfprintf _ _ _ => true
  | _ => false

/-- The write `put_status` makes to the stream `s`: a report when `mask` is
`SBSC_MASK_REPORT`, the formatted message otherwise. -/
def writeEvent (env : SubEnv) (mask : Nat) (fmt : String) (args : List Nat) (s : FILE) :
    SubEvent :=
  if mask = env.SBSC_MASK_REPORT then SubEvent.print_report s
  else SubEvent.vfprintf s fmt args

/-- One call of `put_status`: its arguments and the outcome of the flush on each stream. -/
structure PutCall where
  mask : Nat
  fmt : String
  args : List Nat
  io : FILE → Int

/-- A sequence of `put_status` calls, one after the other. -/
def put_status_calls (env : SubEnv) (fuel : Nat) :
    List PutCall → SubState → Option (SubState × List SubEvent)
  | [], st => some (st, [])
  | c :: cs, st =>
    match put_status env c.io fuel st c.mask c.fmt c.args with
    | none => none
    | some (st1, ev1) =>
      match put_status_calls env fuel cs st1 with
      | none => none
      | some (st2, ev2) => some (st2, ev1 ++ ev2)

/-- The subscriber list after a sequence of `put_status` calls. -/
def put_status_calls_list (calls : List PutCall) (l : List (Addr × subscriber_fields)) :
    List (Addr × subscriber_fields) :=
  calls.foldl (fun acc c => put_status_list c.io c.mask acc) l

/-- A sample subscriber state: at address `0` a subscriber of every event on stream `10` with
an unlimited count, at address `1` a subscriber of mask bit `2` on stream `11` with two
messages left, at address `2` a subscriber of mask bits `1` and `2` on stream `12` with one
message left. -/
def sampleSubs : SubState :=
  { heap := fun a =>
      if a = 0 then some ⟨⟨10, some "/tmp/fifo_a", 7, -1⟩, none, some 1⟩
      else if a = 1 then some ⟨⟨11, none, 2, 2⟩, some 0, some 2⟩
      else if a = 2 then some ⟨⟨12, some "/tmp/fifo_c", 3, 1⟩, some 1, none⟩
      else none
    subscribe_head := some 0
    subscribe_tail := some 2
    brk := 3 }

/-- The list held by `sampleSubs`. -/
def sampleSubsList : List (Addr × subscriber_fields) :=
  [(0, ⟨10, some "/tmp/fifo_a", 7, -1⟩), (1, ⟨11, none, 2, 2⟩),
   (2, ⟨12, some "/tmp/fifo_c", 3, 1⟩)]

/-- A sample environment for `subscribe.c`: not restarting, report mask bit `1`. -/
def sampleSubEnv : SubEnv := { restart := false, SBSC_MASK_REPORT := 1 }

/-- The chaining predicate `Seg` is decidable. -/
def decSeg {α : Type} [DecidableEq α] (h : Heap α) :
    (p : Option Addr) → (l : List (Addr × α)) → (q : Option Addr) → Decidable (Seg h p l q)
  | _, [], _ => isTrue trivial
  | p, e :: l, q =>
    @instDecidableAnd (h e.1 = some ⟨e.2, p, hdPtr l q⟩) (Seg h (some e.1) l q) _
      (decSeg h (some e.1) l q)

instance {α : Type} [DecidableEq α] (h : Heap α) (p : Option Addr) (l : List (Addr × α))
    (q : Option Addr) : Decidable (Seg h p l q) := decSeg h p l q

instance {α : Type} [DecidableEq α] (h : Heap α) (hd tl : Option Addr)
    (l : List (Addr × α)) : Decidable (IsList h hd tl l) :=
  decidable_of_iff ((l.map Prod.fst).Nodup ∧ Seg h none l none ∧ hd = hdPtr l none
      ∧ tl = lastPtr none l)
    ⟨fun ⟨a, b, c, d⟩ => ⟨a, b, c, d⟩, fun ⟨a, b, c, d⟩ => ⟨a, b, c, d⟩⟩

instance (st : StackState) (l : List (Addr × NodePtr)) : Decidable (StackRepr st l) := by
  unfold StackRepr; infer_instance

/-- The predicate `LeafWalk` is decidable. -/
def decLeafWalk (env : StackEnv) (n : NodePtr) :
    (cur : Option NodePtr) → (fs : List NodePtr) → Decidable (LeafWalk env n cur fs)
  | none, [] => isTrue trivial
  | some f, g :: rest =>
    @instDecidableAnd (f = g) (LeafWalk env n (env.next_leaf f n) rest) _
      (decLeafWalk env n (env.next_leaf f n) rest)
  | none, _ :: _ => isFalse (fun h => h)
  | some _, [] => isFalse (fun h => h)

instance (env : StackEnv) (n : NodePtr) (cur : Option NodePtr) (fs : List NodePtr) :
    Decidable (LeafWalk env n cur fs) := decLeafWalk env n cur fs

instance (st : SubState) (l : List (Addr × subscriber_fields)) : Decidable (SubRepr st l) := by
  unfold SubRepr; infer_instance

/-! ### `geometry.c` -/

/-- Struct `xcb_point_t` of the XCB headers: `int16_t x, y`. -/
structure xcb_point_t where
  x : Int
  y : Int
  deriving DecidableEq, Repr

/-- Struct `xcb_rectangle_t` of the XCB headers: `int16_t x, y; uint16_t width, height`. -/
structure xcb_rectangle_t where
  x : Int
  y : Int
  width : Nat
  height : Nat
  deriving DecidableEq, Repr

/-- The value `v` fits an `int16_t`. -/
def is_int16 (v : Int) : Prop := -2 ^ 15 ≤ v ∧ v < 2 ^ 15

instance (v : Int) : Decidable (is_int16 v) := by unfold is_int16; infer_instance

/-- The fields of the point are in the range of their C types. -/
def xcb_point_t.in_range (p : xcb_point_t) : Prop := is_int16 p.x ∧ is_int16 p.y

instance (p : xcb_point_t) : Decidable p.in_range := by
  unfold xcb_point_t.in_range; infer_instance

/-- The fields of the rectangle are in the range of their C types. -/
def xcb_rectangle_t.in_range (r : xcb_rectangle_t) : Prop :=
  is_int16 r.x ∧ is_int16 r.y ∧ r.width < 2 ^ 16 ∧ r.height < 2 ^ 16

instance (r : xcb_rectangle_t) : Decidable r.in_range := by
  unfold xcb_rectangle_t.in_range; infer_instance

/-- Conversion of an `int` value to `unsigned int`: reduction modulo `2 ^ 32`. -/
def to_uint (x : Int) : Int := x % 2 ^ 32

/-- Function `is_inside` of `geometry.c`; the operands are promoted to `int` and the sums are
computed in `int`. -/
def is_inside (p : xcb_point_t) (r : xcb_rectangle_t) : Bool :=
  decide (p.x ≥ r.x) && decide (p.x < wrap_int (r.x + r.width)) &&
  decide (p.y ≥ r.y) && decide (p.y < wrap_int (r.y + r.height))

/-- Function `contains` of `geometry.c`; the sums are computed in `int`. -/
def contains (a b : xcb_rectangle_t) : Bool :=
  decide (a.x ≤ b.x) && decide (wrap_int (a.x + a.width) ≥ wrap_int (b.x + b.width)) &&
  decide (a.y ≤ b.y) && decide (wrap_int (a.y + a.height) ≥ wrap_int (b.y + b.height))

/-- Multiplication of two `int` values: it has a value only when the exact product fits `int`;
C leaves signed overflow undefined. -/
def int_mul (a b : Int) : Option Int :=
  if -2 ^ 31 ≤ a * b ∧ a * b < 2 ^ 31 then some (a * b) else none

/-- Function `area` of `geometry.c`: both `uint16_t` operands are promoted to `int`, the
product is computed in `int` and converted to the return type `unsigned int`.  When the
product exceeds `INT_MAX` the multiplication overflows and the call has no defined value. -/
def area (r : xcb_rectangle_t) : Option Int :=
  (int_mul (r.width : Int) (r.height : Int)).map to_uint

/-- Loop of `prune_dead_subscribers`, entered with the current subscriber `sb`.  The oracle
`probe` gives, for a stream, the value the zero-length `write` to its descriptor returns. -/
def prune_loop (env : SubEnv) (probe : FILE → Int) :
    Nat → Option Addr → SubState → Option (SubState × List SubEvent)
  | 0, _, _ => none
  | _ + 1, none, st => some (st, [])
  | fuel + 1, some sb, st =>
    match st.heap sb with
    | none => none
    | some c =>
      let next := c.next
      if probe c.val.stream = -1 then
        match remove_subscriber env st (some sb) with
        | none => none
        | some (st1, ev1) =>
          match prune_loop env probe fuel next st1 with
          | none => none
          | some (st2, ev2) => some (st2, ev1 ++ ev2)
      else prune_loop env probe fuel next st

/-- Function `prune_dead_subscribers`: the new state and the calls issued. -/
def prune_dead_subscribers (env : SubEnv) (probe : FILE → Int) (fuel : Nat) (st : SubState) :
    Option (SubState × List SubEvent) :=
  prune_loop env probe fuel st.subscribe_head st

/-- A subscriber whose zero-length write probe fails. -/
def subDead (probe : FILE → Int) (v : subscriber_fields) : Bool :=
  decide (probe v.stream = -1)

/-! ### `bspc.c` -/

/-- The NUL byte that ends a C string.  A C string is the list of its bytes before the NUL. -/
def NUL : Char := Char.ofNat 0

/-- Macro `FAILURE_MESSAGE` of `common.h`: the one-byte string `"\x07"`. -/
def FAILURE_MESSAGE : List Char := [Char.ofNat 7]

/-- Call `snprintf(msg + offset, rem, "%s%c", arg, 0)`: the buffer afterwards and the value
returned.  The formatted output is `arg` followed by a NUL byte; at most `rem - 1` of its bytes
are stored, followed by a terminating NUL, and the value returned is the length of the whole
formatted output, stored or not. -/
def snprintf_arg (msg : List Char) (offset rem : Nat) (arg : List Char) : List Char × Int :=
  if rem = 0 then (msg, (arg.length : Int) + 1)
  else
    let out := (arg ++ [NUL]).take (rem - 1) ++ [NUL]
    (msg.take offset ++ out ++ msg.drop (offset + out.length), (arg.length : Int) + 1)

/-- Variables of the message assembly loop of `main` in `bspc.c`. -/
structure MsgState where
  msg : List Char
  offset : Int
  rem : Int
  msg_len : Int
  deriving DecidableEq, Repr

/-- The message assembly loop of `main` in `bspc.c`, over the arguments left in `argv`:
`for (...; argc > 0 && rem > 0; offset += n, rem -= n, argc--, argv++)` with the body
`n = snprintf(msg + offset, rem, "%s%c", *argv, 0); msg_len += n;`.  The sums are exact: the
length of a command line stays far below `INT_MAX`. -/
def assemble_loop : List (List Char) → MsgState → MsgState
  | [], st => st
  | arg :: argv, st =>
    if st.rem > 0 then
      let r := snprintf_arg st.msg st.offset.toNat st.rem.toNat arg
      assemble_loop argv
        { msg := r.1, offset := st.offset + r.2, rem := st.rem - r.2,
          msg_len := st.msg_len + r.2 }
    else st

/-- The state after the assembly loop; `init` is the indeterminate initial content of the
buffer `char msg[BUFSIZ]`. -/
def assemble (BUFSIZ : Nat) (init : Nat → Char) (args : List (List Char)) : MsgState :=
  assemble_loop args
    { msg := (List.range BUFSIZ).map init, offset := 0, rem := BUFSIZ, msg_len := 0 }

/-- The option `--print-socket-path` that `main` of `bspc.c` compares `argv[1]` with. -/
def print_socket_path_option : List Char := "--print-socket-path".toList

/-- How `main` of `bspc.c` gets to its `send` call, or why it does not. -/
inductive BspcRequest
  | err_no_arguments
  | print_socket_path
  | err_socket
  | err_connect
  | send (bytes : List Char) (msg_len : Int)
  | send_beyond_buffer (msg_len : Int)
  deriving DecidableEq, Repr

/-- Function `main` of `bspc.c` up to the call `send(sock_fd, msg, msg_len, 0)`; `args` are the
command line arguments after the program name, and `socket_ok` and `connect_ok` tell whether
`socket` and `connect` succeed.  The call sends the first `msg_len` bytes of `msg`; with
`msg_len` larger than the buffer it reads past its end. -/
def bspc_request (BUFSIZ : Nat) (init : Nat → Char) (socket_ok connect_ok : Bool)
    (args : List (List Char)) : BspcRequest :=
  match args with
  | [] => BspcRequest.err_no_arguments
  | a :: _ =>
    if a = print_socket_path_option then BspcRequest.print_socket_path
    else if !socket_ok then BspcRequest.err_socket
    else if !connect_ok then BspcRequest.err_connect
    else
      let st := assemble BUFSIZ init args
      if st.msg_len ≤ BUFSIZ then BspcRequest.send (st.msg.take st.msg_len.toNat) st.msg_len
      else BspcRequest.send_beyond_buffer st.msg_len

/-- The wire encoding of an argument list: each argument followed by one NUL byte. -/
def encode_args (args : List (List Char)) : List Char := args.flatMap (fun a => a ++ [NUL])

/-- The total encoded size of an argument list: the sum of `strlen(arg) + 1`. -/
def encoded_size (args : List (List Char)) : Nat := (args.map (fun a => a.length + 1)).sum

/-- Output of `fprintf(stream, "%s", s)` for the bytes `s` of a buffer that ends with a NUL: the
bytes before the first NUL. -/
def cstr (s : List Char) : List Char := s.takeWhile (fun c => c != NUL)

/-- Variables and output streams of the response loop of `main` in `bspc.c`. -/
structure RspState where
  ret : Int
  stdout : List Char
  stderr : List Char
  deriving DecidableEq, Repr

/-- The response loop of `main` in `bspc.c` over the chunks that successive `recv` calls
return: `rsp[nb] = 0`, then the test `rsp[0] == FAILURE_MESSAGE[0]` on this chunk.  An empty
chunk (`nb <= 0`) leaves the loop. -/
def response_loop : List (List Char) → RspState → RspState
  | [], st => st
  | rsp :: rest, st =>
    match rsp with
    | [] => st
    | c :: tl =>
      if [c] = FAILURE_MESSAGE then
        response_loop rest { st with ret := 1, stderr := st.stderr ++ cstr tl }
      else
        response_loop rest { st with stdout := st.stdout ++ cstr rsp }

/-- The exit status (`EXIT_SUCCESS` is `0`, `EXIT_FAILURE` is `1`) and the output of `bspc` for
a response received as `chunks`. -/
def bspc_response (chunks : List (List Char)) : RspState := response_loop chunks ⟨0, [], []⟩

/-! ### `bspwm.c`: pending rules in the run loop -/

/-- The fields of `pending_rule_t` read by the run loop of `main` in `bspwm.c`: the window,
the rule consequence pointer, the descriptor the rule command writes to, and the queue of
events kept for the window, as the sequence of `eq->event` reached from `event_head` along
`next`. -/
structure pending_rule_t where
  fd : Int
  win : Nat
  csq : Nat
  event_head : List Nat
  deriving DecidableEq, Repr

/-- Calls the pending-rule part of the run loop makes, in program order; the three functions
are defined outside `bspwm.c`. -/
inductive RunEvent
  | manage_window (win : Nat) (csq : Nat) (fd : Int)
  | handle_event (event : Nat)
  | remove_pending_rule (pr : Addr)
  deriving DecidableEq, Repr

/-- Loop `for (event_queue_t *eq = pr->event_head; eq != NULL; eq = eq->next)` with the body
`handle_event(&eq->event)`. -/
def replay_events : List Nat → List RunEvent
  | [] => []
  | event :: next => RunEvent.handle_event event :: replay_events next

/-- Loop `while (pr != NULL)` over the pending rules after `select` in `main` of `bspwm.c`; the
list holds the entries reached from `pending_rule_head` along `next` with their addresses
(`next` is read before the entry is handled).  `FD_ISSET` tells which descriptors `select`
left in the set, and `manage_window` is what the call of that name returns. -/
def pending_rules_loop (FD_ISSET : Int → Bool) (manage_window : Nat → Nat → Int → Bool) :
    List (Addr × pending_rule_t) → List RunEvent
  | [] => []
  | (pr, c) :: next =>
    (if FD_ISSET c.fd then
      RunEvent.manage_window c.win c.csq c.fd ::
        ((if manage_window c.win c.csq c.fd then replay_events c.event_head else [])
          ++ [RunEvent.remove_pending_rule pr])
    else []) ++ pending_rules_loop FD_ISSET manage_window next

/-- The events dispatched by a sequence of calls: the arguments of its `handle_event` calls. -/
def dispatched : List RunEvent → List Nat
  | [] => []
  | RunEvent.handle_event e :: l => e :: dispatched l
  | _ :: l => dispatched l

/-! ### `bspwm.c`: the argument vector of a restart -/

/-- Macro `SMALEN` of `helpers.h`. -/
def SMALEN : Nat := 32

/-- The decimal digits of a natural number, most significant first. -/
def dec_digits (n : Nat) : List Char :=
  if n = 0 then ['0'] else (Nat.digits 10 n).reverse.map Nat.digitChar

/-- Output of the conversion `%i` for an `int`: a minus sign for a negative value, then the
decimal digits of the magnitude. -/
def fmt_int (i : Int) : List Char :=
  if i < 0 then '-' :: dec_digits i.natAbs else dec_digits i.natAbs

/-- Call `snprintf(buf, size, "%i", i)`: the string left in `buf`, at most `size - 1` bytes of
the formatted output. -/
def snprintf_int (size : Nat) (i : Int) : List Char := (fmt_int i).take (size - 1)

/-- One slot of a `char **` array: not yet assigned, a pointer to a string, or `NULL`. -/
inductive arg_slot
  | unset
  | str (s : List Char)
  | null
  deriving DecidableEq, Repr

/-- Assignment `rargv[i] = v`; `none` when `i` is outside the allocated array. -/
def set_slot (rargv : List arg_slot) (i : Nat) (v : arg_slot) : Option (List arg_slot) :=
  if i < rargv.length then some (rargv.set i v) else none

/-- Loop `for (rargc = 0; rargc < argc; rargc++) { if (streq("-s", argv[rargc])) break; }`,
over the arguments from index `rargc` on. -/
def find_rargc : List (List Char) → Nat → Nat
  | [], rargc => rargc
  | a :: argv, rargc => if a = ['-', 's'] then rargc else find_rargc argv (rargc + 1)

/-- Loop `for (int i = 0; i < rargc; i++) { rargv[i] = argv[i]; }`, from index `i` on; the
first argument bounds the number of tests of the loop condition. -/
def copy_args (argv : List (List Char)) (rargc : Nat) :
    Nat → Nat → List arg_slot → Option (List arg_slot)
  | 0, _, _ => none
  | k + 1, i, rargv =>
    if i < rargc then
      match argv[i]? with
      | none => none
      | some a =>
        match set_slot rargv i (arg_slot.str a) with
        | none => none
        | some r => copy_args argv rargc k (i + 1) r
    else some rargv

/-- The restart branch of `main` in `bspwm.c` from the search for `-s` to the call
`execvp(*rargv, rargv)`: the array passed to `execvp`. -/
def restart_rargv (argv : List (List Char)) (state_path : List Char) (sock_fd : Int) :
    Option (List arg_slot) :=
  let rargc := find_rargc argv 0
  let len := rargc + 5
  let rargv := List.replicate len arg_slot.unset
  match copy_args argv rargc (rargc + 1) 0 rargv with
  | none => none
  | some r0 =>
    let sock_fd_arg := snprintf_int SMALEN sock_fd
    match set_slot r0 rargc (arg_slot.str ['-', 's']) with
    | none => none
    | some r1 =>
      match set_slot r1 (rargc + 1) (arg_slot.str state_path) with
      | none => none
      | some r2 =>
        match set_slot r2 (rargc + 2) (arg_slot.str ['-', 'o']) with
        | none => none
        | some r3 =>
          match set_slot r3 (rargc + 3) (arg_slot.str sock_fd_arg) with
          | none => none
          | some r4 => set_slot r4 (rargc + 4) arg_slot.null

/-- The index of the first argument equal to `-s`, or the number of arguments when there is
none. -/
def first_dash_s (argv : List (List Char)) : Nat :=
  (argv.takeWhile (fun a => a ≠ ['-', 's'])).length

/-! ### `subscribe.c`: the report line -/

/-- Type `layout_t`, as the macro `LAYOUT_CHR` and `print_report` use it. -/
inductive layout_t
  | LAYOUT_TILED
  | LAYOUT_MONOCLE
  deriving DecidableEq, Repr

/-- Macro `LAYOUT_CHR` of `helpers.h`. -/
def LAYOUT_CHR (A : layout_t) : Char := if A = layout_t.LAYOUT_TILED then 'T' else 'M'

/-- Macro `STATE_CHR` of `helpers.h`. -/
def STATE_CHR (A : client_state_t) : Char :=
  if A = client_state_t.STATE_TILED then 'T'
  else if A = client_state_t.STATE_FLOATING then 'F'
  else if A = client_state_t.STATE_FULLSCREEN then '=' else 'P'

/-- The fields of `node_t` read by `print_report`; `private_` stands for the field `private`. -/
structure report_node_t where
  client : Option client_t
  sticky : Bool
  private_ : Bool
  locked : Bool
  marked : Bool
  deriving DecidableEq, Repr

/-- The fields of `desktop_t` read by `print_report`, apart from the link `next`. -/
structure report_desktop_t where
  name : List Char
  root : Option NodePtr
  layout : layout_t
  focus : Option NodePtr
  deriving DecidableEq, Repr

/-- The fields of `monitor_t` read by `print_report`, apart from the link `next`. -/
structure monitor_t where
  name : List Char
  desk : Option Addr
  desk_head : Option Addr
  deriving DecidableEq, Repr

/-- What `print_report` reads: the globals `status_prefix`, `mon_head`, `mon_tail` and `mon`,
the monitor and desktop entries with their links, the node behind each node pointer, and the
answer of `is_urgent` of `desktop.c`, which is not part of the sources, for each desktop. -/
structure ReportEnv where
  status_prefix : List Char
  mon_head : Option Addr
  mon_tail : Option Addr
  mon : Option Addr
  monitors : Heap monitor_t
  desktops : Heap report_desktop_t
  node : NodePtr → report_node_t
  is_urgent : Addr → Bool

/-- Statement `flags[i++] = c` on the buffer `char flags[5]`, given the `i` bytes stored so far;
`none` when the index is outside the buffer. -/
def flags_put (flags : List Char) (c : Char) : Option (List Char) :=
  if flags.length < 5 then some (flags ++ [c]) else none

/-- The block of `print_report` that fills `flags` and ends it with `flags[i] = 0`: the string
then held by the buffer, `none` when a write falls outside it. -/
def report_flags (n : report_node_t) : Option (List Char) :=
  match (if n.sticky then flags_put [] 'S' else some []) with
  | none => none
  | some f1 =>
    match (if n.private_ then flags_put f1 'P' else some f1) with
    | none => none
    | some f2 =>
      match (if n.locked then flags_put f2 'L' else some f2) with
      | none => none
      | some f3 =>
        match (if n.marked then flags_put f3 'M' else some f3) with
        | none => none
        | some f4 => if f4.length < 5 then some f4 else none

/-- The block `if (m->desk != NULL)` of `print_report`: what it writes for the monitor whose
field `desk` is `desk`. -/
def report_active (env : ReportEnv) (desk : Option Addr) : Option (List Char) :=
  match desk with
  | none => some []
  | some dk =>
    match env.desktops dk with
    | none => none
    | some d =>
      let s1 := [':', 'L', LAYOUT_CHR d.val.layout]
      match d.val.focus with
      | none => some s1
      | some n =>
        let s2 :=
          match (env.node n).client with
          | some c => [':', 'T', STATE_CHR c.state]
          | none => [':', 'T', '@']
        match report_flags (env.node n) with
        | none => none
        | some flags => some (s1 ++ s2 ++ ([':', 'G'] ++ flags))

/-- Loop `for (desktop_t *d = m->desk_head; d != NULL; d = d->next)` of `print_report`, entered
with the current desktop; `desk` is the field `desk` of the monitor.  The C function `toupper`
is `Char.toUpper` on the letters it is applied to. -/
def report_desktops (env : ReportEnv) (desk : Option Addr) :
    Nat → Option Addr → Option (List Char)
  | 0, _ => none
  | _ + 1, none => some []
  | fuel + 1, some d =>
    match env.desktops d with
    | none => none
    | some c =>
      let c0 := if env.is_urgent d then 'u' else if c.val.root = none then 'f' else 'o'
      let c1 := if desk = some d then c0.toUpper else c0
      match report_desktops env desk fuel c.next with
      | none => none
      | some rest => some (':' :: c1 :: c.val.name ++ rest)

/-- Loop `for (monitor_t *m = mon_head; m != NULL; m = m->next)` of `print_report`, entered
with the current monitor; `dfuel` bounds each run of the loop over the desktops. -/
def report_monitors (env : ReportEnv) (dfuel : Nat) : Nat → Option Addr → Option (List Char)
  | 0, _ => none
  | _ + 1, none => some []
  | fuel + 1, some m =>
    match env.monitors m with
    | none => none
    | some c =>
      let s1 := (if env.mon = some m then 'M' else 'm') :: c.val.name
      match report_desktops env c.val.desk dfuel c.val.desk_head with
      | none => none
      | some s2 =>
        match report_active env c.val.desk with
        | none => none
        | some s3 =>
          let s4 := if some m ≠ env.mon_tail then [':'] else []
          match report_monitors env dfuel fuel c.next with
          | none => none
          | some rest => some (s1 ++ s2 ++ s3 ++ s4 ++ rest)

/-- Function `print_report`: the bytes it writes to the stream. -/
def print_report (env : ReportEnv) (fuel : Nat) : Option (List Char) :=
  match report_monitors env fuel fuel env.mon_head with
  | none => none
  | some body => some (ReportEnv.status_prefix env ++ body ++ ['\n'])

/-- The state character of a desktop in the report: `u` for an urgent desktop, else `f` for one
without root, else `o`; the capital letter for the active desktop of its monitor. -/
def desktop_char (urgent empty active : Bool) : Char :=
  match urgent, empty, active with
  | true, _, false => 'u'
  | true, _, true => 'U'
  | false, true, false => 'f'
  | false, true, true => 'F'
  | false, false, false => 'o'
  | false, false, true => 'O'

/-- The characters of `SPLM` selected by the four flags of a node, in that order. -/
def flags_text (n : report_node_t) : List Char :=
  ([('S', n.sticky), ('P', n.private_), ('L', n.locked), ('M', n.marked)].filter
    (fun p => p.2)).map (fun p => p.1)

/-- The state character of a focused node: the character of the state of its client, `@` for
a node without client. -/
def node_state_char (n : report_node_t) : Char :=
  match n.client with
  | some c =>
    match c.state with
    | client_state_t.STATE_TILED => 'T'
    | client_state_t.STATE_PSEUDO_TILED => 'P'
    | client_state_t.STATE_FLOATING => 'F'
    | client_state_t.STATE_FULLSCREEN => '='
  | none => '@'

/-- The layout character in the report. -/
def layout_char : layout_t → Char
  | layout_t.LAYOUT_TILED => 'T'
  | layout_t.LAYOUT_MONOCLE => 'M'

/-- The part of the report for the active desktop `d` of a monitor: `:L` and the layout
character, then for a focused node `:T`, its state character, `:G` and its flags. -/
def active_text (env : ReportEnv) (d : report_desktop_t) : List Char :=
  [':', 'L', layout_char d.layout] ++
    (match d.focus with
     | none => []
     | some n => [':', 'T', node_state_char (env.node n)] ++ [':', 'G'] ++ flags_text (env.node n))

/-- The part of the report for the monitor at address `a` with fields `m` and desktops `ds`
(address and fields, in list order). -/
def monitor_text (env : ReportEnv) (a : Addr) (m : monitor_t)
    (ds : List (Addr × report_desktop_t)) : List Char :=
  (if env.mon = some a then 'M' else 'm') :: m.name
    ++ ds.flatMap (fun d =>
        ':' :: desktop_char (env.is_urgent d.1) (decide (d.2.root = none)) (decide (m.desk = some d.1))
          :: d.2.name)
    ++ (match m.desk with
        | none => []
        | some dk =>
          match env.desktops dk with
          | none => []
          | some c => active_text env c.val)

/-- The texts joined by a single `:` between consecutive ones. -/
def join_colon : List (List Char) → List Char
  | [] => []
  | [t] => t
  | t :: u :: ts => t ++ ':' :: join_colon (u :: ts)

/-- The report line for the monitors `ml` (address and fields, in list order), `dl` giving
the desktops of each monitor: the prefix, the monitor texts joined by `:`, and a newline. -/
def report_text (env : ReportEnv) (ml : List (Addr × monitor_t))
    (dl : Addr → List (Addr × report_desktop_t)) : List Char :=
  ReportEnv.status_prefix env ++ join_colon (ml.map (fun e => monitor_text env e.1 e.2 (dl e.1)))
    ++ ['\n']

/-- A sample of what `print_report` reads: two monitors, the first one focused with two
desktops, the second one without desktops. -/
def sampleReport : ReportEnv :=
  { status_prefix := ['W']
    mon_head := some 0
    mon_tail := some 1
    mon := some 0
    monitors := fun a =>
      if a = 0 then some ⟨⟨['e', 'D', 'P'], some 11, some 10⟩, none, some 1⟩
      else if a = 1 then some ⟨⟨['H'], none, none⟩, some 0, none⟩
      else none
    desktops := fun a =>
      if a = 10 then some ⟨⟨['I'], none, layout_t.LAYOUT_TILED, none⟩, none, some 11⟩
      else if a = 11 then some ⟨⟨['I', 'I'], some 5, layout_t.LAYOUT_MONOCLE, some 5⟩, some 10, none⟩
      else none
    node := fun _ => ⟨some ⟨client_state_t.STATE_FLOATING, stack_layer_t.LAYER_NORMAL⟩,
      true, false, true, false⟩
    is_urgent := fun _ => false }

/-- The monitors of `sampleReport`. -/
def sampleMonitors : List (Addr × monitor_t) :=
  [(0, ⟨['e', 'D', 'P'], some 11, some 10⟩), (1, ⟨['H'], none, none⟩)]

/-- The desktops of each monitor of `sampleReport`. -/
def sampleDesktops (a : Addr) : List (Addr × report_desktop_t) :=
  if a = 0 then [(10, ⟨['I'], none, layout_t.LAYOUT_TILED, none⟩),
    (11, ⟨['I', 'I'], some 5, layout_t.LAYOUT_MONOCLE, some 5⟩)]
  else []

/-! ### `geometry.c`: directions -/

/-- Type `direction_t`, as `geometry.c` uses it; the `default` branches of its `switch`
statements are for values outside the enumeration. -/
inductive direction_t
  | DIR_NORTH
  | DIR_WEST
  | DIR_SOUTH
  | DIR_EAST
  deriving DecidableEq, Repr

/-- Type `tightness_t` of the setting `directional_focus_tightness`. -/
inductive tightness_t
  | TIGHTNESS_LOW
  | TIGHTNESS_HIGH
  deriving DecidableEq, Repr

/-- Conversion of an `int` value to `int16_t`: reduction modulo `2 ^ 16` into the signed
range. -/
def to_int16 (x : Int) : Int := (x + 2 ^ 15) % 2 ^ 16 - 2 ^ 15

/-- Initialiser `xcb_point_t r_max = {r.x + r.width - 1, r.y + r.height - 1}` of
`boundary_distance` and `on_dir_side`: the sums are computed in `int` and stored in the
`int16_t` fields of the point. -/
def rect_max (r : xcb_rectangle_t) : xcb_point_t :=
  ⟨to_int16 (wrap_int (wrap_int (r.x + r.width) - 1)),
   to_int16 (wrap_int (wrap_int (r.y + r.height) - 1))⟩

/-- Function `boundary_distance` of `geometry.c`; the differences are computed in `int` and
converted to the return type `uint32_t`. -/
def boundary_distance (r1 r2 : xcb_rectangle_t) (dir : direction_t) : Int :=
  let r1_max := rect_max r1
  let r2_max := rect_max r2
  match dir with
  | direction_t.DIR_NORTH =>
    to_uint (if r2_max.y > r1.y then wrap_int (r2_max.y - r1.y) else wrap_int (r1.y - r2_max.y))
  | direction_t.DIR_WEST =>
    to_uint (if r2_max.x > r1.x then wrap_int (r2_max.x - r1.x) else wrap_int (r1.x - r2_max.x))
  | direction_t.DIR_SOUTH =>
    to_uint (if r2.y < r1_max.y then wrap_int (r1_max.y - r2.y) else wrap_int (r2.y - r1_max.y))
  | direction_t.DIR_EAST =>
    to_uint (if r2.x < r1_max.x then wrap_int (r1_max.x - r2.x) else wrap_int (r2.x - r1_max.x))

/-- First stage of `on_dir_side`, the `switch` on `directional_focus_tightness`: `true` when
the function goes on to the second stage, `false` when it returns `false` here. -/
def on_dir_side_stage1 (tightness : tightness_t) (r1 r2 : xcb_rectangle_t)
    (dir : direction_t) : Bool :=
  let r1_max := rect_max r1
  let r2_max := rect_max r2
  match tightness with
  | tightness_t.TIGHTNESS_LOW =>
    match dir with
    | direction_t.DIR_NORTH => if r2.y > r1_max.y then false else true
    | direction_t.DIR_WEST => if r2.x > r1_max.x then false else true
    | direction_t.DIR_SOUTH => if r2_max.y < r1.y then false else true
    | direction_t.DIR_EAST => if r2_max.x < r1.x then false else true
  | tightness_t.TIGHTNESS_HIGH =>
    match dir with
    | direction_t.DIR_NORTH => if r2.y ≥ r1.y then false else true
    | direction_t.DIR_WEST => if r2.x ≥ r1.x then false else true
    | direction_t.DIR_SOUTH => if r2_max.y ≤ r1_max.y then false else true
    | direction_t.DIR_EAST => if r2_max.x ≤ r1_max.x then false else true

/-- Second stage of `on_dir_side`, the final `switch (dir)`. -/
def on_dir_side_stage2 (r1 r2 : xcb_rectangle_t) (dir : direction_t) : Bool :=
  let r1_max := rect_max r1
  let r2_max := rect_max r2
  match dir with
  | direction_t.DIR_NORTH | direction_t.DIR_SOUTH =>
    (decide (r2.x ≥ r1.x) && decide (r2.x ≤ r1_max.x)) ||
    (decide (r2_max.x ≥ r1.x) && decide (r2_max.x ≤ r1_max.x)) ||
    (decide (r1.x > r2.x) && decide (r1.x < r2_max.x))
  | direction_t.DIR_WEST | direction_t.DIR_EAST =>
    (decide (r2.y ≥ r1.y) && decide (r2.y ≤ r1_max.y)) ||
    (decide (r2_max.y ≥ r1.y) && decide (r2_max.y ≤ r1_max.y)) ||
    (decide (r1.y > r2.y) && decide (r1_max.y < r2_max.y))

/-- Function `on_dir_side` of `geometry.c`; `tightness` is the value of the global
`directional_focus_tightness`. -/
def on_dir_side (tightness : tightness_t) (r1 r2 : xcb_rectangle_t) (dir : direction_t) : Bool :=
  if on_dir_side_stage1 tightness r1 r2 dir then on_dir_side_stage2 r1 r2 dir else false

/-- Function `rect_cmp` of `geometry.c`: the sums are computed in `int`; the difference of the
two areas is computed in `unsigned int` and converted to the return type `int`.  The result is
undefined when one of the two calls of `area` is. -/
def rect_cmp (r1 r2 : xcb_rectangle_t) : Option Int :=
  if r1.y ≥ wrap_int (r2.y + r2.height) then some 1
  else if r2.y ≥ wrap_int (r1.y + r1.height) then some (-1)
  else
    if r1.x ≥ wrap_int (r2.x + r2.width) then some 1
    else if r2.x ≥ wrap_int (r1.x + r1.width) then some (-1)
    else
      match area r2, area r1 with
      | some a2, some a1 => some (wrap_int (to_uint (a2 - a1)))
      | _, _ => none

/-- The far edges `x + width - 1` and `y + height - 1` of the rectangle fit `int16_t`. -/
def xcb_rectangle_t.far_edges_fit (r : xcb_rectangle_t) : Prop :=
  is_int16 (r.x + r.width - 1) ∧ is_int16 (r.y + r.height - 1)

instance (r : xcb_rectangle_t) : Decidable r.far_edges_fit := by
  unfold xcb_rectangle_t.far_edges_fit; infer_instance

/-- The closed integer intervals `[a, b]` and `[c, d]` have a common point. -/
def intervals_meet (a b c d : Int) : Prop := ∃ t : Int, a ≤ t ∧ t ≤ b ∧ c ≤ t ∧ t ≤ d


/-- The distance between the edge of `r1` that faces `dir` and the opposite edge of `r2`, over
the integers. -/
def edge_distance (r1 r2 : xcb_rectangle_t) : direction_t → Int
  | direction_t.DIR_NORTH => |(r2.y + r2.height - 1) - r1.y|
  | direction_t.DIR_WEST => |(r2.x + r2.width - 1) - r1.x|
  | direction_t.DIR_SOUTH => |r2.y - (r1.y + r1.height - 1)|
  | direction_t.DIR_EAST => |r2.x - (r1.x + r1.width - 1)|

/-- The edge comparison of the first stage of the directional-side test: strict under high
tightness, loose under low tightness. -/
def side_test (tightness : tightness_t) (r1 r2 : xcb_rectangle_t) : direction_t → Prop :=
  match tightness with
  | tightness_t.TIGHTNESS_HIGH => fun dir =>
    match dir with
    | direction_t.DIR_NORTH => r2.y < r1.y
    | direction_t.DIR_WEST => r2.x < r1.x
    | direction_t.DIR_SOUTH => r2.y + r2.height - 1 > r1.y + r1.height - 1
    | direction_t.DIR_EAST => r2.x + r2.width - 1 > r1.x + r1.width - 1
  | tightness_t.TIGHTNESS_LOW => fun dir =>
    match dir with
    | direction_t.DIR_NORTH => r2.y ≤ r1.y + r1.height - 1
    | direction_t.DIR_WEST => r2.x ≤ r1.x + r1.width - 1
    | direction_t.DIR_SOUTH => r2.y + r2.height - 1 ≥ r1.y
    | direction_t.DIR_EAST => r2.x + r2.width - 1 ≥ r1.x

/-- The second stage of the directional-side test: the closed intervals the two rectangles
occupy on the axis perpendicular to `dir` have a common point. -/
def shared_range (r1 r2 : xcb_rectangle_t) : direction_t → Prop
  | direction_t.DIR_NORTH | direction_t.DIR_SOUTH =>
    intervals_meet r1.x (r1.x + r1.width - 1) r2.x (r2.x + r2.width - 1)
  | direction_t.DIR_WEST | direction_t.DIR_EAST =>
    intervals_meet r1.y (r1.y + r1.height - 1) r2.y (r2.y + r2.height - 1)

/-- The files deleted by a sequence of calls: the paths of its `unlink` calls.  The call
`unlink(NULL)` fails and deletes nothing. -/
def deleted_files : List SubEvent → List String
  | [] => []
  | SubEvent.unlink (some path) :: l => path :: deleted_files l
  | _ :: l => deleted_files l

/-- The streams closed by a sequence of calls: the arguments of its `fclose` calls. -/
def closed_streams : List SubEvent → List FILE
  | [] => []
  | SubEvent.fclose stream :: l => stream :: closed_streams l
  | _ :: l => closed_streams l

/-- The sample tree environment with the setting `auto_raise` switched off. -/
def sampleEnvNoRaise : StackEnv := { sampleEnv with auto_raise := false }

/-- A sample state: the stacking list holds the floating node `3` and then the tiled node `1`,
in the entries at addresses `0` and `1`. -/
def sampleStackFloatFirst : StackState :=
  { heap := fun a =>
      if a = 0 then some ⟨3, none, some 1⟩
      else if a = 1 then some ⟨1, some 0, none⟩
      else none
    stack_head := some 0
    stack_tail := some 1
    brk := 2 }

/-! ### helpers.h, parse.c: printing macros and word parsers -/

/-- Enum `split_type_t`, with the enumerators named in `helpers.h` and `parse.c`. -/
inductive split_type_t
  | TYPE_HORIZONTAL
  | TYPE_VERTICAL
  deriving DecidableEq, Repr

/-- Enum `split_mode_t`, with the enumerators named in `helpers.h` and `parse.c`. -/
inductive split_mode_t
  | MODE_AUTOMATIC
  | MODE_MANUAL
  deriving DecidableEq, Repr

/-- Enum `child_polarity_t`, with the enumerators named in `helpers.h` and `parse.c`. -/
inductive child_polarity_t
  | FIRST_CHILD
  | SECOND_CHILD
  deriving DecidableEq, Repr

/-- Enum `automatic_scheme_t`, with the enumerators named in `helpers.h` and `parse.c`. -/
inductive automatic_scheme_t
  | SCHEME_LONGEST_SIDE
  | SCHEME_ALTERNATE
  | SCHEME_SPIRAL
  deriving DecidableEq, Repr

/-- Macro `streq(s1, s2)` of `helpers.h`: `strcmp` returns zero exactly for equal strings. -/
def streq (s1 s2 : List Char) : Bool := decide (s1 = s2)

/-- Macro `BOOL_STR` of `helpers.h`. -/
def BOOL_STR (A : Bool) : List Char := if A then "true".toList else "false".toList

/-- Macro `ON_OFF_STR` of `helpers.h`. -/
def ON_OFF_STR (A : Bool) : List Char := if A then "on".toList else "off".toList

/-- Macro `LAYOUT_STR` of `helpers.h`. -/
def LAYOUT_STR (A : layout_t) : List Char :=
  if A = layout_t.LAYOUT_TILED then "tiled".toList else "monocle".toList

/-- Macro `CHILD_POL_STR` of `helpers.h`. -/
def CHILD_POL_STR (A : child_polarity_t) : List Char :=
  if A = child_polarity_t.FIRST_CHILD then "first_child".toList else "second_child".toList

/-- Macro `AUTO_SCM_STR` of `helpers.h`. -/
def AUTO_SCM_STR (A : automatic_scheme_t) : List Char :=
  if A = automatic_scheme_t.SCHEME_LONGEST_SIDE then "longest_side".toList
  else (if A = automatic_scheme_t.SCHEME_ALTERNATE then "alternate".toList else "spiral".toList)

/-- Macro `TIGHTNESS_STR` of `helpers.h`. -/
def TIGHTNESS_STR (A : tightness_t) : List Char :=
  if A = tightness_t.TIGHTNESS_HIGH then "high".toList else "low".toList

/-- Macro `SPLIT_TYPE_STR` of `helpers.h`. -/
def SPLIT_TYPE_STR (A : split_type_t) : List Char :=
  if A = split_type_t.TYPE_HORIZONTAL then "horizontal".toList else "vertical".toList

/-- Macro `SPLIT_MODE_STR` of `helpers.h`. -/
def SPLIT_MODE_STR (A : split_mode_t) : List Char :=
  if A = split_mode_t.MODE_AUTOMATIC then "automatic".toList else "manual".toList

/-- Macro `SPLIT_DIR_STR` of `helpers.h`. -/
def SPLIT_DIR_STR (A : direction_t) : List Char :=
  if A = direction_t.DIR_NORTH then "north".toList
  else (if A = direction_t.DIR_WEST then "west".toList
  else (if A = direction_t.DIR_SOUTH then "south".toList else "east".toList))

/-- Macro `STATE_STR` of `helpers.h`. -/
def STATE_STR (A : client_state_t) : List Char :=
  if A = client_state_t.STATE_TILED then "tiled".toList
  else (if A = client_state_t.STATE_FLOATING then "floating".toList
  else (if A = client_state_t.STATE_FULLSCREEN then "fullscreen".toList
  else "pseudo_tiled".toList))

/-- Macro `LAYER_STR` of `helpers.h`. -/
def LAYER_STR (A : stack_layer_t) : List Char :=
  if A = stack_layer_t.LAYER_BELOW then "below".toList
  else (if A = stack_layer_t.LAYER_NORMAL then "normal".toList else "above".toList)

/-- Function `parse_bool` of `parse.c`: `some b` stands for the return value `true` with `b`
stored through the out pointer, `none` for `false` with nothing stored. The other word parsers
follow the same convention. -/
def parse_bool (value : List Char) : Option Bool :=
  if streq "true".toList value || streq "on".toList value then some true
  else if streq "false".toList value || streq "off".toList value then some false
  else none

/-- Function `parse_split_type` of `parse.c`. -/
def parse_split_type (s : List Char) : Option split_type_t :=
  if streq "horizontal".toList s then some split_type_t.TYPE_HORIZONTAL
  else if streq "vertical".toList s then some split_type_t.TYPE_VERTICAL
  else none

/-- Function `parse_split_mode` of `parse.c`. -/
def parse_split_mode (s : List Char) : Option split_mode_t :=
  if streq "automatic".toList s then some split_mode_t.MODE_AUTOMATIC
  else if streq "vertical".toList s then some split_mode_t.MODE_MANUAL
  else none

/-- Function `parse_layout` of `parse.c`. -/
def parse_layout (s : List Char) : Option layout_t :=
  if streq "monocle".toList s then some layout_t.LAYOUT_MONOCLE
  else if streq "tiled".toList s then some layout_t.LAYOUT_TILED
  else none

/-- Function `parse_client_state` of `parse.c`. -/
def parse_client_state (s : List Char) : Option client_state_t :=
  if streq "tiled".toList s then some client_state_t.STATE_TILED
  else if streq "pseudo_tiled".toList s then some client_state_t.STATE_PSEUDO_TILED
  else if streq "floating".toList s then some client_state_t.STATE_FLOATING
  else if streq "fullscreen".toList s then some client_state_t.STATE_FULLSCREEN
  else none

/-- Function `parse_stack_layer` of `parse.c`. -/
def parse_stack_layer (s : List Char) : Option stack_layer_t :=
  if streq "below".toList s then some stack_layer_t.LAYER_BELOW
  else if streq "normal".toList s then some stack_layer_t.LAYER_NORMAL
  else if streq "above".toList s then some stack_layer_t.LAYER_ABOVE
  else none

/-- Function `parse_direction` of `parse.c`. -/
def parse_direction (s : List Char) : Option direction_t :=
  if streq "north".toList s then some direction_t.DIR_NORTH
  else if streq "west".toList s then some direction_t.DIR_WEST
  else if streq "south".toList s then some direction_t.DIR_SOUTH
  else if streq "east".toList s then some direction_t.DIR_EAST
  else none

/-- Function `parse_child_polarity` of `parse.c`. -/
def parse_child_polarity (s : List Char) : Option child_polarity_t :=
  if streq "first_child".toList s then some child_polarity_t.FIRST_CHILD
  else if streq "second_child".toList s then some child_polarity_t.SECOND_CHILD
  else none

/-- Function `parse_automatic_scheme` of `parse.c`. -/
def parse_automatic_scheme (s : List Char) : Option automatic_scheme_t :=
  if streq "longest_side".toList s then some automatic_scheme_t.SCHEME_LONGEST_SIDE
  else if streq "alternate".toList s then some automatic_scheme_t.SCHEME_ALTERNATE
  else if streq "spiral".toList s then some automatic_scheme_t.SCHEME_SPIRAL
  else none

/-- Function `parse_tightness` of `parse.c`. -/
def parse_tightness (s : List Char) : Option tightness_t :=
  if streq "high".toList s then some tightness_t.TIGHTNESS_HIGH
  else if streq "low".toList s then some tightness_t.TIGHTNESS_LOW
  else none

/-! ### helpers.c: `is_hex_color` -/

/-- Read of byte `i` of the storage of the C string `s`: its bytes, then the terminating NUL.
A read past the terminator has no value (`none`). -/
def c_at (s : List Char) (i : Nat) : Option Char :=
  if i < s.length then s[i]? else if i = s.length then some NUL else none

/-- Library function `strlen`: the number of bytes before the terminator. -/
def strlen (s : List Char) : Nat := s.length

/-- Library function `isxdigit` in the C locale. -/
def isxdigit (c : Char) : Bool :=
  (48 ≤ c.toNat && c.toNat ≤ 57) || (97 ≤ c.toNat && c.toNat ≤ 102)
    || (65 ≤ c.toNat && c.toNat ≤ 70)

/-- The loop `for (int i = 1; i < 7; i++)` of `is_hex_color`, entered at index `i` with
`k = 7 - i` rounds left; `none` records a read past the terminator. -/
def is_hex_color_loop (color : List Char) : Nat → Nat → Option Bool
  | 0, _ => some true
  | k + 1, i =>
    match c_at color i with
    | none => none
    | some c => if !isxdigit c then some false else is_hex_color_loop color k (i + 1)

/-- Function `is_hex_color` of `helpers.c`; `none` records a read past the terminator. -/
def is_hex_color (color : List Char) : Option Bool :=
  match c_at color 0 with
  | none => none
  | some c0 =>
    if c0 ≠ '#' ∨ strlen color ≠ 7 then some false
    else is_hex_color_loop color 6 1

/-- The hexadecimal digits in the words of the specification. -/
def hexDigits : List Char := "0123456789abcdefABCDEF".toList

/-! ### parse.c: `parse_degree` -/

/-- An `int` addition: the sum when it is representable, otherwise no value (signed overflow). -/
def int_add (a b : Int) : Option Int :=
  if -2 ^ 31 ≤ a + b ∧ a + b < 2 ^ 31 then some (a + b) else none

/-- The loop `while (i < 0) i += 360;` of `parse_degree`; `none` records an overflow or that
`fuel` rounds did not end the loop. -/
def degree_up : Nat → Int → Option Int
  | 0, _ => none
  | fuel + 1, i =>
    if i < 0 then
      match int_add i 360 with
      | none => none
      | some j => degree_up fuel j
    else some i

/-- The loop `while (i > 359) i -= 360;` of `parse_degree`; `none` as in `degree_up`. -/
def degree_down : Nat → Int → Option Int
  | 0, _ => none
  | fuel + 1, i =>
    if i > 359 then
      match int_add i (-360) with
      | none => none
      | some j => degree_down fuel j
    else some i

/-- Function `parse_degree` of `parse.c`, after `int i = atoi(s)` has produced `i`. The argument
`d` is the value of `*d` before the call; the result is the return value and `*d` afterwards.
`Int.tmod` is the remainder of C, which truncates towards zero. -/
def parse_degree (fuel : Nat) (i : Int) (d : Int) : Option (Bool × Int) :=
  match degree_up fuel i with
  | none => none
  | some i1 =>
    match degree_down fuel i1 with
    | none => none
    | some i2 => if Int.tmod i2 90 ≠ 0 then some (false, d) else some (true, i2)

/-! ### helpers.c: `tokenize_with_escape` -/

/-- Struct `tokenize_state` of `helpers.h`. The pointer `pos` is represented by the string it
points to: the unread characters before the terminator. -/
structure tokenize_state where
  in_escape : Bool
  pos : List Char
  len : Nat
  deriving DecidableEq, Repr

/-- The `while (*state->pos)` loop of `tokenize_with_escape`, on the unread characters, the
fields `in_escape` and `len`, the allocated buffer and the offset `outp - ret`. The decrement of
the `size_t` field `len` is taken modulo `2 ^ 64`. The result is the state, the buffer and the
offset on leaving the loop; `none` records a write outside the buffer. -/
def tokenize_loop (sep : Char) :
    List Char → Bool → Nat → List Char → Nat → Option (tokenize_state × List Char × Nat)
  | [], in_escape, len, buf, outp => some ({ in_escape := in_escape, pos := [], len := len }, buf, outp)
  | cur :: rest, in_escape, len, buf, outp =>
    let len1 := (len + 2 ^ 64 - 1) % 2 ^ 64
    if in_escape then
      if outp < buf.length then tokenize_loop sep rest false len1 (buf.set outp cur) (outp + 1)
      else none
    else if cur = '\\' then tokenize_loop sep rest (!in_escape) len1 buf outp
    else if cur = sep then some ({ in_escape := in_escape, pos := rest, len := len1 }, buf, outp)
    else if outp < buf.length then
      tokenize_loop sep rest in_escape len1 (buf.set outp cur) (outp + 1)
    else none

/-- The state after the first statement of `tokenize_with_escape`: reset when `s` is not NULL. -/
def tokenize_init (state : tokenize_state) (s : Option (List Char)) : tokenize_state :=
  match s with
  | some str => { in_escape := false, pos := str, len := (strlen str + 1) % 2 ^ 64 }
  | none => state

/-- Function `tokenize_with_escape` of `helpers.c`. The flag `calloc_ok` tells whether `calloc`
returns memory. The result is the state afterwards and the returned pointer: `none` for NULL,
`some buf` for the allocated buffer with its contents; the outer `none` records a write outside
the buffer. -/
def tokenize_with_escape (calloc_ok : Bool) (state : tokenize_state) (s : Option (List Char))
    (sep : Char) : Option (tokenize_state × Option (List Char)) :=
  let state1 := tokenize_init state s
  if !calloc_ok then some (state1, none)
  else
    match tokenize_loop sep state1.pos state1.in_escape state1.len
        (List.replicate state1.len NUL) 0 with
    | none => none
    | some (state2, buf, _) => some (state2, some buf)

/-- One call in a sequence of calls on one state: whether `calloc` succeeds, the argument `s`
and the separator. -/
structure tokenize_call where
  calloc_ok : Bool
  s : Option (List Char)
  sep : Char
  deriving DecidableEq, Repr

/-- What one call in a sequence leaves behind: the number of bytes it asked `calloc` for (the
field `len` after the reset), the returned pointer and the state afterwards. -/
structure tokenize_result where
  size : Nat
  ret : Option (List Char)
  state : tokenize_state
  deriving DecidableEq, Repr

/-- A sequence of calls of `tokenize_with_escape` on one state, in call order; `none` if some
call wrote outside its buffer. -/
def tokenize_calls : tokenize_state → List tokenize_call → Option (List tokenize_result)
  | _, [] => some []
  | state, c :: cs =>
    match tokenize_with_escape c.calloc_ok state c.s c.sep with
    | none => none
    | some (state1, r) =>
      match tokenize_calls state1 cs with
      | none => none
      | some rs => some ({ size := (tokenize_init state c.s).len, ret := r, state := state1 } :: rs)

/-- The state invariant in the words of the specification: `len` is the number of unread
characters plus one. -/
def len_counts_unread (state : tokenize_state) : Prop := state.len = state.pos.length + 1

/-- A returned buffer of `n` bytes that holds a token of at most `n - 1` bytes followed by NUL
bytes up to its end (at least one). -/
def token_in_buffer (n : Nat) (buf : List Char) : Prop :=
  buf.length = n ∧ ∃ tok : List Char, ∃ k : Nat, 0 < k ∧ buf = tok ++ List.replicate k NUL

/-- A call sequence on the string `a\,b,c` with separator `,`: three calls that get memory, then
one that does not. -/
def sampleTokenCalls : List tokenize_call :=
  [⟨true, some ['a', '\\', ',', 'b', ',', 'c'], ','⟩, ⟨true, none, ','⟩, ⟨true, none, ','⟩,
   ⟨false, none, ','⟩]

/-! ### subscribe.c: counting the messages of one subscriber -/

/-- A call that writes a message to the stream `s`: `print_report(s)` or `vfprintf(s, ...)`. -/
def isWriteTo (s : FILE) : SubEvent → Bool
  | SubEvent.print_report t => t == s
  | SubEvent.vfprintf t _ _ => t == s
  | _ => false

/-- The number of messages written to the stream `s` in a trace of calls. -/
def writes_to (s : FILE) (ev : List SubEvent) : Nat := (ev.filter (isWriteTo s)).length

/-- The calls a sequence of `put_status` calls issues on the subscriber list `l`. -/
def put_status_calls_events (env : SubEnv) :
    List PutCall → List (Addr × subscriber_fields) → List SubEvent
  | [], _ => []
  | c :: cs, l =>
    l.flatMap (fun e => put_status_events env c.io c.mask c.fmt c.args e.2)
      ++ put_status_calls_events env cs (put_status_list c.io c.mask l)

/-- The number of calls in the sequence whose mask meets `field`. -/
def matching_calls (field : Nat) (calls : List PutCall) : Nat :=
  (calls.filter (fun c => field &&& c.mask != 0)).length

/-- The number of messages `add_subscriber` writes to a subscriber with the given `field`: the
initial report when `field` includes `SBSC_MASK_REPORT`. -/
def report_writes (env : SubEnv) (field : Nat) : Nat :=
  if field &&& env.SBSC_MASK_REPORT ≠ 0 then 1 else 0

/-! ### jsmn.c (default build: neither `JSMN_STRICT` nor `JSMN_PARENT_LINKS`) -/

/-- Enum `jsmntype_t` of `jsmn.h`. -/
inductive jsmntype_t
  | JSMN_UNDEFINED
  | JSMN_OBJECT
  | JSMN_ARRAY
  | JSMN_STRING
  | JSMN_PRIMITIVE
  deriving DecidableEq, Repr

/-- Enumerator `JSMN_ERROR_NOMEM` of `enum jsmnerr`. -/
def JSMN_ERROR_NOMEM : Int := -1

/-- Enumerator `JSMN_ERROR_INVAL` of `enum jsmnerr`. -/
def JSMN_ERROR_INVAL : Int := -2

/-- Enumerator `JSMN_ERROR_PART` of `enum jsmnerr`. -/
def JSMN_ERROR_PART : Int := -3

/-- Struct `jsmntok_t` of `jsmn.h`; `end_` stands for the field `end`. -/
structure jsmntok_t where
  type : jsmntype_t
  start : Int
  end_ : Int
  size : Int
  deriving DecidableEq, Repr

/-- Struct `jsmn_parser` of `jsmn.h`: `pos` and `toknext` are `unsigned int`, `toksuper` is
`int`. -/
structure jsmn_parser_t where
  pos : Nat
  toknext : Nat
  toksuper : Int
  deriving DecidableEq, Repr

/-- Why a run of the model has no result: an access outside the string or outside the token
array (`fault`), or a loop that did not end within the rounds allowed (`fuel`). -/
inductive JErr
  | fault
  | fuel
  deriving DecidableEq, Repr

/-- Increment of an `unsigned int`: the successor, and zero after the largest value. -/
def uint_succ (u : Nat) : Nat := if u + 1 = 2 ^ 32 then 0 else u + 1

/-- Decrement of an `unsigned int`: the predecessor, and the largest value before zero. -/
def uint_pred (u : Nat) : Nat := if u = 0 then 2 ^ 32 - 1 else u - 1

/-- Conversion of an `unsigned int` to `int`: values from `2 ^ 31` on become negative. -/
def int_of_uint (u : Nat) : Int := if u < 2 ^ 31 then (u : Int) else (u : Int) - 2 ^ 32

/-- Conversion of an `int` to `unsigned int`: negative values are taken modulo `2 ^ 32`. -/
def uint_of_int (i : Int) : Nat := if 0 ≤ i then i.toNat else (i + 2 ^ 32).toNat

/-- Read of `tokens[i]` for an `int` index; `none` outside the array. -/
def tok_read (tokens : List jsmntok_t) (i : Int) : Option jsmntok_t :=
  if 0 ≤ i then tokens[i.toNat]? else none

/-- Write of `tokens[i]` for an `int` index; `none` outside the array. -/
def tok_write (tokens : List jsmntok_t) (i : Int) (t : jsmntok_t) : Option (List jsmntok_t) :=
  if 0 ≤ i ∧ i.toNat < tokens.length then some (tokens.set i.toNat t) else none

/-- Statement `tokens[i].size++`. -/
def tok_size_incr (tokens : List jsmntok_t) (i : Int) : Option (List jsmntok_t) :=
  match tok_read tokens i with
  | none => none
  | some t => tok_write tokens i { t with size := wrap_int (t.size + 1) }

/-- Function `jsmn_alloc_token`: the parser, the array, and the index of the token handed out
(`none` for NULL). -/
def jsmn_alloc_token (parser : jsmn_parser_t) (tokens : List jsmntok_t) (num_tokens : Nat) :
    Except JErr (jsmn_parser_t × List jsmntok_t × Option Nat) :=
  if parser.toknext ≥ num_tokens then Except.ok (parser, tokens, none)
  else
    match tokens[parser.toknext]? with
    | none => Except.error JErr.fault
    | some tok =>
      Except.ok ({ parser with toknext := uint_succ parser.toknext },
        tokens.set parser.toknext { tok with start := -1, end_ := -1, size := 0 },
        some parser.toknext)

/-- Function `jsmn_fill_token`, on the token at index `t`. -/
def jsmn_fill_token (tokens : List jsmntok_t) (t : Nat) (type : jsmntype_t) (start end_ : Int) :
    Option (List jsmntok_t) :=
  tok_write tokens t { type := type, start := start, end_ := end_, size := 0 }

/-- Where a scanning loop stops: at position `pos`, or with an error code. -/
inductive JScan
  | found (pos : Nat)
  | error (code : Int)
  deriving DecidableEq, Repr

/-- The `for` loop of `jsmn_parse_primitive`, entered at `pos`: it leaves for the label `found`
at a delimiter or at the end of the input, or returns `JSMN_ERROR_INVAL`. -/
def primitive_scan (js : List Char) (len : Nat) : Nat → Nat → Except JErr JScan
  | 0, _ => Except.error JErr.fuel
  | fuel + 1, pos =>
    if pos < len then
      match js[pos]? with
      | none => Except.error JErr.fault
      | some c =>
        if c = NUL then Except.ok (JScan.found pos)
        else if c = ':' ∨ c = '\t' ∨ c = '\r' ∨ c = '\n' ∨ c = ' ' ∨ c = ',' ∨ c = ']' ∨ c = '}'
        then Except.ok (JScan.found pos)
        else if c.toNat < 32 ∨ c.toNat ≥ 127 then Except.ok (JScan.error JSMN_ERROR_INVAL)
        else primitive_scan js len fuel (uint_succ pos)
    else Except.ok (JScan.found pos)

/-- Function `jsmn_parse_primitive`: the parser, the array and the value returned. -/
def jsmn_parse_primitive (fuel : Nat) (parser : jsmn_parser_t) (js : List Char) (len : Nat)
    (tokens : Option (List jsmntok_t)) (num_tokens : Nat) :
    Except JErr (jsmn_parser_t × Option (List jsmntok_t) × Int) :=
  let start : Int := int_of_uint parser.pos
  match primitive_scan js len fuel parser.pos with
  | Except.error e => Except.error e
  | Except.ok (JScan.error code) =>
    Except.ok ({ parser with pos := uint_of_int start }, tokens, code)
  | Except.ok (JScan.found pos) =>
    match tokens with
    | none => Except.ok ({ parser with pos := uint_pred pos }, none, 0)
    | some toks =>
      match jsmn_alloc_token { parser with pos := pos } toks num_tokens with
      | Except.error e => Except.error e
      | Except.ok (parser1, toks1, none) =>
        Except.ok ({ parser1 with pos := uint_of_int start }, some toks1, JSMN_ERROR_NOMEM)
      | Except.ok (parser1, toks1, some t) =>
        match jsmn_fill_token toks1 t jsmntype_t.JSMN_PRIMITIVE start (int_of_uint parser1.pos) with
        | none => Except.error JErr.fault
        | some toks2 => Except.ok ({ parser1 with pos := uint_pred parser1.pos }, some toks2, 0)

/-- The loop over the hexadecimal digits after `\u` in `jsmn_parse_string`, with `k = 4 - i`
rounds left: the position on leaving the loop, or `none` for a character that is not a
hexadecimal digit. -/
def hex_scan (js : List Char) (len : Nat) : Nat → Nat → Except JErr (Option Nat)
  | 0, pos => Except.ok (some pos)
  | k + 1, pos =>
    if pos < len then
      match js[pos]? with
      | none => Except.error JErr.fault
      | some c =>
        if c = NUL then Except.ok (some pos)
        else if ¬ ((c.toNat ≥ 48 ∧ c.toNat ≤ 57) ∨ (c.toNat ≥ 65 ∧ c.toNat ≤ 70)
            ∨ (c.toNat ≥ 97 ∧ c.toNat ≤ 102)) then Except.ok none
        else hex_scan js len k (uint_succ pos)
    else Except.ok (some pos)

/-- The `for` loop of `jsmn_parse_string`, entered at `pos`: it stops at the closing quote, or
with `JSMN_ERROR_INVAL` for a bad escape, or with `JSMN_ERROR_PART` at the end of the input. -/
def string_scan (js : List Char) (len : Nat) : Nat → Nat → Except JErr JScan
  | 0, _ => Except.error JErr.fuel
  | fuel + 1, pos =>
    if pos < len then
      match js[pos]? with
      | none => Except.error JErr.fault
      | some c =>
        if c = NUL then Except.ok (JScan.error JSMN_ERROR_PART)
        else if c = '\"' then Except.ok (JScan.found pos)
        else if c = '\\' ∧ uint_succ pos < len then
          match js[uint_succ pos]? with
          | none => Except.error JErr.fault
          | some e =>
            if e = '\"' ∨ e = '/' ∨ e = '\\' ∨ e = 'b' ∨ e = 'f' ∨ e = 'r' ∨ e = 'n' ∨ e = 't'
            then string_scan js len fuel (uint_succ (uint_succ pos))
            else if e = 'u' then
              match hex_scan js len 4 (uint_succ (uint_succ pos)) with
              | Except.error err => Except.error err
              | Except.ok none => Except.ok (JScan.error JSMN_ERROR_INVAL)
              | Except.ok (some pos1) => string_scan js len fuel (uint_succ (uint_pred pos1))
            else Except.ok (JScan.error JSMN_ERROR_INVAL)
        else string_scan js len fuel (uint_succ pos)
    else Except.ok (JScan.error JSMN_ERROR_PART)

/-- Function `jsmn_parse_string`: the parser, the array and the value returned. -/
def jsmn_parse_string (fuel : Nat) (parser : jsmn_parser_t) (js : List Char) (len : Nat)
    (tokens : Option (List jsmntok_t)) (num_tokens : Nat) :
    Except JErr (jsmn_parser_t × Option (List jsmntok_t) × Int) :=
  let start : Int := int_of_uint parser.pos
  match string_scan js len fuel (uint_succ parser.pos) with
  | Except.error e => Except.error e
  | Except.ok (JScan.error code) =>
    Except.ok ({ parser with pos := uint_of_int start }, tokens, code)
  | Except.ok (JScan.found pos) =>
    match tokens with
    | none => Except.ok ({ parser with pos := pos }, none, 0)
    | some toks =>
      match jsmn_alloc_token { parser with pos := pos } toks num_tokens with
      | Except.error e => Except.error e
      | Except.ok (parser1, toks1, none) =>
        Except.ok ({ parser1 with pos := uint_of_int start }, some toks1, JSMN_ERROR_NOMEM)
      | Except.ok (parser1, toks1, some t) =>
        match jsmn_fill_token toks1 t jsmntype_t.JSMN_STRING (wrap_int (start + 1))
            (int_of_uint parser1.pos) with
        | none => Except.error JErr.fault
        | some toks2 => Except.ok (parser1, some toks2, 0)

/-- A loop `for (...; i >= 0; i--)` over the tokens that stops at the first one satisfying
`p`, entered with `i = k - 1`: the value of `i` on leaving the loop (`-1` when none is found);
`none` for an access outside the array. -/
def scan_down (tokens : List jsmntok_t) (p : jsmntok_t → Bool) : Nat → Option Int
  | 0 => some (-1)
  | k + 1 =>
    match tokens[k]? with
    | none => none
    | some t => if p t then some (k : Int) else scan_down tokens p k

/-- The same loop entered with an arbitrary `int` value of `i`: it does not run when `i` is
negative. -/
def scan_down_from (tokens : List jsmntok_t) (p : jsmntok_t → Bool) (i : Int) : Option Int :=
  if i < 0 then some i else scan_down tokens p (i.toNat + 1)

/-- Test `token->start != -1 && token->end == -1`: the token is an object or array that has
been opened and not closed. -/
def tok_open (t : jsmntok_t) : Bool := t.start != -1 && t.end_ == -1

/-- Test of the loop in the comma case: an open token of type array or object. -/
def tok_open_container (t : jsmntok_t) : Bool :=
  (t.type == jsmntype_t.JSMN_ARRAY || t.type == jsmntype_t.JSMN_OBJECT) && tok_open t

/-- What one round of the main loop of `jsmn_parse` leads to: the next round, with the parser,
the array and `count`, or the return of `r`. -/
inductive JStep
  | next (parser : jsmn_parser_t) (tokens : Option (List jsmntok_t)) (count : Int)
  | ret (parser : jsmn_parser_t) (tokens : Option (List jsmntok_t)) (r : Int)
  deriving DecidableEq, Repr

/-- The statement `if (parser->toksuper != -1 && tokens != NULL) tokens[parser->toksuper].size++;`
that follows a string or a primitive. -/
def parent_size_incr (parser : jsmn_parser_t) (tokens : Option (List jsmntok_t)) :
    Option (Option (List jsmntok_t)) :=
  match tokens with
  | none => some none
  | some toks =>
    if parser.toksuper ≠ -1 then
      match tok_size_incr toks parser.toksuper with
      | none => none
      | some toks1 => some (some toks1)
    else some (some toks)

/-- The case of an opening bracket in the `switch` of `jsmn_parse`. -/
def jsmn_case_open (num_tokens : Nat) (c : Char) (parser : jsmn_parser_t)
    (tokens : Option (List jsmntok_t)) (count : Int) : Except JErr JStep :=
  let count1 := wrap_int (count + 1)
  match tokens with
  | none => Except.ok (JStep.next parser none count1)
  | some toks =>
    match jsmn_alloc_token parser toks num_tokens with
    | Except.error e => Except.error e
    | Except.ok (parser1, toks1, none) =>
      Except.ok (JStep.ret parser1 (some toks1) JSMN_ERROR_NOMEM)
    | Except.ok (parser1, toks1, some t) =>
      match (if parser1.toksuper ≠ -1 then tok_size_incr toks1 parser1.toksuper
             else some toks1) with
      | none => Except.error JErr.fault
      | some toks2 =>
        match toks2[t]? with
        | none => Except.error JErr.fault
        | some tok =>
          let toks3 := toks2.set t
            { tok with type := (if c = '{' then jsmntype_t.JSMN_OBJECT
                                else jsmntype_t.JSMN_ARRAY),
                       start := int_of_uint parser1.pos }
          Except.ok (JStep.next
            { parser1 with toksuper := int_of_uint (uint_pred parser1.toknext) }
            (some toks3) count1)

/-- The case of a closing bracket in the `switch` of `jsmn_parse`. -/
def jsmn_case_close (c : Char) (parser : jsmn_parser_t) (tokens : Option (List jsmntok_t))
    (count : Int) : Except JErr JStep :=
  match tokens with
  | none => Except.ok (JStep.next parser none count)
  | some toks =>
    let type := if c = '}' then jsmntype_t.JSMN_OBJECT else jsmntype_t.JSMN_ARRAY
    match scan_down_from toks tok_open (int_of_uint (uint_pred parser.toknext)) with
    | none => Except.error JErr.fault
    | some i =>
      if 0 ≤ i then
        match tok_read toks i with
        | none => Except.error JErr.fault
        | some token =>
          if token.type ≠ type then Except.ok (JStep.ret parser (some toks) JSMN_ERROR_INVAL)
          else
            match tok_write toks i { token with end_ := int_of_uint (uint_succ parser.pos) } with
            | none => Except.error JErr.fault
            | some toks1 =>
              match scan_down_from toks1 tok_open i with
              | none => Except.error JErr.fault
              | some j =>
                Except.ok (JStep.next
                  { parser with toksuper := if 0 ≤ j then j else -1 } (some toks1) count)
      else if i = -1 then Except.ok (JStep.ret parser (some toks) JSMN_ERROR_INVAL)
      else Except.ok (JStep.next parser (some toks) count)

/-- The code after a call of `jsmn_parse_string` or `jsmn_parse_primitive` in the `switch` of
`jsmn_parse`, given what the call returned. -/
def jsmn_after_value (res : jsmn_parser_t × Option (List jsmntok_t) × Int) (count : Int) :
    Except JErr JStep :=
  if res.2.2 < 0 then Except.ok (JStep.ret res.1 res.2.1 res.2.2)
  else
    match parent_size_incr res.1 res.2.1 with
    | none => Except.error JErr.fault
    | some tokens2 => Except.ok (JStep.next res.1 tokens2 (wrap_int (count + 1)))

/-- The case of a comma in the `switch` of `jsmn_parse`. -/
def jsmn_case_comma (parser : jsmn_parser_t) (tokens : Option (List jsmntok_t)) (count : Int) :
    Except JErr JStep :=
  match tokens with
  | none => Except.ok (JStep.next parser none count)
  | some toks =>
    if parser.toksuper ≠ -1 then
      match tok_read toks parser.toksuper with
      | none => Except.error JErr.fault
      | some sup =>
        if sup.type ≠ jsmntype_t.JSMN_ARRAY ∧ sup.type ≠ jsmntype_t.JSMN_OBJECT then
          match scan_down_from toks tok_open_container
              (int_of_uint (uint_pred parser.toknext)) with
          | none => Except.error JErr.fault
          | some i =>
            Except.ok (JStep.next
              { parser with toksuper := if 0 ≤ i then i else parser.toksuper }
              (some toks) count)
        else Except.ok (JStep.next parser (some toks) count)
    else Except.ok (JStep.next parser (some toks) count)

/-- The body of the `switch` in `jsmn_parse` for the character `c` at `parser->pos`. -/
def jsmn_switch (fuel : Nat) (js : List Char) (len : Nat) (num_tokens : Nat) (c : Char)
    (parser : jsmn_parser_t) (tokens : Option (List jsmntok_t)) (count : Int) :
    Except JErr JStep :=
  if c = '{' ∨ c = '[' then jsmn_case_open num_tokens c parser tokens count
  else if c = '}' ∨ c = ']' then jsmn_case_close c parser tokens count
  else if c = '\"' then
    match jsmn_parse_string fuel parser js len tokens num_tokens with
    | Except.error e => Except.error e
    | Except.ok res => jsmn_after_value res count
  else if c = '\t' ∨ c = '\r' ∨ c = '\n' ∨ c = ' ' then
    Except.ok (JStep.next parser tokens count)
  else if c = ':' then
    Except.ok (JStep.next { parser with toksuper := int_of_uint (uint_pred parser.toknext) }
      tokens count)
  else if c = ',' then jsmn_case_comma parser tokens count
  else
    match jsmn_parse_primitive fuel parser js len tokens num_tokens with
    | Except.error e => Except.error e
    | Except.ok res => jsmn_after_value res count

/-- How a round of the main loop in filling mode that goes on to the next round changes the
state: the array keeps its length; either `count` and `toknext` are unchanged, or both grow by
one and `toknext` was below `num_tokens`; and `toksuper` is unchanged, or `-1`, or the index of
the last token handed out, or an index found by a loop that runs down from the last token. -/
def jsmn_fill_next (n : Nat) (p : jsmn_parser_t) (toks : List jsmntok_t) (count : Int)
    (p1 : jsmn_parser_t) (t1 : Option (List jsmntok_t)) (c1 : Int) : Prop :=
  (∃ toks1, t1 = some toks1 ∧ toks1.length = toks.length)
  ∧ ((c1 = count ∧ p1.toknext = p.toknext)
    ∨ (c1 = wrap_int (count + 1) ∧ p.toknext < n ∧ p1.toknext = uint_succ p.toknext))
  ∧ (p1.toksuper = p.toksuper ∨ p1.toksuper = -1
    ∨ p1.toksuper = int_of_uint (uint_pred p1.toknext)
    ∨ (0 ≤ p1.toksuper ∧ p1.toksuper ≤ int_of_uint (uint_pred p.toknext)))

/-- How a round of the main loop in filling mode that returns from inside the `switch` leaves
the state: the value returned is negative, the array keeps its length, `toknext` and `toksuper`
are unchanged. -/
def jsmn_fill_ret (p : jsmn_parser_t) (toks : List jsmntok_t)
    (p1 : jsmn_parser_t) (t1 : Option (List jsmntok_t)) (r : Int) : Prop :=
  r < 0 ∧ (∃ toks1, t1 = some toks1 ∧ toks1.length = toks.length)
  ∧ p1.toknext = p.toknext ∧ p1.toksuper = p.toksuper

/-- The bounds on the token indices of a parser for an array of `n` tokens: `toknext` is at
most `n`, and `toksuper` is `-1` or an index below `toknext`. -/
def jsmn_inv (n : Nat) (p : jsmn_parser_t) : Prop :=
  p.toknext ≤ n ∧ (p.toksuper = -1 ∨ (0 ≤ p.toksuper ∧ p.toksuper < p.toknext))

/-- The token array, when there is one, has `n` entries. -/
def jsmn_array (n : Nat) (tokens : Option (List jsmntok_t)) : Prop :=
  ∀ toks, tokens = some toks → toks.length = n

/-- The code of `jsmn_parse` after its main loop: `JSMN_ERROR_PART` when a token is still
open, otherwise `count`. -/
def jsmn_finish (parser : jsmn_parser_t) (tokens : Option (List jsmntok_t)) (count : Int) :
    Except JErr JStep :=
  match tokens with
  | none => Except.ok (JStep.ret parser none count)
  | some toks =>
    match scan_down_from toks tok_open (int_of_uint (uint_pred parser.toknext)) with
    | none => Except.error JErr.fault
    | some i =>
      if 0 ≤ i then Except.ok (JStep.ret parser (some toks) JSMN_ERROR_PART)
      else Except.ok (JStep.ret parser (some toks) count)

/-- One round of the main loop of `jsmn_parse`: the loop test, the `switch`, and the
increment `parser->pos++`; when the loop test fails, the code after the loop. -/
def jsmn_step (fuel : Nat) (js : List Char) (len : Nat) (num_tokens : Nat)
    (parser : jsmn_parser_t) (tokens : Option (List jsmntok_t)) (count : Int) :
    Except JErr JStep :=
  if parser.pos < len then
    match js[parser.pos]? with
    | none => Except.error JErr.fault
    | some c =>
      if c = NUL then jsmn_finish parser tokens count
      else
        match jsmn_switch fuel js len num_tokens c parser tokens count with
        | Except.error e => Except.error e
        | Except.ok (JStep.ret parser1 tokens1 r) => Except.ok (JStep.ret parser1 tokens1 r)
        | Except.ok (JStep.next parser1 tokens1 count1) =>
          Except.ok (JStep.next { parser1 with pos := uint_succ parser1.pos } tokens1 count1)
  else jsmn_finish parser tokens count

/-- The first `k` rounds of the main loop of `jsmn_parse`: the state before round `k + 1`, or
the return value if the function has returned by then. The inner loops get `fuel` rounds. -/
def jsmn_run (fuel : Nat) (js : List Char) (len : Nat) (num_tokens : Nat) :
    Nat → jsmn_parser_t → Option (List jsmntok_t) → Int → Except JErr JStep
  | 0, parser, tokens, count => Except.ok (JStep.next parser tokens count)
  | k + 1, parser, tokens, count =>
    match jsmn_step fuel js len num_tokens parser tokens count with
    | Except.error e => Except.error e
    | Except.ok (JStep.ret parser1 tokens1 r) => Except.ok (JStep.ret parser1 tokens1 r)
    | Except.ok (JStep.next parser1 tokens1 count1) =>
      jsmn_run fuel js len num_tokens k parser1 tokens1 count1

/-- Function `jsmn_parse`, with `fuel` rounds for each loop: the parser, the array and the
value returned. `tokens` is `none` for NULL. -/
def jsmn_parse (fuel : Nat) (parser : jsmn_parser_t) (js : List Char) (len : Nat)
    (tokens : Option (List jsmntok_t)) (num_tokens : Nat) :
    Except JErr (jsmn_parser_t × Option (List jsmntok_t) × Int) :=
  match jsmn_run fuel js len num_tokens fuel parser tokens (int_of_uint parser.toknext) with
  | Except.error e => Except.error e
  | Except.ok (JStep.ret parser1 tokens1 r) => Except.ok (parser1, tokens1, r)
  | Except.ok (JStep.next _ _ _) => Except.error JErr.fuel

/-- Function `jsmn_init`: the parser it sets up. -/
def jsmn_init : jsmn_parser_t := { pos := 0, toknext := 0, toksuper := -1 }

/-- An array of `n` tokens whose contents the caller has not set. -/
def blank_tokens (n : Nat) : List jsmntok_t :=
  List.replicate n ⟨jsmntype_t.JSMN_UNDEFINED, 0, 0, 0⟩

/-- A sample input: the text of an object with one key whose value is an array of two
numbers. -/
def sampleJson : List Char := ['{', '\"', 'a', '\"', ':', '[', '1', ',', '2', ']', '}']

/-- The tokens `jsmn_parse` writes for `sampleJson`. -/
def sampleJsonTokens : List jsmntok_t :=
  [⟨jsmntype_t.JSMN_OBJECT, 0, 11, 1⟩, ⟨jsmntype_t.JSMN_STRING, 2, 3, 1⟩,
   ⟨jsmntype_t.JSMN_ARRAY, 5, 10, 2⟩, ⟨jsmntype_t.JSMN_PRIMITIVE, 6, 7, 0⟩,
   ⟨jsmntype_t.JSMN_PRIMITIVE, 8, 9, 0⟩]

/-- The parser after `j` rounds of `jsmn_parse` on an input of opening brackets: `pos` and
`toknext` are `j`, and `toksuper` is the `int` that `toknext - 1` converts to. -/
def bracket_state (j : Nat) : jsmn_parser_t :=
  { pos := j, toknext := j, toksuper := int_of_uint (uint_pred j) }

/-- An input of `n` opening brackets. -/
def open_brackets (n : Nat) : List Char := List.replicate n '['

/-! ## Section 2: theorems -/

/-- C6: for every client, `stack_level` is `3 * layerRank + stateRank`, it lies in `0..8`, and
`stack_cmp` is the exact (unwrapped) difference of the two levels. -/
theorem C6_stack_level_formula (c1 c2 : client_t) :
    stack_level c1 = 3 * layerRank c1.layer + stateRank c1.state
    ∧ 0 ≤ stack_level c1 ∧ stack_level c1 ≤ 8
    ∧ stack_cmp c1 c2
        = (3 * layerRank c1.layer + stateRank c1.state)
          - (3 * layerRank c2.layer + stateRank c2.state) := by
  rcases c1 with ⟨s1, l1⟩
  rcases c2 with ⟨s2, l2⟩
  cases s1 <;> cases l1 <;> cases s2 <;> cases l2 <;> decide

section ListLemmas
variable {α : Type}

@[simp] theorem hdPtr_nil (q : Option Addr) : hdPtr ([] : List (Addr × α)) q = q := rfl

@[simp] theorem hdPtr_cons (e : Addr × α) (l : List (Addr × α)) (q : Option Addr) :
    hdPtr (e :: l) q = some e.1 := rfl

@[simp] theorem lastPtr_nil (p : Option Addr) : lastPtr p ([] : List (Addr × α)) = p := rfl

@[simp] theorem lastPtr_cons (p : Option Addr) (e : Addr × α) (l : List (Addr × α)) :
    lastPtr p (e :: l) = lastPtr (some e.1) l := rfl

theorem hdPtr_append (A B : List (Addr × α)) (q : Option Addr) :
    hdPtr (A ++ B) q = hdPtr A (hdPtr B q) := by
  cases A <;> rfl

theorem lastPtr_append (p : Option Addr) (A B : List (Addr × α)) :
    lastPtr p (A ++ B) = lastPtr (lastPtr p A) B := by
  induction A generalizing p with
  | nil => rfl
  | cons e A ih => simp [ih]

theorem hdPtr_mem {l : List (Addr × α)} {a : Addr} (h : hdPtr l none = some a) :
    a ∈ l.map Prod.fst := by
  cases l with
  | nil => simp at h
  | cons e l => simp at h; simp [h]

theorem lastPtr_mem {l : List (Addr × α)} {p : Option Addr} {a : Addr}
    (h : lastPtr p l = some a) : p = some a ∨ a ∈ l.map Prod.fst := by
  induction l generalizing p with
  | nil => left; simpa using h
  | cons e l ih =>
    rcases ih (p := some e.1) (by simpa using h) with h1 | h1
    · right; simp at h1; simp [h1]
    · right; simp at h1 ⊢; right; exact h1

theorem seg_append {h : Heap α} {p q : Option Addr} {A B : List (Addr × α)} :
    Seg h p (A ++ B) q ↔ Seg h p A (hdPtr B q) ∧ Seg h (lastPtr p A) B q := by
  induction A generalizing p with
  | nil => simp [Seg]
  | cons e A ih =>
    show (h e.1 = some ⟨e.2, p, hdPtr (A ++ B) q⟩ ∧ Seg h (some e.1) (A ++ B) q) ↔ _
    rw [ih, hdPtr_append]
    simp only [Seg, lastPtr_cons, and_assoc]

theorem seg_congr {h h' : Heap α} {p q : Option Addr} {l : List (Addr × α)}
    (hf : ∀ x ∈ l.map Prod.fst, h' x = h x) (hs : Seg h p l q) : Seg h' p l q := by
  induction l generalizing p with
  | nil => trivial
  | cons e l ih =>
    refine ⟨?_, ih (fun x hx => hf x (by simp at hx ⊢; right; exact hx)) hs.2⟩
    rw [hf e.1 (by simp)]; exact hs.1

end ListLemmas

section HeapLemmas
variable {α : Type}

theorem set_next_eq {h : Heap α} {a : Addr} {d : α} {p q : Option Addr} (v : Option Addr)
    (ha : h a = some ⟨d, p, q⟩) :
    Heap.set_next h a v = some (Function.update h a (some ⟨d, p, v⟩)) := by
  simp [Heap.set_next, ha]

theorem set_prev_eq {h : Heap α} {a : Addr} {d : α} {p q : Option Addr} (v : Option Addr)
    (ha : h a = some ⟨d, p, q⟩) :
    Heap.set_prev h a v = some (Function.update h a (some ⟨d, v, q⟩)) := by
  simp [Heap.set_prev, ha]

theorem seg_set_next_last {h : Heap α} {p q : Option Addr} {A : List (Addr × α)}
    (q' : Option Addr) (nd : (A.map Prod.fst).Nodup) (hs : Seg h p A q) :
    ∃ h1, h.set_next_opt (lastPtr none A) q' = some h1 ∧ Seg h1 p A q' ∧
      ∀ x, some x ≠ lastPtr none A → h1 x = h x := by
  rcases List.eq_nil_or_concat A with rfl | ⟨A', e, rfl⟩
  · exact ⟨h, rfl, trivial, fun _ _ => rfl⟩
  · rw [List.concat_eq_append] at hs nd ⊢
    rw [seg_append] at hs
    obtain ⟨hA, he, -⟩ := hs
    simp only [hdPtr_cons, hdPtr_nil] at hA he
    have hne : e.1 ∉ A'.map Prod.fst := by
      intro hmem
      rw [List.map_append, List.nodup_append] at nd
      exact nd.2.2 hmem (by simp)
    refine ⟨Function.update h e.1 (some ⟨e.2, lastPtr p A', q'⟩), ?_, ?_, ?_⟩
    · simp only [lastPtr_append, lastPtr_cons, lastPtr_nil, Heap.set_next_opt]
      exact set_next_eq q' he
    · rw [seg_append]
      refine ⟨seg_congr (fun x hx => ?_) hA, ?_, trivial⟩
      · rw [Function.update_noteq]
        rintro rfl; exact hne hx
      · simp
    · intro x hx
      simp only [lastPtr_append, lastPtr_cons, lastPtr_nil] at hx
      rw [Function.update_noteq]
      rintro rfl; exact hx rfl

theorem seg_set_prev_first {h : Heap α} {p q : Option Addr} {B : List (Addr × α)}
    (p' : Option Addr) (nd : (B.map Prod.fst).Nodup) (hs : Seg h p B q) :
    ∃ h1, h.set_prev_opt (hdPtr B none) p' = some h1 ∧ Seg h1 p' B q ∧
      ∀ x, some x ≠ hdPtr B none → h1 x = h x := by
  cases B with
  | nil => exact ⟨h, rfl, trivial, fun _ _ => rfl⟩
  | cons e B =>
    obtain ⟨he, hB⟩ := hs
    have hne : e.1 ∉ B.map Prod.fst := (List.nodup_cons.1 nd).1
    refine ⟨Function.update h e.1 (some ⟨e.2, p', hdPtr B q⟩), ?_, ?_, ?_⟩
    · simp only [hdPtr_cons, Heap.set_prev_opt]
      exact set_prev_eq p' he
    · refine ⟨by simp, seg_congr (fun x hx => ?_) hB⟩
      rw [Function.update_noteq]
      rintro rfl; exact hne hx
    · intro x hx
      simp only [hdPtr_cons] at hx
      rw [Function.update_noteq]
      rintro rfl; exact hx rfl

end HeapLemmas

section UnlinkLemmas
variable {α : Type}

theorem nodup_middle {A B : List (Addr × α)} {s : Addr} {d : α}
    (nd : ((A ++ (s, d) :: B).map Prod.fst).Nodup) :
    (A.map Prod.fst).Nodup ∧ (B.map Prod.fst).Nodup ∧ s ∉ A.map Prod.fst ∧ s ∉ B.map Prod.fst
      ∧ (∀ x, x ∈ A.map Prod.fst → x ∉ B.map Prod.fst) := by
  rw [List.map_append, List.map_cons, List.nodup_append, List.nodup_cons] at nd
  obtain ⟨ndA, ⟨hsB, ndB⟩, dj⟩ := nd
  refine ⟨ndA, ndB, fun hs => dj hs (by simp), hsB, fun x hxA hxB => dj hxA (by simp [hxB])⟩

theorem lastPtr_none_mem {l : List (Addr × α)} {a : Addr} (h : lastPtr none l = some a) :
    a ∈ l.map Prod.fst := by
  rcases lastPtr_mem h with h1 | h1
  · cases h1
  · exact h1

theorem isList_unlink {h : Heap α} {hd tl : Option Addr} {A B : List (Addr × α)} {s : Addr}
    {d : α} (H : IsList h hd tl (A ++ (s, d) :: B)) :
    h s = some ⟨d, lastPtr none A, hdPtr B none⟩ ∧
    ∃ h1 h2, h.set_next_opt (lastPtr none A) (hdPtr B none) = some h1 ∧
      h1.set_prev_opt (hdPtr B none) (lastPtr none A) = some h2 ∧
      IsList (h2.free s) (if some s = hd then hdPtr B none else hd)
        (if some s = tl then lastPtr none A else tl) (A ++ B) ∧
      ∀ x, x ∉ (A ++ (s, d) :: B).map Prod.fst → h2.free s x = h x := by
  obtain ⟨nd, seg, hhd, htl⟩ := H
  obtain ⟨ndA, ndB, hsA, hsB, dj⟩ := nodup_middle nd
  rw [seg_append] at seg
  obtain ⟨hA, hs, hB⟩ := seg
  simp only [hdPtr_cons] at hA
  refine ⟨hs, ?_⟩
  obtain ⟨h1, e1, segA1, fr1⟩ := seg_set_next_last (hdPtr B none) ndA hA
  have hB1 : Seg h1 (some s) B none := by
    refine seg_congr (fun x hx => fr1 x ?_) hB
    intro hl
    exact dj x (lastPtr_none_mem hl.symm) hx
  obtain ⟨h2, e2, segB2, fr2⟩ := seg_set_prev_first (lastPtr none A) ndB hB1
  have segA2 : Seg h2 none A (hdPtr B none) := by
    refine seg_congr (fun x hx => fr2 x ?_) segA1
    intro hl
    exact dj x hx (hdPtr_mem hl.symm)
  refine ⟨h1, h2, e1, e2, ⟨?_, ?_, ?_, ?_⟩, ?_⟩
  · rw [List.map_append, List.nodup_append]
    exact ⟨ndA, ndB, fun x hxA hxB => dj x hxA hxB⟩
  · rw [seg_append]
    constructor
    · refine seg_congr (fun x hx => ?_) segA2
      simp only [Heap.free]
      rw [Function.update_noteq]
      rintro rfl; exact hsA hx
    · refine seg_congr (fun x hx => ?_) segB2
      simp only [Heap.free]
      rw [Function.update_noteq]
      rintro rfl; exact hsB hx
  · cases A with
    | nil => simp [hhd]
    | cons e A =>
      have : s ≠ e.1 := by
        rintro rfl; exact hsA (by simp)
      simp [hhd, this]
  · rw [lastPtr_append] at htl
    cases B with
    | nil => simp [htl]
    | cons e B =>
      have hne : some s ≠ tl := by
        intro hl
        rw [htl] at hl
        simp only [lastPtr_cons] at hl
        rcases lastPtr_mem hl.symm with h3 | h3
        · simp at h3; exact hsB (by simp [h3])
        · exact hsB (by simp at h3 ⊢; right; exact h3)
      rw [if_neg hne, htl]
      simp [lastPtr_append]
  · intro x hx
    have hxs : x ≠ s := by
      rintro rfl; exact hx (by simp)
    simp only [Heap.free]
    rw [Function.update_noteq hxs, fr2, fr1]
    · intro hl
      exact hx (by
        have := lastPtr_none_mem hl.symm
        simp at this ⊢; left; exact this)
    · intro hl
      exact hx (by
        have := hdPtr_mem hl.symm
        simp at this ⊢; right; right; exact this)

end UnlinkLemmas

section InsertLemmas
variable {α : Type}

theorem isList_insert_after {h : Heap α} {hd tl : Option Addr} {A B : List (Addr × α)}
    {a s : Addr} {d n : α} {ps ns : Option Addr}
    (H : IsList h hd tl (A ++ (a, d) :: B)) (hs : h s = some ⟨n, ps, ns⟩)
    (hsL : s ∉ (A ++ (a, d) :: B).map Prod.fst) :
    h a = some ⟨d, lastPtr none A, hdPtr B none⟩ ∧
    ∃ h1 h2 h3 h4, h.set_prev_opt (hdPtr B none) (some s) = some h1 ∧
      h1.set_next s (hdPtr B none) = some h2 ∧
      h2.set_prev s (some a) = some h3 ∧
      h3.set_next a (some s) = some h4 ∧
      IsList h4 hd (if tl = some a then some s else tl) (A ++ (a, d) :: (s, n) :: B) ∧
      ∀ x, x ≠ s → x ∉ (A ++ (a, d) :: B).map Prod.fst → h4 x = h x := by
  obtain ⟨nd, seg, hhd, htl⟩ := H
  obtain ⟨ndA, ndB, haA, haB, dj⟩ := nodup_middle nd
  have hsA : s ∉ A.map Prod.fst := fun hm => hsL (by simp at hm ⊢; left; exact hm)
  have hsB : s ∉ B.map Prod.fst := fun hm => hsL (by simp at hm ⊢; right; right; exact hm)
  have hsa : s ≠ a := by
    rintro rfl; exact hsL (by simp)
  rw [seg_append] at seg
  obtain ⟨hA, ha, hB⟩ := seg
  simp only [hdPtr_cons] at hA ha hB
  refine ⟨ha, ?_⟩
  obtain ⟨h1, e1, segB1, fr1⟩ := seg_set_prev_first (some s) ndB hB
  have h1s : h1 s = some ⟨n, ps, ns⟩ := by
    rw [fr1 s (fun hl => hsB (hdPtr_mem hl.symm))]; exact hs
  have h1a : h1 a = some ⟨d, lastPtr none A, hdPtr B none⟩ := by
    rw [fr1 a (fun hl => haB (hdPtr_mem hl.symm))]; exact ha
  have e2 := set_next_eq (hdPtr B none) h1s
  have e3 : Heap.set_prev (Function.update h1 s (some ⟨n, ps, hdPtr B none⟩)) s (some a)
      = some (Function.update (Function.update h1 s (some ⟨n, ps, hdPtr B none⟩)) s
          (some ⟨n, some a, hdPtr B none⟩)) :=
    set_prev_eq (some a) (Function.update_same s _ h1)
  have e4 : Heap.set_next (Function.update (Function.update h1 s (some ⟨n, ps, hdPtr B none⟩)) s
          (some ⟨n, some a, hdPtr B none⟩)) a (some s)
      = some (Function.update (Function.update (Function.update h1 s
          (some ⟨n, ps, hdPtr B none⟩)) s (some ⟨n, some a, hdPtr B none⟩)) a
          (some ⟨d, lastPtr none A, some s⟩)) :=
    set_next_eq (some s) (by rw [Function.update_noteq hsa.symm, Function.update_noteq hsa.symm]; exact h1a)
  refine ⟨h1, _, _, _, e1, e2, e3, e4, ⟨?_, ?_, hhd.trans ?_, ?_⟩, ?_⟩
  · have : ((A ++ (a, d) :: (s, n) :: B).map Prod.fst).Nodup := by
      simp only [List.map_append, List.map_cons, List.nodup_append, List.nodup_cons,
        List.mem_cons, not_or]
      refine ⟨ndA, ⟨⟨hsa.symm, haB⟩, hsB, ndB⟩, ?_⟩
      intro x hxA hx
      simp only [List.mem_cons] at hx
      rcases hx with rfl | rfl | hx
      · exact haA hxA
      · exact hsA hxA
      · exact dj x hxA hx
    exact this
  · rw [seg_append]
    refine ⟨seg_congr (fun x hx => ?_) hA, ?_, ?_, seg_congr (fun x hx => ?_) segB1⟩
    · have hxa : x ≠ a := by rintro rfl; exact haA hx
      have hxs : x ≠ s := by rintro rfl; exact hsA hx
      rw [Function.update_noteq hxa, Function.update_noteq hxs, Function.update_noteq hxs]
      exact fr1 x (fun hl => dj x hx (hdPtr_mem hl.symm))
    · simp
    · simp [Function.update_noteq hsa]
    · have hxa : x ≠ a := by rintro rfl; exact haB hx
      have hxs : x ≠ s := by rintro rfl; exact hsB hx
      rw [Function.update_noteq hxa, Function.update_noteq hxs, Function.update_noteq hxs]
  · simp [hdPtr_append]
  · rw [lastPtr_append] at htl
    simp only [lastPtr_cons] at htl
    rw [lastPtr_append]
    simp only [lastPtr_cons]
    cases B with
    | nil => simp [htl]
    | cons e B =>
      have hne : tl ≠ some a := by
        intro hl
        rw [htl] at hl
        simp only [lastPtr_cons] at hl
        rcases lastPtr_mem hl with h3 | h3
        · simp at h3; exact haB (by simp [h3])
        · exact haB (by simp at h3 ⊢; right; exact h3)
      rw [if_neg hne, htl]
      simp
  · intro x hxs hx
    have hxa : x ≠ a := by rintro rfl; exact hx (by simp)
    rw [Function.update_noteq hxa, Function.update_noteq hxs, Function.update_noteq hxs]
    refine fr1 x (fun hl => hx ?_)
    have := hdPtr_mem hl.symm
    simp at this ⊢; right; right; exact this

theorem isList_insert_before {h : Heap α} {hd tl : Option Addr} {A B : List (Addr × α)}
    {a s : Addr} {d n : α} {ps ns : Option Addr}
    (H : IsList h hd tl (A ++ (a, d) :: B)) (hs : h s = some ⟨n, ps, ns⟩)
    (hsL : s ∉ (A ++ (a, d) :: B).map Prod.fst) :
    h a = some ⟨d, lastPtr none A, hdPtr B none⟩ ∧
    ∃ h1 h2 h3 h4, h.set_next_opt (lastPtr none A) (some s) = some h1 ∧
      h1.set_prev s (lastPtr none A) = some h2 ∧
      h2.set_next s (some a) = some h3 ∧
      h3.set_prev a (some s) = some h4 ∧
      IsList h4 (if hd = some a then some s else hd) tl (A ++ (s, n) :: (a, d) :: B) ∧
      ∀ x, x ≠ s → x ∉ (A ++ (a, d) :: B).map Prod.fst → h4 x = h x := by
  obtain ⟨nd, seg, hhd, htl⟩ := H
  obtain ⟨ndA, ndB, haA, haB, dj⟩ := nodup_middle nd
  have hsA : s ∉ A.map Prod.fst := fun hm => hsL (by simp at hm ⊢; left; exact hm)
  have hsB : s ∉ B.map Prod.fst := fun hm => hsL (by simp at hm ⊢; right; right; exact hm)
  have hsa : s ≠ a := by
    rintro rfl; exact hsL (by simp)
  rw [seg_append] at seg
  obtain ⟨hA, ha, hB⟩ := seg
  simp only [hdPtr_cons] at hA ha hB
  refine ⟨ha, ?_⟩
  obtain ⟨h1, e1, segA1, fr1⟩ := seg_set_next_last (some s) ndA hA
  have h1s : h1 s = some ⟨n, ps, ns⟩ := by
    rw [fr1 s (fun hl => hsA (lastPtr_none_mem hl.symm))]; exact hs
  have h1a : h1 a = some ⟨d, lastPtr none A, hdPtr B none⟩ := by
    rw [fr1 a (fun hl => haA (lastPtr_none_mem hl.symm))]; exact ha
  have e2 := set_prev_eq (lastPtr none A) h1s
  have e3 : Heap.set_next (Function.update h1 s (some ⟨n, lastPtr none A, ns⟩)) s (some a)
      = some (Function.update (Function.update h1 s (some ⟨n, lastPtr none A, ns⟩)) s
          (some ⟨n, lastPtr none A, some a⟩)) :=
    set_next_eq (some a) (Function.update_same s _ h1)
  have e4 : Heap.set_prev (Function.update (Function.update h1 s (some ⟨n, lastPtr none A, ns⟩)) s
          (some ⟨n, lastPtr none A, some a⟩)) a (some s)
      = some (Function.update (Function.update (Function.update h1 s
          (some ⟨n, lastPtr none A, ns⟩)) s (some ⟨n, lastPtr none A, some a⟩)) a
          (some ⟨d, some s, hdPtr B none⟩)) :=
    set_prev_eq (some s) (by rw [Function.update_noteq hsa.symm, Function.update_noteq hsa.symm]; exact h1a)
  refine ⟨h1, _, _, _, e1, e2, e3, e4, ⟨?_, ?_, ?_, htl.trans ?_⟩, ?_⟩
  · have : ((A ++ (s, n) :: (a, d) :: B).map Prod.fst).Nodup := by
      simp only [List.map_append, List.map_cons, List.nodup_append, List.nodup_cons,
        List.mem_cons, not_or]
      refine ⟨ndA, ⟨⟨hsa, hsB⟩, haB, ndB⟩, ?_⟩
      intro x hxA hx
      simp only [List.mem_cons] at hx
      rcases hx with rfl | rfl | hx
      · exact hsA hxA
      · exact haA hxA
      · exact dj x hxA hx
    exact this
  · rw [seg_append]
    refine ⟨seg_congr (fun x hx => ?_) segA1, ?_, ?_, seg_congr (fun x hx => ?_) hB⟩
    · have hxa : x ≠ a := by rintro rfl; exact haA hx
      have hxs : x ≠ s := by rintro rfl; exact hsA hx
      rw [Function.update_noteq hxa, Function.update_noteq hxs, Function.update_noteq hxs]
    · simp [Function.update_noteq hsa]
    · simp
    · have hxa : x ≠ a := by rintro rfl; exact haB hx
      have hxs : x ≠ s := by rintro rfl; exact hsB hx
      rw [Function.update_noteq hxa, Function.update_noteq hxs, Function.update_noteq hxs]
      exact fr1 x (fun hl => dj x (lastPtr_none_mem hl.symm) hx)
  · rw [hdPtr_append] at hhd
    rw [hdPtr_append]
    cases A with
    | nil => simp [hhd]
    | cons e A =>
      have hne : hd ≠ some a := by
        intro hl
        rw [hhd] at hl
        simp only [hdPtr_cons] at hl
        exact haA (by simp at hl ⊢; left; exact hl.symm)
      rw [if_neg hne, hhd]
      simp
  · simp [lastPtr_append]
  · intro x hxs hx
    have hxa : x ≠ a := by rintro rfl; exact hx (by simp)
    rw [Function.update_noteq hxa, Function.update_noteq hxs, Function.update_noteq hxs]
    refine fr1 x (fun hl => hx ?_)
    have := lastPtr_none_mem hl.symm
    simp at this ⊢; left; exact this

end InsertLemmas

theorem isList_congr {α : Type} {h h' : Heap α} {hd tl : Option Addr} {l : List (Addr × α)}
    (hf : ∀ x ∈ l.map Prod.fst, h' x = h x) (H : IsList h hd tl l) : IsList h' hd tl l :=
  ⟨H.nodup, seg_congr hf H.seg, H.head_eq, H.tail_eq⟩

theorem isList_lookup {α : Type} {h : Heap α} {hd tl : Option Addr} {A B : List (Addr × α)}
    {s : Addr} {d : α} (H : IsList h hd tl (A ++ (s, d) :: B)) :
    h s = some ⟨d, lastPtr none A, hdPtr B none⟩ :=
  (isList_unlink H).1

theorem isList_nil_iff {α : Type} {h : Heap α} {hd tl : Option Addr} {l : List (Addr × α)}
    (H : IsList h hd tl l) : hd = none ↔ l = [] := by
  rw [H.head_eq]
  cases l <;> simp

theorem remove_stack_spec {st : StackState} {A B : List (Addr × NodePtr)} {s : Addr}
    {d : NodePtr} (H : StackRepr st (A ++ (s, d) :: B)) :
    ∃ st', remove_stack st (some s) = some st' ∧ StackRepr st' (A ++ B) ∧ st'.brk = st.brk ∧
      ∀ x, x ∉ (A ++ (s, d) :: B).map Prod.fst → st'.heap x = st.heap x := by
  obtain ⟨hl, hb⟩ := H
  obtain ⟨hs, h1, h2, e1, e2, hl', fr⟩ := isList_unlink hl
  refine ⟨{ heap := h2.free s
            stack_head := if some s = st.stack_head then hdPtr B none else st.stack_head
            stack_tail := if some s = st.stack_tail then lastPtr none A else st.stack_tail
            brk := st.brk }, ?_, ⟨hl', ?_⟩, rfl, fr⟩
  · simp only [remove_stack, hs, e1, e2]
  · intro e he
    exact hb e (by simp at he ⊢; rcases he with he | he <;> simp [he])

theorem remove_stack_scan_spec {st : StackState} (f : NodePtr) {B : List (Addr × NodePtr)} :
    ∀ {A : List (Addr × NodePtr)} {fuel : Nat}, StackRepr st (A ++ B) → B.length < fuel →
    ∃ st', remove_stack_scan st f fuel (hdPtr B none) = some st' ∧
      StackRepr st' (A ++ B.eraseP (fun e => decide (e.2 = f))) ∧ st'.brk = st.brk ∧
      (∀ x, x ∉ (A ++ B).map Prod.fst → st'.heap x = st.heap x) ∧
      ((∀ e ∈ B, e.2 ≠ f) → st' = st) := by
  induction B with
  | nil =>
    intro A fuel H hf
    cases fuel with
    | zero => simp at hf
    | succ fuel => exact ⟨st, rfl, by simpa using H, rfl, fun _ _ => rfl, fun _ => rfl⟩
  | cons e B ih =>
    intro A fuel H hf
    cases fuel with
    | zero => simp at hf
    | succ fuel =>
      obtain ⟨a, d⟩ := e
      have hs := isList_lookup H.1
      by_cases hd : d = f
      · obtain ⟨st', e1, r1, b1, fr1⟩ := remove_stack_spec H
        refine ⟨st', ?_, ?_, b1, fr1, ?_⟩
        · simp [remove_stack_scan, hs, hd, Cell.node, e1]
        · simpa [List.eraseP_cons, hd] using r1
        · intro hall
          exact absurd hd (hall (a, d) (by simp))
      · have H' : StackRepr st ((A ++ [(a, d)]) ++ B) := by simpa using H
        obtain ⟨st', e1, r1, b1, fr1, same1⟩ := ih H' (by simpa using hf)
        refine ⟨st', ?_, ?_, b1, ?_, ?_⟩
        · simp only [remove_stack_scan, hdPtr_cons, hs, Cell.node, hd, if_false]
          exact e1
        · simpa [List.eraseP_cons, hd] using r1
        · intro x hx
          exact fr1 x (by simpa using hx)
        · intro hall
          exact same1 (fun e he => hall e (by simp [he]))

theorem eraseP_eq_filter {l : List (Addr × NodePtr)} {f : NodePtr}
    (nd : (l.map Prod.snd).Nodup) :
    l.eraseP (fun e => decide (e.2 = f)) = l.filter (fun e => decide (e.2 ≠ f)) := by
  induction l with
  | nil => rfl
  | cons e l ih =>
    rw [List.map_cons, List.nodup_cons] at nd
    by_cases h : e.2 = f
    · have hall : ∀ x ∈ l, decide (x.2 ≠ f) = true := by
        intro x hx
        simp only [decide_eq_true_eq]
        rintro hxf
        exact nd.1 (by rw [h, ← hxf]; exact List.mem_map_of_mem _ hx)
      rw [List.eraseP_cons, List.filter_cons]
      simp only [h, decide_True, if_true, ne_eq, not_true_eq_false, decide_False]
      exact (List.filter_eq_self.2 hall).symm
    · simp [List.eraseP_cons, h, List.filter_cons, ih nd.2]

theorem nodup_snd_filter {l : List (Addr × NodePtr)} (p : Addr × NodePtr → Bool)
    (nd : (l.map Prod.snd).Nodup) : ((l.filter p).map Prod.snd).Nodup :=
  nd.sublist ((List.filter_sublist l).map _)

theorem remove_stack_leaves_spec (env : StackEnv) (n : NodePtr) (inner : Nat) :
    ∀ (fs : List NodePtr) (cur : Option NodePtr) (st : StackState) (l : List (Addr × NodePtr))
      (fuel : Nat), LeafWalk env n cur fs → StackRepr st l → (l.map Prod.snd).Nodup →
      l.length < inner → fs.length < fuel →
    ∃ st', remove_stack_leaves env n inner fuel cur st = some st' ∧
      StackRepr st' (l.filter (fun e => decide (e.2 ∉ fs))) ∧ st'.brk = st.brk ∧
      (∀ x, x ∉ l.map Prod.fst → st'.heap x = st.heap x) ∧
      ((∀ e ∈ l, e.2 ∉ fs) → st' = st) := by
  intro fs
  induction fs with
  | nil =>
    intro cur st l fuel hw H _ _ hf
    cases cur with
    | some f => exact absurd hw (by simp [LeafWalk])
    | none =>
      cases fuel with
      | zero => simp at hf
      | succ fuel =>
        exact ⟨st, rfl, by simpa using H, rfl, fun _ _ => rfl, fun _ => rfl⟩
  | cons g rest ih =>
    intro cur st l fuel hw H nd hin hf
    cases cur with
    | none => exact absurd hw (by simp [LeafWalk])
    | some f =>
      obtain ⟨rfl, hw'⟩ := hw
      cases fuel with
      | zero => simp at hf
      | succ fuel =>
        have H0 : StackRepr st ([] ++ l) := by simpa using H
        obtain ⟨st1, e1, r1, b1, fr1, same1⟩ := remove_stack_scan_spec f H0 hin
        rw [List.nil_append, eraseP_eq_filter nd] at r1
        rw [← H.1.head_eq] at e1
        have hlen : (l.filter (fun e => decide (e.2 ≠ f))).length < inner :=
          lt_of_le_of_lt (List.length_filter_le _ _) hin
        obtain ⟨st2, e2, r2, b2, fr2, same2⟩ :=
          ih (env.next_leaf f n) st1 _ fuel hw' r1 (nodup_snd_filter _ nd) hlen
            (by simpa using hf)
        refine ⟨st2, ?_, ?_, b2.trans b1, ?_, ?_⟩
        · simp only [remove_stack_leaves, e1]
          exact e2
        · have : (l.filter (fun e => decide (e.2 ≠ f))).filter (fun e => decide (e.2 ∉ rest))
              = l.filter (fun e => decide (e.2 ∉ f :: rest)) := by
            rw [List.filter_filter]
            congr 1
            funext e
            simp [not_or, Bool.and_comm]
          rw [← this]; exact r2
        · intro x hx
          rw [fr2 x, fr1 x (by simpa using hx)]
          intro hm
          exact hx ((List.filter_sublist l).map _ |>.subset hm)
        · intro hall
          have h1 : st1 = st := same1 (fun e he => by
            have := hall e he
            simp only [List.mem_cons, not_or] at this
            exact fun h => this.1 h)
          subst h1
          apply same2
          intro e he
          have := hall e (List.mem_of_mem_filter he)
          simp only [List.mem_cons, not_or] at this
          exact this.2

theorem insertAfterAddr_split {α : Type} {A B : List (Addr × α)} {a : Addr} {d : α}
    (x : Addr × α) (ha : a ∉ A.map Prod.fst) :
    insertAfterAddr a x (A ++ (a, d) :: B) = A ++ (a, d) :: x :: B := by
  induction A with
  | nil => simp [insertAfterAddr]
  | cons e A ih =>
    have h1 : e.1 ≠ a := fun h => ha (by simp [h])
    have h2 : a ∉ A.map Prod.fst := fun h => ha (by simp at h ⊢; right; exact h)
    simp [insertAfterAddr, h1, ih h2]

theorem insertBeforeAddr_split {α : Type} {A B : List (Addr × α)} {a : Addr} {d : α}
    (x : Addr × α) (ha : a ∉ A.map Prod.fst) :
    insertBeforeAddr a x (A ++ (a, d) :: B) = A ++ x :: (a, d) :: B := by
  induction A with
  | nil => simp [insertBeforeAddr]
  | cons e A ih =>
    have h1 : e.1 ≠ a := fun h => ha (by simp [h])
    have h2 : a ∉ A.map Prod.fst := fun h => ha (by simp at h ⊢; right; exact h)
    simp [insertBeforeAddr, h1, ih h2]

theorem leafWalk_of_isLeaf {env : StackEnv} {n : NodePtr} (hl : IsLeaf env n) :
    LeafWalk env n (env.first_extrema n) [n] := by
  rw [hl.1]
  exact ⟨rfl, by rw [hl.2]; trivial⟩

theorem leafWalk_unique {env : StackEnv} {n : NodePtr} :
    ∀ {fs gs : List NodePtr} {cur : Option NodePtr},
      LeafWalk env n cur fs → LeafWalk env n cur gs → fs = gs := by
  intro fs
  induction fs with
  | nil =>
    intro gs cur h1 h2
    cases cur with
    | some f => exact absurd h1 (by simp [LeafWalk])
    | none =>
      cases gs with
      | nil => rfl
      | cons g gs => exact absurd h2 (by simp [LeafWalk])
  | cons f fs ih =>
    intro gs cur h1 h2
    cases cur with
    | none => exact absurd h1 (by simp [LeafWalk])
    | some c =>
      cases gs with
      | nil => exact absurd h2 (by simp [LeafWalk])
      | cons g gs =>
        obtain ⟨rfl, h1'⟩ := h1
        obtain ⟨rfl, h2'⟩ := h2
        rw [ih h1' h2']

theorem make_stack_repr {st : StackState} {l : List (Addr × NodePtr)} (n : NodePtr)
    (H : StackRepr st l) :
    StackRepr (make_stack st n).1 l ∧ (make_stack st n).2 = st.brk ∧
      (make_stack st n).1.heap st.brk = some ⟨n, none, none⟩ ∧
      (make_stack st n).1.brk = st.brk + 1 ∧
      (make_stack st n).1.stack_head = st.stack_head ∧
      (make_stack st n).1.stack_tail = st.stack_tail ∧
      st.brk ∉ l.map Prod.fst ∧
      ∀ x, x ≠ st.brk → (make_stack st n).1.heap x = st.heap x := by
  have hnot : st.brk ∉ l.map Prod.fst := by
    intro hm
    obtain ⟨e, he, heq⟩ := List.mem_map.1 hm
    have hlt : e.1 < st.brk := H.2 e he
    rw [heq] at hlt
    exact lt_irrefl _ hlt
  refine ⟨⟨isList_congr (fun x hx => ?_) H.1, fun e he => ?_⟩, rfl, ?_, rfl, rfl, rfl, hnot, ?_⟩
  · simp only [make_stack]
    rw [Function.update_noteq]
    rintro rfl; exact hnot hx
  · exact Nat.lt_succ_of_lt (H.2 e he)
  · simp [make_stack]
  · intro x hx
    simp [make_stack, Function.update_noteq hx]

theorem remove_stack_node_leaf_spec {env : StackEnv} {st : StackState}
    {l : List (Addr × NodePtr)} {n : NodePtr} {fuel : Nat}
    (H : StackRepr st l) (nd : (l.map Prod.snd).Nodup) (hl : IsLeaf env n)
    (hf : l.length < fuel) (hf1 : 1 < fuel) :
    ∃ st', remove_stack_node env fuel st n = some st' ∧
      StackRepr st' (l.filter (fun e => decide (e.2 ≠ n))) ∧ st'.brk = st.brk ∧
      (∀ x, x ∉ l.map Prod.fst → st'.heap x = st.heap x) ∧
      ((∀ e ∈ l, e.2 ≠ n) → st' = st) := by
  obtain ⟨st', e1, r1, b1, fr1, same1⟩ :=
    remove_stack_leaves_spec env n fuel [n] (env.first_extrema n) st l fuel
      (leafWalk_of_isLeaf hl) H nd hf (by simpa using hf1)
  have hfil : l.filter (fun e => decide (e.2 ∉ [n])) = l.filter (fun e => decide (e.2 ≠ n)) := by
    congr 1; funext e; simp
  rw [hfil] at r1
  exact ⟨st', e1, r1, b1, fr1, fun hall => same1 (fun e he => by simpa using hall e he)⟩

theorem stack_insert_after_spec {env : StackEnv} {st : StackState}
    {l : List (Addr × NodePtr)} {a : Addr} {d n : NodePtr} {fuel : Nat}
    (H : StackRepr st l) (nd : (l.map Prod.snd).Nodup) (ha : (a, d) ∈ l) (hl : IsLeaf env n)
    (hdn : d ≠ n) (hf : l.length < fuel) :
    ∃ st', stack_insert_after env fuel st (some a) n = some st' ∧
      StackRepr st' (insertAfterAddr a (st.brk, n) (l.filter (fun e => decide (e.2 ≠ n)))) ∧
      st'.brk = st.brk + 1 ∧ ∃ p q, st'.heap a = some ⟨d, p, q⟩ := by
  obtain ⟨r0, -, hs0, b0, -, -, hnot, fr0⟩ := make_stack_repr n H
  have hlen : 0 < l.length := List.length_pos_of_mem ha
  obtain ⟨st1, e1, r1, b1, fr1, -⟩ :=
    remove_stack_node_leaf_spec r0 nd hl hf (by omega)
  have hmem : (a, d) ∈ l.filter (fun e => decide (e.2 ≠ n)) := by
    simp [List.mem_filter, ha, hdn]
  obtain ⟨A, B, hAB⟩ := List.append_of_mem hmem
  rw [hAB] at r1 ⊢
  have hs1 : st1.heap st.brk = some ⟨n, none, none⟩ := by rw [fr1 _ hnot]; exact hs0
  have hsL : st.brk ∉ (A ++ (a, d) :: B).map Prod.fst := by
    rw [← hAB]
    intro hm
    exact hnot ((List.filter_sublist l).map _ |>.subset hm)
  obtain ⟨ha1, h1, h2, h3, h4, e2, e3, e4, e5, r5, fr5⟩ := isList_insert_after r1.1 hs1 hsL
  have haA : a ∉ A.map Prod.fst := (nodup_middle r1.1.nodup).2.2.1
  have ha0 : (make_stack st n).1.heap a = some ⟨d, (st.heap a).bind Cell.prev,
      (st.heap a).bind Cell.next⟩ := by
    obtain ⟨A0, B0, hAB0⟩ := List.append_of_mem ha
    have H0 := r0
    rw [hAB0] at H0
    have hx := isList_lookup H0.1
    have hy := H
    rw [hAB0] at hy
    have hz := isList_lookup hy.1
    rw [hx, hz]; rfl
  rw [insertAfterAddr_split _ haA]
  have hlast : h4 a = some ⟨d, lastPtr none A, some st.brk⟩ := by
    have := r5.seg
    rw [seg_append] at this
    exact this.2.1
  refine ⟨{ heap := h4, stack_head := st1.stack_head,
            stack_tail := if st1.stack_tail = some a then some st.brk else st1.stack_tail,
            brk := st1.brk }, ?_, ⟨r5, ?_⟩, by rw [b1, b0], ?_⟩
  · unfold stack_insert_after
    simp only [make_stack] at ha0 e1 ⊢
    simp only [ha0, Cell.node, hdn, if_false, e1, ha1, e2, e3, e4, e5]
  · intro e he
    show e.1 < st1.brk
    simp only [List.mem_append, List.mem_cons] at he
    rcases he with he | rfl | rfl | he
    · exact r1.2 e (by simp [he])
    · exact r1.2 _ (by simp)
    · rw [b1, b0]; exact Nat.lt_succ_self _
    · exact r1.2 e (by simp [he])
  · exact ⟨_, _, hlast⟩

theorem stack_insert_before_spec {env : StackEnv} {st : StackState}
    {l : List (Addr × NodePtr)} {a : Addr} {d n : NodePtr} {fuel : Nat}
    (H : StackRepr st l) (nd : (l.map Prod.snd).Nodup) (ha : (a, d) ∈ l) (hl : IsLeaf env n)
    (hdn : d ≠ n) (hf : l.length < fuel) :
    ∃ st', stack_insert_before env fuel st (some a) n = some st' ∧
      StackRepr st' (insertBeforeAddr a (st.brk, n) (l.filter (fun e => decide (e.2 ≠ n)))) ∧
      st'.brk = st.brk + 1 ∧ ∃ p q, st'.heap a = some ⟨d, p, q⟩ := by
  obtain ⟨r0, -, hs0, b0, -, -, hnot, fr0⟩ := make_stack_repr n H
  have hlen : 0 < l.length := List.length_pos_of_mem ha
  obtain ⟨st1, e1, r1, b1, fr1, -⟩ :=
    remove_stack_node_leaf_spec r0 nd hl hf (by omega)
  have hmem : (a, d) ∈ l.filter (fun e => decide (e.2 ≠ n)) := by
    simp [List.mem_filter, ha, hdn]
  obtain ⟨A, B, hAB⟩ := List.append_of_mem hmem
  rw [hAB] at r1 ⊢
  have hs1 : st1.heap st.brk = some ⟨n, none, none⟩ := by rw [fr1 _ hnot]; exact hs0
  have hsL : st.brk ∉ (A ++ (a, d) :: B).map Prod.fst := by
    rw [← hAB]
    intro hm
    exact hnot ((List.filter_sublist l).map _ |>.subset hm)
  obtain ⟨ha1, h1, h2, h3, h4, e2, e3, e4, e5, r5, fr5⟩ := isList_insert_before r1.1 hs1 hsL
  have haA : a ∉ A.map Prod.fst := (nodup_middle r1.1.nodup).2.2.1
  have ha0 : (make_stack st n).1.heap a = some ⟨d, (st.heap a).bind Cell.prev,
      (st.heap a).bind Cell.next⟩ := by
    obtain ⟨A0, B0, hAB0⟩ := List.append_of_mem ha
    have H0 := r0
    rw [hAB0] at H0
    have hx := isList_lookup H0.1
    have hy := H
    rw [hAB0] at hy
    have hz := isList_lookup hy.1
    rw [hx, hz]; rfl
  rw [insertBeforeAddr_split _ haA]
  have hlast : h4 a = some ⟨d, some st.brk, hdPtr B none⟩ := by
    have := r5.seg
    rw [seg_append] at this
    exact this.2.2.1
  refine ⟨{ heap := h4,
            stack_head := if st1.stack_head = some a then some st.brk else st1.stack_head,
            stack_tail := st1.stack_tail, brk := st1.brk }, ?_, ⟨r5, ?_⟩, by rw [b1, b0], ?_⟩
  · unfold stack_insert_before
    simp only [make_stack] at ha0 e1 ⊢
    simp only [ha0, Cell.node, hdn, if_false, e1, ha1, e2, e3, e4, e5]
  · intro e he
    show e.1 < st1.brk
    simp only [List.mem_append, List.mem_cons] at he
    rcases he with he | rfl | rfl | he
    · exact r1.2 e (by simp [he])
    · rw [b1, b0]; exact Nat.lt_succ_self _
    · exact r1.2 _ (by simp)
    · exact r1.2 e (by simp [he])
  · exact ⟨_, _, hlast⟩

theorem stack_insert_same_spec (env : StackEnv) {st : StackState}
    {l : List (Addr × NodePtr)} {a : Addr} {n : NodePtr} (fuel : Nat)
    (H : StackRepr st l) (ha : (a, n) ∈ l) :
    ∃ st', stack_insert_after env fuel st (some a) n = some st' ∧
      stack_insert_before env fuel st (some a) n = some st' ∧ StackRepr st' l ∧
      st'.stack_head = st.stack_head ∧ st'.stack_tail = st.stack_tail ∧
      ∀ x, x ≠ st.brk → st'.heap x = st.heap x := by
  obtain ⟨r0, -, hs0, b0, -, -, hnot, fr0⟩ := make_stack_repr n H
  have ha0 : (make_stack st n).1.heap a = some ⟨n, (st.heap a).bind Cell.prev,
      (st.heap a).bind Cell.next⟩ := by
    obtain ⟨A0, B0, hAB0⟩ := List.append_of_mem ha
    have H0 := r0
    rw [hAB0] at H0
    have hx := isList_lookup H0.1
    have hy := H
    rw [hAB0] at hy
    have hz := isList_lookup hy.1
    rw [hx, hz]; rfl
  refine ⟨{ (make_stack st n).1 with heap := (make_stack st n).1.heap.free st.brk }, ?_, ?_,
    ⟨isList_congr (fun x hx => ?_) r0.1, r0.2⟩, rfl, rfl, ?_⟩
  · unfold stack_insert_after
    simp only [make_stack] at ha0 ⊢
    simp only [ha0, Cell.node, if_true]
  · unfold stack_insert_before
    simp only [make_stack] at ha0 ⊢
    simp only [ha0, Cell.node, if_true]
  · show Function.update _ _ _ _ = _
    rw [Function.update_noteq]
    rintro rfl; exact hnot hx
  · intro x hx
    show Function.update _ _ _ _ = _
    rw [Function.update_noteq hx]
    exact fr0 x hx

theorem stack_insert_null_spec (env : StackEnv) (fuel : Nat) (st : StackState) (n : NodePtr) :
    ∃ st', stack_insert_after env fuel st none n = some st' ∧
      stack_insert_before env fuel st none n = some st' ∧
      StackRepr st' [(st.brk, n)] ∧ st'.stack_head = some st.brk ∧
      st'.stack_tail = some st.brk ∧ st'.heap st.brk = some ⟨n, none, none⟩ ∧
      st'.brk = st.brk + 1 := by
  refine ⟨{ (make_stack st n).1 with stack_head := some st.brk, stack_tail := some st.brk },
    rfl, rfl, ⟨⟨by simp, ?_, rfl, rfl⟩, ?_⟩, rfl, rfl, ?_, rfl⟩
  · exact ⟨by simp [make_stack], trivial⟩
  · intro e he
    simp only [List.mem_singleton] at he
    subst he
    exact Nat.lt_succ_self _
  · simp [make_stack]

theorem onChain_mem {α : Type} {h : Heap α} {q : Option Addr} {x : Addr} :
    ∀ {B : List (Addr × α)} {p : Option Addr}, Seg h p B none → OnChain h q x →
      q = hdPtr B none → x ∈ B.map Prod.fst := by
  intro B p hs hc
  induction hc generalizing B p with
  | here a =>
    intro hq
    exact hdPtr_mem hq.symm
  | step b c a hb _ ih =>
    intro hq
    cases B with
    | nil => simp at hq
    | cons e B =>
      simp only [hdPtr_cons, Option.some.injEq] at hq
      subst hq
      obtain ⟨he, hB⟩ := hs
      rw [hb] at he
      cases he
      have := ih hB rfl
      simp only [List.map_cons, List.mem_cons]
      right; exact this

theorem stackRepr_lookup {st : StackState} {l : List (Addr × NodePtr)} {a : Addr}
    (H : StackRepr st l) (ha : a ∈ l.map Prod.fst) :
    ∃ d p q, (a, d) ∈ l ∧ st.heap a = some ⟨d, p, q⟩ := by
  obtain ⟨e, he, rfl⟩ := List.mem_map.1 ha
  obtain ⟨A, B, hAB⟩ := List.append_of_mem he
  have H' := H.1
  rw [hAB] at H'
  exact ⟨e.2, _, _, he, isList_lookup H'⟩

theorem remove_stack_scan_mono {st : StackState} {f : NodePtr} :
    ∀ {fuel : Nat} {s : Option Addr} {st' : StackState},
      remove_stack_scan st f fuel s = some st' → remove_stack_scan st f (fuel + 1) s = some st' := by
  intro fuel
  induction fuel with
  | zero => intro s st' h; simp [remove_stack_scan] at h
  | succ fuel ih =>
    intro s st' h
    cases s with
    | none => simpa [remove_stack_scan] using h
    | some s =>
      simp only [remove_stack_scan] at h ⊢
      cases hc : st.heap s with
      | none => simp [hc] at h
      | some c =>
        simp only [hc] at h ⊢
        by_cases hn : c.node = f
        · simpa [hn] using h
        · simp only [hn, if_false] at h ⊢
          exact ih h

theorem remove_stack_leaves_mono {env : StackEnv} {n : NodePtr} :
    ∀ {fuel inner : Nat} {cur : Option NodePtr} {st st' : StackState},
      remove_stack_leaves env n inner fuel cur st = some st' →
      remove_stack_leaves env n (inner + 1) (fuel + 1) cur st = some st' := by
  intro fuel
  induction fuel with
  | zero => intro inner cur st st' h; simp [remove_stack_leaves] at h
  | succ fuel ih =>
    intro inner cur st st' h
    cases cur with
    | none => simpa [remove_stack_leaves] using h
    | some f =>
      simp only [remove_stack_leaves] at h ⊢
      cases hc : remove_stack_scan st f inner st.stack_head with
      | none => simp [hc] at h
      | some st1 =>
        simp only [hc] at h
        simp only [remove_stack_scan_mono hc]
        exact ih h

theorem remove_stack_node_mono {env : StackEnv} {st st' : StackState} {n : NodePtr}
    {fuel fuel' : Nat} (hle : fuel ≤ fuel')
    (h : remove_stack_node env fuel st n = some st') :
    remove_stack_node env fuel' st n = some st' := by
  induction hle with
  | refl => exact h
  | step _ ih => exact remove_stack_leaves_mono ih

theorem stack_insert_after_mono {env : StackEnv} {st st' : StackState} {a : Option Addr}
    {n : NodePtr} {fuel fuel' : Nat} (hle : fuel ≤ fuel')
    (h : stack_insert_after env fuel st a n = some st') :
    stack_insert_after env fuel' st a n = some st' := by
  unfold stack_insert_after at h ⊢
  cases a with
  | none => exact h
  | some a =>
    simp only at h ⊢
    cases hc : (make_stack st n).1.heap a with
    | none => simp [hc] at h
    | some ca =>
      simp only [hc] at h ⊢
      by_cases hn : ca.node = n
      · simpa [hn] using h
      · simp only [hn, if_false] at h ⊢
        cases hr : remove_stack_node env fuel (make_stack st n).1 n with
        | none => simp [hr] at h
        | some st1 =>
          simp only [hr] at h
          simp only [remove_stack_node_mono hle hr]
          exact h

theorem stack_insert_before_mono {env : StackEnv} {st st' : StackState} {a : Option Addr}
    {n : NodePtr} {fuel fuel' : Nat} (hle : fuel ≤ fuel')
    (h : stack_insert_before env fuel st a n = some st') :
    stack_insert_before env fuel' st a n = some st' := by
  unfold stack_insert_before at h ⊢
  cases a with
  | none => exact h
  | some a =>
    simp only at h ⊢
    cases hc : (make_stack st n).1.heap a with
    | none => simp [hc] at h
    | some ca =>
      simp only [hc] at h ⊢
      by_cases hn : ca.node = n
      · simpa [hn] using h
      · simp only [hn, if_false] at h ⊢
        cases hr : remove_stack_node env fuel (make_stack st n).1 n with
        | none => simp [hr] at h
        | some st1 =>
          simp only [hr] at h
          simp only [remove_stack_node_mono hle hr]
          exact h

theorem stackOp_run_mono {env : StackEnv} {st st' : StackState} {op : StackOp}
    {fuel fuel' : Nat} (hle : fuel ≤ fuel') (h : op.run env fuel st = some st') :
    op.run env fuel' st = some st' := by
  cases op with
  | stack_insert_after a n => exact stack_insert_after_mono hle h
  | stack_insert_before a n => exact stack_insert_before_mono hle h
  | remove_stack_node n => exact remove_stack_node_mono hle h

theorem insertAfterAddr_perm {α : Type} {a : Addr} (x : Addr × α) :
    ∀ {l : List (Addr × α)}, a ∈ l.map Prod.fst → (insertAfterAddr a x l).Perm (x :: l) := by
  intro l
  induction l with
  | nil => intro h; simp at h
  | cons e l ih =>
    intro h
    by_cases he : e.1 = a
    · simp only [insertAfterAddr, he, if_true]
      exact List.Perm.swap x e l
    · simp only [insertAfterAddr, he, if_false]
      have hm : a ∈ l.map Prod.fst := by
        simp only [List.map_cons, List.mem_cons] at h
        rcases h with h | h
        · exact absurd h.symm he
        · exact h
      exact ((ih hm).cons e).trans (List.Perm.swap x e l)

theorem insertBeforeAddr_perm {α : Type} {a : Addr} (x : Addr × α) :
    ∀ {l : List (Addr × α)}, a ∈ l.map Prod.fst → (insertBeforeAddr a x l).Perm (x :: l) := by
  intro l
  induction l with
  | nil => intro h; simp at h
  | cons e l ih =>
    intro h
    by_cases he : e.1 = a
    · simp only [insertBeforeAddr, he, if_true]
      exact List.Perm.refl _
    · simp only [insertBeforeAddr, he, if_false]
      have hm : a ∈ l.map Prod.fst := by
        simp only [List.map_cons, List.mem_cons] at h
        rcases h with h | h
        · exact absurd h.symm he
        · exact h
      exact ((ih hm).cons e).trans (List.Perm.swap x e l)

theorem nodup_cons_filter_ne {l : List (Addr × NodePtr)} (s : Addr) (n : NodePtr)
    (nd : (l.map Prod.snd).Nodup) :
    (((s, n) :: l.filter (fun e => decide (e.2 ≠ n))).map Prod.snd).Nodup := by
  rw [List.map_cons, List.nodup_cons]
  refine ⟨?_, nodup_snd_filter _ nd⟩
  intro hm
  obtain ⟨e, he, hen⟩ := List.mem_map.1 hm
  have := (List.mem_filter.1 he).2
  simp only [decide_eq_true_eq] at this
  exact this hen

theorem stackOp_step {env : StackEnv} {st : StackState} {l : List (Addr × NodePtr)}
    (H : StackRepr st l) (nd : (l.map Prod.snd).Nodup) (op : StackOp)
    (hop : op.Admissible env st) :
    ∃ k, ∀ fuel, k ≤ fuel → ∃ st' l', op.run env fuel st = some st' ∧ StackRepr st' l' ∧
      (l'.map Prod.snd).Nodup := by
  cases op with
  | stack_insert_after a n =>
    obtain ⟨hanchor, hleaf⟩ := hop
    refine ⟨l.length + 1, fun fuel hk => ?_⟩
    cases a with
    | none =>
      obtain ⟨st', e1, -, r1, -⟩ := stack_insert_null_spec env fuel st n
      exact ⟨st', _, e1, r1, by simp⟩
    | some a =>
      have hmem := onChain_mem H.1.seg (hanchor a rfl) H.1.head_eq
      obtain ⟨d, p, q, had, -⟩ := stackRepr_lookup H hmem
      by_cases hdn : d = n
      · subst hdn
        obtain ⟨st', e1, -, r1, -⟩ := stack_insert_same_spec env fuel H had
        exact ⟨st', l, e1, r1, nd⟩
      · obtain ⟨st', e1, r1, -⟩ := stack_insert_after_spec H nd had hleaf hdn (Nat.lt_of_succ_le hk)
        refine ⟨st', _, e1, r1, ?_⟩
        have hm : a ∈ (l.filter (fun e => decide (e.2 ≠ n))).map Prod.fst :=
          List.mem_map.2 ⟨(a, d), by simp [List.mem_filter, had, hdn], rfl⟩
        exact ((insertAfterAddr_perm (st.brk, n) hm).map Prod.snd).nodup_iff.2
          (nodup_cons_filter_ne _ _ nd)
  | stack_insert_before a n =>
    obtain ⟨hanchor, hleaf⟩ := hop
    refine ⟨l.length + 1, fun fuel hk => ?_⟩
    cases a with
    | none =>
      obtain ⟨st', -, e1, r1, -⟩ := stack_insert_null_spec env fuel st n
      exact ⟨st', _, e1, r1, by simp⟩
    | some a =>
      have hmem := onChain_mem H.1.seg (hanchor a rfl) H.1.head_eq
      obtain ⟨d, p, q, had, -⟩ := stackRepr_lookup H hmem
      by_cases hdn : d = n
      · subst hdn
        obtain ⟨st', -, e1, r1, -⟩ := stack_insert_same_spec env fuel H had
        exact ⟨st', l, e1, r1, nd⟩
      · obtain ⟨st', e1, r1, -⟩ := stack_insert_before_spec H nd had hleaf hdn (Nat.lt_of_succ_le hk)
        refine ⟨st', _, e1, r1, ?_⟩
        have hm : a ∈ (l.filter (fun e => decide (e.2 ≠ n))).map Prod.fst :=
          List.mem_map.2 ⟨(a, d), by simp [List.mem_filter, had, hdn], rfl⟩
        exact ((insertBeforeAddr_perm (st.brk, n) hm).map Prod.snd).nodup_iff.2
          (nodup_cons_filter_ne _ _ nd)
  | remove_stack_node n =>
    obtain ⟨fs, hw⟩ := hop
    refine ⟨l.length + fs.length + 1, fun fuel hk => ?_⟩
    obtain ⟨st', e1, r1, -⟩ :=
      remove_stack_leaves_spec env n fuel fs (env.first_extrema n) st l fuel hw H nd
        (by omega) (by omega)
    exact ⟨st', _, e1, r1, nodup_snd_filter _ nd⟩

theorem stackRepr_empty : StackRepr StackState.empty [] :=
  ⟨⟨by simp, trivial, rfl, rfl⟩, by simp⟩

/-- C2: every state reached from the empty stacking list by `stack_insert_after`,
`stack_insert_before` (anchor `NULL` or an entry of the list, leaf node) and
`remove_stack_node` calls holds a well-formed list in which no node occurs twice; and every
further admissible call returns once the fuel bound exceeds the lengths walked. -/
theorem C2_stack_list_no_duplicates (env : StackEnv) (st : StackState)
    (hreach : StackReachable env st) :
    ∃ l, StackRepr st l ∧ (l.map Prod.snd).Nodup ∧
      ∀ op : StackOp, op.Admissible env st →
        ∃ k, ∀ fuel, k ≤ fuel → ∃ st', op.run env fuel st = some st' := by
  have key : ∃ l, StackRepr st l ∧ (l.map Prod.snd).Nodup := by
    induction hreach with
    | init => exact ⟨[], stackRepr_empty, by simp⟩
    | step st st' op fuel _ hadm hrun ih =>
      obtain ⟨l, H, nd⟩ := ih
      obtain ⟨k, hk⟩ := stackOp_step H nd op hadm
      obtain ⟨st'', l', e1, r1, nd1⟩ := hk (max k fuel) (le_max_left _ _)
      have := stackOp_run_mono (le_max_right k fuel) hrun
      rw [this] at e1
      cases e1
      exact ⟨l', r1, nd1⟩
  obtain ⟨l, H, nd⟩ := key
  refine ⟨l, H, nd, fun op hadm => ?_⟩
  obtain ⟨k, hk⟩ := stackOp_step H nd op hadm
  exact ⟨k, fun fuel hf => by
    obtain ⟨st', _, e1, _⟩ := hk fuel hf
    exact ⟨st', e1⟩⟩

/-- C3: on a duplicate-free stacking list `remove_stack_node(n)` returns, and the list
afterwards is the prior list without the entries of the leaves visited from `n` (for a leaf
`n`: of `n` itself), the other entries in their prior order with `stack_head` and `stack_tail`
the first and last of them; when no entry of such a leaf was present, the state is
unchanged. -/
theorem C3_remove_stack_node_exact (env : StackEnv) (st : StackState)
    (l : List (Addr × NodePtr)) (n : NodePtr) (leaves : List NodePtr) (fuel : Nat)
    (hrepr : StackRepr st l) (hnd : (l.map Prod.snd).Nodup)
    (hwalk : LeafWalk env n (env.first_extrema n) leaves)
    (hfuel : l.length < fuel ∧ leaves.length < fuel) :
    (IsLeaf env n → leaves = [n]) ∧
    ∃ st', remove_stack_node env fuel st n = some st' ∧
      StackRepr st' (l.filter (fun e => decide (e.2 ∉ leaves))) ∧
      (∀ e ∈ l.filter (fun e => decide (e.2 ∉ leaves)), e.2 ∉ leaves) ∧
      (∀ e ∈ l, e.2 ∉ leaves → e ∈ l.filter (fun e => decide (e.2 ∉ leaves))) ∧
      ((∀ e ∈ l, e.2 ∉ leaves) → st' = st) := by
  refine ⟨fun hl => leafWalk_unique hwalk (leafWalk_of_isLeaf hl), ?_⟩
  obtain ⟨st', e1, r1, -, -, same1⟩ :=
    remove_stack_leaves_spec env n fuel leaves (env.first_extrema n) st l fuel hwalk hrepr hnd
      hfuel.1 hfuel.2
  refine ⟨st', e1, r1, ?_, ?_, same1⟩
  · intro e he
    simpa using (List.mem_filter.1 he).2
  · intro e he hne
    exact List.mem_filter.2 ⟨he, by simpa using hne⟩

/-- C4: on a duplicate-free stacking list, for an entry `a` (holding node `d`) and a leaf `n`:
if `d` is not `n`, `stack_insert_after(a, n)` returns the prior list without the old entry of
`n` and with a new entry for `n` immediately after `a`, `stack_insert_before(a, n)` the same
with the new entry immediately before `a`, head and tail being the first and last entry of the
result; if `d` is `n`, both leave the list, `stack_head` and `stack_tail` as they were. -/
theorem C4_stack_insert_at_anchor (env : StackEnv) (st : StackState)
    (l : List (Addr × NodePtr)) (a : Addr) (d n : NodePtr) (fuel : Nat)
    (hrepr : StackRepr st l) (hnd : (l.map Prod.snd).Nodup) (ha : (a, d) ∈ l)
    (hleaf : IsLeaf env n) (hfuel : l.length < fuel) :
    (d ≠ n →
      (∃ st', stack_insert_after env fuel st (some a) n = some st' ∧
        StackRepr st'
          (insertAfterAddr a (st.brk, n) (l.filter (fun e => decide (e.2 ≠ n))))) ∧
      (∃ st', stack_insert_before env fuel st (some a) n = some st' ∧
        StackRepr st'
          (insertBeforeAddr a (st.brk, n) (l.filter (fun e => decide (e.2 ≠ n)))))) ∧
    (d = n →
      ∃ st', stack_insert_after env fuel st (some a) n = some st' ∧
        stack_insert_before env fuel st (some a) n = some st' ∧ StackRepr st' l ∧
        st'.stack_head = st.stack_head ∧ st'.stack_tail = st.stack_tail ∧
        ∀ x, x ≠ st.brk → st'.heap x = st.heap x) := by
  constructor
  · intro hdn
    obtain ⟨st1, e1, r1, -⟩ := stack_insert_after_spec hrepr hnd ha hleaf hdn hfuel
    obtain ⟨st2, e2, r2, -⟩ := stack_insert_before_spec hrepr hnd ha hleaf hdn hfuel
    exact ⟨⟨st1, e1, r1⟩, ⟨st2, e2, r2⟩⟩
  · intro hdn
    subst hdn
    exact stack_insert_same_spec env fuel hrepr ha

/-- C5: whatever the prior state, `stack_insert_after(NULL, n)` and
`stack_insert_before(NULL, n)` return with the stacking list equal to the single new entry
for `n`: `stack_head` and `stack_tail` both point to it and its `prev` and `next` are `NULL`. -/
theorem C5_stack_insert_null_anchor (env : StackEnv) (fuel : Nat) (st : StackState)
    (n : NodePtr) :
    ∃ st', stack_insert_after env fuel st none n = some st' ∧
      stack_insert_before env fuel st none n = some st' ∧
      StackRepr st' [(st.brk, n)] ∧ st'.stack_head = some st.brk ∧
      st'.stack_tail = some st.brk ∧ st'.heap st.brk = some ⟨n, none, none⟩ := by
  obtain ⟨st', e1, e2, r, hh, ht, hc, -⟩ := stack_insert_null_spec env fuel st n
  exact ⟨st', e1, e2, r, hh, ht, hc⟩

theorem sampleStack_repr : StackRepr sampleStack [(0, 1), (1, 2), (2, 3)] :=
  ⟨⟨by decide, ⟨rfl, rfl, rfl, trivial⟩, rfl, rfl⟩, by decide⟩

/-- Witness for C2: the state reached by `stack_insert_after(NULL, 1)` followed by
`stack_insert_before(head, 2)`. -/
theorem C2_stack_list_no_duplicates_witness :
    ∃ st, StackReachable sampleEnv st ∧
      ∃ l, StackRepr st l ∧ (l.map Prod.snd).Nodup ∧
        ∀ op : StackOp, op.Admissible sampleEnv st →
          ∃ k, ∀ fuel, k ≤ fuel → ∃ st', op.run sampleEnv fuel st = some st' := by
  obtain ⟨st1, e1, -, r1, h1, -⟩ := stack_insert_null_spec sampleEnv 3 StackState.empty 1
  have hr1 : StackReachable sampleEnv st1 :=
    StackReachable.step _ _ (StackOp.stack_insert_after none 1) 3 StackReachable.init
      ⟨fun x hx => (by cases hx), by decide⟩ e1
  obtain ⟨st2, e2, -⟩ :=
    @stack_insert_before_spec sampleEnv _ _ 0 1 2 3 r1 (by decide)
      (List.mem_singleton.2 rfl) (by decide) (by decide) (by decide)
  have hr2 : StackReachable sampleEnv st2 :=
    StackReachable.step _ _ (StackOp.stack_insert_before (some 0) 2) 3 hr1
      ⟨fun x hx => (by cases hx; rw [h1]; exact OnChain.here _), by decide⟩ e2
  exact ⟨st2, hr2, C2_stack_list_no_duplicates sampleEnv st2 hr2⟩

/-- Witness for C3: removing the inner node `10`, whose leaves are `1` and `2`. -/
theorem C3_remove_stack_node_exact_witness :
    StackRepr sampleStack [(0, 1), (1, 2), (2, 3)] ∧
    LeafWalk sampleEnv 10 (sampleEnv.first_extrema 10) [1, 2] ∧
    ∃ st', remove_stack_node sampleEnv 4 sampleStack 10 = some st' ∧
      StackRepr st' [(2, 3)] := by
  refine ⟨sampleStack_repr, ⟨rfl, rfl, trivial⟩, ?_⟩
  obtain ⟨st', h1, h2, -⟩ :=
    (C3_remove_stack_node_exact sampleEnv sampleStack [(0, 1), (1, 2), (2, 3)] 10 [1, 2] 4
      sampleStack_repr (by decide) ⟨rfl, rfl, trivial⟩ ⟨by decide, by decide⟩).2
  exact ⟨st', h1, h2⟩

/-- Witness for C4: inserting leaf `3` after and before the entry of node `1`. -/
theorem C4_stack_insert_at_anchor_witness :
    StackRepr sampleStack [(0, 1), (1, 2), (2, 3)] ∧ IsLeaf sampleEnv 3 ∧
    (∃ st', stack_insert_after sampleEnv 4 sampleStack (some 0) 3 = some st' ∧
      StackRepr st' [(0, 1), (3, 3), (1, 2)]) ∧
    (∃ st', stack_insert_before sampleEnv 4 sampleStack (some 0) 3 = some st' ∧
      StackRepr st' [(3, 3), (0, 1), (1, 2)]) :=
  ⟨sampleStack_repr, by decide,
    (C4_stack_insert_at_anchor sampleEnv sampleStack [(0, 1), (1, 2), (2, 3)] 0 1 3 4
      sampleStack_repr (by decide) (by decide) (by decide) (by decide)).1 (by decide)⟩

theorem stack_cmp_eq (c1 c2 : client_t) : stack_cmp c1 c2 = stack_level c1 - stack_level c2 := by
  rcases c1 with ⟨s1, l1⟩
  rcases c2 with ⟨s2, l2⟩
  cases s1 <;> cases l1 <;> cases s2 <;> cases l2 <;> decide

theorem levelOf_eq {env : StackEnv} {x : NodePtr} {c : client_t}
    (h : (env.node x).client = some c) : levelOf env x = stack_level c := by
  simp [levelOf, h]

theorem limit_above_loop_spec {env : StackEnv} {st : StackState} {n : NodePtr} {c : client_t}
    (hc : (env.node n).client = some c) {B : List (Addr × NodePtr)} :
    ∀ {A : List (Addr × NodePtr)} {fuel : Nat}, StackRepr st (A ++ B) →
      (∀ e ∈ B, (env.node e.2).client ≠ none) → B.length < fuel →
      limit_above_loop env st.heap n fuel (hdPtr B none)
        = some (hdPtr (B.dropWhile (fun e => decide (levelOf env e.2 ≤ levelOf env n))) none) := by
  induction B with
  | nil =>
    intro A fuel _ _ hf
    cases fuel with
    | zero => simp at hf
    | succ fuel => rfl
  | cons e B ih =>
    intro A fuel H hcl hf
    cases fuel with
    | zero => simp at hf
    | succ fuel =>
      obtain ⟨a, d⟩ := e
      have hs := isList_lookup H.1
      obtain ⟨sc, hsc⟩ := Option.ne_none_iff_exists'.1 (hcl (a, d) (by simp))
      have hcmp : stack_cmp c sc ≥ 0 ↔ levelOf env d ≤ levelOf env n := by
        rw [stack_cmp_eq, levelOf_eq hc, levelOf_eq hsc]; omega
      simp only [hdPtr_cons, limit_above_loop, hc, hs, Cell.node, hsc]
      by_cases hp : levelOf env d ≤ levelOf env n
      · have H' : StackRepr st ((A ++ [(a, d)]) ++ B) := by simpa using H
        rw [if_pos (hcmp.2 hp), ih H' (fun e he => hcl e (by simp [he])) (by simpa using hf)]
        simp [List.dropWhile_cons, hp]
      · rw [if_neg (fun h => hp (hcmp.1 h))]
        simp [List.dropWhile_cons, hp]

theorem limit_below_loop_spec {env : StackEnv} {st : StackState} {n : NodePtr} {c : client_t}
    (hc : (env.node n).client = some c) (A : List (Addr × NodePtr)) :
    ∀ {B : List (Addr × NodePtr)} {fuel : Nat}, StackRepr st (A ++ B) →
      (∀ e ∈ A, (env.node e.2).client ≠ none) → A.length < fuel →
      limit_below_loop env st.heap n fuel (lastPtr none A)
        = some (lastPtr none
            (A.rdropWhile (fun e => decide (levelOf env n ≤ levelOf env e.2)))) := by
  induction A using List.reverseRecOn with
  | nil =>
    intro B fuel _ _ hf
    cases fuel with
    | zero => simp at hf
    | succ fuel => rfl
  | append_singleton A e ih =>
    intro B fuel H hcl hf
    cases fuel with
    | zero => simp at hf
    | succ fuel =>
      obtain ⟨a, d⟩ := e
      have H' : StackRepr st (A ++ (a, d) :: B) := by simpa using H
      have hs := isList_lookup H'.1
      obtain ⟨sc, hsc⟩ := Option.ne_none_iff_exists'.1 (hcl (a, d) (by simp))
      have hcmp : stack_cmp c sc ≤ 0 ↔ levelOf env n ≤ levelOf env d := by
        rw [stack_cmp_eq, levelOf_eq hc, levelOf_eq hsc]; omega
      simp only [lastPtr_append, lastPtr_cons, lastPtr_nil, limit_below_loop, hc, hs, Cell.node,
        hsc]
      by_cases hp : levelOf env n ≤ levelOf env d
      · rw [if_pos (hcmp.2 hp), ih H' (fun e he => hcl e (by simp [he])) (by simpa using hf),
          List.rdropWhile_concat_pos _ _ _ (by simpa using hp)]
      · rw [if_neg (fun h => hp (hcmp.1 h)),
          List.rdropWhile_concat_neg _ _ _ (by simpa using hp)]
        simp [lastPtr_append]

theorem stackRepr_lookup_mem {st : StackState} {l : List (Addr × NodePtr)}
    {e : Addr × NodePtr} (H : StackRepr st l) (he : e ∈ l) :
    ∃ p q, st.heap e.1 = some ⟨e.2, p, q⟩ := by
  obtain ⟨A, B, hAB⟩ := List.append_of_mem he
  have H' := H.1
  rw [hAB] at H'
  exact ⟨_, _, isList_lookup H'⟩

theorem hdPtr_dropWhile_filter {p q : Addr × NodePtr → Bool} (r : Option Addr)
    (hpq : ∀ e, q e = false → p e = true) :
    ∀ l : List (Addr × NodePtr),
      hdPtr (l.dropWhile p) r = hdPtr ((l.filter q).dropWhile p) r := by
  intro l
  induction l with
  | nil => rfl
  | cons e l ih =>
    by_cases hp : p e = true
    · by_cases hq : q e = true
      · simp [List.dropWhile_cons, List.filter_cons, hp, hq, ih]
      · simp [List.dropWhile_cons, List.filter_cons, hp, hq, ih]
    · have hq : q e = true := by
        by_contra hq
        exact hp (hpq e (by simpa using hq))
      simp [List.dropWhile_cons, List.filter_cons, hp, hq]

theorem lastPtr_rdropWhile_filter {p q : Addr × NodePtr → Bool} (r : Option Addr)
    (hpq : ∀ e, q e = false → p e = true) :
    ∀ l : List (Addr × NodePtr),
      lastPtr r (l.rdropWhile p) = lastPtr r ((l.filter q).rdropWhile p) := by
  intro l
  induction l using List.reverseRecOn with
  | nil => rfl
  | append_singleton l e ih =>
    by_cases hp : p e = true
    · by_cases hq : q e = true
      · rw [List.filter_append, List.rdropWhile_concat_pos _ _ _ hp]
        simp only [List.filter_cons, hq, if_true, List.filter_nil]
        rw [List.rdropWhile_concat_pos _ _ _ hp, ih]
      · rw [List.filter_append, List.rdropWhile_concat_pos _ _ _ hp]
        simp only [List.filter_cons, hq, List.filter_nil, List.append_nil]
        simpa using ih
    · have hq : q e = true := by
        by_contra hq
        exact hp (hpq e (by simpa using hq))
      rw [List.filter_append, List.rdropWhile_concat_neg _ _ _ hp]
      simp only [List.filter_cons, hq, if_true, List.filter_nil]
      rw [List.rdropWhile_concat_neg _ _ _ hp]
      simp [lastPtr_append]

theorem filter_ne_concat {l1 : List (Addr × NodePtr)} {t : Addr} {dt n : NodePtr}
    (nd : ((l1 ++ [(t, dt)]).map Prod.snd).Nodup) :
    (l1 ++ [(t, dt)]).filter (fun e => decide (e.2 ≠ n))
      = if dt = n then l1 else l1.filter (fun e => decide (e.2 ≠ n)) ++ [(t, dt)] := by
  by_cases h : dt = n
  · subst h
    have hall : ∀ x ∈ l1, decide (x.2 ≠ dt) = true := by
      intro x hx
      simp only [decide_eq_true_eq]
      intro hxe
      rw [List.map_append, List.nodup_append] at nd
      exact nd.2.2 (List.mem_map_of_mem _ hx) (by simp [hxe])
    rw [List.filter_append, List.filter_eq_self.2 hall]
    simp
  · simp [List.filter_append, List.filter_cons, h]

theorem filter_ne_cons {l1 : List (Addr × NodePtr)} {t : Addr} {dt n : NodePtr}
    (nd : (((t, dt) :: l1).map Prod.snd).Nodup) :
    ((t, dt) :: l1).filter (fun e => decide (e.2 ≠ n))
      = if dt = n then l1 else (t, dt) :: l1.filter (fun e => decide (e.2 ≠ n)) := by
  by_cases h : dt = n
  · subst h
    have hall : ∀ x ∈ l1, decide (x.2 ≠ dt) = true := by
      intro x hx
      simp only [decide_eq_true_eq]
      intro hxe
      rw [List.map_cons, List.nodup_cons] at nd
      exact nd.1 (List.mem_map.2 ⟨x, hx, hxe⟩)
    rw [List.filter_cons, List.filter_eq_self.2 hall]
    simp
  · simp [List.filter_cons, h]

theorem limit_above_spec {env : StackEnv} {st : StackState} {l : List (Addr × NodePtr)}
    {n : NodePtr} {c : client_t} {fuel : Nat} (H : StackRepr st l)
    (nd : (l.map Prod.snd).Nodup) (hne : l ≠ []) (hc : (env.node n).client = some c)
    (hcl : ∀ e ∈ l, (env.node e.2).client ≠ none) (hf : l.length < fuel) :
    limit_above env fuel st n
      = some (hdPtr ((l.filter (fun e => decide (e.2 ≠ n))).dropWhile
          (fun e => decide (levelOf env e.2 ≤ levelOf env n)))
          (lastPtr none (l.filter (fun e => decide (e.2 ≠ n))))) := by
  have H0 : StackRepr st ([] ++ l) := by simpa using H
  have hloop := limit_above_loop_spec hc H0 hcl hf
  rw [← H.1.head_eq, hdPtr_dropWhile_filter none (q := fun e => decide (e.2 ≠ n))
    (fun e he => by
      have : e.2 = n := by simpa using he
      simp [this]) l] at hloop
  unfold limit_above
  rw [hloop]
  cases hQ : (l.filter (fun e => decide (e.2 ≠ n))).dropWhile
      (fun e => decide (levelOf env e.2 ≤ levelOf env n)) with
  | cons e Q =>
    have hmem : e ∈ l.filter (fun e => decide (e.2 ≠ n)) :=
      (List.dropWhile_sublist _).subset (by rw [hQ]; simp)
    obtain ⟨hel, hen⟩ := List.mem_filter.1 hmem
    obtain ⟨p, q, hs⟩ := stackRepr_lookup_mem H hel
    have hen' : e.2 ≠ n := by simpa using hen
    simp [hs, Cell.node, hen']
  | nil =>
    rcases List.eq_nil_or_concat l with rfl | ⟨l1, e, rfl⟩
    · exact absurd rfl hne
    · obtain ⟨t, dt⟩ := e
      rw [List.concat_eq_append] at H nd ⊢
      have H' : StackRepr st (l1 ++ (t, dt) :: []) := H
      have hs := isList_lookup H'.1
      have htl : st.stack_tail = some t := by
        rw [H.1.tail_eq]; simp [lastPtr_append]
      rw [filter_ne_concat nd]
      simp only [hdPtr_nil, if_true, htl, hs, Cell.node]
      by_cases h : dt = n
      · simp [h]
      · simp [h, lastPtr_append]

theorem limit_below_spec {env : StackEnv} {st : StackState} {l : List (Addr × NodePtr)}
    {n : NodePtr} {c : client_t} {fuel : Nat} (H : StackRepr st l)
    (nd : (l.map Prod.snd).Nodup) (hne : l ≠ []) (hc : (env.node n).client = some c)
    (hcl : ∀ e ∈ l, (env.node e.2).client ≠ none) (hf : l.length < fuel) :
    limit_below env fuel st n
      = some (lastPtr (hdPtr (l.filter (fun e => decide (e.2 ≠ n))) none)
          ((l.filter (fun e => decide (e.2 ≠ n))).rdropWhile
            (fun e => decide (levelOf env n ≤ levelOf env e.2)))) := by
  have H0 : StackRepr st (l ++ []) := by simpa using H
  have hloop := limit_below_loop_spec hc l H0 hcl hf
  rw [← H.1.tail_eq, lastPtr_rdropWhile_filter none (q := fun e => decide (e.2 ≠ n))
    (fun e he => by
      have : e.2 = n := by simpa using he
      simp [this]) l] at hloop
  unfold limit_below
  rw [hloop]
  rcases List.eq_nil_or_concat ((l.filter (fun e => decide (e.2 ≠ n))).rdropWhile
      (fun e => decide (levelOf env n ≤ levelOf env e.2))) with hQ | ⟨R, e, hQ⟩
  · rw [hQ]
    cases l with
    | nil => exact absurd rfl hne
    | cons e l1 =>
      obtain ⟨t, dt⟩ := e
      have H' : StackRepr st ([] ++ (t, dt) :: l1) := H
      have hs := isList_lookup H'.1
      have hhd : st.stack_head = some t := by
        rw [H.1.head_eq]; rfl
      rw [filter_ne_cons nd]
      simp only [lastPtr_nil, if_true, hhd, hs, Cell.node]
      by_cases h : dt = n
      · simp [h]
      · simp [h]
  · rw [hQ, List.concat_eq_append]
    have hmem : e ∈ l.filter (fun e => decide (e.2 ≠ n)) :=
      (List.rdropWhile_prefix _ _).subset (by rw [hQ]; simp)
    obtain ⟨hel, hen⟩ := List.mem_filter.1 hmem
    obtain ⟨p, q, hs⟩ := stackRepr_lookup_mem H hel
    have hen' : e.2 ≠ n := by simpa using hen
    simp [lastPtr_append, hs, Cell.node, hen']

theorem stack_place_below {env : StackEnv} {st : StackState} {l : List (Addr × NodePtr)}
    {n : NodePtr} {c : client_t} {fuel : Nat} (focused : Bool) (H : StackRepr st l)
    (nd : (l.map Prod.snd).Nodup) (hleaf : IsLeaf env n) (hc : (env.node n).client = some c)
    (hcl : ∀ e ∈ l, (env.node e.2).client ≠ none) (hf : l.length < fuel) {s : Addr}
    {d : NodePtr} (hsd : (s, d) ∈ l.filter (fun e => decide (e.2 ≠ n)))
    (hlt : levelOf env n < levelOf env d ∨ (levelOf env n = levelOf env d ∧ focused = false)) :
    ∃ st1, stack_place env fuel focused st n c s = some (st1, stackEvents env false n d) ∧
      StackRepr st1 (insertBeforeAddr s (st.brk, n) (l.filter (fun e => decide (e.2 ≠ n)))) := by
  obtain ⟨hsl, hdn⟩ := List.mem_filter.1 hsd
  have hdn' : d ≠ n := by simpa using hdn
  obtain ⟨p, q, hs⟩ := stackRepr_lookup_mem H hsl
  obtain ⟨sc, hsc⟩ := Option.ne_none_iff_exists'.1 (hcl (s, d) hsl)
  obtain ⟨st1, e1, r1, -, p1, q1, hs1⟩ := stack_insert_before_spec H nd hsl hleaf hdn' hf
  refine ⟨st1, ?_, r1⟩
  have hcond : (decide (stack_cmp c sc < 0) || (stack_cmp c sc == 0 && !focused)) = true := by
    rw [stack_cmp_eq, ← levelOf_eq hc, ← levelOf_eq hsc]
    rcases hlt with h | ⟨h1, h2⟩
    · simp only [Bool.or_eq_true, decide_eq_true_eq]
      left; omega
    · simp [h1, h2]
  simp only [stack_place, hs, Cell.node, hsc, hcond, if_true, e1, hs1, stackEvents]
  simp

theorem stack_place_above {env : StackEnv} {st : StackState} {l : List (Addr × NodePtr)}
    {n : NodePtr} {c : client_t} {fuel : Nat} (focused : Bool) (H : StackRepr st l)
    (nd : (l.map Prod.snd).Nodup) (hleaf : IsLeaf env n) (hc : (env.node n).client = some c)
    (hcl : ∀ e ∈ l, (env.node e.2).client ≠ none) (hf : l.length < fuel) {s : Addr}
    {d : NodePtr} (hsd : (s, d) ∈ l.filter (fun e => decide (e.2 ≠ n)))
    (hgt : levelOf env d < levelOf env n ∨ (levelOf env n = levelOf env d ∧ focused = true)) :
    ∃ st1, stack_place env fuel focused st n c s = some (st1, stackEvents env true n d) ∧
      StackRepr st1 (insertAfterAddr s (st.brk, n) (l.filter (fun e => decide (e.2 ≠ n)))) := by
  obtain ⟨hsl, hdn⟩ := List.mem_filter.1 hsd
  have hdn' : d ≠ n := by simpa using hdn
  obtain ⟨p, q, hs⟩ := stackRepr_lookup_mem H hsl
  obtain ⟨sc, hsc⟩ := Option.ne_none_iff_exists'.1 (hcl (s, d) hsl)
  obtain ⟨st1, e1, r1, -, p1, q1, hs1⟩ := stack_insert_after_spec H nd hsl hleaf hdn' hf
  refine ⟨st1, ?_, r1⟩
  have hcond : (decide (stack_cmp c sc < 0) || (stack_cmp c sc == 0 && !focused)) = false := by
    rw [stack_cmp_eq, ← levelOf_eq hc, ← levelOf_eq hsc]
    rcases hgt with h | ⟨h1, h2⟩
    · simp only [Bool.or_eq_false_iff, decide_eq_false_iff_not, Bool.and_eq_false_imp,
        beq_iff_eq]
      constructor
      · omega
      · intro h0; omega
    · simp [h1, h2]
  simp only [stack_place, hs, Cell.node, hsc, hcond, e1, hs1, stackEvents]
  simp

theorem rdropWhile_append_rtakeWhile {α : Type} (p : α → Bool) (l : List α) :
    l.rdropWhile p ++ l.rtakeWhile p = l := by
  simp only [List.rdropWhile, List.rtakeWhile]
  rw [← List.reverse_append, List.takeWhile_append_dropWhile, List.reverse_reverse]

theorem dropWhile_head_not {α : Type} (p : α → Bool) :
    ∀ {l : List α} {x : α} {xs : List α}, l.dropWhile p = x :: xs → p x = false := by
  intro l
  induction l with
  | nil => intro x xs h; simp at h
  | cons e l ih =>
    intro x xs h
    by_cases hp : p e = true
    · rw [List.dropWhile_cons, if_pos hp] at h
      exact ih h
    · rw [List.dropWhile_cons, if_neg hp] at h
      cases h
      simpa using hp

theorem rdropWhile_last_not' {α : Type} (p : α → Bool) {l R : List α} {x : α}
    (h : l.rdropWhile p = R ++ [x]) : p x = false := by
  have hne : l.rdropWhile p ≠ [] := by rw [h]; simp
  have := List.rdropWhile_last_not p l hne
  simp only [h, List.getLast_append_singleton] at this
  simpa using this

theorem stack_leaf_spec {env : StackEnv} {st : StackState} {l : List (Addr × NodePtr)}
    {n : NodePtr} {c : client_t} {fuel : Nat} (focused : Bool) (H : StackRepr st l)
    (nd : (l.map Prod.snd).Nodup) (hleaf : IsLeaf env n) (hc : (env.node n).client = some c)
    (hns : (IS_FLOATING c && !env.auto_raise) = false)
    (hcl : ∀ e ∈ l, (env.node e.2).client ≠ none) (hf : l.length < fuel) :
    ∃ st' ev l', stack_leaf env fuel focused st n = some (st', ev) ∧ StackRepr st' l' ∧
      StackLeafOutcome env focused n st.brk l l' ev := by
  by_cases hl : l = []
  · subst hl
    obtain ⟨st1, e1, -, r1, -⟩ := stack_insert_null_spec env fuel st n
    have hh : st.stack_head = none := H.1.head_eq
    refine ⟨st1, [], _, ?_, r1, Or.inl ⟨rfl, rfl, rfl⟩⟩
    simp [stack_leaf, hc, hns, hh, e1]
  · have hh : st.stack_head ≠ none := fun h => hl ((isList_nil_iff H.1).1 h)
    have ndA : ((l.filter (fun e => decide (e.2 ≠ n))).map Prod.fst).Nodup :=
      H.1.nodup.sublist ((List.filter_sublist l).map _)
    by_cases hL0 : l.filter (fun e => decide (e.2 ≠ n)) = []
    · refine ⟨st, [], l, ?_, H, Or.inr (Or.inl ⟨hl, hL0, rfl, rfl⟩)⟩
      cases focused with
      | true =>
        have hlim := limit_above_spec H nd hl hc hcl hf
        rw [hL0] at hlim
        simp only [List.dropWhile_nil, hdPtr_nil, lastPtr_nil] at hlim
        simp [stack_leaf, hc, hns, hh, hlim]
      | false =>
        have hlim := limit_below_spec H nd hl hc hcl hf
        rw [hL0] at hlim
        simp only [List.rdropWhile_nil, hdPtr_nil, lastPtr_nil] at hlim
        simp [stack_leaf, hc, hns, hh, hlim]
    · cases focused with
      | true =>
        have hlim := limit_above_spec H nd hl hc hcl hf
        cases hQ : (l.filter (fun e => decide (e.2 ≠ n))).dropWhile
            (fun e => decide (levelOf env e.2 ≤ levelOf env n)) with
        | cons e Q =>
          obtain ⟨s, d⟩ := e
          have hmem : (s, d) ∈ l.filter (fun e => decide (e.2 ≠ n)) :=
            (List.dropWhile_sublist _).subset (by rw [hQ]; simp)
          have hnp := dropWhile_head_not _ hQ
          simp only [decide_eq_false_iff_not, not_le] at hnp
          obtain ⟨st1, e1, r1⟩ :=
            stack_place_below true H nd hleaf hc hcl hf hmem (Or.inl hnp)
          have hsplit := List.takeWhile_append_dropWhile
            (fun e => decide (levelOf env e.2 ≤ levelOf env n))
            (l.filter (fun e => decide (e.2 ≠ n)))
          rw [hQ] at hsplit
          have hsP : s ∉ ((l.filter (fun e => decide (e.2 ≠ n))).takeWhile
              (fun e => decide (levelOf env e.2 ≤ levelOf env n))).map Prod.fst := by
            rw [← hsplit] at ndA
            exact (nodup_middle ndA).2.2.1
          have hins : insertBeforeAddr s (st.brk, n) (l.filter (fun e => decide (e.2 ≠ n)))
              = placeAbove env n (st.brk, n) (l.filter (fun e => decide (e.2 ≠ n))) := by
            conv_lhs => rw [← hsplit]
            rw [insertBeforeAddr_split _ hsP, placeAbove, hQ]
          rw [hQ] at hlim
          refine ⟨st1, _, _, ?_, r1, Or.inr (Or.inr ⟨hL0, by simpa using hins, s, d, hmem,
            Or.inl ⟨rfl, rfl⟩⟩)⟩
          simp [stack_leaf, hc, hns, hh, hlim, e1]
        | nil =>
          rcases List.eq_nil_or_concat (l.filter (fun e => decide (e.2 ≠ n)))
            with h0 | ⟨L1, e, hcat⟩
          · exact absurd h0 hL0
          · obtain ⟨s, d⟩ := e
            rw [List.concat_eq_append] at hcat
            have hmem : (s, d) ∈ l.filter (fun e => decide (e.2 ≠ n)) := by
              rw [hcat]; simp
            have hall := List.dropWhile_eq_nil_iff.1 hQ
            have hp := hall (s, d) hmem
            simp only [decide_eq_true_eq] at hp
            obtain ⟨st1, e1, r1⟩ :=
              stack_place_above true H nd hleaf hc hcl hf hmem
                (by rcases lt_or_eq_of_le hp with h | h
                    · exact Or.inl h
                    · exact Or.inr ⟨h.symm, rfl⟩)
            have hsP : s ∉ L1.map Prod.fst := by
              rw [hcat] at ndA
              exact (nodup_middle ndA).2.2.1
            have hins : insertAfterAddr s (st.brk, n) (l.filter (fun e => decide (e.2 ≠ n)))
                = placeAbove env n (st.brk, n) (l.filter (fun e => decide (e.2 ≠ n))) := by
              rw [placeAbove, hQ, List.takeWhile_eq_self_iff.2 hall]
              conv_lhs => rw [hcat]
              rw [insertAfterAddr_split _ hsP, hcat]
              simp
            rw [hQ, hcat] at hlim
            simp only [hdPtr_nil, lastPtr_append, lastPtr_cons, lastPtr_nil] at hlim
            refine ⟨st1, _, _, ?_, r1, Or.inr (Or.inr ⟨hL0, by simpa using hins, s, d, hmem,
              Or.inr ⟨rfl, rfl⟩⟩)⟩
            simp [stack_leaf, hc, hns, hh, hlim, e1]
      | false =>
        have hlim := limit_below_spec H nd hl hc hcl hf
        have hsplit := rdropWhile_append_rtakeWhile
            (fun e => decide (levelOf env n ≤ levelOf env e.2))
            (l.filter (fun e => decide (e.2 ≠ n)))
        rcases List.eq_nil_or_concat ((l.filter (fun e => decide (e.2 ≠ n))).rdropWhile
            (fun e => decide (levelOf env n ≤ levelOf env e.2))) with hR | ⟨R, e, hR⟩
        · have hall := List.rdropWhile_eq_nil_iff.1 hR
          cases hL : l.filter (fun e => decide (e.2 ≠ n)) with
          | nil => exact absurd hL hL0
          | cons e L1 =>
            obtain ⟨s, d⟩ := e
            have hmem : (s, d) ∈ l.filter (fun e => decide (e.2 ≠ n)) := by
              rw [hL]; simp
            have hp := hall (s, d) hmem
            simp only [decide_eq_true_eq] at hp
            obtain ⟨st1, e1, r1⟩ :=
              stack_place_below false H nd hleaf hc hcl hf hmem
                (by rcases lt_or_eq_of_le hp with h | h
                    · exact Or.inl h
                    · exact Or.inr ⟨h, rfl⟩)
            have hins : insertBeforeAddr s (st.brk, n) (l.filter (fun e => decide (e.2 ≠ n)))
                = placeBelow env n (st.brk, n) (l.filter (fun e => decide (e.2 ≠ n))) := by
              rw [placeBelow, hR, List.rtakeWhile_eq_self_iff.2 hall, hL]
              simp [insertBeforeAddr]
            rw [hR, hL] at hlim
            simp only [hdPtr_cons, lastPtr_nil] at hlim
            refine ⟨st1, _, _, ?_, r1, Or.inr (Or.inr ⟨hL0, by simpa using hins, s, d, hmem,
              Or.inl ⟨rfl, rfl⟩⟩)⟩
            simp [stack_leaf, hc, hns, hh, hlim, e1]
        · obtain ⟨s, d⟩ := e
          rw [List.concat_eq_append] at hR
          have hmem : (s, d) ∈ l.filter (fun e => decide (e.2 ≠ n)) :=
            (List.rdropWhile_prefix _ _).subset (by rw [hR]; simp)
          have hnp := rdropWhile_last_not' _ hR
          simp only [decide_eq_false_iff_not, not_le] at hnp
          obtain ⟨st1, e1, r1⟩ :=
            stack_place_above false H nd hleaf hc hcl hf hmem (Or.inl hnp)
          rw [hR] at hsplit
          have hsP : s ∉ R.map Prod.fst := by
            rw [← hsplit, List.append_assoc] at ndA
            exact (nodup_middle ndA).2.2.1
          have hins : insertAfterAddr s (st.brk, n) (l.filter (fun e => decide (e.2 ≠ n)))
              = placeBelow env n (st.brk, n) (l.filter (fun e => decide (e.2 ≠ n))) := by
            conv_lhs => rw [← hsplit, List.append_assoc, List.singleton_append]
            rw [insertAfterAddr_split _ hsP, placeBelow, hR]
            simp
          rw [hR] at hlim
          simp only [lastPtr_append, lastPtr_cons, lastPtr_nil] at hlim
          refine ⟨st1, _, _, ?_, r1, Or.inr (Or.inr ⟨hL0, by simpa using hins, s, d, hmem,
            Or.inr ⟨rfl, rfl⟩⟩)⟩
          simp [stack_leaf, hc, hns, hh, hlim, e1]

theorem restack_presel_loop_spec {env : StackEnv} {st : StackState}
    (A : List (Addr × NodePtr)) :
    ∀ {B : List (Addr × NodePtr)} {fuel : Nat}, StackRepr st (A ++ B) →
      (∀ e ∈ A, (env.node e.2).client ≠ none) → A.length < fuel →
      restack_presel_loop env st.heap fuel (lastPtr none A)
        = some (lastPtr none (A.rdropWhile (notTiledEntry env))) := by
  induction A using List.reverseRecOn with
  | nil =>
    intro B fuel _ _ hf
    cases fuel with
    | zero => simp at hf
    | succ fuel => rfl
  | append_singleton A e ih =>
    intro B fuel H hcl hf
    cases fuel with
    | zero => simp at hf
    | succ fuel =>
      obtain ⟨a, d⟩ := e
      have H' : StackRepr st (A ++ (a, d) :: B) := by simpa using H
      have hs := isList_lookup H'.1
      obtain ⟨sc, hsc⟩ := Option.ne_none_iff_exists'.1 (hcl (a, d) (by simp))
      have hnt : notTiledEntry env (a, d) = !IS_TILED sc := by simp [notTiledEntry, hsc]
      simp only [lastPtr_append, lastPtr_cons, lastPtr_nil, restack_presel_loop, hs, Cell.node,
        hsc]
      by_cases hp : (!IS_TILED sc) = true
      · rw [if_pos hp, ih H' (fun e he => hcl e (by simp [he])) (by simpa using hf),
          List.rdropWhile_concat_pos _ _ _ (by rw [hnt]; exact hp)]
      · rw [if_neg hp, List.rdropWhile_concat_neg _ _ _ (by rw [hnt]; exact hp)]
        simp [lastPtr_append]

theorem restack_presel_feedbacks_spec {env : StackEnv} {st : StackState}
    {l : List (Addr × NodePtr)} {fuel : Nat} (d : desktop_t) (H : StackRepr st l)
    (hcl : ∀ e ∈ l, (env.node e.2).client ≠ none) (hf : l.length < fuel) :
    ∃ ev, restack_presel_feedbacks env fuel st d = some ev := by
  have H0 : StackRepr st (l ++ []) := by simpa using H
  have hloop := restack_presel_loop_spec l H0 hcl hf
  rw [← H.1.tail_eq] at hloop
  unfold restack_presel_feedbacks
  rw [hloop]
  cases hr : lastPtr none (l.rdropWhile (notTiledEntry env)) with
  | none => exact ⟨[], rfl⟩
  | some s =>
    have hm : s ∈ l.map Prod.fst :=
      ((List.rdropWhile_prefix _ _).sublist.map _).subset (lastPtr_none_mem hr)
    obtain ⟨d', p, q, -, hs⟩ := stackRepr_lookup H hm
    exact ⟨restack_presel_feedbacks_in d.root (env.node d').id, by simp [hs, Cell.node]⟩

theorem pairwise_placeAbove {env : StackEnv} {n : NodePtr} {x : Addr × NodePtr}
    {l0 : List (Addr × NodePtr)} (hx : levelOf env x.2 = levelOf env n)
    (hs : l0.Pairwise (fun a b => levelOf env a.2 ≤ levelOf env b.2)) :
    (placeAbove env n x l0).Pairwise (fun a b => levelOf env a.2 ≤ levelOf env b.2) := by
  have hQ : ∀ b ∈ l0.dropWhile (fun e => decide (levelOf env e.2 ≤ levelOf env n)),
      levelOf env n ≤ levelOf env b.2 := by
    intro b hb
    cases hq : l0.dropWhile (fun e => decide (levelOf env e.2 ≤ levelOf env n)) with
    | nil => rw [hq] at hb; simp at hb
    | cons q Q =>
      have hnp := dropWhile_head_not _ hq
      simp only [decide_eq_false_iff_not, not_le] at hnp
      have hsQ := hs.sublist (List.dropWhile_sublist
        (fun e => decide (levelOf env e.2 ≤ levelOf env n)))
      rw [hq] at hsQ hb
      rcases List.mem_cons.1 hb with rfl | hb'
      · exact le_of_lt hnp
      · exact le_trans (le_of_lt hnp) ((List.pairwise_cons.1 hsQ).1 b hb')
  unfold placeAbove
  rw [List.pairwise_append]
  refine ⟨hs.sublist (List.takeWhile_sublist _), List.pairwise_cons.2 ⟨?_, hs.sublist
    (List.dropWhile_sublist _)⟩, ?_⟩
  · intro b hb
    rw [hx]; exact hQ b hb
  · intro a ha b hb
    have hpa := List.mem_takeWhile_imp ha
    simp only [decide_eq_true_eq] at hpa
    rcases List.mem_cons.1 hb with rfl | hb'
    · rw [hx]; exact hpa
    · exact le_trans hpa (hQ b hb')

theorem pairwise_placeBelow {env : StackEnv} {n : NodePtr} {x : Addr × NodePtr}
    {l0 : List (Addr × NodePtr)} (hx : levelOf env x.2 = levelOf env n)
    (hs : l0.Pairwise (fun a b => levelOf env a.2 ≤ levelOf env b.2)) :
    (placeBelow env n x l0).Pairwise (fun a b => levelOf env a.2 ≤ levelOf env b.2) := by
  have hR : ∀ a ∈ l0.rdropWhile (fun e => decide (levelOf env n ≤ levelOf env e.2)),
      levelOf env a.2 ≤ levelOf env n := by
    intro a ha
    rcases List.eq_nil_or_concat
      (l0.rdropWhile (fun e => decide (levelOf env n ≤ levelOf env e.2))) with hr | ⟨R, r, hr⟩
    · rw [hr] at ha; simp at ha
    · rw [List.concat_eq_append] at hr
      have hnp := rdropWhile_last_not' _ hr
      simp only [decide_eq_false_iff_not, not_le] at hnp
      have hsR := hs.sublist (List.rdropWhile_prefix
        (fun e => decide (levelOf env n ≤ levelOf env e.2)) l0).sublist
      rw [hr] at hsR ha
      rcases List.mem_append.1 ha with ha' | ha'
      · have := (List.pairwise_append.1 hsR).2.2 a ha' r (by simp)
        exact le_trans this (le_of_lt hnp)
      · simp only [List.mem_singleton] at ha'
        subst ha'
        exact le_of_lt hnp
  have hT : ∀ b ∈ l0.rtakeWhile (fun e => decide (levelOf env n ≤ levelOf env e.2)),
      levelOf env n ≤ levelOf env b.2 := by
    intro b hb
    simpa using List.mem_rtakeWhile_imp hb
  unfold placeBelow
  rw [List.pairwise_append]
  refine ⟨hs.sublist (List.rdropWhile_prefix _ _).sublist, List.pairwise_cons.2 ⟨?_, hs.sublist
    (List.rtakeWhile_suffix _ _).sublist⟩, ?_⟩
  · intro b hb
    rw [hx]; exact hT b hb
  · intro a ha b hb
    rcases List.mem_cons.1 hb with rfl | hb'
    · rw [hx]; exact hR a ha
    · exact le_trans (hR a ha) (hT b hb')

theorem placeAbove_perm (env : StackEnv) (n : NodePtr) (x : Addr × NodePtr)
    (l0 : List (Addr × NodePtr)) : (placeAbove env n x l0).Perm (x :: l0) := by
  unfold placeAbove
  refine List.perm_middle.trans (List.Perm.cons x ?_)
  rw [List.takeWhile_append_dropWhile]

theorem placeBelow_perm (env : StackEnv) (n : NodePtr) (x : Addr × NodePtr)
    (l0 : List (Addr × NodePtr)) : (placeBelow env n x l0).Perm (x :: l0) := by
  unfold placeBelow
  refine List.perm_middle.trans (List.Perm.cons x ?_)
  rw [rdropWhile_append_rtakeWhile]

theorem stackLeafOutcome_facts {env : StackEnv} {focused : Bool} {n : NodePtr} {x : Addr}
    {l l' : List (Addr × NodePtr)} {ev : List StackEvent}
    (nd : (l.map Prod.snd).Nodup)
    (ho : StackLeafOutcome env focused n x l l' ev) :
    (∀ e ∈ l', e = (x, n) ∨ e ∈ l) ∧ l'.length ≤ l.length + 1 ∧ n ∈ l'.map Prod.snd ∧
      (l'.map Prod.snd).Nodup ∧
      ((l.filter (fun e => decide (e.2 ≠ n))).Pairwise
          (fun a b => levelOf env a.2 ≤ levelOf env b.2) →
        l'.Pairwise (fun a b => levelOf env a.2 ≤ levelOf env b.2)) := by
  rcases ho with ⟨rfl, rfl, -⟩ | ⟨hl, hL0, rfl, -⟩ | ⟨hL0, hl', -⟩
  · refine ⟨fun e he => Or.inl (by simpa using he), by simp, by simp, by simp, fun _ => ?_⟩
    simp
  · have hall : ∀ e ∈ l', e.2 = n := by
      intro e he
      have := List.filter_eq_nil_iff.1 hL0 e he
      simpa using this
    refine ⟨fun e he => Or.inr he, Nat.le_succ _, ?_, nd, fun _ => ?_⟩
    · cases l' with
      | nil => exact absurd rfl hl
      | cons e l1 =>
        have := hall e (by simp)
        simp [this]
    · refine List.pairwise_of_forall_mem_list (fun a ha b hb => ?_)
      rw [hall a ha, hall b hb]
  · have hperm : l'.Perm ((x, n) :: l.filter (fun e => decide (e.2 ≠ n))) := by
      rw [hl']
      cases focused with
      | true => exact placeAbove_perm _ _ _ _
      | false => exact placeBelow_perm _ _ _ _
    refine ⟨fun e he => ?_, ?_, ?_, ?_, fun hs => ?_⟩
    · rcases List.mem_cons.1 (hperm.mem_iff.1 he) with h | h
      · exact Or.inl h
      · exact Or.inr (List.mem_of_mem_filter h)
    · rw [hperm.length_eq, List.length_cons]
      exact Nat.succ_le_succ (List.length_filter_le _ _)
    · exact (hperm.map Prod.snd).mem_iff.2 (by simp)
    · exact (hperm.map Prod.snd).nodup_iff.2 (nodup_cons_filter_ne x n nd)
    · rw [hl']
      cases focused with
      | true => exact pairwise_placeAbove rfl hs
      | false => exact pairwise_placeBelow rfl hs

theorem stack_spec {env : StackEnv} {st : StackState} {l : List (Addr × NodePtr)}
    {n : NodePtr} {c : client_t} {fuel : Nat} (d : desktop_t) (focused : Bool)
    (H : StackRepr st l) (nd : (l.map Prod.snd).Nodup) (hleaf : IsLeaf env n)
    (hc : (env.node n).client = some c) (hns : (IS_FLOATING c && !env.auto_raise) = false)
    (hcl : ∀ e ∈ l, (env.node e.2).client ≠ none) (hf : l.length + 1 < fuel) :
    ∃ st' ev ev2 l', stack env fuel st d n focused
        = some (st', ev ++ [StackEvent.ewmh_update_client_list true] ++ ev2) ∧
      StackRepr st' l' ∧ StackLeafOutcome env focused n st.brk l l' ev ∧
      restack_presel_feedbacks env fuel st' d = some ev2 := by
  obtain ⟨st', ev, l', e1, r1, ho⟩ :=
    stack_leaf_spec focused H nd hleaf hc hns hcl (Nat.lt_of_succ_lt hf)
  obtain ⟨hmem, hlen, -⟩ := stackLeafOutcome_facts nd ho
  have hcl' : ∀ e ∈ l', (env.node e.2).client ≠ none := by
    intro e he
    rcases hmem e he with rfl | h
    · simp [hc]
    · exact hcl e h
  obtain ⟨ev2, e2⟩ := restack_presel_feedbacks_spec d r1 hcl' (lt_of_le_of_lt hlen hf)
  refine ⟨st', ev, ev2, l', ?_, r1, ho, e2⟩
  obtain ⟨k, rfl⟩ : ∃ k, fuel = k + 2 := ⟨fuel - 2, by omega⟩
  simp [stack, stack_leaves, hleaf.1, hleaf.2, e1, e2]

/-- C1: let the stacking list be duplicate-free, all of its entries have a client, and, apart
from the entry of `n`, the levels never decrease from `stack_head` to `stack_tail`.  For a leaf
`n` with a client that `stack` does not skip, and for both values of `focused`,
`stack(d, n, focused)` returns; afterwards the list holds `n` exactly once, no node twice, and
the levels never decrease from head to tail over the whole list: an entry of strictly greater
level always stands at a strictly later position (nearer `stack_tail`). -/
theorem C1_stack_keeps_level_order (env : StackEnv) (st : StackState)
    (l : List (Addr × NodePtr)) (d : desktop_t) (n : NodePtr) (focused : Bool) (fuel : Nat)
    (c : client_t)
    (hrepr : StackRepr st l) (hnd : (l.map Prod.snd).Nodup) (hleaf : IsLeaf env n)
    (hclient : (env.node n).client = some c)
    (hnotskipped : (IS_FLOATING c && !env.auto_raise) = false)
    (hclients : ∀ e ∈ l, (env.node e.2).client ≠ none)
    (hsorted : (l.filter (fun e => decide (e.2 ≠ n))).Pairwise
      (fun a b => levelOf env a.2 ≤ levelOf env b.2))
    (hfuel : l.length + 1 < fuel) :
    ∃ st' ev l', stack env fuel st d n focused = some (st', ev) ∧ StackRepr st' l' ∧
      (l'.map Prod.snd).count n = 1 ∧ (l'.map Prod.snd).Nodup ∧
      l'.Pairwise (fun a b => levelOf env a.2 ≤ levelOf env b.2) ∧
      ∀ (i j : Nat) (hi : i < l'.length) (hj : j < l'.length),
        levelOf env (l'[j]).2 < levelOf env (l'[i]).2 → j < i := by
  obtain ⟨st', ev, ev2, l', e1, r1, ho, -⟩ :=
    stack_spec d focused hrepr hnd hleaf hclient hnotskipped hclients hfuel
  obtain ⟨-, -, hmem, hnd', hpw⟩ := stackLeafOutcome_facts hnd ho
  have hp := hpw hsorted
  refine ⟨st', _, l', e1, r1, List.count_eq_one_of_mem hnd' hmem, hnd', hp, ?_⟩
  intro i j hi hj hlt
  by_contra hij
  rcases Nat.lt_or_eq_of_le (Nat.le_of_not_lt hij) with h | h
  · have := List.pairwise_iff_getElem.1 hp i j hi hj h
    omega
  · subst h
    exact lt_irrefl _ hlt

/-- Witness for C1: leaf `5` (tiled, normal layer) is stacked with `focused = true` into the
list of nodes `1`, `2` (tiled) and `3` (floating). -/
theorem C1_stack_keeps_level_order_witness :
    StackRepr sampleStack [(0, 1), (1, 2), (2, 3)] ∧ IsLeaf sampleEnv 5 ∧
    ∃ st' ev l', stack sampleEnv 5 sampleStack sampleDesktop 5 true = some (st', ev) ∧
      StackRepr st' l' ∧ (l'.map Prod.snd).count 5 = 1 ∧ (l'.map Prod.snd).Nodup ∧
      l'.Pairwise (fun a b => levelOf sampleEnv a.2 ≤ levelOf sampleEnv b.2) ∧
      ∀ (i j : Nat) (hi : i < l'.length) (hj : j < l'.length),
        levelOf sampleEnv (l'[j]).2 < levelOf sampleEnv (l'[i]).2 → j < i :=
  ⟨sampleStack_repr, by decide,
    C1_stack_keeps_level_order sampleEnv sampleStack [(0, 1), (1, 2), (2, 3)] sampleDesktop 5
      true 5 ⟨client_state_t.STATE_TILED, stack_layer_t.LAYER_NORMAL⟩ sampleStack_repr
      (by decide) (by decide) rfl (by decide) (by decide) (by decide) (by decide)⟩

theorem set_val_eq {α : Type} {h : Heap α} {a : Addr} {d : α} {p q : Option Addr} (v : α)
    (ha : h a = some ⟨d, p, q⟩) :
    Heap.set_val h a v = some (Function.update h a (some ⟨v, p, q⟩)) := by
  simp [Heap.set_val, ha]

theorem isList_set_val {α : Type} {h : Heap α} {hd tl : Option Addr} {A B : List (Addr × α)}
    {a : Addr} {v : α} (v' : α) (H : IsList h hd tl (A ++ (a, v) :: B)) :
    IsList (Function.update h a (some ⟨v', lastPtr none A, hdPtr B none⟩)) hd tl
      (A ++ (a, v') :: B) := by
  obtain ⟨nd, seg, hhd, htl⟩ := H
  obtain ⟨ndA, ndB, haA, haB, dj⟩ := nodup_middle nd
  rw [seg_append] at seg
  obtain ⟨hA, -, hB⟩ := seg
  refine ⟨by simpa using nd, ?_, ?_, ?_⟩
  · rw [seg_append]
    refine ⟨seg_congr (fun x hx => ?_) hA, by simp, seg_congr (fun x hx => ?_) hB⟩
    · rw [Function.update_noteq]
      rintro rfl; exact haA hx
    · rw [Function.update_noteq]
      rintro rfl; exact haB hx
  · rw [hhd]; simp [hdPtr_append]
  · rw [htl]; simp [lastPtr_append]

theorem remove_subscriber_spec (env : SubEnv) {st : SubState}
    {A B : List (Addr × subscriber_fields)} {s : Addr} {v : subscriber_fields}
    (H : SubRepr st (A ++ (s, v) :: B)) :
    ∃ st', remove_subscriber env st (some s) = some (st', removeEvents env v) ∧
      SubRepr st' (A ++ B) ∧ st'.brk = st.brk ∧
      ∀ x, x ∉ (A ++ (s, v) :: B).map Prod.fst → st'.heap x = st.heap x := by
  obtain ⟨hl, hb⟩ := H
  obtain ⟨hs, h1, h2, e1, e2, hl', fr⟩ := isList_unlink hl
  refine ⟨{ heap := h2.free s
            subscribe_head := if some s = st.subscribe_head then hdPtr B none
                              else st.subscribe_head
            subscribe_tail := if some s = st.subscribe_tail then lastPtr none A
                              else st.subscribe_tail
            brk := st.brk }, ?_, ⟨hl', ?_⟩, rfl, fr⟩
  · simp only [remove_subscriber, hs, e1, e2, removeEvents]
  · intro e he
    exact hb e (by simp at he ⊢; rcases he with he | he <;> simp [he])

theorem put_status_list_cons (io : FILE → Int) (mask : Nat) (e : Addr × subscriber_fields)
    (l : List (Addr × subscriber_fields)) :
    put_status_list io mask (e :: l)
      = if subRemoved io mask e.2 then put_status_list io mask l
        else (e.1, subUpdated mask e.2) :: put_status_list io mask l := by
  by_cases h : subRemoved io mask e.2 = true
  · simp [put_status_list, List.filter_cons, h]
  · simp [put_status_list, List.filter_cons, h]

theorem put_status_loop_spec (env : SubEnv) (io : FILE → Int) (mask : Nat) (fmt : String)
    (args : List Nat) (B : List (Addr × subscriber_fields)) :
    ∀ (A : List (Addr × subscriber_fields)) (st : SubState) (fuel : Nat),
      SubRepr st (A ++ B) → B.length < fuel →
      ∃ st', put_status_loop env io mask fmt args fuel (hdPtr B none) st
          = some (st', B.flatMap (fun e => put_status_events env io mask fmt args e.2)) ∧
        SubRepr st' (A ++ put_status_list io mask B) ∧ st'.brk = st.brk := by
  induction B with
  | nil =>
    intro A st fuel H hf
    cases fuel with
    | zero => simp at hf
    | succ fuel => exact ⟨st, rfl, by simpa [put_status_list] using H, rfl⟩
  | cons e B ih =>
    intro A st fuel H hf
    cases fuel with
    | zero => simp at hf
    | succ fuel =>
      obtain ⟨sb, v⟩ := e
      have hs := isList_lookup H.1
      have hf' : B.length < fuel := by simpa using hf
      by_cases hm : subMatches mask v = true
      · have hm' : v.field &&& mask ≠ 0 := by simpa [subMatches] using hm
        have hsv := set_val_eq ({ v with count := dec_count v.count } : subscriber_fields) hs
        have H1 : SubRepr
            { st with
              heap := Function.update st.heap sb
                        (some ⟨({ v with count := dec_count v.count } : subscriber_fields),
                          lastPtr none A, hdPtr B none⟩) }
            (A ++ (sb, ({ v with count := dec_count v.count } : subscriber_fields)) :: B) := by
          refine ⟨isList_set_val _ H.1, fun e he => ?_⟩
          simp only [List.mem_append, List.mem_cons] at he
          rcases he with he | rfl | he
          · exact H.2 e (by simp [he])
          · exact H.2 (sb, v) (by simp)
          · exact H.2 e (by simp [he])
        have hu : subUpdated mask v = ({ v with count := dec_count v.count } : subscriber_fields) := by
          simp [subUpdated, hm]
        by_cases hr : io v.stream ≠ 0 ∨ dec_count v.count = 0
        · have hrem : subRemoved io mask v = true := by
            simp only [subRemoved, hm, Bool.true_and, Bool.or_eq_true, bne_iff_ne, beq_iff_eq]
            exact hr
          obtain ⟨st2, e2, r2, b2, -⟩ := remove_subscriber_spec env H1
          obtain ⟨st3, e3, r3, b3⟩ := ih A st2 fuel r2 hf'
          refine ⟨st3, ?_, ?_, b3.trans b2⟩
          · simp only [hdPtr_cons, put_status_loop, hs, hm', if_true, hsv, hr, e2, e3,
              List.flatMap_cons, put_status_events, hm, hrem, removeEvents, List.append_assoc]
            rw [if_pos hm']
          · rw [put_status_list_cons]
            simpa [hrem] using r3
        · have hrem : subRemoved io mask v = false := by
            simp only [subRemoved, hm, Bool.true_and, Bool.or_eq_false_iff, bne_eq_false_iff_eq,
              beq_eq_false_iff_ne]
            exact ⟨by tauto, by tauto⟩
          have H1' : SubRepr
              { st with
                heap := Function.update st.heap sb
                          (some ⟨({ v with count := dec_count v.count } : subscriber_fields),
                            lastPtr none A, hdPtr B none⟩) }
              ((A ++ [(sb, ({ v with count := dec_count v.count } : subscriber_fields))]) ++ B) := by
            simpa using H1
          obtain ⟨st3, e3, r3, b3⟩ := ih _ _ fuel H1' hf'
          refine ⟨st3, ?_, ?_, b3⟩
          · simp only [hdPtr_cons, put_status_loop, hs, hm', if_true, hsv, hr, if_false, e3,
              List.flatMap_cons, put_status_events, hm, hrem, List.append_assoc,
              List.append_nil]
            rw [if_pos hm']
            simp
          · rw [put_status_list_cons]
            simpa [hrem, hu] using r3
      · have hm' : ¬ (v.field &&& mask ≠ 0) := by simpa [subMatches] using hm
        have H' : SubRepr st ((A ++ [(sb, v)]) ++ B) := by simpa using H
        obtain ⟨st', e1, r1, b1⟩ := ih (A ++ [(sb, v)]) st fuel H' hf'
        refine ⟨st', ?_, ?_, b1⟩
        · simp only [hdPtr_cons, put_status_loop, hs, hm', if_false, List.flatMap_cons,
            put_status_events, hm, List.nil_append]
          simpa using e1
        · have hnr : subRemoved io mask v = false := by simp [subRemoved, hm]
          have hu : subUpdated mask v = v := by simp [subUpdated, hm]
          rw [put_status_list_cons]
          simpa [hnr, hu] using r1

theorem filter_isWrite_events_one (env : SubEnv) (io : FILE → Int) (mask : Nat)
    (fmt : String) (args : List Nat) (v : subscriber_fields) :
    (put_status_events env io mask fmt args v).filter isWrite
      = if subMatches mask v then [writeEvent env mask fmt args v.stream] else [] := by
  unfold put_status_events writeEvent removeEvents
  split_ifs <;> rfl

theorem filter_isWrite_put_status_events (env : SubEnv) (io : FILE → Int) (mask : Nat)
    (fmt : String) (args : List Nat) (l : List (Addr × subscriber_fields)) :
    (l.flatMap (fun e => put_status_events env io mask fmt args e.2)).filter isWrite
      = (l.filter (fun e => subMatches mask e.2)).map
          (fun e => writeEvent env mask fmt args e.2.stream) := by
  induction l with
  | nil => rfl
  | cons e l ih =>
    rw [List.flatMap_cons, List.filter_append, ih, filter_isWrite_events_one]
    by_cases hm : subMatches mask e.2 = true
    · simp [hm, List.filter_cons]
    · simp [hm, List.filter_cons]

theorem put_status_spec (env : SubEnv) (io : FILE → Int) {st : SubState}
    {l : List (Addr × subscriber_fields)} (mask : Nat) (fmt : String) (args : List Nat)
    {fuel : Nat} (H : SubRepr st l) (hf : l.length < fuel) :
    ∃ st', put_status env io fuel st mask fmt args
        = some (st', l.flatMap (fun e => put_status_events env io mask fmt args e.2)) ∧
      SubRepr st' (put_status_list io mask l) ∧ st'.brk = st.brk := by
  have H0 : SubRepr st ([] ++ l) := by simpa using H
  obtain ⟨st', e1, r1, b1⟩ := put_status_loop_spec env io mask fmt args l [] st fuel H0 hf
  rw [← H.1.head_eq] at e1
  exact ⟨st', e1, by simpa using r1, b1⟩

theorem put_status_list_length (io : FILE → Int) (mask : Nat)
    (l : List (Addr × subscriber_fields)) : (put_status_list io mask l).length ≤ l.length := by
  simp only [put_status_list, List.length_map]
  exact List.length_filter_le _ _

theorem put_status_list_fst (io : FILE → Int) (mask : Nat)
    (l : List (Addr × subscriber_fields)) :
    (put_status_list io mask l).map Prod.fst
      = (l.filter (fun e => !subRemoved io mask e.2)).map Prod.fst := by
  simp [put_status_list, List.map_map, Function.comp_def]

/-- C7: for every subscriber list and mask, `put_status` returns, and the writes it makes
(`print_report` for the report mask, `vfprintf` otherwise) go to the streams of exactly the
subscribers whose `field` shares a bit with `mask`, one write each, in list order, whatever
the flush outcomes `io` and whichever subscribers get removed on the way. -/
theorem C7_put_status_delivery (env : SubEnv) (io : FILE → Int) (st : SubState)
    (l : List (Addr × subscriber_fields)) (mask : Nat) (fmt : String) (args : List Nat)
    (fuel : Nat) (hrepr : SubRepr st l) (hfuel : l.length < fuel) :
    ∃ st' ev, put_status env io fuel st mask fmt args = some (st', ev) ∧
      ev = l.flatMap (fun e => put_status_events env io mask fmt args e.2) ∧
      ev.filter isWrite
        = (l.filter (fun e => decide (e.2.field &&& mask ≠ 0))).map
            (fun e => writeEvent env mask fmt args e.2.stream) := by
  obtain ⟨st', e1, -⟩ := put_status_spec env io mask fmt args hrepr hfuel
  refine ⟨st', _, e1, rfl, ?_⟩
  rw [filter_isWrite_put_status_events]
  congr 1
  apply List.filter_congr
  intro e _
  by_cases h : e.2.field &&& mask = 0 <;> simp [subMatches, h]

/-- C8: after `put_status` the subscriber list is the prior list without the subscribers that
are addressed by `mask` and whose flush failed or whose count is zero after the decrement; the
others keep their order, with `subscribe_head` and `subscribe_tail` the first and last of
them; a subscriber not addressed by `mask` keeps its fields, an addressed survivor has only
its count decremented (when positive). -/
theorem C8_put_status_survivors (env : SubEnv) (io : FILE → Int) (st : SubState)
    (l : List (Addr × subscriber_fields)) (mask : Nat) (fmt : String) (args : List Nat)
    (fuel : Nat) (hrepr : SubRepr st l) (hfuel : l.length < fuel) :
    ∃ st' ev, put_status env io fuel st mask fmt args = some (st', ev) ∧
      SubRepr st' (put_status_list io mask l) ∧
      (put_status_list io mask l).map Prod.fst
        = (l.filter (fun e => !(decide (e.2.field &&& mask ≠ 0) &&
            (decide (io e.2.stream ≠ 0) || decide (dec_count e.2.count = 0))))).map Prod.fst ∧
      (∀ e ∈ l, e.2.field &&& mask = 0 → e ∈ put_status_list io mask l) ∧
      (∀ e ∈ l, e.2.field &&& mask ≠ 0 → io e.2.stream = 0 → dec_count e.2.count ≠ 0 →
        (e.1, { e.2 with count := dec_count e.2.count }) ∈ put_status_list io mask l) := by
  obtain ⟨st', e1, r1, -⟩ := put_status_spec env io mask fmt args hrepr hfuel
  refine ⟨st', _, e1, r1, ?_, ?_, ?_⟩
  · rw [put_status_list_fst]
    congr 1
    apply List.filter_congr
    intro e _
    simp only [subRemoved, subMatches]
    by_cases h1 : e.2.field &&& mask = 0 <;> by_cases h2 : io e.2.stream = 0 <;>
      by_cases h3 : dec_count e.2.count = 0 <;> simp [h1, h2, h3]
  · intro e he hm
    simp only [put_status_list, List.mem_map, List.mem_filter]
    refine ⟨e, ⟨he, ?_⟩, ?_⟩
    · simp [subRemoved, subMatches, hm]
    · simp [subUpdated, subMatches, hm]
  · intro e he hm hio hc
    simp only [put_status_list, List.mem_map, List.mem_filter]
    refine ⟨e, ⟨he, ?_⟩, ?_⟩
    · simp [subRemoved, subMatches, hm, hio, hc]
    · simp [subUpdated, subMatches, hm]

theorem put_status_calls_spec (env : SubEnv) (fuel : Nat) (calls : List PutCall) :
    ∀ (st : SubState) (l : List (Addr × subscriber_fields)), SubRepr st l → l.length < fuel →
      ∃ st' ev, put_status_calls env fuel calls st = some (st', ev) ∧
        SubRepr st' (put_status_calls_list calls l) := by
  induction calls with
  | nil => intro st l H _; exact ⟨st, [], rfl, H⟩
  | cons c cs ih =>
    intro st l H hf
    obtain ⟨st1, e1, r1, -⟩ := put_status_spec env c.io c.mask c.fmt c.args H hf
    obtain ⟨st2, ev2, e2, r2⟩ :=
      ih st1 _ r1 (lt_of_le_of_lt (put_status_list_length c.io c.mask l) hf)
    refine ⟨st2, (l.flatMap fun e => put_status_events env c.io c.mask c.fmt c.args e.2) ++ ev2,
      ?_, r2⟩
    simp only [put_status_calls, e1, e2]

theorem mem_unique_of_nodup_fst {α : Type} {l : List (Addr × α)} {a : Addr} {v v' : α}
    (nd : (l.map Prod.fst).Nodup) (h1 : (a, v) ∈ l) (h2 : (a, v') ∈ l) : v = v' := by
  induction l with
  | nil => simp at h1
  | cons e l ih =>
    rw [List.map_cons, List.nodup_cons] at nd
    rcases List.mem_cons.1 h1 with rfl | h1' <;> rcases List.mem_cons.1 h2 with h2' | h2'
    · cases h2'; rfl
    · exact absurd (List.mem_map.2 ⟨(a, v'), h2', rfl⟩) nd.1
    · subst h2'
      exact absurd (List.mem_map.2 ⟨(a, v), h1', rfl⟩) nd.1
    · exact ih nd.2 h1' h2'

theorem put_status_list_fst_sub (io : FILE → Int) (mask : Nat)
    (l : List (Addr × subscriber_fields)) :
    ((put_status_list io mask l).map Prod.fst).Sublist (l.map Prod.fst) := by
  rw [put_status_list_fst]
  exact (List.filter_sublist l).map _

theorem put_status_list_neg_count (io : FILE → Int) (mask : Nat)
    {l : List (Addr × subscriber_fields)} {a : Addr} {v : subscriber_fields}
    (nd : (l.map Prod.fst).Nodup) (hmem : (a, v) ∈ l) (hneg : v.count < 0) :
    (¬ (v.field &&& mask ≠ 0 ∧ io v.stream ≠ 0) → (a, v) ∈ put_status_list io mask l) ∧
    ((v.field &&& mask ≠ 0 ∧ io v.stream ≠ 0) → a ∉ (put_status_list io mask l).map Prod.fst) := by
  have hdec : dec_count v.count = v.count := by
    unfold dec_count
    rw [if_neg (by omega)]
  have hne : v.count ≠ 0 := by omega
  have hrem : subRemoved io mask v = true ↔ (v.field &&& mask ≠ 0 ∧ io v.stream ≠ 0) := by
    simp [subRemoved, subMatches, hdec, hne]
  have hupd : subUpdated mask v = v := by
    unfold subUpdated
    split_ifs
    · rw [hdec]
    · rfl
  constructor
  · intro h
    simp only [put_status_list, List.mem_map, List.mem_filter]
    refine ⟨(a, v), ⟨hmem, ?_⟩, by simp [hupd]⟩
    simpa using fun hr => h (hrem.1 hr)
  · intro h hin
    rw [put_status_list_fst] at hin
    obtain ⟨e, he, hea⟩ := List.mem_map.1 hin
    obtain ⟨hel, hnr⟩ := List.mem_filter.1 he
    obtain ⟨a', v'⟩ := e
    simp only at hea
    subst hea
    have := mem_unique_of_nodup_fst nd hmem hel
    subst this
    rw [hrem.2 h] at hnr
    simp at hnr

/-- C9: a subscriber whose count is negative keeps its fields, the count included, and its
place in the list through any sequence of `put_status` calls, as long as none of the calls
that address it meets a failing write or flush on its stream; when it is gone afterwards, one
of the calls addressed it and its write or flush failed. -/
theorem C9_negative_count_unlimited (env : SubEnv) (calls : List PutCall) (st : SubState)
    (l : List (Addr × subscriber_fields)) (a : Addr) (v : subscriber_fields) (fuel : Nat)
    (hrepr : SubRepr st l) (hmem : (a, v) ∈ l) (hneg : v.count < 0) (hfuel : l.length < fuel) :
    ∃ st' ev l', put_status_calls env fuel calls st = some (st', ev) ∧ SubRepr st' l' ∧
      ((a, v) ∈ l' ∨
        (a ∉ l'.map Prod.fst ∧ ∃ c ∈ calls, v.field &&& c.mask ≠ 0 ∧ c.io v.stream ≠ 0)) ∧
      ((∀ c ∈ calls, v.field &&& c.mask ≠ 0 → c.io v.stream = 0) → (a, v) ∈ l') := by
  obtain ⟨st', ev, e1, r1⟩ := put_status_calls_spec env fuel calls st l hrepr hfuel
  have key : ∀ (cs : List PutCall) (l0 : List (Addr × subscriber_fields)),
      (l0.map Prod.fst).Nodup → (a, v) ∈ l0 →
      ((a, v) ∈ put_status_calls_list cs l0 ∨
        (a ∉ (put_status_calls_list cs l0).map Prod.fst ∧
          ∃ c ∈ cs, v.field &&& c.mask ≠ 0 ∧ c.io v.stream ≠ 0)) := by
    intro cs
    induction cs with
    | nil => intro l0 _ h; exact Or.inl h
    | cons c cs ih =>
      intro l0 nd h
      have hstep := put_status_list_neg_count c.io c.mask nd h hneg
      have nd1 : ((put_status_list c.io c.mask l0).map Prod.fst).Nodup :=
        nd.sublist (put_status_list_fst_sub _ _ _)
      by_cases hfail : v.field &&& c.mask ≠ 0 ∧ c.io v.stream ≠ 0
      · right
        refine ⟨?_, c, by simp, hfail⟩
        have hgone := hstep.2 hfail
        have hsub : ∀ (cs' : List PutCall) (l1 : List (Addr × subscriber_fields)),
            a ∉ l1.map Prod.fst → a ∉ (put_status_calls_list cs' l1).map Prod.fst := by
          intro cs'
          induction cs' with
          | nil => intro l1 h1; exact h1
          | cons c' cs' ih' =>
            intro l1 h1
            exact ih' _ (fun hin => h1 ((put_status_list_fst_sub _ _ _).subset hin))
        exact hsub cs _ hgone
      · rcases ih _ nd1 (hstep.1 hfail) with h' | ⟨h', c', hc', hx⟩
        · exact Or.inl h'
        · exact Or.inr ⟨h', c', by simp [hc'], hx⟩
  have hk := key calls l hrepr.1.nodup hmem
  refine ⟨st', ev, _, e1, r1, hk, fun hall => ?_⟩
  rcases hk with h | ⟨-, c, hc, hm, hio⟩
  · exact h
  · exact absurd (hall c hc hm) hio

theorem isList_append_entry {α : Type} {h : Heap α} {hd tl : Option Addr}
    {l : List (Addr × α)} {sb : Addr} {v : α} (H : IsList h hd tl l)
    (hs : h sb = some ⟨v, none, none⟩) (hsL : sb ∉ l.map Prod.fst) :
    (hd = none → IsList h (some sb) (some sb) (l ++ [(sb, v)])) ∧
    (hd ≠ none → ∃ t h1 h2, tl = some t ∧ Heap.set_next h t (some sb) = some h1 ∧
      Heap.set_prev h1 sb (some t) = some h2 ∧ IsList h2 hd (some sb) (l ++ [(sb, v)]) ∧
      h2 sb = some ⟨v, some t, none⟩) := by
  constructor
  · intro hnone
    have hl := (isList_nil_iff H).1 hnone
    subst hl
    exact ⟨by simp, ⟨hs, trivial⟩, rfl, rfl⟩
  · intro hne
    have hl : l ≠ [] := fun h0 => hne ((isList_nil_iff H).2 h0)
    obtain ⟨nd, seg, hhd, htl⟩ := H
    rcases List.eq_nil_or_concat l with h0 | ⟨l1, e, hcat⟩
    · exact absurd h0 hl
    · rw [List.concat_eq_append] at hcat
      have hlast : lastPtr none l = some e.1 := by rw [hcat]; simp [lastPtr_append]
      obtain ⟨h1, e1, seg1, fr1⟩ := seg_set_next_last (some sb) nd seg
      rw [hlast] at e1 fr1
      have hsbe : sb ≠ e.1 := by
        rintro rfl
        exact hsL (by rw [hcat]; simp)
      have h1s : h1 sb = some ⟨v, none, none⟩ := by
        rw [fr1 sb (fun hx => hsbe (Option.some.inj hx))]; exact hs
      refine ⟨e.1, h1, _, htl.trans hlast, e1, set_prev_eq (some e.1) h1s, ⟨?_, ?_, ?_, ?_⟩, by simp⟩
      · rw [List.map_append, List.nodup_append]
        refine ⟨nd, by simp, ?_⟩
        intro x hx hx'
        simp only [List.map_cons, List.map_nil, List.mem_singleton] at hx'
        subst hx'
        exact hsL hx
      · rw [seg_append]
        refine ⟨seg_congr (fun x hx => ?_) seg1, ?_, trivial⟩
        · rw [Function.update_noteq]
          rintro rfl; exact hsL hx
        · simp [hlast]
      · rw [hhd]
        cases l with
        | nil => exact absurd rfl hl
        | cons e0 l0 => rfl
      · simp [lastPtr_append]

theorem make_subscriber_repr {st : SubState} {l : List (Addr × subscriber_fields)}
    (stream : FILE) (fifo_path : Option String) (field : Nat) (count : Int)
    (H : SubRepr st l) :
    SubRepr (make_subscriber st stream fifo_path field count).1 l ∧
      (make_subscriber st stream fifo_path field count).2 = st.brk ∧
      (make_subscriber st stream fifo_path field count).1.heap st.brk
        = some ⟨⟨stream, fifo_path, field, count⟩, none, none⟩ ∧
      (make_subscriber st stream fifo_path field count).1.brk = st.brk + 1 ∧
      st.brk ∉ l.map Prod.fst := by
  have hnot : st.brk ∉ l.map Prod.fst := by
    intro hm
    obtain ⟨e, he, heq⟩ := List.mem_map.1 hm
    have hlt : e.1 < st.brk := H.2 e he
    rw [heq] at hlt
    exact lt_irrefl _ hlt
  refine ⟨⟨isList_congr (fun x hx => ?_) H.1, fun e he => Nat.lt_succ_of_lt (H.2 e he)⟩, rfl,
    ?_, rfl, hnot⟩
  · simp only [make_subscriber]
    rw [Function.update_noteq]
    rintro rfl; exact hnot hx
  · simp [make_subscriber]

theorem add_subscriber_spec (env : SubEnv) {st : SubState}
    {l : List (Addr × subscriber_fields)} (stream : FILE) (fifo_path : Option String)
    (field : Nat) (count : Int) (H : SubRepr st l) :
    ∃ st' ev, add_subscriber env (make_subscriber st stream fifo_path field count).1 st.brk
        = some (st', ev) ∧
      (field &&& env.SBSC_MASK_REPORT = 0 →
        SubRepr st' (l ++ [(st.brk, ⟨stream, fifo_path, field, count⟩)]) ∧
        ev = [SubEvent.set_cloexec stream]) ∧
      (field &&& env.SBSC_MASK_REPORT ≠ 0 →
        (count = 1 → SubRepr st' l ∧
          ev = [SubEvent.set_cloexec stream, SubEvent.print_report stream]
            ++ removeEvents env ⟨stream, fifo_path, field, wrap_int (count - 1)⟩) ∧
        (count ≠ 1 →
          SubRepr st' (l ++ [(st.brk, ⟨stream, fifo_path, field, wrap_int (count - 1)⟩)]) ∧
          ev = [SubEvent.set_cloexec stream, SubEvent.print_report stream])) := by
  obtain ⟨r0, -, hs0, b0, hnot⟩ := make_subscriber_repr stream fifo_path field count H
  obtain ⟨hempty, hnonempty⟩ := isList_append_entry r0.1 hs0 hnot
  have hbound : ∀ e ∈ l ++ [(st.brk, (⟨stream, fifo_path, field, count⟩ : subscriber_fields))],
      e.1 < st.brk + 1 := by
    intro e he
    rcases List.mem_append.1 he with h | h
    · exact Nat.lt_succ_of_lt (H.2 e h)
    · simp only [List.mem_singleton] at h
      subst h
      exact Nat.lt_succ_self _
  -- the state after linking
  have hlink : ∃ st1, (if (make_subscriber st stream fifo_path field count).1.subscribe_head
        = none then
        some { (make_subscriber st stream fifo_path field count).1 with
               subscribe_head := some st.brk, subscribe_tail := some st.brk }
      else
        match (make_subscriber st stream fifo_path field count).1.subscribe_tail with
        | none => none
        | some t =>
          match (make_subscriber st stream fifo_path field count).1.heap.set_next t
              (some st.brk) with
          | none => none
          | some h1 =>
            match h1.set_prev st.brk (some t) with
            | none => none
            | some h2 =>
              some { (make_subscriber st stream fifo_path field count).1 with
                     heap := h2, subscribe_tail := some st.brk }) = some st1 ∧
      SubRepr st1 (l ++ [(st.brk, ⟨stream, fifo_path, field, count⟩)]) ∧
      st1.brk = st.brk + 1 := by
    by_cases hh : (make_subscriber st stream fifo_path field count).1.subscribe_head = none
    · rw [if_pos hh]
      exact ⟨_, rfl, ⟨hempty hh, hbound⟩, rfl⟩
    · rw [if_neg hh]
      obtain ⟨t, h1, h2, ht, e1, e2, r2, -⟩ := hnonempty hh
      refine ⟨{ (make_subscriber st stream fifo_path field count).1 with
                heap := h2, subscribe_tail := some st.brk }, ?_, ⟨r2, hbound⟩, rfl⟩
      simp only [ht, e1, e2]
  obtain ⟨st1, elink, r1, b1⟩ := hlink
  have H1 : SubRepr st1 (l ++ (st.brk, (⟨stream, fifo_path, field, count⟩ :
      subscriber_fields)) :: []) := r1
  have hs1 : st1.heap st.brk = some ⟨(⟨stream, fifo_path, field, count⟩ : subscriber_fields),
      lastPtr none l, none⟩ := isList_lookup H1.1
  by_cases hrep : field &&& env.SBSC_MASK_REPORT = 0
  · refine ⟨st1, [SubEvent.set_cloexec stream], ?_, fun _ => ⟨r1, rfl⟩, fun h => absurd hrep h⟩
    unfold add_subscriber
    simp only [elink, hs1, hrep, ne_eq, not_true_eq_false, if_false]
  · have hsv := set_val_eq (⟨stream, fifo_path, field, wrap_int (count - 1)⟩ :
      subscriber_fields) hs1
    have H2 : SubRepr
        { st1 with
          heap := Function.update st1.heap st.brk
                    (some ⟨(⟨stream, fifo_path, field, wrap_int (count - 1)⟩ :
                      subscriber_fields), lastPtr none l, none⟩) }
        (l ++ (st.brk, (⟨stream, fifo_path, field, wrap_int (count - 1)⟩ :
          subscriber_fields)) :: []) := by
      refine ⟨isList_set_val _ H1.1, fun e he => ?_⟩
      show e.1 < st1.brk
      rw [b1]
      rcases List.mem_append.1 he with h | h
      · exact Nat.lt_succ_of_lt (H.2 e h)
      · simp only [List.mem_singleton] at h
        subst h
        exact Nat.lt_succ_self _
    by_cases hone : count = 1
    · subst hone
      obtain ⟨st3, e3, r3, -⟩ := remove_subscriber_spec env H2
      refine ⟨st3, _, ?_, fun h => absurd h hrep, fun _ =>
        ⟨fun _ => ⟨by simpa using r3, rfl⟩, fun h => absurd rfl h⟩⟩
      unfold add_subscriber
      simp only [elink, hs1, hrep, ne_eq, not_false_eq_true, if_true, hsv, e3]
      simp
    · refine ⟨_, _, ?_, fun h => absurd h hrep, fun _ =>
        ⟨fun h => absurd h hone, fun _ => ⟨H2, rfl⟩⟩⟩
      unfold add_subscriber
      simp only [elink, hs1, hrep, ne_eq, not_false_eq_true, if_true, hsv, hone, if_false]
      simp

theorem wrap_int_pred {count : Int} (h1 : 1 ≤ count) (h2 : count < 2 ^ 31) :
    wrap_int (count - 1) = count - 1 := by
  unfold wrap_int
  omega

/-- C10: `add_subscriber` applied to a subscriber fresh from `make_subscriber` returns.  When
its `field` does not include `SBSC_MASK_REPORT`, it becomes the last entry of the list, the
existing entries keep their order, nothing is written and its count is unchanged.  When the
`field` includes `SBSC_MASK_REPORT`, exactly one write is made, a report to its stream; with
limit `1` it is removed again at once (the list is the prior list); with any other count it
is the last entry of the list, after the existing entries in their order, with the count
decremented as an `int`, which for a limit `N > 1` is `N - 1`. -/
theorem C10_add_subscriber_appends (env : SubEnv) (st : SubState)
    (l : List (Addr × subscriber_fields)) (stream : FILE) (fifo_path : Option String)
    (field : Nat) (count : Int) (hrepr : SubRepr st l) (hint : count < 2 ^ 31) :
    ∃ st' ev, add_subscriber env (make_subscriber st stream fifo_path field count).1
        (make_subscriber st stream fifo_path field count).2 = some (st', ev) ∧
      (field &&& env.SBSC_MASK_REPORT = 0 →
        SubRepr st' (l ++ [(st.brk, ⟨stream, fifo_path, field, count⟩)]) ∧
        ev.filter isWrite = []) ∧
      (field &&& env.SBSC_MASK_REPORT ≠ 0 →
        ev.filter isWrite = [SubEvent.print_report stream] ∧
        (count = 1 → SubRepr st' l) ∧
        (count ≠ 1 →
          SubRepr st' (l ++ [(st.brk, ⟨stream, fifo_path, field, wrap_int (count - 1)⟩)])) ∧
        (1 < count → SubRepr st' (l ++ [(st.brk, ⟨stream, fifo_path, field, count - 1⟩)]))) := by
  obtain ⟨st', ev, e1, h0, h1⟩ := add_subscriber_spec env stream fifo_path field count hrepr
  refine ⟨st', ev, e1, fun hz => ?_, fun hnz => ?_⟩
  · obtain ⟨r, hev⟩ := h0 hz
    exact ⟨r, by rw [hev]; rfl⟩
  · obtain ⟨hone, hmore⟩ := h1 hnz
    refine ⟨?_, fun hc => (hone hc).1, fun hc => (hmore hc).1, fun hc => ?_⟩
    · by_cases hc : count = 1
      · rw [(hone hc).2]
        unfold removeEvents
        split_ifs <;> rfl
      · rw [(hmore hc).2]; rfl
    · have := (hmore (by omega)).1
      rwa [wrap_int_pred (by omega) hint] at this

theorem sampleSubs_repr : SubRepr sampleSubs sampleSubsList :=
  ⟨⟨by decide, ⟨rfl, rfl, rfl, trivial⟩, rfl, rfl⟩, by decide⟩

/-- Witness for C7: a message for mask bit `2` while the flush on stream `10` fails. -/
theorem C7_put_status_delivery_witness :
    SubRepr sampleSubs sampleSubsList ∧
    ∃ st' ev, put_status sampleSubEnv (fun s => if s = 10 then 1 else 0) 4 sampleSubs 2
        "node_focus" [] = some (st', ev) ∧
      ev = sampleSubsList.flatMap (fun e => put_status_events sampleSubEnv
            (fun s => if s = 10 then 1 else 0) 2 "node_focus" [] e.2) ∧
      ev.filter isWrite
        = (sampleSubsList.filter (fun e => decide (e.2.field &&& 2 ≠ 0))).map
            (fun e => writeEvent sampleSubEnv 2 "node_focus" [] e.2.stream) :=
  ⟨sampleSubs_repr,
    C7_put_status_delivery sampleSubEnv (fun s => if s = 10 then 1 else 0) sampleSubs
      sampleSubsList 2 "node_focus" [] 4 sampleSubs_repr (by decide)⟩

/-- Witness for C8: a report (mask bit `1`) with every flush succeeding; the subscriber at
address `2` runs out of messages and is removed. -/
theorem C8_put_status_survivors_witness :
    SubRepr sampleSubs sampleSubsList ∧
    ∃ st' ev, put_status sampleSubEnv (fun _ => 0) 4 sampleSubs 1 "" [] = some (st', ev) ∧
      SubRepr st' [(0, ⟨10, some "/tmp/fifo_a", 7, -1⟩), (1, ⟨11, none, 2, 2⟩)] := by
  refine ⟨sampleSubs_repr, ?_⟩
  obtain ⟨st', ev, h1, h2, -⟩ :=
    C8_put_status_survivors sampleSubEnv (fun _ => 0) sampleSubs sampleSubsList 1 "" [] 4
      sampleSubs_repr (by decide)
  exact ⟨st', ev, h1, h2⟩

/-- Witness for C9: the unlimited subscriber at address `0` survives three calls. -/
theorem C9_negative_count_unlimited_witness :
    SubRepr sampleSubs sampleSubsList ∧
    ∃ st' ev l', put_status_calls sampleSubEnv 4
        [⟨2, "a", [], fun _ => 0⟩, ⟨1, "", [], fun _ => 0⟩, ⟨4, "b", [1], fun _ => 0⟩]
        sampleSubs = some (st', ev) ∧ SubRepr st' l' ∧
      (0, (⟨10, some "/tmp/fifo_a", 7, -1⟩ : subscriber_fields)) ∈ l' := by
  refine ⟨sampleSubs_repr, ?_⟩
  obtain ⟨st', ev, l', h1, h2, -, h4⟩ :=
    C9_negative_count_unlimited sampleSubEnv
      [⟨2, "a", [], fun _ => 0⟩, ⟨1, "", [], fun _ => 0⟩, ⟨4, "b", [1], fun _ => 0⟩]
      sampleSubs sampleSubsList 0 ⟨10, some "/tmp/fifo_a", 7, -1⟩ 4 sampleSubs_repr
      (by decide) (by decide) (by decide)
  exact ⟨st', ev, l', h1, h2, h4 (fun c hc _ => by
    simp only [List.mem_cons, List.mem_singleton, List.not_mem_nil, or_false] at hc
    rcases hc with rfl | rfl | rfl <;> rfl)⟩

/-- Witness for C10: a report subscriber with limit `2` is appended with one message left. -/
theorem C10_add_subscriber_appends_witness :
    SubRepr sampleSubs sampleSubsList ∧
    ∃ st' ev, add_subscriber sampleSubEnv (make_subscriber sampleSubs 13 none 1 2).1
        (make_subscriber sampleSubs 13 none 1 2).2 = some (st', ev) ∧
      ev.filter isWrite = [SubEvent.print_report 13] ∧
      SubRepr st' (sampleSubsList ++ [(3, ⟨13, none, 1, 1⟩)]) := by
  refine ⟨sampleSubs_repr, ?_⟩
  obtain ⟨st', ev, h1, -, h3⟩ :=
    C10_add_subscriber_appends sampleSubEnv sampleSubs sampleSubsList 13 none 1 2
      sampleSubs_repr (by decide)
  obtain ⟨hw, -, -, hm⟩ := h3 (by decide)
  exact ⟨st', ev, h1, hw, hm (by decide)⟩

theorem wrap_int_of_range {x : Int} (h1 : -2 ^ 31 ≤ x) (h2 : x < 2 ^ 31) : wrap_int x = x := by
  unfold wrap_int
  omega

/-- C19: for rectangles with fields in the range of their C types and `b` of positive width
and height, `contains(a, b)` holds exactly when every integer point of `b` (the points with
`b.x <= px < b.x + b.width` and `b.y <= py < b.y + b.height`, which are the points
`is_inside` accepts for `b`) is a point of `a`; and `contains(a, a)` holds, so `b` may touch
the boundary of `a`. -/
theorem C19_contains_iff_points (a b : xcb_rectangle_t) (ha : a.in_range) (hb : b.in_range)
    (hw : 0 < b.width) (hh : 0 < b.height) :
    (contains a b = true ↔
      ∀ px py : Int, (b.x ≤ px ∧ px < b.x + b.width ∧ b.y ≤ py ∧ py < b.y + b.height) →
        (a.x ≤ px ∧ px < a.x + a.width ∧ a.y ≤ py ∧ py < a.y + a.height)) ∧
    contains a a = true ∧
    (∀ p : xcb_point_t, p.in_range →
      (is_inside p b = true ↔
        (b.x ≤ p.x ∧ p.x < b.x + b.width ∧ b.y ≤ p.y ∧ p.y < b.y + b.height))) := by
  obtain ⟨hax1, hay1, haw, hah⟩ := ha
  obtain ⟨hbx1, hby1, hbw, hbh⟩ := hb
  unfold is_int16 at hax1 hay1 hbx1 hby1
  have e1 : wrap_int (a.x + a.width) = a.x + a.width := wrap_int_of_range (by omega) (by omega)
  have e2 : wrap_int (b.x + b.width) = b.x + b.width := wrap_int_of_range (by omega) (by omega)
  have e3 : wrap_int (a.y + a.height) = a.y + a.height :=
    wrap_int_of_range (by omega) (by omega)
  have e4 : wrap_int (b.y + b.height) = b.y + b.height :=
    wrap_int_of_range (by omega) (by omega)
  refine ⟨?_, ?_, ?_⟩
  · simp only [contains, e1, e2, e3, e4, Bool.and_eq_true, decide_eq_true_eq]
    constructor
    · rintro ⟨⟨⟨h1, h2⟩, h3⟩, h4⟩ px py ⟨p1, p2, p3, p4⟩
      exact ⟨by omega, by omega, by omega, by omega⟩
    · intro h
      have hlo := h b.x b.y ⟨le_refl _, by omega, le_refl _, by omega⟩
      have hhi := h (b.x + b.width - 1) (b.y + b.height - 1)
        ⟨by omega, by omega, by omega, by omega⟩
      exact ⟨⟨⟨hlo.1, by omega⟩, hlo.2.2.1⟩, by omega⟩
  · simp [contains]
  · intro p _
    simp only [is_inside, e2, e4, Bool.and_eq_true, decide_eq_true_eq, ge_iff_le]
    constructor
    · rintro ⟨⟨⟨h1, h2⟩, h3⟩, h4⟩
      exact ⟨h1, h2, h3, h4⟩
    · rintro ⟨h1, h2, h3, h4⟩
      exact ⟨⟨⟨h1, h2⟩, h3⟩, h4⟩

/-- Witness for C19: a rectangle and one inside it that touches its right and bottom edge. -/
theorem C19_contains_iff_points_witness :
    contains ⟨0, 0, 100, 100⟩ ⟨50, 50, 50, 50⟩ = true ∧
    (contains ⟨0, 0, 100, 100⟩ ⟨50, 50, 50, 50⟩ = true ↔
      ∀ px py : Int, ((50 : Int) ≤ px ∧ px < (50 : Int) + (50 : Nat) ∧ (50 : Int) ≤ py
          ∧ py < (50 : Int) + (50 : Nat)) →
        ((0 : Int) ≤ px ∧ px < (0 : Int) + (100 : Nat) ∧ (0 : Int) ≤ py
          ∧ py < (0 : Int) + (100 : Nat))) :=
  ⟨by decide,
    (C19_contains_iff_points ⟨0, 0, 100, 100⟩ ⟨50, 50, 50, 50⟩ (by decide) (by decide)
      (by decide) (by decide)).1⟩

theorem area_some (r : xcb_rectangle_t) (h : r.width * r.height < 2 ^ 31) :
    area r = some ((r.width : Int) * (r.height : Int)) := by
  have h0 : 0 ≤ (r.width : Int) * (r.height : Int) :=
    mul_nonneg (Int.ofNat_nonneg _) (Int.ofNat_nonneg _)
  have h1 : (r.width : Int) * (r.height : Int) < 2 ^ 31 := by
    have := Int.ofNat_lt.2 h
    push_cast at this
    exact this
  unfold area int_mul
  rw [if_pos ⟨by omega, h1⟩]
  simp only [Option.map_some', to_uint]
  congr 1
  omega

theorem area_none (r : xcb_rectangle_t) (h : 2 ^ 31 ≤ r.width * r.height) : area r = none := by
  have h1 : (2 : Int) ^ 31 ≤ (r.width : Int) * (r.height : Int) := by
    have := Int.ofNat_le.2 h
    push_cast at this
    exact this
  unfold area int_mul
  rw [if_neg (by omega)]
  rfl

theorem area_eq_some_iff (r : xcb_rectangle_t) (a : Int) :
    area r = some a ↔ r.width * r.height < 2 ^ 31 ∧ a = (r.width : Int) * (r.height : Int) := by
  by_cases h : r.width * r.height < 2 ^ 31
  · rw [area_some r h]
    constructor
    · intro e
      cases e
      exact ⟨h, rfl⟩
    · rintro ⟨-, e⟩
      rw [e]
  · rw [area_none r (by omega)]
    constructor
    · intro e
      cases e
    · rintro ⟨h2, -⟩
      exact absurd h2 h

theorem area_eq_none_iff (r : xcb_rectangle_t) :
    area r = none ↔ 2 ^ 31 ≤ r.width * r.height := by
  by_cases h : r.width * r.height < 2 ^ 31
  · rw [area_some r h]
    constructor
    · intro e
      cases e
    · intro h2
      omega
  · rw [area_none r (by omega)]
    exact ⟨fun _ => by omega, fun _ => rfl⟩

/-- C20: `area(r)` is the exact product `width * height` exactly when the product is below
`2 ^ 31`.  The two `uint16_t` operands are promoted to `int` and multiplied in `int`, so a
product above `INT_MAX` overflows before the conversion to `unsigned int` and the call has no
defined value; this is the case for width `65535` and height `65535`, and already for the
square of side `46341`. -/
theorem C20_area_exact_iff_product_fits_int (r : xcb_rectangle_t) :
    (r.width * r.height < 2 ^ 31 → area r = some ((r.width : Int) * (r.height : Int))) ∧
    (2 ^ 31 ≤ r.width * r.height → area r = none) ∧
    (area r = some ((r.width : Int) * (r.height : Int)) ↔ r.width * r.height < 2 ^ 31) ∧
    area ⟨0, 0, 65535, 65535⟩ = none ∧
    area ⟨0, 0, 46341, 46341⟩ = none ∧
    area ⟨0, 0, 46340, 46340⟩ = some 2147395600 := by
  refine ⟨area_some r, area_none r, ?_, by decide, by decide, by decide⟩
  rw [area_eq_some_iff]
  exact ⟨fun h => h.1, fun h => ⟨h, rfl⟩⟩

/-- Witness for C20: a rectangle of the size of a large screen. -/
theorem C20_area_exact_iff_product_fits_int_witness :
    area ⟨0, 0, 3840, 2160⟩ = some 8294400 :=
  (C20_area_exact_iff_product_fits_int ⟨0, 0, 3840, 2160⟩).1 (by decide)

theorem prune_loop_spec (env : SubEnv) (probe : FILE → Int)
    (B : List (Addr × subscriber_fields)) :
    ∀ (A : List (Addr × subscriber_fields)) (st : SubState) (fuel : Nat),
      SubRepr st (A ++ B) → B.length < fuel →
      ∃ st', prune_loop env probe fuel (hdPtr B none) st
          = some (st', (B.filter (fun e => subDead probe e.2)).flatMap
              (fun e => removeEvents env e.2)) ∧
        SubRepr st' (A ++ B.filter (fun e => !subDead probe e.2)) ∧ st'.brk = st.brk := by
  induction B with
  | nil =>
    intro A st fuel H hf
    cases fuel with
    | zero => simp at hf
    | succ fuel => exact ⟨st, rfl, by simpa using H, rfl⟩
  | cons e B ih =>
    intro A st fuel H hf
    cases fuel with
    | zero => simp at hf
    | succ fuel =>
      obtain ⟨sb, v⟩ := e
      have hs := isList_lookup H.1
      have hf' : B.length < fuel := by simpa using hf
      by_cases hd : probe v.stream = -1
      · have hdead : subDead probe v = true := by simp [subDead, hd]
        obtain ⟨st2, e2, r2, b2, -⟩ := remove_subscriber_spec env H
        obtain ⟨st3, e3, r3, b3⟩ := ih A st2 fuel r2 hf'
        refine ⟨st3, ?_, ?_, b3.trans b2⟩
        · simp only [hdPtr_cons, prune_loop, hs, hd, if_true, e2, e3, List.filter_cons, hdead,
            List.flatMap_cons]
        · simpa [List.filter_cons, hdead] using r3
      · have hdead : subDead probe v = false := by simp [subDead, hd]
        have H' : SubRepr st ((A ++ [(sb, v)]) ++ B) := by simpa using H
        obtain ⟨st', e1, r1, b1⟩ := ih (A ++ [(sb, v)]) st fuel H' hf'
        refine ⟨st', ?_, ?_, b1⟩
        · simp only [hdPtr_cons, prune_loop, hs, hd, if_false, List.filter_cons, hdead]
          simpa using e1
        · simpa [List.filter_cons, hdead] using r1

theorem prune_loop_alive (env : SubEnv) (probe : FILE → Int)
    (B : List (Addr × subscriber_fields)) :
    ∀ (A : List (Addr × subscriber_fields)) (st : SubState) (fuel : Nat),
      SubRepr st (A ++ B) → (∀ e ∈ B, subDead probe e.2 = false) → B.length < fuel →
      prune_loop env probe fuel (hdPtr B none) st = some (st, []) := by
  induction B with
  | nil =>
    intro A st fuel _ _ hf
    cases fuel with
    | zero => simp at hf
    | succ fuel => rfl
  | cons e B ih =>
    intro A st fuel H hall hf
    cases fuel with
    | zero => simp at hf
    | succ fuel =>
      obtain ⟨sb, v⟩ := e
      have hs := isList_lookup H.1
      have hf' : B.length < fuel := by simpa using hf
      have hd : ¬ probe v.stream = -1 := by
        have := hall (sb, v) (by simp)
        simpa [subDead] using this
      have H' : SubRepr st ((A ++ [(sb, v)]) ++ B) := by simpa using H
      have := ih (A ++ [(sb, v)]) st fuel H' (fun e he => hall e (by simp [he])) hf'
      simp only [hdPtr_cons, prune_loop, hs, hd, if_false]
      exact this

theorem subRepr_head {st : SubState} {l : List (Addr × subscriber_fields)}
    (H : SubRepr st l) : st.subscribe_head = hdPtr l none := H.1.head_eq

/-- C11: on a well-formed subscriber list `l`, `prune_dead_subscribers` returns; the list it
leaves is `l` without exactly the subscribers whose probe returns `-1`, the others in their
order with their fields (stream, path, field, count) unchanged; each removed subscriber gets
the calls of `remove_subscriber` and nothing else is called; and a second call with the same
probe outcomes changes nothing and calls nothing. -/
theorem C11_prune_removes_dead (env : SubEnv) (probe : FILE → Int) (st : SubState)
    (l : List (Addr × subscriber_fields)) (fuel : Nat)
    (H : SubRepr st l) (hf : l.length < fuel) :
    ∃ st', prune_dead_subscribers env probe fuel st
        = some (st', (l.filter (fun e => decide (probe e.2.stream = -1))).flatMap
            (fun e => removeEvents env e.2)) ∧
      SubRepr st' (l.filter (fun e => decide (probe e.2.stream ≠ -1))) ∧
      prune_dead_subscribers env probe fuel st' = some (st', []) := by
  have hh := subRepr_head H
  obtain ⟨st', e1, r1, -⟩ := prune_loop_spec env probe l [] st fuel (by simpa using H) hf
  have r1' : SubRepr st' (l.filter (fun e => !subDead probe e.2)) := by simpa using r1
  have e2 := prune_loop_alive env probe (l.filter (fun e => !subDead probe e.2)) [] st' fuel
    (by simpa using r1') (fun e he => by simpa using (List.mem_filter.1 he).2)
    (lt_of_le_of_lt (List.length_filter_le _ _) hf)
  have f1 : (fun e : Addr × subscriber_fields => decide (probe e.2.stream = -1))
      = fun e => subDead probe e.2 := rfl
  have f2 : (fun e : Addr × subscriber_fields => decide (probe e.2.stream ≠ -1))
      = fun e => !subDead probe e.2 := by
    funext e; simp only [subDead, ne_eq, decide_not]
  rw [f1, f2]
  refine ⟨st', ?_, r1', ?_⟩
  · unfold prune_dead_subscribers; rw [hh]; exact e1
  · unfold prune_dead_subscribers; rw [subRepr_head r1']; exact e2

/-- Witness for C11: the probe of stream `11` fails; its subscriber is removed and the two
others stay in order. -/
theorem C11_prune_removes_dead_witness :
    SubRepr sampleSubs sampleSubsList ∧
    ∃ st', prune_dead_subscribers sampleSubEnv (fun s => if s = 11 then -1 else 0) 4 sampleSubs
        = some (st', [SubEvent.fclose 11, SubEvent.unlink none]) ∧
      SubRepr st' [(0, ⟨10, some "/tmp/fifo_a", 7, -1⟩), (2, ⟨12, some "/tmp/fifo_c", 3, 1⟩)] ∧
      prune_dead_subscribers sampleSubEnv (fun s => if s = 11 then -1 else 0) 4 st'
        = some (st', []) :=
  ⟨sampleSubs_repr,
    C11_prune_removes_dead sampleSubEnv (fun s => if s = 11 then -1 else 0) sampleSubs
      sampleSubsList 4 sampleSubs_repr (by decide)⟩

theorem snprintf_arg_fit (msg : List Char) (offset rem : Nat) (arg : List Char)
    (h1 : offset + rem ≤ msg.length) (h2 : arg.length + 1 ≤ rem) :
    (snprintf_arg msg offset rem arg).2 = (arg.length : Int) + 1 ∧
    (snprintf_arg msg offset rem arg).1.length = msg.length ∧
    (snprintf_arg msg offset rem arg).1.take (offset + (arg.length + 1))
      = msg.take offset ++ (arg ++ [NUL]) := by
  have hr : rem ≠ 0 := by omega
  have hout : ∃ X : List Char, (arg ++ [NUL]).take (rem - 1) ++ [NUL] = (arg ++ [NUL]) ++ X ∧
      ((arg ++ [NUL]).take (rem - 1) ++ [NUL]).length ≤ rem := by
    by_cases hc : arg.length + 1 ≤ rem - 1
    · refine ⟨[NUL], ?_, ?_⟩
      · rw [List.take_of_length_le (by simpa using hc)]
      · rw [List.take_of_length_le (by simpa using hc)]
        simp only [List.length_append, List.length_singleton]
        omega
    · have hl : rem - 1 = arg.length := by omega
      refine ⟨[], ?_, ?_⟩
      · rw [hl, List.take_left']
        · simp
        · rfl
      · rw [hl, List.take_left' rfl]
        simp only [List.length_append, List.length_singleton]
        omega
  obtain ⟨X, hX, hlen⟩ := hout
  have ho : (msg.take offset).length = offset := by
    rw [List.length_take]; omega
  refine ⟨?_, ?_, ?_⟩
  · simp [snprintf_arg, hr]
  · simp only [snprintf_arg, hr, if_false, List.length_append, List.length_drop, ho]
    simp only [List.length_append] at hlen
    omega
  · simp only [snprintf_arg, hr, if_false]
    rw [hX, List.append_assoc, List.append_assoc, ← List.append_assoc (List.take offset msg)]
    have : offset + (arg.length + 1) = (List.take offset msg ++ (arg ++ [NUL])).length := by
      simp [ho]
    rw [this, List.take_left']
    rfl

theorem encoded_size_cons (a : List Char) (l : List (List Char)) :
    encoded_size (a :: l) = (a.length + 1) + encoded_size l := by
  simp [encoded_size]

theorem encode_args_cons (a : List Char) (l : List (List Char)) :
    encode_args (a :: l) = (a ++ [NUL]) ++ encode_args l := by
  simp [encode_args]

theorem encoded_size_append (l1 l2 : List (List Char)) :
    encoded_size (l1 ++ l2) = encoded_size l1 + encoded_size l2 := by
  simp [encoded_size]

theorem assemble_loop_fit (B : Nat) :
    ∀ (args : List (List Char)) (st : MsgState), st.msg.length = B → 0 ≤ st.offset →
      st.offset + st.rem = B → st.msg_len = st.offset → (encoded_size args : Int) ≤ st.rem →
      (assemble_loop args st).msg_len = st.offset + encoded_size args ∧
      (assemble_loop args st).offset = st.offset + encoded_size args ∧
      (assemble_loop args st).rem = st.rem - encoded_size args ∧
      (assemble_loop args st).msg.length = B ∧
      (assemble_loop args st).msg.take (st.offset.toNat + encoded_size args)
        = st.msg.take st.offset.toNat ++ encode_args args := by
  intro args
  induction args with
  | nil =>
    intro st hl _ _ hm _
    simp [assemble_loop, encoded_size, encode_args, hm, hl]
  | cons arg rest ih =>
    intro st hl ho hs hm hsz
    rw [encoded_size_cons] at hsz
    push_cast at hsz
    have hrem : st.rem > 0 := by omega
    obtain ⟨r2, rl, rt⟩ := snprintf_arg_fit st.msg st.offset.toNat st.rem.toNat arg
      (by omega) (by omega)
    have ih1 := ih
      { msg := (snprintf_arg st.msg st.offset.toNat st.rem.toNat arg).1
        offset := st.offset + (snprintf_arg st.msg st.offset.toNat st.rem.toNat arg).2
        rem := st.rem - (snprintf_arg st.msg st.offset.toNat st.rem.toNat arg).2
        msg_len := st.msg_len + (snprintf_arg st.msg st.offset.toNat st.rem.toNat arg).2 }
      (by simpa [hl] using rl) (by simp only [r2]; omega) (by simp only [r2]; omega)
      (by simp only [r2]; omega) (by simp only [r2]; omega)
    simp only [r2] at ih1
    obtain ⟨i1, i2, i3, i4, i5⟩ := ih1
    have e1 : (st.offset + ((arg.length : Int) + 1)).toNat = st.offset.toNat + (arg.length + 1) := by
      omega
    rw [e1] at i5
    simp only [assemble_loop, hrem, if_true, encoded_size_cons, encode_args_cons, r2]
    refine ⟨by rw [i1]; push_cast; ring, by rw [i2]; push_cast; ring,
      by rw [i3]; push_cast; ring, i4, ?_⟩
    rw [← Nat.add_assoc, i5, rt, List.append_assoc]

/-- C13: when `bspc` gets to its `send` call (at least one argument, the first one not
`--print-socket-path`, socket created and connected) and the total encoded size of the
arguments is at most `BUFSIZ`, the bytes it sends are exactly the arguments in order, each
followed by one NUL byte, and `msg_len` is the total encoded size; this holds whatever the
buffer held before.  Before that point `bspc` only leaves without sending: with no argument,
for `--print-socket-path`, or when `socket` or `connect` fails. -/
theorem C13_message_is_concatenation (BUFSIZ : Nat) (init : Nat → Char)
    (socket_ok connect_ok : Bool) (args : List (List Char)) (hne : args ≠ [])
    (hsz : encoded_size args ≤ BUFSIZ) :
    bspc_request BUFSIZ init socket_ok connect_ok args
      = if args.head? = some print_socket_path_option then BspcRequest.print_socket_path
        else if socket_ok = false then BspcRequest.err_socket
        else if connect_ok = false then BspcRequest.err_connect
        else BspcRequest.send (encode_args args) (encoded_size args) := by
  obtain ⟨a, rest, rfl⟩ := List.exists_cons_of_ne_nil hne
  obtain ⟨h1, -, -, -, h5⟩ := assemble_loop_fit BUFSIZ (a :: rest)
    { msg := (List.range BUFSIZ).map init, offset := 0, rem := BUFSIZ, msg_len := 0 }
    (by simp) (le_refl _) (by simp) rfl (by simpa using hsz)
  simp only [Int.toNat_zero, Nat.zero_add, Int.zero_add, List.take_zero, List.nil_append] at h1 h5
  unfold bspc_request
  simp only [List.head?_cons, Option.some.injEq]
  by_cases hp : a = print_socket_path_option
  · simp [hp]
  · cases socket_ok <;> cases connect_ok <;> simp [hp, assemble, h1, h5, hsz]

/-- Witness for C13: the request `node -f` in a buffer of 8192 bytes. -/
theorem C13_message_is_concatenation_witness :
    bspc_request 8192 (fun _ => 'x') true true [['n', 'o', 'd', 'e'], ['-', 'f']]
      = if [['n', 'o', 'd', 'e'], ['-', 'f']].head? = some print_socket_path_option
        then BspcRequest.print_socket_path
        else if true = false then BspcRequest.err_socket
        else if true = false then BspcRequest.err_connect
        else BspcRequest.send (encode_args [['n', 'o', 'd', 'e'], ['-', 'f']])
          (encoded_size [['n', 'o', 'd', 'e'], ['-', 'f']]) :=
  C13_message_is_concatenation 8192 (fun _ => 'x') true true [['n', 'o', 'd', 'e'], ['-', 'f']]
    (by decide) (by decide)

theorem assemble_loop_stop (args : List (List Char)) (st : MsgState) (h : st.rem ≤ 0) :
    assemble_loop args st = st := by
  cases args with
  | nil => rfl
  | cons a r =>
    have : ¬ st.rem > 0 := by omega
    simp [assemble_loop, this]

theorem assemble_loop_append (l1 l2 : List (List Char)) :
    ∀ st : MsgState, assemble_loop (l1 ++ l2) st = assemble_loop l2 (assemble_loop l1 st) := by
  induction l1 with
  | nil => intro st; rfl
  | cons a r ih =>
    intro st
    by_cases h : st.rem > 0
    · simp only [List.cons_append, assemble_loop, h, if_true]
      exact ih _
    · simp only [List.cons_append, assemble_loop, h, if_false]
      exact (assemble_loop_stop l2 st (by omega)).symm

theorem snprintf_arg_ret (msg : List Char) (offset rem : Nat) (arg : List Char) :
    (snprintf_arg msg offset rem arg).2 = (arg.length : Int) + 1 := by
  unfold snprintf_arg
  split_ifs <;> rfl

theorem assemble_overlong (BUFSIZ : Nat) (init : Nat → Char) (pre : List (List Char))
    (arg : List Char) (post : List (List Char)) (h1 : encoded_size pre < BUFSIZ)
    (h2 : BUFSIZ < encoded_size pre + (arg.length + 1)) :
    (assemble BUFSIZ init (pre ++ arg :: post)).msg_len
      = (encoded_size pre : Int) + (arg.length + 1) := by
  obtain ⟨m1, m2, m3, -, -⟩ := assemble_loop_fit BUFSIZ pre
    { msg := (List.range BUFSIZ).map init, offset := 0, rem := BUFSIZ, msg_len := 0 }
    (by simp) (le_refl _) (by simp) rfl (by simp only; omega)
  simp only [Int.zero_add] at m1 m2 m3
  unfold assemble
  rw [assemble_loop_append]
  have hrem : (assemble_loop pre
      { msg := (List.range BUFSIZ).map init, offset := 0, rem := BUFSIZ, msg_len := 0 }).rem > 0 := by
    rw [m3]; omega
  simp only [assemble_loop, hrem, if_true, snprintf_arg_ret]
  rw [assemble_loop_stop]
  · simp only [m1]
  · simp only [m3]; omega

/-- C14: an argument that no longer fits the buffer makes `msg_len` larger than `BUFSIZ`.  When
the arguments `pre` fit with room to spare and the next argument `arg` with its NUL byte does
not fit what is left, the loop adds the full length of `arg` plus one to `msg_len` although
`snprintf` stored only what fitted, so `send` is called with
`msg_len = encoded_size pre + strlen(arg) + 1 > BUFSIZ` and reads past the end of `msg`. -/
theorem C14_msg_len_exceeds_buffer (BUFSIZ : Nat) (init : Nat → Char) (pre : List (List Char))
    (arg : List Char) (post : List (List Char))
    (hp : (pre ++ arg :: post).head? ≠ some print_socket_path_option)
    (h1 : encoded_size pre < BUFSIZ) (h2 : BUFSIZ < encoded_size pre + (arg.length + 1)) :
    bspc_request BUFSIZ init true true (pre ++ arg :: post)
      = BspcRequest.send_beyond_buffer ((encoded_size pre : Int) + (arg.length + 1)) ∧
    (BUFSIZ : Int) < (encoded_size pre : Int) + (arg.length + 1) := by
  have hm := assemble_overlong BUFSIZ init pre arg post h1 h2
  have hgt : (BUFSIZ : Int) < (encoded_size pre : Int) + (arg.length + 1) := by omega
  refine ⟨?_, hgt⟩
  unfold bspc_request
  cases hl : pre ++ arg :: post with
  | nil => simp at hl
  | cons a r =>
    rw [hl] at hp hm
    have hp' : a ≠ print_socket_path_option := by simpa using hp
    have hnot : ¬ (encoded_size pre : Int) + (arg.length + 1) ≤ BUFSIZ := by omega
    simp [hp', hm, hnot]

/-- Witness for C14: one argument of 8192 bytes with a buffer of 8192 bytes. -/
theorem C14_msg_len_exceeds_buffer_witness :
    bspc_request 8192 (fun _ => 'x') true true ([] ++ List.replicate 8192 'a' :: [])
      = BspcRequest.send_beyond_buffer
          ((encoded_size [] : Int) + ((List.replicate 8192 'a').length + 1)) ∧
    ((8192 : Nat) : Int) < (encoded_size [] : Int) + ((List.replicate 8192 'a').length + 1) :=
  C14_msg_len_exceeds_buffer 8192 (fun _ => 'x') [] (List.replicate 8192 'a') []
    (fun h => by
      have hlen := congrArg List.length (Option.some.inj h)
      rw [List.length_replicate] at hlen
      exact absurd hlen (by decide))
    (by decide) (by rw [List.length_replicate]; decide)

/-- C15: the test for the sentinel byte is made on every chunk, so the outcome depends on how
the response is split.  The failure response `\x07ab` received in one chunk goes to standard
error as `ab`; received as the chunks `\x07a` and `b` its last byte goes to standard output.
The response `a\x07b`, which does not start with the sentinel, is written to standard output
with exit status `0` when received in one chunk, and gives exit status `1` with `b` on
standard error when received as the chunks `a` and `\x07b`. -/
theorem C15_sentinel_checked_per_chunk :
    bspc_response [[Char.ofNat 7, 'a', 'b']] = ⟨1, [], ['a', 'b']⟩ ∧
    bspc_response [[Char.ofNat 7, 'a'], ['b']] = ⟨1, ['b'], ['a']⟩ ∧
    bspc_response [['a', Char.ofNat 7, 'b']] = ⟨0, ['a', Char.ofNat 7, 'b'], []⟩ ∧
    bspc_response [['a'], [Char.ofNat 7, 'b']] = ⟨1, ['a'], ['b']⟩ := by
  refine ⟨?_, ?_, ?_, ?_⟩ <;> decide

theorem pending_rules_loop_append (FD_ISSET : Int → Bool)
    (manage_window : Nat → Nat → Int → Bool) (A B : List (Addr × pending_rule_t)) :
    pending_rules_loop FD_ISSET manage_window (A ++ B)
      = pending_rules_loop FD_ISSET manage_window A
        ++ pending_rules_loop FD_ISSET manage_window B := by
  induction A with
  | nil => rfl
  | cons e A ih =>
    obtain ⟨pr, c⟩ := e
    simp only [List.cons_append, pending_rules_loop, List.append_assoc]
    exact congrArg _ ih

theorem replay_events_eq_map (q : List Nat) :
    replay_events q = q.map RunEvent.handle_event := by
  induction q with
  | nil => rfl
  | cons e q ih => simp [replay_events, ih]

theorem dispatched_append (l1 l2 : List RunEvent) :
    dispatched (l1 ++ l2) = dispatched l1 ++ dispatched l2 := by
  induction l1 with
  | nil => rfl
  | cons e l ih =>
    cases e <;> simp [dispatched, ih]

theorem dispatched_replay_events (q : List Nat) : dispatched (replay_events q) = q := by
  induction q with
  | nil => rfl
  | cons e q ih => simp [replay_events, dispatched, ih]

theorem pending_rules_loop_ready (FD_ISSET : Int → Bool)
    (manage_window : Nat → Nat → Int → Bool) (A B : List (Addr × pending_rule_t)) (pr : Addr)
    (c : pending_rule_t) (hr : FD_ISSET c.fd = true) :
    pending_rules_loop FD_ISSET manage_window (A ++ (pr, c) :: B)
      = pending_rules_loop FD_ISSET manage_window A
        ++ (RunEvent.manage_window c.win c.csq c.fd ::
            ((if manage_window c.win c.csq c.fd then replay_events c.event_head else [])
              ++ [RunEvent.remove_pending_rule pr]))
        ++ pending_rules_loop FD_ISSET manage_window B := by
  rw [pending_rules_loop_append]
  simp only [pending_rules_loop, hr, if_true, List.append_assoc]

/-- Counterexample for C16: a ready pending rule with one queued event for which
`manage_window` returns false; the entry is removed and the queued event is not replayed. -/
theorem C16_no_replay_when_unmanaged :
    pending_rules_loop (fun _ => true) (fun _ _ _ => false) [(0, ⟨5, 42, 0, [7]⟩)]
      = [RunEvent.manage_window 42 0 5, RunEvent.remove_pending_rule 0] ∧
    RunEvent.handle_event 7 ∉
      pending_rules_loop (fun _ => true) (fun _ _ _ => false) [(0, ⟨5, 42, 0, [7]⟩)] := by
  decide

/-- C16, amended: for every pending rule whose descriptor is ready, the run loop calls
`manage_window` once and then `remove_pending_rule` on the entry, whatever `manage_window`
returns; between the two calls it replays the queued events of the entry through
`handle_event` when `manage_window` returns true, and calls nothing when it returns false. -/
theorem C16_ready_rule_removed_replay_if_managed (FD_ISSET : Int → Bool)
    (manage_window : Nat → Nat → Int → Bool) (A B : List (Addr × pending_rule_t)) (pr : Addr)
    (c : pending_rule_t) (hr : FD_ISSET c.fd = true) :
    ∃ seg, pending_rules_loop FD_ISSET manage_window (A ++ (pr, c) :: B)
        = pending_rules_loop FD_ISSET manage_window A ++ seg
          ++ pending_rules_loop FD_ISSET manage_window B ∧
      seg.head? = some (RunEvent.manage_window c.win c.csq c.fd) ∧
      seg.getLast? = some (RunEvent.remove_pending_rule pr) ∧
      seg.count (RunEvent.remove_pending_rule pr) = 1 ∧
      dispatched seg = (if manage_window c.win c.csq c.fd then c.event_head else []) ∧
      seg.length = (if manage_window c.win c.csq c.fd then c.event_head.length else 0) + 2 := by
  refine ⟨_, pending_rules_loop_ready FD_ISSET manage_window A B pr c hr, rfl, ?_, ?_, ?_, ?_⟩
  · rw [← List.cons_append, List.getLast?_append]
    simp
  · cases manage_window c.win c.csq c.fd <;>
      simp [replay_events_eq_map, List.count_cons, List.count_eq_zero]
  · cases manage_window c.win c.csq c.fd <;>
      simp [dispatched, dispatched_append, dispatched_replay_events]
  · cases manage_window c.win c.csq c.fd <;> simp [replay_events_eq_map]

/-- Witness for C16: a ready rule with two queued events between two rules that are not
ready. -/
theorem C16_ready_rule_removed_replay_if_managed_witness :
    ∃ seg, pending_rules_loop (fun fd => decide (fd = 5)) (fun _ _ _ => false)
          ([(0, ⟨4, 41, 0, [1]⟩)] ++ (1, ⟨5, 42, 0, [7, 8]⟩) :: [(2, ⟨6, 43, 0, []⟩)])
        = pending_rules_loop (fun fd => decide (fd = 5)) (fun _ _ _ => false)
            [(0, ⟨4, 41, 0, [1]⟩)] ++ seg
          ++ pending_rules_loop (fun fd => decide (fd = 5)) (fun _ _ _ => false)
            [(2, ⟨6, 43, 0, []⟩)] ∧
      seg.head? = some (RunEvent.manage_window 42 0 5) ∧
      seg.getLast? = some (RunEvent.remove_pending_rule 1) ∧
      seg.count (RunEvent.remove_pending_rule 1) = 1 ∧
      dispatched seg = (if false = true then [7, 8] else []) ∧
      seg.length = (if false = true then [7, 8].length else 0) + 2 :=
  C16_ready_rule_removed_replay_if_managed (fun fd => decide (fd = 5)) (fun _ _ _ => false)
    [(0, ⟨4, 41, 0, [1]⟩)] [(2, ⟨6, 43, 0, []⟩)] 1 ⟨5, 42, 0, [7, 8]⟩ (by decide)

/-- C17: when the descriptor of a pending rule is ready and `manage_window` returns true for
it, the calls made for the entry are `manage_window`, then `handle_event` on each queued event
once, in queue order from `event_head`, then `remove_pending_rule`; the calls for the entries
before it come earlier and those for the entries after it come later. -/
theorem C17_replay_in_queue_order (FD_ISSET : Int → Bool)
    (manage_window : Nat → Nat → Int → Bool) (A B : List (Addr × pending_rule_t)) (pr : Addr)
    (c : pending_rule_t) (hr : FD_ISSET c.fd = true)
    (hm : manage_window c.win c.csq c.fd = true) :
    pending_rules_loop FD_ISSET manage_window (A ++ (pr, c) :: B)
      = pending_rules_loop FD_ISSET manage_window A
        ++ (RunEvent.manage_window c.win c.csq c.fd :: c.event_head.map RunEvent.handle_event
            ++ [RunEvent.remove_pending_rule pr])
        ++ pending_rules_loop FD_ISSET manage_window B ∧
    dispatched (RunEvent.manage_window c.win c.csq c.fd :: c.event_head.map RunEvent.handle_event
      ++ [RunEvent.remove_pending_rule pr]) = c.event_head := by
  refine ⟨?_, ?_⟩
  · rw [pending_rules_loop_ready FD_ISSET manage_window A B pr c hr, hm, if_pos rfl,
      replay_events_eq_map]
    rfl
  · rw [← replay_events_eq_map, List.cons_append]
    simp [dispatched, dispatched_append, dispatched_replay_events]

/-- Witness for C17: a ready rule with three queued events, managed. -/
theorem C17_replay_in_queue_order_witness :
    pending_rules_loop (fun _ => true) (fun _ _ _ => true) ([] ++ (0, ⟨5, 42, 0, [7, 8, 9]⟩) :: [])
      = [RunEvent.manage_window 42 0 5, RunEvent.handle_event 7, RunEvent.handle_event 8,
          RunEvent.handle_event 9, RunEvent.remove_pending_rule 0] :=
  (C17_replay_in_queue_order (fun _ => true) (fun _ _ _ => true) [] []
    0 ⟨5, 42, 0, [7, 8, 9]⟩ rfl rfl).1

theorem find_rargc_eq (argv : List (List Char)) :
    ∀ i : Nat, find_rargc argv i = i + first_dash_s argv := by
  induction argv with
  | nil => intro i; simp [find_rargc, first_dash_s]
  | cons a r ih =>
    intro i
    by_cases h : a = ['-', 's']
    · simp [find_rargc, first_dash_s, h]
    · have e : first_dash_s (a :: r) = first_dash_s r + 1 := by
        simp [first_dash_s, List.takeWhile_cons, h]
      simp only [find_rargc, h, if_false, ih, e]
      omega

theorem first_dash_s_le (argv : List (List Char)) : first_dash_s argv ≤ argv.length := by
  unfold first_dash_s
  exact (List.takeWhile_sublist _).length_le

theorem take_first_dash_s (argv : List (List Char)) :
    argv.take (first_dash_s argv) = argv.takeWhile (fun a => a ≠ ['-', 's']) := by
  induction argv with
  | nil => rfl
  | cons a r ih =>
    by_cases h : a = ['-', 's']
    · simp [first_dash_s, h]
    · have e : first_dash_s (a :: r) = first_dash_s r + 1 := by
        simp [first_dash_s, List.takeWhile_cons, h]
      rw [e, List.take_succ_cons, ih]
      simp [List.takeWhile_cons, h]

theorem first_dash_s_spec (argv : List (List Char)) :
    (∀ a ∈ argv.take (first_dash_s argv), a ≠ ['-', 's']) ∧
    (first_dash_s argv < argv.length → argv[first_dash_s argv]? = some ['-', 's']) := by
  refine ⟨fun a ha => ?_, ?_⟩
  · rw [take_first_dash_s] at ha
    simpa using List.mem_takeWhile_imp ha
  · induction argv with
    | nil => intro h; simp at h
    | cons a r ih =>
      intro hlt
      by_cases h : a = ['-', 's']
      · simp [first_dash_s, h]
      · have e : first_dash_s (a :: r) = first_dash_s r + 1 := by
          simp [first_dash_s, List.takeWhile_cons, h]
        rw [e] at hlt ⊢
        simpa using ih (by simpa using hlt)

theorem set_slot_at (L R : List arg_slot) (x v : arg_slot) :
    set_slot (L ++ x :: R) L.length v = some (L ++ v :: R) := by
  unfold set_slot
  rw [if_pos (by simp)]
  congr 1
  rw [List.set_append_right _ _ (le_refl _)]
  simp

theorem copy_args_spec (argv : List (List Char)) (rargc : Nat) (hr : rargc ≤ argv.length)
    (R : List arg_slot) :
    ∀ (fuel i : Nat), i ≤ rargc → rargc - i < fuel →
      copy_args argv rargc fuel i
          ((argv.take i).map arg_slot.str ++ (List.replicate (rargc - i) arg_slot.unset ++ R))
        = some ((argv.take rargc).map arg_slot.str ++ R) := by
  intro fuel
  induction fuel with
  | zero => intro i _ h; omega
  | succ k ih =>
    intro i hi hf
    by_cases hlt : i < rargc
    · have hlen : i < argv.length := by omega
      have hg : argv[i]? = some argv[i] := List.getElem?_eq_getElem hlen
      have hrep : List.replicate (rargc - i) arg_slot.unset
          = arg_slot.unset :: List.replicate (rargc - (i + 1)) arg_slot.unset := by
        have : rargc - i = (rargc - (i + 1)) + 1 := by omega
        rw [this, List.replicate_succ]
      have hL : ((argv.take i).map arg_slot.str).length = i := by
        simp; omega
      have hs := set_slot_at ((argv.take i).map arg_slot.str)
        (List.replicate (rargc - (i + 1)) arg_slot.unset ++ R) arg_slot.unset
        (arg_slot.str (argv[i]))
      rw [hL] at hs
      have ht : (argv.take (i + 1)).map arg_slot.str
          = (argv.take i).map arg_slot.str ++ [arg_slot.str (argv[i])] := by
        rw [List.take_succ, hg, List.map_append]
        rfl
      simp only [copy_args, hlt, if_true, hg, hrep, List.cons_append, hs]
      have := ih (i + 1) hlt (by omega)
      rw [ht, List.append_assoc] at this
      exact this
    · have : i = rargc := by omega
      subst this
      simp [copy_args]

theorem dec_digits_length (n : Nat) (h : n ≤ 2 ^ 31) : (dec_digits n).length ≤ 10 := by
  unfold dec_digits
  split_ifs with h0
  · simp
  · simp only [List.length_map, List.length_reverse]
    by_contra hc
    have h1 := Nat.base_pow_length_digits_le 10 n (by norm_num) h0
    have h2 : 10 ^ 11 ≤ 10 ^ (Nat.digits 10 n).length :=
      Nat.pow_le_pow_right (by norm_num) (by omega)
    have h3 : (10 : Nat) ^ 11 = 100000000000 := by norm_num
    have h4 : (2 : Nat) ^ 31 = 2147483648 := by norm_num
    omega

theorem snprintf_int_exact (i : Int) (h1 : -2 ^ 31 ≤ i) (h2 : i < 2 ^ 31) :
    snprintf_int SMALEN i = fmt_int i := by
  unfold snprintf_int
  apply List.take_of_length_le
  have hn : i.natAbs ≤ 2 ^ 31 := by omega
  have := dec_digits_length i.natAbs hn
  unfold fmt_int SMALEN
  split_ifs
  · simp only [List.length_cons]; omega
  · omega

/-- C18: for every argument vector and every `int` value of `sock_fd`, the array passed to
`execvp` on restart is the arguments before the first one equal to `-s` (all of them when
there is none), then `-s`, `state_path`, `-o`, the decimal text of `sock_fd` in full, and
`NULL`; every assignment stays inside the allocation and the array has exactly `k + 5` slots,
where `k` is the index of the first argument equal to `-s`, or `argc` when there is none. -/
theorem C18_restart_argv (argv : List (List Char)) (state_path : List Char) (sock_fd : Int)
    (h1 : -2 ^ 31 ≤ sock_fd) (h2 : sock_fd < 2 ^ 31) :
    restart_rargv argv state_path sock_fd
      = some ((argv.take (first_dash_s argv)).map arg_slot.str
          ++ [arg_slot.str ['-', 's'], arg_slot.str state_path, arg_slot.str ['-', 'o'],
              arg_slot.str (fmt_int sock_fd), arg_slot.null]) ∧
    ((argv.take (first_dash_s argv)).map arg_slot.str
          ++ [arg_slot.str ['-', 's'], arg_slot.str state_path, arg_slot.str ['-', 'o'],
              arg_slot.str (fmt_int sock_fd), arg_slot.null]).length = first_dash_s argv + 5 ∧
    first_dash_s argv ≤ argv.length ∧
    (∀ a ∈ argv.take (first_dash_s argv), a ≠ ['-', 's']) ∧
    (first_dash_s argv < argv.length → argv[first_dash_s argv]? = some ['-', 's']) := by
  have hk := first_dash_s_le argv
  obtain ⟨s1, s2⟩ := first_dash_s_spec argv
  refine ⟨?_, ?_, hk, s1, s2⟩
  · have hc := copy_args_spec argv (first_dash_s argv) hk
      (List.replicate 5 arg_slot.unset) (first_dash_s argv + 1) 0 (Nat.zero_le _) (by omega)
    simp only [List.take_zero, List.map_nil, List.nil_append, Nat.sub_zero,
      ← List.replicate_add] at hc
    have hL : ((argv.take (first_dash_s argv)).map arg_slot.str).length = first_dash_s argv := by
      simp; omega
    have e0 : set_slot ((argv.take (first_dash_s argv)).map arg_slot.str
          ++ List.replicate 5 arg_slot.unset) (first_dash_s argv) (arg_slot.str ['-', 's'])
        = some ((argv.take (first_dash_s argv)).map arg_slot.str
          ++ arg_slot.str ['-', 's'] :: List.replicate 4 arg_slot.unset) := by
      simpa only [hL] using set_slot_at ((argv.take (first_dash_s argv)).map arg_slot.str)
        (List.replicate 4 arg_slot.unset) arg_slot.unset (arg_slot.str ['-', 's'])
    have e1 : set_slot ((argv.take (first_dash_s argv)).map arg_slot.str
          ++ arg_slot.str ['-', 's'] :: List.replicate 4 arg_slot.unset)
          (first_dash_s argv + 1) (arg_slot.str state_path)
        = some ((argv.take (first_dash_s argv)).map arg_slot.str
          ++ arg_slot.str ['-', 's'] :: arg_slot.str state_path
            :: List.replicate 3 arg_slot.unset) := by
      simpa only [List.length_append, hL, List.length_singleton, List.append_assoc,
        List.singleton_append] using
        set_slot_at ((argv.take (first_dash_s argv)).map arg_slot.str
          ++ [arg_slot.str ['-', 's']])
          (List.replicate 3 arg_slot.unset) arg_slot.unset (arg_slot.str state_path)
    have e2 : set_slot ((argv.take (first_dash_s argv)).map arg_slot.str
          ++ arg_slot.str ['-', 's'] :: arg_slot.str state_path
            :: List.replicate 3 arg_slot.unset)
          (first_dash_s argv + 2) (arg_slot.str ['-', 'o'])
        = some ((argv.take (first_dash_s argv)).map arg_slot.str
          ++ arg_slot.str ['-', 's'] :: arg_slot.str state_path :: arg_slot.str ['-', 'o']
            :: List.replicate 2 arg_slot.unset) := by
      simpa only [List.length_append, hL, List.length_cons, List.length_nil, List.append_assoc,
        List.cons_append, List.nil_append] using
        set_slot_at ((argv.take (first_dash_s argv)).map arg_slot.str
          ++ [arg_slot.str ['-', 's'], arg_slot.str state_path])
          (List.replicate 2 arg_slot.unset) arg_slot.unset (arg_slot.str ['-', 'o'])
    have e3 : set_slot ((argv.take (first_dash_s argv)).map arg_slot.str
          ++ arg_slot.str ['-', 's'] :: arg_slot.str state_path :: arg_slot.str ['-', 'o']
            :: List.replicate 2 arg_slot.unset)
          (first_dash_s argv + 3) (arg_slot.str (fmt_int sock_fd))
        = some ((argv.take (first_dash_s argv)).map arg_slot.str
          ++ arg_slot.str ['-', 's'] :: arg_slot.str state_path :: arg_slot.str ['-', 'o']
            :: arg_slot.str (fmt_int sock_fd) :: List.replicate 1 arg_slot.unset) := by
      simpa only [List.length_append, hL, List.length_cons, List.length_nil, List.append_assoc,
        List.cons_append, List.nil_append] using
        set_slot_at ((argv.take (first_dash_s argv)).map arg_slot.str
          ++ [arg_slot.str ['-', 's'], arg_slot.str state_path, arg_slot.str ['-', 'o']])
          (List.replicate 1 arg_slot.unset) arg_slot.unset (arg_slot.str (fmt_int sock_fd))
    have e4 : set_slot ((argv.take (first_dash_s argv)).map arg_slot.str
          ++ arg_slot.str ['-', 's'] :: arg_slot.str state_path :: arg_slot.str ['-', 'o']
            :: arg_slot.str (fmt_int sock_fd) :: List.replicate 1 arg_slot.unset)
          (first_dash_s argv + 4) arg_slot.null
        = some ((argv.take (first_dash_s argv)).map arg_slot.str
          ++ [arg_slot.str ['-', 's'], arg_slot.str state_path, arg_slot.str ['-', 'o'],
              arg_slot.str (fmt_int sock_fd), arg_slot.null]) := by
      simpa only [List.length_append, hL, List.length_cons, List.length_nil, List.append_assoc,
        List.cons_append, List.nil_append] using
        set_slot_at ((argv.take (first_dash_s argv)).map arg_slot.str
          ++ [arg_slot.str ['-', 's'], arg_slot.str state_path, arg_slot.str ['-', 'o'],
            arg_slot.str (fmt_int sock_fd)])
          [] arg_slot.unset arg_slot.null
    unfold restart_rargv
    simp only [find_rargc_eq, Nat.zero_add, hc, snprintf_int_exact sock_fd h1 h2, e0, e1, e2,
      e3, e4]
  · simp
    omega

/-- Witness for C18: a vector that already holds the restart options, with descriptor 3. -/
theorem C18_restart_argv_witness :
    restart_rargv [['b', 's', 'p', 'w', 'm'], ['-', 'c'], ['r', 'c'], ['-', 's'], ['o', 'l', 'd'],
        ['-', 'o'], ['4']] ['/', 't', 'm', 'p', '/', 's'] 3
      = some ((List.take
            (first_dash_s [['b', 's', 'p', 'w', 'm'], ['-', 'c'], ['r', 'c'], ['-', 's'],
              ['o', 'l', 'd'], ['-', 'o'], ['4']])
            [['b', 's', 'p', 'w', 'm'], ['-', 'c'], ['r', 'c'], ['-', 's'], ['o', 'l', 'd'],
              ['-', 'o'], ['4']]).map arg_slot.str
          ++ [arg_slot.str ['-', 's'], arg_slot.str ['/', 't', 'm', 'p', '/', 's'],
              arg_slot.str ['-', 'o'], arg_slot.str (fmt_int 3), arg_slot.null]) :=
  (C18_restart_argv [['b', 's', 'p', 'w', 'm'], ['-', 'c'], ['r', 'c'], ['-', 's'],
    ['o', 'l', 'd'], ['-', 'o'], ['4']] ['/', 't', 'm', 'p', '/', 's'] 3
    (by decide) (by decide)).1

theorem report_flags_eq (n : report_node_t) : report_flags n = some (flags_text n) := by
  rcases n with ⟨c, s, p, l, m⟩
  cases s <;> cases p <;> cases l <;> cases m <;> rfl

theorem flags_text_sublist (n : report_node_t) :
    List.Sublist (flags_text n) ['S', 'P', 'L', 'M'] := by
  rcases n with ⟨c, s, p, l, m⟩
  cases s <;> cases p <;> cases l <;> cases m <;>
    (simp only [flags_text, List.filter, List.map]; decide)

theorem STATE_CHR_eq (n : report_node_t) (c : client_t) (h : n.client = some c) :
    STATE_CHR c.state = node_state_char n := by
  unfold node_state_char
  rw [h]
  obtain ⟨st, ly⟩ := c
  cases st <;> rfl

theorem LAYOUT_CHR_eq (l : layout_t) : LAYOUT_CHR l = layout_char l := by
  cases l <;> rfl

theorem report_active_eq (env : ReportEnv) (dk : Addr) (c : Cell report_desktop_t)
    (h : env.desktops dk = some c) :
    report_active env (some dk) = some (active_text env c.val) := by
  unfold report_active active_text
  simp only [h, LAYOUT_CHR_eq]
  cases hf : c.val.focus with
  | none => simp
  | some n =>
    simp only [report_flags_eq]
    cases hc : (env.node n).client with
    | none => simp [node_state_char, hc]
    | some cl => simp [STATE_CHR_eq _ _ hc]

theorem desktop_char_eq (u e a : Bool) :
    (if a then (if u then 'u' else if e then 'f' else 'o').toUpper
      else (if u then 'u' else if e then 'f' else 'o')) = desktop_char u e a := by
  cases u <;> cases e <;> cases a <;> rfl

theorem report_desktops_spec (env : ReportEnv) (desk : Option Addr) (hd tl : Option Addr)
    (B : List (Addr × report_desktop_t)) :
    ∀ (A : List (Addr × report_desktop_t)) (fuel : Nat),
      IsList env.desktops hd tl (A ++ B) → B.length < fuel →
      report_desktops env desk fuel (hdPtr B none)
        = some (B.flatMap (fun d =>
            ':' :: desktop_char (env.is_urgent d.1) (decide (d.2.root = none))
              (decide (desk = some d.1)) :: d.2.name)) := by
  induction B with
  | nil =>
    intro A fuel _ hf
    cases fuel with
    | zero => simp at hf
    | succ fuel => rfl
  | cons e B ih =>
    intro A fuel H hf
    cases fuel with
    | zero => simp at hf
    | succ fuel =>
      obtain ⟨d, v⟩ := e
      have hs := isList_lookup H
      have H' : IsList env.desktops hd tl ((A ++ [(d, v)]) ++ B) := by simpa using H
      have r := ih (A ++ [(d, v)]) fuel H' (by simpa using hf)
      have hc := desktop_char_eq (env.is_urgent d) (decide (v.root = none))
        (decide (desk = some d))
      simp only [decide_eq_true_eq] at hc
      simp only [hdPtr_cons, report_desktops, hs, r, List.flatMap_cons, hc]

theorem lastPtr_cons_ne_nil {α : Type} (p : Option Addr) (e : Addr × α)
    (l : List (Addr × α)) : lastPtr p (e :: l) = lastPtr none (e :: l) := rfl

theorem monitor_text_eq (env : ReportEnv) (a : Addr) (m : monitor_t)
    (ds : List (Addr × report_desktop_t)) (s3 : List Char)
    (h : (match m.desk with
          | none => some []
          | some dk =>
            match env.desktops dk with
            | none => none
            | some c => some (active_text env c.val)) = some s3) :
    monitor_text env a m ds
      = (if env.mon = some a then 'M' else 'm') :: m.name
        ++ ds.flatMap (fun d =>
            ':' :: desktop_char (env.is_urgent d.1) (decide (d.2.root = none))
              (decide (m.desk = some d.1)) :: d.2.name)
        ++ s3 := by
  unfold monitor_text
  cases hd : m.desk with
  | none =>
    rw [hd] at h
    simp only [Option.some.injEq] at h
    simp [← h]
  | some dk =>
    rw [hd] at h
    cases hc : env.desktops dk with
    | none => simp [hc] at h
    | some c =>
      simp only [hc, Option.some.injEq] at h
      simp [← h, hc]

theorem report_monitors_spec (env : ReportEnv) (dl : Addr → List (Addr × report_desktop_t))
    (dfuel : Nat) (B : List (Addr × monitor_t)) :
    ∀ (A : List (Addr × monitor_t)) (fuel : Nat),
      IsList env.monitors env.mon_head env.mon_tail (A ++ B) →
      (∀ e ∈ B, IsList env.desktops e.2.desk_head (lastPtr none (dl e.1)) (dl e.1)) →
      (∀ e ∈ B, ∀ d, e.2.desk = some d → env.desktops d ≠ none) →
      (∀ e ∈ B, (dl e.1).length < dfuel) → B.length < fuel →
      report_monitors env dfuel fuel (hdPtr B none)
        = some (join_colon (B.map (fun e => monitor_text env e.1 e.2 (dl e.1)))) := by
  induction B with
  | nil =>
    intro A fuel _ _ _ _ hf
    cases fuel with
    | zero => simp at hf
    | succ fuel => rfl
  | cons e B ih =>
    intro A fuel H Hd Ha hdf hf
    cases fuel with
    | zero => simp at hf
    | succ fuel =>
      obtain ⟨m, v⟩ := e
      have hs := isList_lookup H
      have H' : IsList env.monitors env.mon_head env.mon_tail ((A ++ [(m, v)]) ++ B) := by
        simpa using H
      have r := ih (A ++ [(m, v)]) fuel H' (fun e he => Hd e (by simp [he]))
        (fun e he => Ha e (by simp [he])) (fun e he => hdf e (by simp [he])) (by simpa using hf)
      have hd := report_desktops_spec env v.desk v.desk_head (lastPtr none (dl m)) (dl m) []
        dfuel (by simpa using Hd (m, v) (by simp)) (hdf (m, v) (by simp))
      have hhd : hdPtr (dl m) none = v.desk_head :=
        ((Hd (m, v) (by simp)).head_eq).symm
      rw [hhd] at hd
      have ha : ∃ s3, report_active env v.desk = some s3 ∧
          (match v.desk with
            | none => some []
            | some dk =>
              match env.desktops dk with
              | none => none
              | some c => some (active_text env c.val)) = some s3 := by
        cases hk : v.desk with
        | none => exact ⟨[], rfl, rfl⟩
        | some dk =>
          cases hc : env.desktops dk with
          | none => exact absurd hc (Ha (m, v) (by simp) dk hk)
          | some c => exact ⟨_, report_active_eq env dk c hc, by simp [hc]⟩
      obtain ⟨s3, ha1, ha2⟩ := ha
      have hmt := monitor_text_eq env m v (dl m) s3 ha2
      have htl : env.mon_tail = lastPtr (some m) B := by
        rw [H.tail_eq, lastPtr_append]
        rfl
      cases B with
      | nil =>
        have ht : ¬ (some m ≠ env.mon_tail) := by
          rw [htl]; simp
        simp only [hdPtr_cons, report_monitors, hs, hd, ha1, ht, if_false, List.map_cons,
          List.map_nil, join_colon, hmt]
        have : fuel ≠ 0 := by
          intro h0; subst h0; simp at hf
        obtain ⟨k, rfl⟩ := Nat.exists_eq_succ_of_ne_zero this
        simp [hdPtr, report_monitors]
      | cons u ts =>
        have ht : some m ≠ env.mon_tail := by
          rw [htl, lastPtr_cons_ne_nil]
          intro hc
          have hmem := lastPtr_none_mem hc.symm
          have hnd := H.nodup
          rw [List.map_append, List.map_cons] at hnd
          have := (List.nodup_cons.1 (List.Nodup.of_append_right hnd)).1
          exact this hmem
        simp only [hdPtr_cons, report_monitors, hs, hd, ha1, ht, if_true, List.map_cons,
          join_colon, hmt]
        simp only [hdPtr_cons, List.map_cons] at r
        rw [r]
        have ht' : ¬ (some m = env.mon_tail) := ht
        simp [ht']

theorem desktop_char_ne_newline (u e a : Bool) : desktop_char u e a ≠ '\n' := by
  cases u <;> cases e <;> cases a <;> decide

theorem flags_text_no_newline (n : report_node_t) : '\n' ∉ flags_text n := by
  intro h
  have := (flags_text_sublist n).subset h
  revert this
  decide

theorem active_text_no_newline (env : ReportEnv) (d : report_desktop_t) :
    '\n' ∉ active_text env d := by
  unfold active_text
  have h1 : layout_char d.layout ≠ '\n' := by cases d.layout <;> decide
  cases hf : d.focus with
  | none =>
    simp only [List.append_nil, List.mem_cons, List.mem_singleton, List.not_mem_nil, or_false,
      not_or]
    exact ⟨by decide, by decide, fun h => h1 h.symm⟩
  | some n =>
    have h2 : node_state_char (env.node n) ≠ '\n' := by
      unfold node_state_char
      cases (env.node n).client with
      | none => decide
      | some c => obtain ⟨st, ly⟩ := c; cases st <;> simp
    have h3 := flags_text_no_newline (env.node n)
    simp only [List.mem_append, List.mem_cons, List.mem_singleton, List.not_mem_nil, or_false,
      not_or]
    exact ⟨⟨by decide, by decide, fun h => h1 h.symm⟩,
      ⟨⟨by decide, by decide, fun h => h2 h.symm⟩, by decide, by decide⟩, h3⟩

theorem monitor_text_no_newline (env : ReportEnv) (a : Addr) (m : monitor_t)
    (ds : List (Addr × report_desktop_t)) (hm : '\n' ∉ m.name)
    (hd : ∀ d ∈ ds, '\n' ∉ d.2.name) : '\n' ∉ monitor_text env a m ds := by
  unfold monitor_text
  have h0 : (if env.mon = some a then 'M' else 'm') ≠ '\n' := by
    split_ifs <;> decide
  have h3 : '\n' ∉ (match m.desk with
      | none => []
      | some dk =>
        match env.desktops dk with
        | none => []
        | some c => active_text env c.val) := by
    cases m.desk with
    | none => simp
    | some dk =>
      cases hc : env.desktops dk with
      | none => simp [hc]
      | some c => simpa [hc] using active_text_no_newline env c.val
  intro h
  rw [List.mem_append, List.cons_append, List.mem_cons, List.mem_append] at h
  rcases h with (h | h | h) | h
  · exact h0 h.symm
  · exact hm h
  · rw [List.mem_flatMap] at h
    obtain ⟨d, hd1, hd2⟩ := h
    rw [List.mem_cons, List.mem_cons] at hd2
    rcases hd2 with h | h | h
    · exact absurd h (by decide)
    · exact desktop_char_ne_newline _ _ _ h.symm
    · exact hd d hd1 h
  · exact h3 h

theorem join_colon_no_newline (ts : List (List Char)) (h : ∀ t ∈ ts, '\n' ∉ t) :
    '\n' ∉ join_colon ts := by
  induction ts with
  | nil => simp [join_colon]
  | cons t ts ih =>
    cases ts with
    | nil => simpa [join_colon] using h t (by simp)
    | cons u us =>
      have ih' := ih (fun x hx => h x (by simp [hx]))
      have ht := h t (by simp)
      simp only [join_colon, List.mem_append, List.mem_cons, not_or]
      exact ⟨ht, by decide, ih'⟩

/-- C12: for well-formed monitor and desktop lists (`ml` the monitors from `mon_head` to
`mon_tail`, `dl` the desktops of each monitor from its `desk_head`, each active desktop a live
entry), `print_report` returns and writes exactly the report line of the specification: the
prefix, then the monitor texts joined by single colons, then one newline.  The flags buffer
receives the selected characters of `SPLM`, at most four, and is never overrun.  When neither
the prefix nor a name holds a newline, the only newline of the output is its last byte. -/
theorem C12_print_report_text (env : ReportEnv) (ml : List (Addr × monitor_t))
    (dl : Addr → List (Addr × report_desktop_t)) (fuel : Nat)
    (Hm : IsList env.monitors env.mon_head env.mon_tail ml)
    (Hd : ∀ e ∈ ml, IsList env.desktops e.2.desk_head (lastPtr none (dl e.1)) (dl e.1))
    (Ha : ∀ e ∈ ml, ∀ d, e.2.desk = some d → env.desktops d ≠ none)
    (hf : ml.length < fuel) (hdf : ∀ e ∈ ml, (dl e.1).length < fuel) :
    print_report env fuel = some (report_text env ml dl) ∧
    (∀ n, report_flags n = some (flags_text n) ∧ (flags_text n).length ≤ 4 ∧
      List.Sublist (flags_text n) ['S', 'P', 'L', 'M']) ∧
    (('\n' ∉ ReportEnv.status_prefix env ∧ (∀ e ∈ ml, '\n' ∉ e.2.name) ∧
        (∀ e ∈ ml, ∀ d ∈ dl e.1, '\n' ∉ d.2.name)) →
      ∃ body, report_text env ml dl = body ++ ['\n'] ∧ '\n' ∉ body) := by
  refine ⟨?_, fun n => ⟨report_flags_eq n, ?_, flags_text_sublist n⟩, ?_⟩
  · have h := report_monitors_spec env dl fuel ml [] fuel (by simpa using Hm) Hd Ha hdf hf
    rw [← Hm.head_eq] at h
    simp only [print_report, h, report_text]
  · simpa using (flags_text_sublist n).length_le
  · rintro ⟨hp, hn, hdn⟩
    refine ⟨_, rfl, ?_⟩
    rw [List.mem_append, not_or]
    refine ⟨hp, join_colon_no_newline _ (fun t ht => ?_)⟩
    rw [List.mem_map] at ht
    obtain ⟨e, he, rfl⟩ := ht
    exact monitor_text_no_newline env e.1 e.2 (dl e.1) (hn e he) (hdn e he)

theorem sampleReport_monitors :
    IsList sampleReport.monitors sampleReport.mon_head sampleReport.mon_tail sampleMonitors :=
  ⟨by decide, ⟨rfl, rfl, trivial⟩, rfl, rfl⟩

/-- Witness for C12: the report of `sampleReport`. -/
theorem C12_print_report_text_witness :
    print_report sampleReport 3 = some "WMeDP:fI:OII:LM:TF:GSL:mH\n".toList :=
  (C12_print_report_text sampleReport sampleMonitors sampleDesktops 3 sampleReport_monitors
    (by decide) (by decide) (by decide) (by decide)).1

theorem to_int16_of_range {x : Int} (h : is_int16 x) : to_int16 x = x := by
  unfold is_int16 at h
  unfold to_int16
  omega

theorem rect_max_eq (r : xcb_rectangle_t) (h : r.in_range) (f : r.far_edges_fit) :
    (rect_max r).x = r.x + r.width - 1 ∧ (rect_max r).y = r.y + r.height - 1 := by
  obtain ⟨hx, hy, hw, hh⟩ := h
  obtain ⟨fx, fy⟩ := f
  unfold is_int16 at hx hy
  have e1 : wrap_int (r.x + r.width) = r.x + r.width := wrap_int_of_range (by omega) (by omega)
  have e2 : wrap_int (r.y + r.height) = r.y + r.height := wrap_int_of_range (by omega) (by omega)
  have e3 : wrap_int (r.x + r.width - 1) = r.x + r.width - 1 :=
    wrap_int_of_range (by omega) (by omega)
  have e4 : wrap_int (r.y + r.height - 1) = r.y + r.height - 1 :=
    wrap_int_of_range (by omega) (by omega)
  simp only [rect_max, e1, e2, e3, e4, to_int16_of_range fx, to_int16_of_range fy, and_self]

theorem intervals_meet_iff (a b c d : Int) (hab : a ≤ b) (hcd : c ≤ d) :
    intervals_meet a b c d ↔ c ≤ b ∧ a ≤ d := by
  constructor
  · rintro ⟨t, h1, h2, h3, h4⟩
    exact ⟨by omega, by omega⟩
  · rintro ⟨h1, h2⟩
    by_cases h : a ≤ c
    · exact ⟨c, h, h1, le_refl _, hcd⟩
    · exact ⟨a, le_refl _, hab, by omega, h2⟩

theorem boundary_distance_exact (r1 r2 : xcb_rectangle_t) (dir : direction_t)
    (h1 : r1.in_range) (h2 : r2.in_range) (f1 : r1.far_edges_fit) (f2 : r2.far_edges_fit) :
    boundary_distance r1 r2 dir = edge_distance r1 r2 dir := by
  obtain ⟨m1x, m1y⟩ := rect_max_eq r1 h1 f1
  obtain ⟨m2x, m2y⟩ := rect_max_eq r2 h2 f2
  obtain ⟨hx1, hy1, hw1, hh1⟩ := h1
  obtain ⟨hx2, hy2, hw2, hh2⟩ := h2
  obtain ⟨fx1, fy1⟩ := f1
  obtain ⟨fx2, fy2⟩ := f2
  unfold is_int16 at hx1 hy1 hx2 hy2 fx1 fy1 fx2 fy2
  cases dir <;>
    simp only [boundary_distance, edge_distance, m1x, m1y, m2x, m2y, to_uint, wrap_int] <;>
    split_ifs <;>
    first
      | (rw [abs_of_nonneg (by omega)]; omega)
      | (rw [abs_of_nonpos (by omega)]; omega)

/-- C21: for rectangles whose fields are in the range of their C types and whose far edges
`x + width - 1` and `y + height - 1` fit `int16_t`, `boundary_distance` is the exact distance
between the edge of `r1` facing `dir` and the opposite edge of `r2`.  A far edge that does not
fit is truncated when stored in the `xcb_point_t`: for `r1 = (0, 0, 1, 1)` and
`r2 = (0, 0, 40000, 40000)` towards the north the function returns `25537`, while the distance
is `39999`. -/
theorem C21_boundary_distance_truncates (r1 r2 : xcb_rectangle_t) (dir : direction_t)
    (h1 : r1.in_range) (h2 : r2.in_range) (f1 : r1.far_edges_fit) (f2 : r2.far_edges_fit) :
    boundary_distance r1 r2 dir = edge_distance r1 r2 dir ∧
    boundary_distance ⟨0, 0, 1, 1⟩ ⟨0, 0, 40000, 40000⟩ direction_t.DIR_NORTH = 25537 ∧
    edge_distance ⟨0, 0, 1, 1⟩ ⟨0, 0, 40000, 40000⟩ direction_t.DIR_NORTH = 39999 :=
  ⟨boundary_distance_exact r1 r2 dir h1 h2 f1 f2, by decide, by decide⟩

/-- Witness for C21: two rectangles side by side, towards the east. -/
theorem C21_boundary_distance_truncates_witness :
    boundary_distance ⟨0, 0, 100, 100⟩ ⟨150, 0, 100, 100⟩ direction_t.DIR_EAST
      = edge_distance ⟨0, 0, 100, 100⟩ ⟨150, 0, 100, 100⟩ direction_t.DIR_EAST :=
  (C21_boundary_distance_truncates ⟨0, 0, 100, 100⟩ ⟨150, 0, 100, 100⟩ direction_t.DIR_EAST
    (by decide) (by decide) (by decide) (by decide)).1


theorem on_dir_side_stage1_iff (tightness : tightness_t) (r1 r2 : xcb_rectangle_t)
    (dir : direction_t) (h1 : r1.in_range) (h2 : r2.in_range) (f1 : r1.far_edges_fit)
    (f2 : r2.far_edges_fit) :
    on_dir_side_stage1 tightness r1 r2 dir = true ↔ side_test tightness r1 r2 dir := by
  obtain ⟨m1x, m1y⟩ := rect_max_eq r1 h1 f1
  obtain ⟨m2x, m2y⟩ := rect_max_eq r2 h2 f2
  cases tightness <;> cases dir <;>
    simp only [on_dir_side_stage1, side_test, m1x, m1y, m2x, m2y] <;>
    split_ifs <;> simp <;> omega

theorem on_dir_side_stage2_iff (r1 r2 : xcb_rectangle_t) (dir : direction_t)
    (h1 : r1.in_range) (h2 : r2.in_range) (f1 : r1.far_edges_fit) (f2 : r2.far_edges_fit)
    (p1 : 0 < r1.width ∧ 0 < r1.height) (p2 : 0 < r2.width ∧ 0 < r2.height) :
    on_dir_side_stage2 r1 r2 dir = true ↔ shared_range r1 r2 dir := by
  obtain ⟨m1x, m1y⟩ := rect_max_eq r1 h1 f1
  obtain ⟨m2x, m2y⟩ := rect_max_eq r2 h2 f2
  obtain ⟨pw1, ph1⟩ := p1
  obtain ⟨pw2, ph2⟩ := p2
  cases dir <;>
    simp only [on_dir_side_stage2, shared_range, m1x, m1y, m2x, m2y, Bool.or_eq_true,
      Bool.and_eq_true, decide_eq_true_eq] <;>
    rw [intervals_meet_iff _ _ _ _ (by omega) (by omega)] <;>
    omega

theorem on_dir_side_iff (tightness : tightness_t) (r1 r2 : xcb_rectangle_t)
    (dir : direction_t) (h1 : r1.in_range) (h2 : r2.in_range) (f1 : r1.far_edges_fit)
    (f2 : r2.far_edges_fit) (p1 : 0 < r1.width ∧ 0 < r1.height)
    (p2 : 0 < r2.width ∧ 0 < r2.height) :
    on_dir_side tightness r1 r2 dir = true
      ↔ side_test tightness r1 r2 dir ∧ shared_range r1 r2 dir := by
  rw [← on_dir_side_stage1_iff tightness r1 r2 dir h1 h2 f1 f2,
    ← on_dir_side_stage2_iff r1 r2 dir h1 h2 f1 f2 p1 p2]
  unfold on_dir_side
  cases on_dir_side_stage1 tightness r1 r2 dir <;> simp

/-- C22: for rectangles of positive width and height whose fields are in the range of their
C types and whose far edges fit `int16_t`, `on_dir_side(r1, r2, dir)` is true exactly when the
edge comparison selected by the tightness holds (strict under high tightness, loose under low
tightness) and the intervals the two rectangles occupy on the axis perpendicular to `dir`
have a common point. -/
theorem C22_on_dir_side_two_stages (tightness : tightness_t) (r1 r2 : xcb_rectangle_t)
    (dir : direction_t) (h1 : r1.in_range) (h2 : r2.in_range) (f1 : r1.far_edges_fit)
    (f2 : r2.far_edges_fit) (p1 : 0 < r1.width ∧ 0 < r1.height)
    (p2 : 0 < r2.width ∧ 0 < r2.height) :
    on_dir_side tightness r1 r2 dir = true
      ↔ side_test tightness r1 r2 dir ∧ shared_range r1 r2 dir :=
  on_dir_side_iff tightness r1 r2 dir h1 h2 f1 f2 p1 p2

/-- Witness for C22: the case `r1 = (0, 0, 100, 100)`, `r2 = (0, 50, 100, 100)` towards the
north, false under high tightness and true under low tightness. -/
theorem C22_on_dir_side_two_stages_witness :
    on_dir_side tightness_t.TIGHTNESS_HIGH ⟨0, 0, 100, 100⟩ ⟨0, 50, 100, 100⟩
      direction_t.DIR_NORTH = false ∧
    on_dir_side tightness_t.TIGHTNESS_LOW ⟨0, 0, 100, 100⟩ ⟨0, 50, 100, 100⟩
      direction_t.DIR_NORTH = true ∧
    (on_dir_side tightness_t.TIGHTNESS_LOW ⟨0, 0, 100, 100⟩ ⟨0, 50, 100, 100⟩
        direction_t.DIR_NORTH = true
      ↔ side_test tightness_t.TIGHTNESS_LOW ⟨0, 0, 100, 100⟩ ⟨0, 50, 100, 100⟩
          direction_t.DIR_NORTH ∧
        shared_range ⟨0, 0, 100, 100⟩ ⟨0, 50, 100, 100⟩ direction_t.DIR_NORTH) :=
  ⟨by decide, by decide,
    C22_on_dir_side_two_stages tightness_t.TIGHTNESS_LOW ⟨0, 0, 100, 100⟩ ⟨0, 50, 100, 100⟩
      direction_t.DIR_NORTH (by decide) (by decide) (by decide) (by decide) (by decide)
      (by decide)⟩

/-- Counterexample for C23: under low tightness and towards the north, `r2 = (200, 0, 100, 100)`
satisfies `r2.y <= r1.y + r1.height - 1` for `r1 = (0, 0, 100, 100)`, and `on_dir_side` returns
false, because the two rectangles share no horizontal range. -/
theorem C23_false_without_shared_range :
    on_dir_side tightness_t.TIGHTNESS_LOW ⟨0, 0, 100, 100⟩ ⟨200, 0, 100, 100⟩
      direction_t.DIR_NORTH = false ∧
    (0 : Int) ≤ 0 + ((100 : Nat) : Int) - 1 := by
  decide

/-- C23, amended: under low tightness, for rectangles of positive width and height whose
fields are in range and whose far edges fit `int16_t`, `on_dir_side(r1, r2, DIR_NORTH)` returns
false exactly when `r2.y > r1.y + r1.height - 1` or the horizontal intervals of the two
rectangles have no common point; it returns true when `r2.y <= r1.y + r1.height - 1` and the
horizontal intervals meet. -/
theorem C23_low_north_false_iff (r1 r2 : xcb_rectangle_t) (h1 : r1.in_range)
    (h2 : r2.in_range) (f1 : r1.far_edges_fit) (f2 : r2.far_edges_fit)
    (p1 : 0 < r1.width ∧ 0 < r1.height) (p2 : 0 < r2.width ∧ 0 < r2.height) :
    (on_dir_side tightness_t.TIGHTNESS_LOW r1 r2 direction_t.DIR_NORTH = false
      ↔ (r2.y > r1.y + r1.height - 1 ∨
          ¬ intervals_meet r1.x (r1.x + r1.width - 1) r2.x (r2.x + r2.width - 1))) ∧
    (r2.y ≤ r1.y + r1.height - 1 →
      intervals_meet r1.x (r1.x + r1.width - 1) r2.x (r2.x + r2.width - 1) →
      on_dir_side tightness_t.TIGHTNESS_LOW r1 r2 direction_t.DIR_NORTH = true) := by
  have h := on_dir_side_iff tightness_t.TIGHTNESS_LOW r1 r2 direction_t.DIR_NORTH
    h1 h2 f1 f2 p1 p2
  simp only [side_test, shared_range] at h
  refine ⟨?_, fun a b => h.2 ⟨a, b⟩⟩
  rw [← Bool.not_eq_true, h]
  constructor
  · intro hn
    by_cases hy : r2.y > r1.y + r1.height - 1
    · exact Or.inl hy
    · exact Or.inr (fun hm => hn ⟨by omega, hm⟩)
  · rintro (hy | hm) ⟨a, b⟩
    · omega
    · exact hm b

/-- Witness for C23: the rectangles of the counterexample. -/
theorem C23_low_north_false_iff_witness :
    on_dir_side tightness_t.TIGHTNESS_LOW ⟨0, 0, 100, 100⟩ ⟨200, 0, 100, 100⟩
        direction_t.DIR_NORTH = false
      ↔ ((0 : Int) > 0 + ((100 : Nat) : Int) - 1 ∨
          ¬ intervals_meet 0 (0 + ((100 : Nat) : Int) - 1) 200 (200 + ((100 : Nat) : Int) - 1)) :=
  (C23_low_north_false_iff ⟨0, 0, 100, 100⟩ ⟨200, 0, 100, 100⟩ (by decide) (by decide)
    (by decide) (by decide) (by decide) (by decide)).1

/-- C29: for every direction and all rectangles whose fields are in range and whose far edges
fit `int16_t`, `on_dir_side` true under high tightness implies `on_dir_side` true under low
tightness. -/
theorem C29_high_tightness_implies_low (r1 r2 : xcb_rectangle_t) (dir : direction_t)
    (h1 : r1.in_range) (h2 : r2.in_range) (f1 : r1.far_edges_fit) (f2 : r2.far_edges_fit)
    (hh : on_dir_side tightness_t.TIGHTNESS_HIGH r1 r2 dir = true) :
    on_dir_side tightness_t.TIGHTNESS_LOW r1 r2 dir = true := by
  unfold on_dir_side at hh ⊢
  have s1 := on_dir_side_stage1_iff tightness_t.TIGHTNESS_HIGH r1 r2 dir h1 h2 f1 f2
  have s2 := on_dir_side_stage1_iff tightness_t.TIGHTNESS_LOW r1 r2 dir h1 h2 f1 f2
  cases hs : on_dir_side_stage1 tightness_t.TIGHTNESS_HIGH r1 r2 dir with
  | false => rw [hs] at hh; simp at hh
  | true =>
    rw [hs] at hh
    simp only [if_true] at hh
    have hhigh := s1.1 hs
    have hlow : on_dir_side_stage1 tightness_t.TIGHTNESS_LOW r1 r2 dir = true := by
      apply s2.2
      obtain ⟨hx1, hy1, hw1, hh1⟩ := h1
      cases dir <;> simp only [side_test] at hhigh ⊢ <;> omega
    rw [hlow]
    simpa using hh

/-- Witness for C29: `r2` above `r1`. -/
theorem C29_high_tightness_implies_low_witness :
    on_dir_side tightness_t.TIGHTNESS_HIGH ⟨0, 100, 100, 100⟩ ⟨0, 0, 100, 100⟩
      direction_t.DIR_NORTH = true ∧
    on_dir_side tightness_t.TIGHTNESS_LOW ⟨0, 100, 100, 100⟩ ⟨0, 0, 100, 100⟩
      direction_t.DIR_NORTH = true :=
  ⟨by decide,
    C29_high_tightness_implies_low ⟨0, 100, 100, 100⟩ ⟨0, 0, 100, 100⟩ direction_t.DIR_NORTH
      (by decide) (by decide) (by decide) (by decide) (by decide)⟩


theorem rect_cmp_stages (r1 r2 : xcb_rectangle_t) (h1 : r1.in_range) (h2 : r2.in_range) :
    rect_cmp r1 r2
      = if r1.y ≥ r2.y + r2.height then some 1
        else if r2.y ≥ r1.y + r1.height then some (-1)
        else if r1.x ≥ r2.x + r2.width then some 1
        else if r2.x ≥ r1.x + r1.width then some (-1)
        else match area r2, area r1 with
          | some a2, some a1 => some (wrap_int (to_uint (a2 - a1)))
          | _, _ => none := by
  obtain ⟨hx1, hy1, hw1, hh1⟩ := h1
  obtain ⟨hx2, hy2, hw2, hh2⟩ := h2
  unfold is_int16 at hx1 hy1 hx2 hy2
  have e1 : wrap_int (r1.x + r1.width) = r1.x + r1.width :=
    wrap_int_of_range (by omega) (by omega)
  have e2 : wrap_int (r2.x + r2.width) = r2.x + r2.width :=
    wrap_int_of_range (by omega) (by omega)
  have e3 : wrap_int (r1.y + r1.height) = r1.y + r1.height :=
    wrap_int_of_range (by omega) (by omega)
  have e4 : wrap_int (r2.y + r2.height) = r2.y + r2.height :=
    wrap_int_of_range (by omega) (by omega)
  simp only [rect_cmp, e1, e2, e3, e4]

theorem area_difference_sign (a1 a2 : Int)
    (hd : a1 - a2 < 2 ^ 31 ∧ a2 - a1 < 2 ^ 31) :
    (wrap_int (to_uint (a2 - a1)) < 0 ↔ a1 > a2) ∧ (wrap_int (to_uint (a2 - a1)) = 0 ↔ a1 = a2) ∧
      (wrap_int (to_uint (a2 - a1)) > 0 ↔ a1 < a2) := by
  unfold wrap_int to_uint
  omega

theorem area_range (r : xcb_rectangle_t) (a : Int) (h : area r = some a) :
    0 ≤ a ∧ a < 2 ^ 31 := by
  obtain ⟨hlt, e⟩ := (area_eq_some_iff r a).1 h
  have h0 : 0 ≤ (r.width : Int) * (r.height : Int) :=
    mul_nonneg (Int.ofNat_nonneg _) (Int.ofNat_nonneg _)
  have h1 : (r.width : Int) * (r.height : Int) < 2 ^ 31 := by
    have := Int.ofNat_lt.2 hlt
    push_cast at this
    exact this
  rw [e]
  exact ⟨h0, h1⟩

theorem rect_cmp_overlap_value (r1 r2 : xcb_rectangle_t) (h1 : r1.in_range) (h2 : r2.in_range)
    (c1 : ¬ r1.y ≥ r2.y + r2.height) (c2 : ¬ r2.y ≥ r1.y + r1.height)
    (c3 : ¬ r1.x ≥ r2.x + r2.width) (c4 : ¬ r2.x ≥ r1.x + r1.width) (a1 a2 : Int)
    (e1 : area r1 = some a1) (e2 : area r2 = some a2) :
    rect_cmp r1 r2 = some (wrap_int (to_uint (a2 - a1))) := by
  rw [rect_cmp_stages r1 r2 h1 h2, if_neg c1, if_neg c2, if_neg c3, if_neg c4, e1, e2]

theorem rect_cmp_overlap_none (r1 r2 : xcb_rectangle_t) (h1 : r1.in_range) (h2 : r2.in_range)
    (c1 : ¬ r1.y ≥ r2.y + r2.height) (c2 : ¬ r2.y ≥ r1.y + r1.height)
    (c3 : ¬ r1.x ≥ r2.x + r2.width) (c4 : ¬ r2.x ≥ r1.x + r1.width)
    (e : area r1 = none ∨ area r2 = none) :
    rect_cmp r1 r2 = none := by
  rw [rect_cmp_stages r1 r2 h1 h2, if_neg c1, if_neg c2, if_neg c3, if_neg c4]
  rcases e with e | e
  · rw [e]
    cases area r2 <;> rfl
  · rw [e]

/-- C24: for rectangles whose fields are in the range of their C types, `rect_cmp(r1, r2)` is
`1` when `r1.y >= r2.y + r2.height`, otherwise `-1` when `r2.y >= r1.y + r1.height`, otherwise
`1` when `r1.x >= r2.x + r2.width`, otherwise `-1` when `r2.x >= r1.x + r1.width`; otherwise,
when both calls of `area` have a value, its sign is that of `area(r2) - area(r1)`, and when one
of them overflows the result is undefined.  For `r1 = (0, 0, 65535, 65535)` and
`r2 = (0, 0, 1, 1)`, which overlap, `area(r1)` overflows `int` and the comparison has no defined
result; where the overflowing product wraps to its two's complement value, the `unsigned`
difference `1 - 4294836225` converted to `int` is `131072`, positive although `r1` has the
larger area. -/
theorem C24_rect_cmp_area_overflow (r1 r2 : xcb_rectangle_t) (h1 : r1.in_range)
    (h2 : r2.in_range) :
    (r1.y ≥ r2.y + r2.height → rect_cmp r1 r2 = some 1) ∧
    (¬ r1.y ≥ r2.y + r2.height → r2.y ≥ r1.y + r1.height → rect_cmp r1 r2 = some (-1)) ∧
    (¬ r1.y ≥ r2.y + r2.height → ¬ r2.y ≥ r1.y + r1.height → r1.x ≥ r2.x + r2.width →
      rect_cmp r1 r2 = some 1) ∧
    (¬ r1.y ≥ r2.y + r2.height → ¬ r2.y ≥ r1.y + r1.height → ¬ r1.x ≥ r2.x + r2.width →
      r2.x ≥ r1.x + r1.width → rect_cmp r1 r2 = some (-1)) ∧
    (¬ r1.y ≥ r2.y + r2.height → ¬ r2.y ≥ r1.y + r1.height → ¬ r1.x ≥ r2.x + r2.width →
      ¬ r2.x ≥ r1.x + r1.width → ∀ a1 a2 : Int, area r1 = some a1 → area r2 = some a2 →
      ∃ v, rect_cmp r1 r2 = some v ∧
        (v < 0 ↔ a1 > a2) ∧ (v = 0 ↔ a1 = a2) ∧ (v > 0 ↔ a1 < a2)) ∧
    (¬ r1.y ≥ r2.y + r2.height → ¬ r2.y ≥ r1.y + r1.height → ¬ r1.x ≥ r2.x + r2.width →
      ¬ r2.x ≥ r1.x + r1.width → (area r1 = none ∨ area r2 = none) → rect_cmp r1 r2 = none) ∧
    area ⟨0, 0, 65535, 65535⟩ = none ∧
    rect_cmp ⟨0, 0, 65535, 65535⟩ ⟨0, 0, 1, 1⟩ = none ∧
    wrap_int (to_uint (1 - to_uint (wrap_int (65535 * 65535)))) = 131072 := by
  have hs := rect_cmp_stages r1 r2 h1 h2
  refine ⟨fun a => ?_, fun a b => ?_, fun a b c => ?_, fun a b c d => ?_,
    fun a b c d a1 a2 e1 e2 => ?_, fun a b c d e => ?_, by decide, by decide, by decide⟩
  · rw [hs, if_pos a]
  · rw [hs, if_neg a, if_pos b]
  · rw [hs, if_neg a, if_neg b, if_pos c]
  · rw [hs, if_neg a, if_neg b, if_neg c, if_pos d]
  · have n1 := area_range r1 a1 e1
    have n2 := area_range r2 a2 e2
    exact ⟨_, rect_cmp_overlap_value r1 r2 h1 h2 a b c d a1 a2 e1 e2,
      area_difference_sign a1 a2 ⟨by omega, by omega⟩⟩
  · exact rect_cmp_overlap_none r1 r2 h1 h2 a b c d e

/-- Witness for C24: two overlapping rectangles with areas 200 and 100. -/
theorem C24_rect_cmp_area_overflow_witness :
    area ⟨0, 0, 20, 10⟩ = some 200 ∧ area ⟨5, 5, 10, 10⟩ = some 100 ∧
    ∃ v, rect_cmp ⟨0, 0, 20, 10⟩ ⟨5, 5, 10, 10⟩ = some v ∧ v < 0 :=
  ⟨by decide, by decide,
    ((C24_rect_cmp_area_overflow ⟨0, 0, 20, 10⟩ ⟨5, 5, 10, 10⟩ (by decide)
      (by decide)).2.2.2.2.1 (by decide) (by decide) (by decide) (by decide) 200 100 (by decide)
      (by decide)).imp fun _ h => ⟨h.1, h.2.1.2 (by decide)⟩⟩

/-- Counterexample for C30: three rectangles of positive width and height with
`rect_cmp(r1, r2) < 0` (`r2` lies below `r1`), `rect_cmp(r2, r3) < 0` (`r3` lies to the right
of `r2`) and `rect_cmp(r1, r3) > 0` (`r1` lies to the right of `r3`). -/
theorem C30_rect_cmp_not_transitive :
    rect_cmp ⟨100, 0, 10, 10⟩ ⟨0, 10, 10, 30⟩ = some (-1) ∧
    rect_cmp ⟨0, 10, 10, 30⟩ ⟨50, 5, 10, 10⟩ = some (-1) ∧
    rect_cmp ⟨100, 0, 10, 10⟩ ⟨50, 5, 10, 10⟩ = some 1 ∧
    ¬ ∃ v, rect_cmp ⟨100, 0, 10, 10⟩ ⟨50, 5, 10, 10⟩ = some v ∧ v < 0 := by
  refine ⟨by decide, by decide, by decide, ?_⟩
  rintro ⟨v, e, hv⟩
  have e1 : rect_cmp ⟨100, 0, 10, 10⟩ ⟨50, 5, 10, 10⟩ = some 1 := by decide
  rw [e1] at e
  cases e
  exact absurd hv (by decide)

theorem rect_cmp_defined (r1 r2 : xcb_rectangle_t) (h1 : r1.in_range) (h2 : r2.in_range)
    (a1 : area r1 ≠ none) (a2 : area r2 ≠ none) : ∃ v, rect_cmp r1 r2 = some v := by
  rw [rect_cmp_stages r1 r2 h1 h2]
  cases e1 : area r1 with
  | none => exact absurd e1 a1
  | some v1 =>
    cases e2 : area r2 with
    | none => exact absurd e2 a2
    | some v2 =>
      split_ifs
      · exact ⟨_, rfl⟩
      · exact ⟨_, rfl⟩
      · exact ⟨_, rfl⟩
      · exact ⟨_, rfl⟩
      · exact ⟨_, rfl⟩

theorem rect_cmp_self (r : xcb_rectangle_t) (h : r.in_range)
    (p : 0 < r.width ∧ 0 < r.height) (a : area r ≠ none) : rect_cmp r r = some 0 := by
  obtain ⟨pw, ph⟩ := p
  rw [rect_cmp_stages r r h h, if_neg (by omega), if_neg (by omega), if_neg (by omega),
    if_neg (by omega)]
  cases e : area r with
  | none => exact absurd e a
  | some v => simp [to_uint, wrap_int]

theorem rect_cmp_antisymm (r1 r2 : xcb_rectangle_t) (h1 : r1.in_range) (h2 : r2.in_range)
    (p1 : 0 < r1.width ∧ 0 < r1.height) (p2 : 0 < r2.width ∧ 0 < r2.height)
    (a1 : area r1 ≠ none) (a2 : area r2 ≠ none) :
    ∃ v12 v21, rect_cmp r1 r2 = some v12 ∧ rect_cmp r2 r1 = some v21 ∧
      (v12 < 0 ↔ v21 > 0) := by
  obtain ⟨pw1, ph1⟩ := p1
  obtain ⟨pw2, ph2⟩ := p2
  cases e1 : area r1 with
  | none => exact absurd e1 a1
  | some w1 =>
  cases e2 : area r2 with
  | none => exact absurd e2 a2
  | some w2 =>
  have n1 := area_range r1 w1 e1
  have n2 := area_range r2 w2 e2
  rw [rect_cmp_stages r1 r2 h1 h2, rect_cmp_stages r2 r1 h2 h1, e1, e2]
  by_cases c1 : r1.y ≥ r2.y + r2.height
  · rw [if_pos c1, if_neg (by omega), if_pos c1]
    exact ⟨_, _, rfl, rfl, by omega⟩
  · rw [if_neg c1]
    by_cases c2 : r2.y ≥ r1.y + r1.height
    · rw [if_pos c2, if_pos c2]
      exact ⟨_, _, rfl, rfl, by omega⟩
    · rw [if_neg c2, if_neg c2, if_neg c1]
      by_cases c3 : r1.x ≥ r2.x + r2.width
      · rw [if_pos c3, if_neg (by omega), if_pos c3]
        exact ⟨_, _, rfl, rfl, by omega⟩
      · rw [if_neg c3]
        by_cases c4 : r2.x ≥ r1.x + r1.width
        · rw [if_pos c4, if_pos c4]
          exact ⟨_, _, rfl, rfl, by omega⟩
        · rw [if_neg c4, if_neg c4, if_neg c3]
          refine ⟨_, _, rfl, rfl, ?_⟩
          rw [(area_difference_sign w1 w2 ⟨by omega, by omega⟩).1,
            (area_difference_sign w2 w1 ⟨by omega, by omega⟩).2.2]

theorem rect_cmp_below (r1 r2 : xcb_rectangle_t) (h1 : r1.in_range) (h2 : r2.in_range)
    (p1 : 0 < r1.height) (p2 : 0 < r2.height) (hb : r2.y ≥ r1.y + r1.height) :
    rect_cmp r1 r2 = some (-1) := by
  rw [rect_cmp_stages r1 r2 h1 h2, if_neg (by omega), if_pos hb]

theorem rect_cmp_overlap (r1 r2 : xcb_rectangle_t) (h1 : r1.in_range) (h2 : r2.in_range)
    (w1 w2 : Int) (e1 : area r1 = some w1) (e2 : area r2 = some w2)
    (o12 : r1.y < r2.y + r2.height ∧ r1.x < r2.x + r2.width)
    (o21 : r2.y < r1.y + r1.height ∧ r2.x < r1.x + r1.width) :
    ∃ v, rect_cmp r1 r2 = some v ∧ (v < 0 ↔ w1 > w2) := by
  have n1 := area_range r1 w1 e1
  have n2 := area_range r2 w2 e2
  exact ⟨_, rect_cmp_overlap_value r1 r2 h1 h2 (by omega) (by omega) (by omega) (by omega)
    w1 w2 e1 e2, (area_difference_sign w1 w2 ⟨by omega, by omega⟩).1⟩

/-- C30, amended: on rectangles of positive width and height whose fields are in range and
whose areas are below `2 ^ 31` (so that `area` has a value), `rect_cmp` has a value,
`rect_cmp(r, r)` is zero and `rect_cmp(r1, r2) < 0` holds exactly when `rect_cmp(r2, r1) > 0`.
From `rect_cmp(r1, r2) < 0` and `rect_cmp(r2, r3) < 0` follows `rect_cmp(r1, r3) < 0` when both
comparisons are decided by the vertical position (`r2.y >= r1.y + r1.height` and
`r3.y >= r2.y + r2.height`), and also when the three rectangles overlap pairwise on both axes,
where the comparison is by area. -/
theorem C30_rect_cmp_antisymmetric (r1 r2 r3 : xcb_rectangle_t) (h1 : r1.in_range)
    (h2 : r2.in_range) (h3 : r3.in_range) (p1 : 0 < r1.width ∧ 0 < r1.height)
    (p2 : 0 < r2.width ∧ 0 < r2.height) (p3 : 0 < r3.width ∧ 0 < r3.height)
    (a1 : area r1 ≠ none) (a2 : area r2 ≠ none) (a3 : area r3 ≠ none) :
    rect_cmp r1 r1 = some 0 ∧
    (∃ v12 v21 v23 v13, rect_cmp r1 r2 = some v12 ∧ rect_cmp r2 r1 = some v21 ∧
      rect_cmp r2 r3 = some v23 ∧ rect_cmp r1 r3 = some v13 ∧
      (v12 < 0 ↔ v21 > 0) ∧
      (r2.y ≥ r1.y + r1.height → r3.y ≥ r2.y + r2.height → v13 < 0) ∧
      ((∀ a b : xcb_rectangle_t, a ∈ [r1, r2, r3] → b ∈ [r1, r2, r3] →
          a.y < b.y + b.height ∧ a.x < b.x + b.width) →
        v12 < 0 → v23 < 0 → v13 < 0)) := by
  refine ⟨rect_cmp_self r1 h1 p1 a1, ?_⟩
  obtain ⟨v12, v21, e12, e21, hanti⟩ := rect_cmp_antisymm r1 r2 h1 h2 p1 p2 a1 a2
  obtain ⟨v23, e23⟩ := rect_cmp_defined r2 r3 h2 h3 a2 a3
  obtain ⟨v13, e13⟩ := rect_cmp_defined r1 r3 h1 h3 a1 a3
  refine ⟨v12, v21, v23, v13, e12, e21, e23, e13, hanti, ?_, ?_⟩
  · intro a b
    have hb : r3.y ≥ r1.y + r1.height := by
      have := p2.2
      omega
    rw [rect_cmp_below r1 r3 h1 h3 p1.2 p3.2 hb] at e13
    cases e13
    decide
  · intro hov c12 c23
    cases w1 : area r1 with
    | none => exact absurd w1 a1
    | some x1 =>
    cases w2 : area r2 with
    | none => exact absurd w2 a2
    | some x2 =>
    cases w3 : area r3 with
    | none => exact absurd w3 a3
    | some x3 =>
    obtain ⟨u12, f12, g12⟩ := rect_cmp_overlap r1 r2 h1 h2 x1 x2 w1 w2
      (hov r1 r2 (by simp) (by simp)) (hov r2 r1 (by simp) (by simp))
    obtain ⟨u23, f23, g23⟩ := rect_cmp_overlap r2 r3 h2 h3 x2 x3 w2 w3
      (hov r2 r3 (by simp) (by simp)) (hov r3 r2 (by simp) (by simp))
    obtain ⟨u13, f13, g13⟩ := rect_cmp_overlap r1 r3 h1 h3 x1 x3 w1 w3
      (hov r1 r3 (by simp) (by simp)) (hov r3 r1 (by simp) (by simp))
    rw [e12] at f12
    rw [e23] at f23
    rw [e13] at f13
    cases f12
    cases f23
    cases f13
    exact g13.2 (gt_trans (g12.1 c12) (g23.1 c23))

/-- Witness for C30: three rectangles one below the other. -/
theorem C30_rect_cmp_antisymmetric_witness :
    rect_cmp ⟨0, 0, 10, 10⟩ ⟨0, 0, 10, 10⟩ = some 0 ∧
    (∃ v12 v21 v23 v13, rect_cmp ⟨0, 0, 10, 10⟩ ⟨0, 10, 10, 10⟩ = some v12 ∧
      rect_cmp ⟨0, 10, 10, 10⟩ ⟨0, 0, 10, 10⟩ = some v21 ∧
      rect_cmp ⟨0, 10, 10, 10⟩ ⟨0, 20, 10, 10⟩ = some v23 ∧
      rect_cmp ⟨0, 0, 10, 10⟩ ⟨0, 20, 10, 10⟩ = some v13 ∧
      (v12 < 0 ↔ v21 > 0) ∧ v13 < 0) :=
  have h := C30_rect_cmp_antisymmetric ⟨0, 0, 10, 10⟩ ⟨0, 10, 10, 10⟩ ⟨0, 20, 10, 10⟩
    (by decide) (by decide) (by decide) (by decide) (by decide) (by decide) (by decide)
    (by decide) (by decide)
  ⟨h.1, by
    obtain ⟨v12, v21, v23, v13, e12, e21, e23, e13, ha, hb, -⟩ := h.2
    exact ⟨v12, v21, v23, v13, e12, e21, e23, e13, ha, hb (by decide) (by decide)⟩⟩

/-- C25: for a subscriber `sb` of the list, `remove_subscriber(sb)` returns and leaves the
list without exactly that entry, the others in their order with their fields, `subscribe_head`
the first and `subscribe_tail` the last of them.  When `restart` is false it calls `fclose` on
the stream and `unlink` on `fifo_path`, which deletes the FIFO when the subscriber has one and
nothing otherwise (the call is then `unlink(NULL)`); when `restart` is true it only clears the
close-on-exec flag, closes no stream and deletes no file. -/
theorem C25_remove_subscriber_frame (env : SubEnv) (st : SubState)
    (A B : List (Addr × subscriber_fields)) (s : Addr) (v : subscriber_fields)
    (H : SubRepr st (A ++ (s, v) :: B)) :
    ∃ st' ev, remove_subscriber env st (some s) = some (st', ev) ∧
      SubRepr st' (A ++ B) ∧
      st'.subscribe_head = hdPtr (A ++ B) none ∧ st'.subscribe_tail = lastPtr none (A ++ B) ∧
      (∀ x, x ∉ (A ++ (s, v) :: B).map Prod.fst → st'.heap x = st.heap x) ∧
      (env.restart = false →
        ev = [SubEvent.fclose v.stream, SubEvent.unlink v.fifo_path] ∧
        closed_streams ev = [v.stream] ∧ deleted_files ev = v.fifo_path.toList) ∧
      (env.restart = true →
        ev = [SubEvent.clear_cloexec v.stream] ∧ closed_streams ev = [] ∧
        deleted_files ev = []) := by
  obtain ⟨st', e1, r1, -, fr⟩ := remove_subscriber_spec env H
  refine ⟨st', removeEvents env v, e1, r1, r1.1.head_eq, r1.1.tail_eq, fr, ?_, ?_⟩
  · intro hr
    simp only [removeEvents, hr]
    refine ⟨by simp, rfl, ?_⟩
    cases v.fifo_path <;> rfl
  · intro hr
    simp only [removeEvents, hr]
    exact ⟨by simp, rfl, rfl⟩

/-- Witness for C25: the middle subscriber of `sampleSubs`, which has no FIFO, is removed
while not restarting. -/
theorem C25_remove_subscriber_frame_witness :
    SubRepr sampleSubs sampleSubsList ∧
    ∃ st' ev, remove_subscriber sampleSubEnv sampleSubs (some 1) = some (st', ev) ∧
      SubRepr st' [(0, ⟨10, some "/tmp/fifo_a", 7, -1⟩), (2, ⟨12, some "/tmp/fifo_c", 3, 1⟩)] ∧
      ev = [SubEvent.fclose 11, SubEvent.unlink none] ∧ deleted_files ev = [] := by
  refine ⟨sampleSubs_repr, ?_⟩
  obtain ⟨st', ev, h1, h2, -, -, -, h3, -⟩ :=
    C25_remove_subscriber_frame sampleSubEnv sampleSubs [(0, ⟨10, some "/tmp/fifo_a", 7, -1⟩)]
      [(2, ⟨12, some "/tmp/fifo_c", 3, 1⟩)] 1 ⟨11, none, 2, 2⟩ sampleSubs_repr
  obtain ⟨h4, -, h5⟩ := h3 rfl
  exact ⟨st', ev, h1, h2, h4, h5⟩

theorem takeWhile_dropWhile_of_pairwise {α : Type} (R : α → α → Prop) (p : α → Bool)
    (hR : ∀ a b, R a b → p b = true → p a = true) :
    ∀ l : List α, l.Pairwise R →
      l.takeWhile p = l.filter p ∧ l.dropWhile p = l.filter (fun e => !p e) := by
  intro l
  induction l with
  | nil => intro _; exact ⟨rfl, rfl⟩
  | cons a l ih =>
    intro hp
    obtain ⟨h1, h2⟩ := List.pairwise_cons.1 hp
    obtain ⟨i1, i2⟩ := ih h2
    by_cases ha : p a = true
    · simp [List.takeWhile_cons, List.dropWhile_cons, List.filter_cons, ha, i1, i2]
    · have hall : ∀ b ∈ l, p b = false := by
        intro b hb
        by_contra hc
        exact ha (hR a b (h1 b hb) (by simpa using hc))
      have f1 : l.filter p = [] := List.filter_eq_nil_iff.2 (fun b hb => by simp [hall b hb])
      have f2 : l.filter (fun e => !p e) = l :=
        List.filter_eq_self.2 (fun b hb => by simp [hall b hb])
      simp [List.takeWhile_cons, List.dropWhile_cons, List.filter_cons, ha, f1, f2]

theorem rdropWhile_rtakeWhile_of_pairwise {α : Type} (R : α → α → Prop) (p : α → Bool)
    (hR : ∀ a b, R a b → p a = true → p b = true) :
    ∀ l : List α, l.Pairwise R →
      l.rtakeWhile p = l.filter p ∧ l.rdropWhile p = l.filter (fun e => !p e) := by
  intro l hp
  have hrev : l.reverse.Pairwise (fun a b => R b a) := List.pairwise_reverse.2 hp
  obtain ⟨h1, h2⟩ := takeWhile_dropWhile_of_pairwise (fun a b => R b a) p
    (fun a b hab hb => hR b a hab hb) l.reverse hrev
  unfold List.rtakeWhile List.rdropWhile
  rw [h1, h2, List.filter_reverse, List.filter_reverse, List.reverse_reverse,
    List.reverse_reverse]
  exact ⟨rfl, rfl⟩

theorem placeAbove_of_sorted (env : StackEnv) (n : NodePtr) (x : Addr × NodePtr)
    (l0 : List (Addr × NodePtr))
    (hs : l0.Pairwise (fun a b => levelOf env a.2 ≤ levelOf env b.2)) :
    placeAbove env n x l0
      = l0.filter (fun e => decide (levelOf env e.2 ≤ levelOf env n))
        ++ x :: l0.filter (fun e => decide (levelOf env n < levelOf env e.2)) := by
  obtain ⟨h1, h2⟩ := takeWhile_dropWhile_of_pairwise
    (fun a b : Addr × NodePtr => levelOf env a.2 ≤ levelOf env b.2)
    (fun e => decide (levelOf env e.2 ≤ levelOf env n))
    (fun a b hab hb => by
      simp only [decide_eq_true_eq] at hb ⊢
      exact le_trans hab hb) l0 hs
  have hfun : (fun e : Addr × NodePtr => !decide (levelOf env e.2 ≤ levelOf env n))
      = fun e => decide (levelOf env n < levelOf env e.2) := by
    funext e
    simp only [← not_le, decide_not]
  unfold placeAbove
  rw [h1, h2, hfun]

theorem placeBelow_of_sorted (env : StackEnv) (n : NodePtr) (x : Addr × NodePtr)
    (l0 : List (Addr × NodePtr))
    (hs : l0.Pairwise (fun a b => levelOf env a.2 ≤ levelOf env b.2)) :
    placeBelow env n x l0
      = l0.filter (fun e => decide (levelOf env e.2 < levelOf env n))
        ++ x :: l0.filter (fun e => decide (levelOf env n ≤ levelOf env e.2)) := by
  obtain ⟨h1, h2⟩ := rdropWhile_rtakeWhile_of_pairwise
    (fun a b : Addr × NodePtr => levelOf env a.2 ≤ levelOf env b.2)
    (fun e => decide (levelOf env n ≤ levelOf env e.2))
    (fun a b hab ha => by
      simp only [decide_eq_true_eq] at ha ⊢
      exact le_trans ha hab) l0 hs
  have hfun : (fun e : Addr × NodePtr => !decide (levelOf env n ≤ levelOf env e.2))
      = fun e => decide (levelOf env e.2 < levelOf env n) := by
    funext e
    simp only [← not_le, decide_not]
  unfold placeBelow
  rw [h1, h2, hfun]

theorem sampleStackFloatFirst_repr : StackRepr sampleStackFloatFirst [(0, 3), (1, 1)] :=
  ⟨⟨by decide, ⟨rfl, rfl, trivial⟩, rfl, rfl⟩, by decide⟩

/-- Counterexample for C26: with `auto_raise` off, the floating leaf `3` is skipped.  The list
holds `3` and then the tiled node `1` (duplicate-free, ordered apart from the entry of `3`, one
other entry); after `stack(d, 3, true)` the state is unchanged, so `3` still stands at
`stack_head`, before the entry of `1`, whose level is lower, and not at `stack_tail`. -/
theorem C26_skipped_leaf_not_moved :
    StackRepr sampleStackFloatFirst [(0, 3), (1, 1)] ∧ IsLeaf sampleEnvNoRaise 3 ∧
    stack sampleEnvNoRaise 5 sampleStackFloatFirst sampleDesktop 3 true
      = some (sampleStackFloatFirst, [StackEvent.ewmh_update_client_list true,
          StackEvent.window_above 7 101, StackEvent.window_above 9 101]) ∧
    levelOf sampleEnvNoRaise 1 < levelOf sampleEnvNoRaise 3 :=
  ⟨sampleStackFloatFirst_repr, by decide, rfl, by decide⟩

/-- C26, amended: let the stacking list be duplicate-free, all of its entries have a client,
its levels never decrease from `stack_head` to `stack_tail` apart from the entry of `n`, and
let it hold an entry other than `n`.  For a leaf `n` with a client that `stack` does not skip
(not floating, or `auto_raise` set), `stack(d, n, true)` leaves `n` right after the leading
entries whose level does not exceed its own, that is immediately before the first entry of
strictly greater level or at `stack_tail`, above every other entry of equal or lower level;
`stack(d, n, false)` leaves `n` right before the trailing entries whose level is at least its
own, that is immediately after the last entry of strictly lower level or at `stack_head`,
below every other entry of equal or higher level. -/
theorem C26_stack_places_by_level (env : StackEnv) (st : StackState)
    (l : List (Addr × NodePtr)) (d : desktop_t) (n : NodePtr) (focused : Bool) (fuel : Nat)
    (c : client_t)
    (hrepr : StackRepr st l) (hnd : (l.map Prod.snd).Nodup) (hleaf : IsLeaf env n)
    (hclient : (env.node n).client = some c)
    (hnotskipped : (IS_FLOATING c && !env.auto_raise) = false)
    (hclients : ∀ e ∈ l, (env.node e.2).client ≠ none)
    (hsorted : (l.filter (fun e => decide (e.2 ≠ n))).Pairwise
      (fun a b => levelOf env a.2 ≤ levelOf env b.2))
    (hother : l.filter (fun e => decide (e.2 ≠ n)) ≠ [])
    (hfuel : l.length + 1 < fuel) :
    ∃ st' ev l', stack env fuel st d n focused = some (st', ev) ∧ StackRepr st' l' ∧
      (focused = true →
        l' = (l.filter (fun e => decide (e.2 ≠ n))).takeWhile
              (fun e => decide (levelOf env e.2 ≤ levelOf env n))
            ++ (st.brk, n) :: (l.filter (fun e => decide (e.2 ≠ n))).dropWhile
              (fun e => decide (levelOf env e.2 ≤ levelOf env n)) ∧
        l' = (l.filter (fun e => decide (e.2 ≠ n))).filter
              (fun e => decide (levelOf env e.2 ≤ levelOf env n))
            ++ (st.brk, n) :: (l.filter (fun e => decide (e.2 ≠ n))).filter
              (fun e => decide (levelOf env n < levelOf env e.2))) ∧
      (focused = false →
        l' = (l.filter (fun e => decide (e.2 ≠ n))).rdropWhile
              (fun e => decide (levelOf env n ≤ levelOf env e.2))
            ++ (st.brk, n) :: (l.filter (fun e => decide (e.2 ≠ n))).rtakeWhile
              (fun e => decide (levelOf env n ≤ levelOf env e.2)) ∧
        l' = (l.filter (fun e => decide (e.2 ≠ n))).filter
              (fun e => decide (levelOf env e.2 < levelOf env n))
            ++ (st.brk, n) :: (l.filter (fun e => decide (e.2 ≠ n))).filter
              (fun e => decide (levelOf env n ≤ levelOf env e.2))) := by
  obtain ⟨st', ev, ev2, l', e1, r1, ho, -⟩ :=
    stack_spec d focused hrepr hnd hleaf hclient hnotskipped hclients hfuel
  have hl' : l' = (if focused then
      placeAbove env n (st.brk, n) (l.filter (fun e => decide (e.2 ≠ n)))
      else placeBelow env n (st.brk, n) (l.filter (fun e => decide (e.2 ≠ n)))) := by
    rcases ho with ⟨h0, -⟩ | ⟨-, h0, -⟩ | ⟨-, h, -⟩
    · subst h0
      exact absurd rfl hother
    · exact absurd h0 hother
    · exact h
  refine ⟨st', _, l', e1, r1, ?_, ?_⟩
  · intro hf
    rw [hf] at hl'
    simp only [if_true] at hl'
    exact ⟨hl', by rw [hl', placeAbove_of_sorted env n _ _ hsorted]⟩
  · intro hf
    rw [hf] at hl'
    simp only [Bool.false_eq_true, if_false] at hl'
    exact ⟨hl', by rw [hl', placeBelow_of_sorted env n _ _ hsorted]⟩

/-- Witness for C26: the tiled leaf `5` is stacked with `focused = true` into the list of the
tiled nodes `1`, `2` and the floating node `3`; it ends after `2` and before `3`. -/
theorem C26_stack_places_by_level_witness :
    StackRepr sampleStack [(0, 1), (1, 2), (2, 3)] ∧
    ∃ st' ev, stack sampleEnv 5 sampleStack sampleDesktop 5 true = some (st', ev) ∧
      StackRepr st' [(0, 1), (1, 2), (3, 5), (2, 3)] := by
  refine ⟨sampleStack_repr, ?_⟩
  obtain ⟨st', ev, l', h1, h2, h3, -⟩ :=
    C26_stack_places_by_level sampleEnv sampleStack [(0, 1), (1, 2), (2, 3)] sampleDesktop 5
      true 5 ⟨client_state_t.STATE_TILED, stack_layer_t.LAYER_NORMAL⟩ sampleStack_repr
      (by decide) (by decide) rfl rfl (by decide) (by decide) (by decide) (by decide)
  have h4 := (h3 rfl).2
  have h5 : l' = [(0, 1), (1, 2), (3, 5), (2, 3)] := by
    rw [h4]
    decide
  rw [h5] at h2
  exact ⟨st', ev, h1, h2⟩

theorem mem_split_nodup {α : Type} {l : List (Addr × α)} {s : Addr} {d : α}
    (nd : (l.map Prod.fst).Nodup) (h : (s, d) ∈ l) :
    ∃ P Q, l = P ++ (s, d) :: Q ∧ s ∉ P.map Prod.fst := by
  obtain ⟨P, Q, rfl⟩ := List.append_of_mem h
  exact ⟨P, Q, rfl, (nodup_middle nd).2.2.1⟩

/-- Counterexample for C27: the tiled leaf `5` is inserted into the empty stacking list.  It
becomes the only entry, and `stack` issues neither a `window_above` or `window_below` call nor
a `node_stack` notification; the only call is `ewmh_update_client_list` (the desktop has no
preselection feedback). -/
theorem C27_first_insertion_is_silent :
    IsLeaf sampleEnv 5 ∧
    ∃ st', stack sampleEnv 5 StackState.empty ⟨node_tree.NULL⟩ 5 true
        = some (st', [StackEvent.ewmh_update_client_list true]) ∧
      StackRepr st' [(0, 5)] := by
  refine ⟨by decide, ?_⟩
  obtain ⟨st', ev, ev2, l', e1, r1, ho, -⟩ :=
    @stack_spec sampleEnv StackState.empty [] 5
      ⟨client_state_t.STATE_TILED, stack_layer_t.LAYER_NORMAL⟩ 5 ⟨node_tree.NULL⟩ true
      stackRepr_empty (by decide) (by decide) rfl rfl (by simp) (by decide)
  have hev : (stack sampleEnv 5 StackState.empty ⟨node_tree.NULL⟩ 5 true).map Prod.snd
      = some [StackEvent.ewmh_update_client_list true] := rfl
  rw [e1] at hev
  simp only [Option.map_some', Option.some.injEq] at hev
  have hl' : l' = [(0, 5)] := by
    rcases ho with ⟨-, h, -⟩ | ⟨h, -⟩ | ⟨h, -⟩
    · exact h
    · exact absurd rfl h
    · exact absurd rfl h
  rw [hev] at e1
  rw [hl'] at r1
  exact ⟨st', e1, r1⟩

/-- C27, amended: let the stacking list be duplicate-free with a client on every entry, and let
`n` be a leaf with a client that `stack` does not skip.  `stack(d, n, focused)` returns, and
the calls it issues for the leaf come before `ewmh_update_client_list`.  When the list holds an
entry other than `n`, they are exactly one display-order call and one `node_stack`
notification, both naming `n` and one neighbour entry: `window_below` and `below`, after which
`n` stands immediately before the neighbour, or `window_above` and `above`, after which `n`
stands immediately after it.  When the list is empty, `n` becomes its only entry and no call is
issued for it; when `n` is the only entry nothing changes and no call is issued. -/
theorem C27_one_call_per_placed_leaf (env : StackEnv) (st : StackState)
    (l : List (Addr × NodePtr)) (d : desktop_t) (n : NodePtr) (focused : Bool) (fuel : Nat)
    (c : client_t)
    (hrepr : StackRepr st l) (hnd : (l.map Prod.snd).Nodup) (hleaf : IsLeaf env n)
    (hclient : (env.node n).client = some c)
    (hnotskipped : (IS_FLOATING c && !env.auto_raise) = false)
    (hclients : ∀ e ∈ l, (env.node e.2).client ≠ none)
    (hfuel : l.length + 1 < fuel) :
    ∃ st' ev ev2 l', stack env fuel st d n focused
        = some (st', ev ++ [StackEvent.ewmh_update_client_list true] ++ ev2) ∧
      StackRepr st' l' ∧ restack_presel_feedbacks env fuel st' d = some ev2 ∧
      (l = [] → l' = [(st.brk, n)] ∧ ev = []) ∧
      (l ≠ [] → l.filter (fun e => decide (e.2 ≠ n)) = [] → l' = l ∧ ev = []) ∧
      (l.filter (fun e => decide (e.2 ≠ n)) ≠ [] →
        ∃ s m P Q, (s, m) ∈ l ∧ m ≠ n ∧
          ((ev = [StackEvent.window_below (env.node n).id (env.node m).id,
                  StackEvent.put_status env.SBSC_MASK_NODE_STACK
                    "node_stack 0x%08X below 0x%08X\n" [(env.node n).id, (env.node m).id]] ∧
              l' = P ++ (st.brk, n) :: (s, m) :: Q) ∨
           (ev = [StackEvent.window_above (env.node n).id (env.node m).id,
                  StackEvent.put_status env.SBSC_MASK_NODE_STACK
                    "node_stack 0x%08X above 0x%08X\n" [(env.node n).id, (env.node m).id]] ∧
              l' = P ++ (s, m) :: (st.brk, n) :: Q))) := by
  obtain ⟨st', ev, ev2, l', e1, r1, ho, e2⟩ :=
    stack_spec d focused hrepr hnd hleaf hclient hnotskipped hclients hfuel
  have ndA : ((l.filter (fun e => decide (e.2 ≠ n))).map Prod.fst).Nodup :=
    hrepr.1.nodup.sublist ((List.filter_sublist l).map _)
  refine ⟨st', ev, ev2, l', e1, r1, e2, ?_, ?_, ?_⟩
  · intro hl
    rcases ho with ⟨-, h1, h2⟩ | ⟨h, -⟩ | ⟨h, -⟩
    · exact ⟨h1, h2⟩
    · exact absurd hl h
    · subst hl
      exact absurd rfl h
  · intro hl h0
    rcases ho with ⟨h, -⟩ | ⟨-, -, h1, h2⟩ | ⟨h, -⟩
    · exact absurd h hl
    · exact ⟨h1, h2⟩
    · exact absurd h0 h
  · intro hne
    rcases ho with ⟨h, -⟩ | ⟨-, h, -⟩ | ⟨-, -, s, m, hmem, hcase⟩
    · subst h
      exact absurd rfl hne
    · exact absurd h hne
    · obtain ⟨hml, hmn⟩ := List.mem_filter.1 hmem
      have hmn' : m ≠ n := by simpa using hmn
      obtain ⟨P, Q, hsplit, hsP⟩ := mem_split_nodup ndA hmem
      refine ⟨s, m, P, Q, hml, hmn', ?_⟩
      rcases hcase with ⟨hev, hl'⟩ | ⟨hev, hl'⟩
      · left
        refine ⟨by rw [hev]; rfl, ?_⟩
        rw [hl', hsplit, insertBeforeAddr_split _ hsP]
      · right
        refine ⟨by rw [hev]; rfl, ?_⟩
        rw [hl', hsplit, insertAfterAddr_split _ hsP]

/-- Witness for C27: the tiled leaf `5` is stacked with `focused = false` into the list of
nodes `1`, `2`, `3`. -/
theorem C27_one_call_per_placed_leaf_witness :
    StackRepr sampleStack [(0, 1), (1, 2), (2, 3)] ∧
    ∃ st' ev ev2 l', stack sampleEnv 5 sampleStack sampleDesktop 5 false
        = some (st', ev ++ [StackEvent.ewmh_update_client_list true] ++ ev2) ∧
      StackRepr st' l' ∧ ev.length = 2 := by
  refine ⟨sampleStack_repr, ?_⟩
  obtain ⟨st', ev, ev2, l', h1, h2, -, -, -, h3⟩ :=
    C27_one_call_per_placed_leaf sampleEnv sampleStack [(0, 1), (1, 2), (2, 3)] sampleDesktop 5
      false 5 ⟨client_state_t.STATE_TILED, stack_layer_t.LAYER_NORMAL⟩ sampleStack_repr
      (by decide) (by decide) rfl rfl (by decide) (by decide)
  obtain ⟨s, m, P, Q, -, -, h4⟩ := h3 (by decide)
  refine ⟨st', ev, ev2, l', h1, h2, ?_⟩
  rcases h4 with ⟨h, -⟩ | ⟨h, -⟩ <;> rw [h] <;> rfl

/-- Counterexample for C28: with `auto_raise` set, the floating leaf `3` is not skipped when
`focused` is false: `stack(d, 3, false)` on the list of nodes `1`, `2`, `3` issues
`window_above` and the `node_stack` notification for it. -/
theorem C28_floating_leaf_processed_unfocused :
    sampleEnv.auto_raise = true ∧
    (sampleEnv.node 3).client = some ⟨client_state_t.STATE_FLOATING, stack_layer_t.LAYER_NORMAL⟩ ∧
    (stack sampleEnv 5 sampleStack sampleDesktop 3 false).map Prod.snd
      = some [StackEvent.window_above 103 102,
          StackEvent.put_status 1024 "node_stack 0x%08X above 0x%08X\n" [103, 102],
          StackEvent.ewmh_update_client_list true, StackEvent.window_above 7 102,
          StackEvent.window_above 9 102] :=
  ⟨rfl, rfl, rfl⟩

/-- C28, amended: the skip test of `stack` does not read `focused`.  For a leaf `n` and both
values of `focused`: when `n` has no client, or its client is floating and `auto_raise` is not
set, `stack(d, n, focused)` leaves the state unchanged and issues no call for the leaf (only
`ewmh_update_client_list` and the calls of `restack_presel_feedbacks`); when `n` has a client
that is not floating, or `auto_raise` is set, the leaf is processed and is in the stacking list
afterwards. -/
theorem C28_skip_test_reads_auto_raise (env : StackEnv) (st : StackState)
    (l : List (Addr × NodePtr)) (d : desktop_t) (n : NodePtr) (focused : Bool) (fuel : Nat)
    (hrepr : StackRepr st l) (hnd : (l.map Prod.snd).Nodup) (hleaf : IsLeaf env n)
    (hclients : ∀ e ∈ l, (env.node e.2).client ≠ none) (hfuel : l.length + 1 < fuel) :
    (((env.node n).client = none ∨
        ∃ c, (env.node n).client = some c ∧ IS_FLOATING c = true ∧ env.auto_raise = false) →
      ∃ ev2, stack env fuel st d n focused
          = some (st, StackEvent.ewmh_update_client_list true :: ev2) ∧
        restack_presel_feedbacks env fuel st d = some ev2) ∧
    (∀ c, (env.node n).client = some c → (IS_FLOATING c = false ∨ env.auto_raise = true) →
      ∃ st' ev l', stack env fuel st d n focused = some (st', ev) ∧ StackRepr st' l' ∧
        n ∈ l'.map Prod.snd) := by
  refine ⟨?_, ?_⟩
  · intro hskip
    obtain ⟨ev2, e2⟩ := restack_presel_feedbacks_spec d hrepr hclients (Nat.lt_of_succ_lt hfuel)
    refine ⟨ev2, ?_, e2⟩
    obtain ⟨k, rfl⟩ : ∃ k, fuel = k + 2 := ⟨fuel - 2, by omega⟩
    rcases hskip with h | ⟨c, hc, hfl, har⟩
    · simp [stack, stack_leaves, hleaf.1, hleaf.2, stack_leaf, h, e2]
    · simp [stack, stack_leaves, hleaf.1, hleaf.2, stack_leaf, hc, hfl, har, e2]
  · intro c hc hns
    have hns' : (IS_FLOATING c && !env.auto_raise) = false := by
      rcases hns with h | h <;> simp [h]
    obtain ⟨st', ev, ev2, l', e1, r1, ho, -⟩ :=
      stack_spec d focused hrepr hnd hleaf hc hns' hclients hfuel
    exact ⟨st', _, l', e1, r1, (stackLeafOutcome_facts hnd ho).2.2.1⟩

/-- Witness for C28: with `auto_raise` off the floating leaf `3` is skipped also when `focused`
is true. -/
theorem C28_skip_test_reads_auto_raise_witness :
    ∃ ev2, stack sampleEnvNoRaise 5 sampleStackFloatFirst sampleDesktop 3 true
        = some (sampleStackFloatFirst, StackEvent.ewmh_update_client_list true :: ev2) ∧
      restack_presel_feedbacks sampleEnvNoRaise 5 sampleStackFloatFirst sampleDesktop
        = some ev2 :=
  (C28_skip_test_reads_auto_raise sampleEnvNoRaise sampleStackFloatFirst [(0, 3), (1, 1)]
    sampleDesktop 3 true 5 sampleStackFloatFirst_repr (by decide) (by decide) (by decide)
    (by decide)).1
    (Or.inr ⟨⟨client_state_t.STATE_FLOATING, stack_layer_t.LAYER_NORMAL⟩, rfl, rfl, rfl⟩)

/-- C35: `stack_cmp` orders clients lexicographically by (layer rank, state rank): it is
positive exactly when the first layer rank is greater, or the layer ranks are equal and the first
state rank is greater; it is zero exactly when both ranks are equal; and a client of a higher
layer compares above a client of a lower layer whatever the two states are. -/
theorem C35_stack_cmp_lexicographic (c1 c2 : client_t) :
    (0 < stack_cmp c1 c2 ↔
      (layerRank c2.layer < layerRank c1.layer
        ∨ (layerRank c1.layer = layerRank c2.layer ∧ stateRank c2.state < stateRank c1.state)))
    ∧ (stack_cmp c1 c2 = 0 ↔
      (layerRank c1.layer = layerRank c2.layer ∧ stateRank c1.state = stateRank c2.state))
    ∧ (layerRank c2.layer < layerRank c1.layer → 0 < stack_cmp c1 c2) := by
  rcases c1 with ⟨s1, l1⟩
  rcases c2 with ⟨s2, l2⟩
  cases s1 <;> cases l1 <;> cases s2 <;> cases l2 <;> decide

/-- C36: printing then parsing is the identity for booleans (both spellings), split types,
layouts, client states, stack layers, directions, child polarities, automatic schemes and
tightness values: the parser accepts the string the macro produces and yields the value. -/
theorem C36_print_then_parse_identity :
    (∀ b : Bool, parse_bool (BOOL_STR b) = some b)
    ∧ (∀ b : Bool, parse_bool (ON_OFF_STR b) = some b)
    ∧ (∀ t : split_type_t, parse_split_type (SPLIT_TYPE_STR t) = some t)
    ∧ (∀ l : layout_t, parse_layout (LAYOUT_STR l) = some l)
    ∧ (∀ s : client_state_t, parse_client_state (STATE_STR s) = some s)
    ∧ (∀ l : stack_layer_t, parse_stack_layer (LAYER_STR l) = some l)
    ∧ (∀ d : direction_t, parse_direction (SPLIT_DIR_STR d) = some d)
    ∧ (∀ p : child_polarity_t, parse_child_polarity (CHILD_POL_STR p) = some p)
    ∧ (∀ a : automatic_scheme_t, parse_automatic_scheme (AUTO_SCM_STR a) = some a)
    ∧ (∀ t : tightness_t, parse_tightness (TIGHTNESS_STR t) = some t) := by
  refine ⟨?_, ?_, ?_, ?_, ?_, ?_, ?_, ?_, ?_, ?_⟩ <;> intro v <;> cases v <;> decide

/-- C37: the string printed for the automatic split mode parses back to it, but the string
printed for the manual split mode, "manual", is rejected by `parse_split_mode`, which maps the
word "vertical" to the manual mode instead. -/
theorem C37_manual_split_mode_not_parsed :
    parse_split_mode (SPLIT_MODE_STR split_mode_t.MODE_AUTOMATIC)
        = some split_mode_t.MODE_AUTOMATIC
    ∧ SPLIT_MODE_STR split_mode_t.MODE_MANUAL = "manual".toList
    ∧ parse_split_mode (SPLIT_MODE_STR split_mode_t.MODE_MANUAL) = none
    ∧ parse_split_mode "vertical".toList = some split_mode_t.MODE_MANUAL := by
  decide

theorem isxdigit_iff (c : Char) : isxdigit c = true ↔ c ∈ hexDigits := by
  constructor
  · intro h
    have hc : c = Char.ofNat c.toNat := (Char.ofNat_toNat c).symm
    simp only [isxdigit, Bool.or_eq_true, Bool.and_eq_true, decide_eq_true_eq] at h
    generalize c.toNat = n at h hc
    subst hc
    rcases h with (⟨h1, h2⟩ | ⟨h1, h2⟩) | ⟨h1, h2⟩ <;> interval_cases n <;> decide
  · intro h
    simp only [hexDigits, String.toList, List.mem_cons, List.mem_singleton] at h
    simp at h
    rcases h with h | h | h | h | h | h | h | h | h | h | h | h | h | h | h | h | h | h | h | h
      | h | h <;> subst h <;> decide

theorem is_hex_color_eq (s : List Char) :
    is_hex_color s
      = some (decide (s.length = 7 ∧ s.head? = some '#' ∧ ∀ c ∈ s.tail, c ∈ hexDigits)) := by
  by_cases h7 : s.length = 7
  · match s, h7 with
    | [a, b, c, d, e, f, g], _ =>
      by_cases ha : a = '#'
      · subst ha
        simp only [is_hex_color, is_hex_color_loop, c_at, strlen, ← isxdigit_iff]
        simp
        by_cases hb : isxdigit b <;> by_cases hc : isxdigit c <;> by_cases hd : isxdigit d
          <;> by_cases he : isxdigit e <;> by_cases hf : isxdigit f
          <;> by_cases hg : isxdigit g <;> simp [hb, hc, hd, he, hf, hg]
      · simp [is_hex_color, c_at, strlen, ha]
  · cases s with
    | nil => simp [is_hex_color, c_at, strlen, NUL]
    | cons a t =>
      have h6 : ¬ t.length = 6 := fun h => h7 (by simp [h])
      simp [is_hex_color, c_at, strlen, h6]

/-- C33: for every C string `s`, `is_hex_color` returns without reading past the terminator,
and its result is true exactly when `s` has seven characters, the first is the number sign and
each of the other six is a hexadecimal digit. -/
theorem C33_is_hex_color_exact (s : List Char) :
    is_hex_color s
      = some (decide (s.length = 7 ∧ s.head? = some '#' ∧ ∀ c ∈ s.tail, c ∈ hexDigits)) :=
  is_hex_color_eq s

theorem degree_up_spec : ∀ (fuel : Nat) (i : Int), -2 ^ 31 ≤ i → i < 2 ^ 31 →
    ((-i).toNat + 359) / 360 < fuel →
    degree_up fuel i = some (if i < 0 then i % 360 else i) := by
  intro fuel
  induction fuel with
  | zero => intro i _ _ h; omega
  | succ n ih =>
    intro i h1 h2 hf
    by_cases hneg : i < 0
    · have hadd : int_add i 360 = some (i + 360) := by
        unfold int_add
        rw [if_pos]
        constructor <;> omega
      simp only [degree_up, if_pos hneg, hadd]
      rw [ih (i + 360) (by omega) (by omega) (by omega)]
      congr 1
      by_cases h' : i + 360 < 0
      · rw [if_pos h']; omega
      · rw [if_neg h']; omega
    · simp only [degree_up, if_neg hneg]

theorem degree_down_spec : ∀ (fuel : Nat) (i : Int), 0 ≤ i → i < 2 ^ 31 →
    i.toNat / 360 < fuel →
    degree_down fuel i = some (i % 360) := by
  intro fuel
  induction fuel with
  | zero => intro i _ _ h; omega
  | succ n ih =>
    intro i h1 h2 hf
    by_cases hbig : i > 359
    · have hadd : int_add i (-360) = some (i + -360) := by
        unfold int_add
        rw [if_pos]
        constructor <;> omega
      simp only [degree_down, if_pos hbig, hadd]
      rw [ih (i + -360) (by omega) (by omega) (by omega)]
      congr 1
      omega
    · simp only [degree_down, if_neg hbig]
      congr 1
      omega

theorem parse_degree_spec (fuel : Nat) (i d : Int) (h1 : -2 ^ 31 ≤ i) (h2 : i < 2 ^ 31)
    (hf : i.natAbs / 360 + 1 < fuel) :
    parse_degree fuel i d = some (if i % 90 = 0 then (true, i % 360) else (false, d)) := by
  have hup := degree_up_spec fuel i h1 h2 (by omega)
  have hm : (if i < 0 then i % 360 else i) % 360 = i % 360 := by
    by_cases h : i < 0
    · rw [if_pos h]; omega
    · rw [if_neg h]
  have hdown := degree_down_spec fuel (if i < 0 then i % 360 else i)
    (by by_cases h : i < 0
        · rw [if_pos h]; omega
        · rw [if_neg h]; omega)
    (by by_cases h : i < 0
        · rw [if_pos h]; omega
        · rw [if_neg h]; omega)
    (by by_cases h : i < 0
        · rw [if_pos h]; omega
        · rw [if_neg h]; omega)
  rw [hm] at hdown
  have ht : Int.tmod (i % 360) 90 = i % 90 := by
    rw [Int.tmod_eq_emod (by omega) (by omega)]
    omega
  simp only [parse_degree, hup, hdown, ht]
  by_cases h90 : i % 90 = 0
  · simp [h90]
  · simp [h90]

/-- C32: for every `int` value `i` returned by `atoi(s)` and every `fuel` above `|i| / 360 + 1`
(so for every `int` when `fuel` is `2 ^ 23`), the two loops of `parse_degree` end without
overflow; the call succeeds exactly when `i` is a multiple of 90 and then stores `i mod 360`,
which is one of 0, 90, 180, 270; otherwise it returns false and leaves `*d` as it was. -/
theorem C32_parse_degree_exact (fuel : Nat) (i d : Int) (h1 : -2 ^ 31 ≤ i) (h2 : i < 2 ^ 31)
    (hf : i.natAbs / 360 + 1 < fuel) :
    parse_degree fuel i d = some (if i % 90 = 0 then (true, i % 360) else (false, d))
    ∧ parse_degree (2 ^ 23) i d = some (if i % 90 = 0 then (true, i % 360) else (false, d))
    ∧ (i % 90 = 0 → (i % 360 = 0 ∨ i % 360 = 90 ∨ i % 360 = 180 ∨ i % 360 = 270))
    ∧ (i % 90 = 0 ↔ (90 : Int) ∣ i) := by
  refine ⟨parse_degree_spec fuel i d h1 h2 hf, parse_degree_spec (2 ^ 23) i d h1 h2 ?_, ?_, ?_⟩
  · have : (2 : Nat) ^ 23 = 8388608 := by norm_num
    omega
  · intro h; omega
  · omega

theorem C32_parse_degree_exact_witness :
    parse_degree 4 (-450) 7 = some (if (-450 : Int) % 90 = 0 then (true, -450 % 360) else (false, 7))
    ∧ parse_degree (2 ^ 23) (-450) 7
        = some (if (-450 : Int) % 90 = 0 then (true, -450 % 360) else (false, 7))
    ∧ ((-450 : Int) % 90 = 0 →
        ((-450 : Int) % 360 = 0 ∨ (-450 : Int) % 360 = 90 ∨ (-450 : Int) % 360 = 180
          ∨ (-450 : Int) % 360 = 270))
    ∧ ((-450 : Int) % 90 = 0 ↔ (90 : Int) ∣ -450) :=
  C32_parse_degree_exact 4 (-450) 7 (by decide) (by decide) (by decide)

theorem set_append_replicate (w : List Char) (k : Nat) (c : Char) :
    (w ++ List.replicate (k + 1) NUL).set w.length c = (w ++ [c]) ++ List.replicate k NUL := by
  induction w with
  | nil => simp [List.replicate_succ]
  | cons a t ih => simpa using ih

theorem tokenize_loop_spec (sep : Char) : ∀ (pos : List Char) (esc : Bool) (w : List Char)
    (k : Nat), pos.length < k → pos.length + 1 < 2 ^ 64 →
    ∃ st w1 k1, tokenize_loop sep pos esc (pos.length + 1) (w ++ List.replicate k NUL) w.length
        = some (st, w1 ++ List.replicate k1 NUL, w1.length)
      ∧ st.len = st.pos.length + 1 ∧ st.pos.length ≤ pos.length
      ∧ w1.length + k1 = w.length + k ∧ st.pos.length < k1
      ∧ w1.length + st.pos.length ≤ w.length + pos.length := by
  intro pos
  induction pos with
  | nil =>
    intro esc w k hk _
    exact ⟨_, w, k, rfl, rfl, le_refl _, rfl, hk, le_refl _⟩
  | cons cur rest ih =>
    intro esc w k hk hlen
    have hdec : ((cur :: rest).length + 1 + 2 ^ 64 - 1) % 2 ^ 64 = rest.length + 1 := by
      simp only [List.length_cons] at hlen ⊢
      omega
    simp only [List.length_cons] at hk
    obtain ⟨k0, rfl⟩ : ∃ k0, k = k0 + 1 := ⟨k - 1, by omega⟩
    have hroom : w.length < (w ++ List.replicate (k0 + 1) NUL).length := by
      simp
    have hwrite : ∀ e : Bool, ∃ st w1 k1,
        tokenize_loop sep rest e (rest.length + 1)
            ((w ++ List.replicate (k0 + 1) NUL).set w.length cur) (w.length + 1)
          = some (st, w1 ++ List.replicate k1 NUL, w1.length)
        ∧ st.len = st.pos.length + 1 ∧ st.pos.length ≤ (cur :: rest).length
        ∧ w1.length + k1 = w.length + (k0 + 1) ∧ st.pos.length < k1
        ∧ w1.length + st.pos.length ≤ w.length + (cur :: rest).length := by
      intro e
      rw [set_append_replicate]
      obtain ⟨st, w1, k1, h1, h2, h3, h4, h5, h6⟩ :=
        ih e (w ++ [cur]) k0 (by omega) (by simp only [List.length_cons] at hlen; omega)
      simp only [List.length_append, List.length_singleton] at h1 h4 h6
      refine ⟨st, w1, k1, h1, h2, ?_, ?_, h5, ?_⟩
      · simp only [List.length_cons]; omega
      · omega
      · simp only [List.length_cons]; omega
    unfold tokenize_loop
    simp only [hdec]
    by_cases hesc : esc = true
    · rw [if_pos hesc, if_pos hroom]
      exact hwrite false
    · rw [if_neg hesc]
      by_cases hb : cur = '\\'
      · rw [if_pos hb]
        obtain ⟨st, w1, k1, h1, h2, h3, h4, h5, h6⟩ :=
          ih (!esc) w (k0 + 1) (by omega) (by simp only [List.length_cons] at hlen; omega)
        refine ⟨st, w1, k1, h1, h2, ?_, h4, h5, ?_⟩
        · simp only [List.length_cons]; omega
        · simp only [List.length_cons]; omega
      · rw [if_neg hb]
        by_cases hs : cur = sep
        · rw [if_pos hs]
          refine ⟨_, w, k0 + 1, rfl, rfl, ?_, rfl, ?_, ?_⟩
          · simp
          · show rest.length < k0 + 1
            omega
          · simp
        · rw [if_neg hs, if_pos hroom]
          exact hwrite esc

theorem tokenize_call_spec (ok : Bool) (state : tokenize_state) (s : Option (List Char))
    (sep : Char)
    (hinit : (tokenize_init state s).len = (tokenize_init state s).pos.length + 1)
    (hsize : (tokenize_init state s).len < 2 ^ 64) :
    ∃ st r, tokenize_with_escape ok state s sep = some (st, r)
      ∧ len_counts_unread st ∧ st.len < 2 ^ 64
      ∧ (ok = false → r = none)
      ∧ (ok = true → ∃ buf, r = some buf ∧ token_in_buffer (tokenize_init state s).len buf) := by
  cases ok with
  | false =>
    exact ⟨tokenize_init state s, none, by simp [tokenize_with_escape], hinit, hsize,
      fun _ => rfl, fun h => by cases h⟩
  | true =>
    obtain ⟨st, w1, k1, h1, h2, h3, h4, h5, _⟩ :=
      tokenize_loop_spec sep (tokenize_init state s).pos (tokenize_init state s).in_escape []
        (tokenize_init state s).len (by omega) (by omega)
    simp only [List.nil_append, List.length_nil, ← hinit] at h1 h4
    refine ⟨st, some (w1 ++ List.replicate k1 NUL), ?_, h2, by omega, fun h => (by cases h),
      fun _ => ⟨_, rfl, ?_, w1, k1, by omega, rfl⟩⟩
    · simp [tokenize_with_escape, h1]
    · simp only [List.length_append, List.length_replicate]
      omega

theorem tokenize_init_some (state : tokenize_state) (str : List Char)
    (h : str.length + 1 < 2 ^ 64) :
    (tokenize_init state (some str)).len = (tokenize_init state (some str)).pos.length + 1
    ∧ (tokenize_init state (some str)).len < 2 ^ 64 := by
  simp only [tokenize_init, strlen]
  rw [Nat.mod_eq_of_lt h]
  exact ⟨rfl, h⟩

theorem tokenize_calls_spec : ∀ (cs : List tokenize_call) (state : tokenize_state),
    (∀ c ∈ cs, ∀ str, c.s = some str → str.length + 1 < 2 ^ 64) →
    ((len_counts_unread state ∧ state.len < 2 ^ 64) ∨ (∃ c ∈ cs.head?, c.s ≠ none)) →
    ∃ rs, tokenize_calls state cs = some rs ∧ rs.length = cs.length
      ∧ rs.map (fun r => r.ret.isSome) = cs.map (fun c => c.calloc_ok)
      ∧ ∀ r ∈ rs, len_counts_unread r.state
          ∧ ∀ buf, r.ret = some buf → token_in_buffer r.size buf := by
  intro cs
  induction cs with
  | nil => intro state _ _; exact ⟨[], rfl, rfl, rfl, by simp⟩
  | cons c cs ih =>
    intro state hstr hfirst
    have hinit : (tokenize_init state c.s).len = (tokenize_init state c.s).pos.length + 1
        ∧ (tokenize_init state c.s).len < 2 ^ 64 := by
      cases hs : c.s with
      | some str => exact tokenize_init_some state str (hstr c (List.mem_cons_self _ _) str hs)
      | none =>
        rcases hfirst with h | ⟨c1, hc1, hne⟩
        · exact h
        · simp only [List.head?_cons, Option.mem_def, Option.some.injEq] at hc1
          subst hc1
          exact absurd hs hne
    obtain ⟨st, r, hcall, hgood, hlt, hno, hyes⟩ :=
      tokenize_call_spec c.calloc_ok state c.s c.sep hinit.1 hinit.2
    obtain ⟨rs, hrs, hlen, hmap, hall⟩ :=
      ih st (fun c1 hc1 => hstr c1 (List.mem_cons_of_mem _ hc1)) (Or.inl ⟨hgood, hlt⟩)
    refine ⟨{ size := (tokenize_init state c.s).len, ret := r, state := st } :: rs,
      by simp only [tokenize_calls, hcall, hrs], by simp [hlen], ?_, ?_⟩
    · simp only [List.map_cons, hmap, List.cons.injEq, and_true]
      cases hok : c.calloc_ok with
      | false => rw [hno hok]; rfl
      | true => obtain ⟨buf, hb, _⟩ := hyes hok; rw [hb]; rfl
    · intro r1 hr1
      rcases List.mem_cons.mp hr1 with rfl | hmem
      · refine ⟨hgood, fun buf hb => ?_⟩
        cases hok : c.calloc_ok with
        | false => rw [hno hok] at hb; cases hb
        | true =>
          obtain ⟨buf1, hb1, htok⟩ := hyes hok
          simp only at hb
          rw [hb1] at hb
          cases hb
          exact htok
      · exact hall r1 hmem

/-- C38: in every sequence of calls on one state whose first call passes a string (every string
passed being shorter than `2 ^ 64 - 1` bytes), no call writes outside its buffer; after each call
`len` is the number of unread characters plus one; a call returns NULL exactly when `calloc`
fails; and each returned buffer has the `len` bytes that were allocated and holds a token
followed by at least one NUL byte, so the token has at most `len - 1` bytes and is terminated
inside the allocation. -/
theorem C38_len_counts_unread_no_overrun (state : tokenize_state) (c : tokenize_call)
    (cs : List tokenize_call) (hfirst : c.s ≠ none)
    (hstr : ∀ c1 ∈ c :: cs, ∀ str, c1.s = some str → str.length + 1 < 2 ^ 64) :
    ∃ rs, tokenize_calls state (c :: cs) = some rs ∧ rs.length = (c :: cs).length
      ∧ rs.map (fun r => r.ret.isSome) = (c :: cs).map (fun c1 => c1.calloc_ok)
      ∧ ∀ r ∈ rs, len_counts_unread r.state
          ∧ ∀ buf, r.ret = some buf → token_in_buffer r.size buf :=
  tokenize_calls_spec (c :: cs) state hstr (Or.inr ⟨c, rfl, hfirst⟩)

theorem C38_len_counts_unread_no_overrun_witness :
    ∃ rs, tokenize_calls ⟨true, ['x'], 0⟩ sampleTokenCalls = some rs
      ∧ rs.length = sampleTokenCalls.length
      ∧ rs.map (fun r => r.ret.isSome) = sampleTokenCalls.map (fun c1 => c1.calloc_ok)
      ∧ ∀ r ∈ rs, len_counts_unread r.state
          ∧ ∀ buf, r.ret = some buf → token_in_buffer r.size buf :=
  C38_len_counts_unread_no_overrun ⟨true, ['x'], 0⟩
    ⟨true, some ['a', '\\', ',', 'b', ',', 'c'], ','⟩
    [⟨true, none, ','⟩, ⟨true, none, ','⟩, ⟨false, none, ','⟩] (by decide)
    (by
      intro c1 h1 str hs
      simp only [List.mem_cons, List.mem_singleton, List.not_mem_nil, or_false] at h1
      rcases h1 with rfl | rfl | rfl | rfl <;> simp at hs
      subst hs
      decide)

/-- C31: when no unread character is left, a further call with `s = NULL` in which `calloc`
succeeds returns the allocated buffer of `len` NUL bytes, an empty token, and not NULL; on the
string `a` with separator `,` the second call returns a one-byte buffer holding the empty
token. -/
theorem C31_processed_string_returns_empty_token (in_escape : Bool) (len : Nat) (sep : Char) :
    tokenize_with_escape true ⟨in_escape, [], len⟩ none sep
        = some (⟨in_escape, [], len⟩, some (List.replicate len NUL))
    ∧ tokenize_calls ⟨false, [], 0⟩ [⟨true, some ['a'], ','⟩, ⟨true, none, ','⟩]
        = some [⟨2, some ['a', NUL], ⟨false, [], 1⟩⟩, ⟨1, some [NUL], ⟨false, [], 1⟩⟩] := by
  refine ⟨?_, by decide⟩
  simp [tokenize_with_escape, tokenize_init, tokenize_loop]

theorem writes_to_append (s : FILE) (x y : List SubEvent) :
    writes_to s (x ++ y) = writes_to s x + writes_to s y := by
  simp [writes_to, List.filter_append]

theorem writes_to_removeEvents (env : SubEnv) (s : FILE) (v : subscriber_fields) :
    writes_to s (removeEvents env v) = 0 := by
  unfold removeEvents writes_to
  by_cases h : env.restart = true
  · rw [if_pos h]; rfl
  · rw [if_neg h]; rfl

theorem writes_to_events_other (env : SubEnv) (io : FILE → Int) (mask : Nat) (fmt : String)
    (args : List Nat) (s : FILE) (v : subscriber_fields) (h : v.stream ≠ s) :
    writes_to s (put_status_events env io mask fmt args v) = 0 := by
  unfold put_status_events
  by_cases hm : subMatches mask v = true
  · rw [if_pos hm, writes_to_append]
    have h2 : writes_to s (if subRemoved io mask v = true then removeEvents env v else []) = 0 := by
      by_cases hr : subRemoved io mask v = true
      · rw [if_pos hr]; exact writes_to_removeEvents env s v
      · rw [if_neg hr]; rfl
    rw [h2]
    by_cases hk : mask = env.SBSC_MASK_REPORT
    · rw [if_pos hk]; simp [writes_to, isWriteTo, h]
    · rw [if_neg hk]; simp [writes_to, isWriteTo, h]
  · rw [if_neg hm]; rfl

theorem writes_to_flatMap_other (env : SubEnv) (io : FILE → Int) (mask : Nat) (fmt : String)
    (args : List Nat) (s : FILE) :
    ∀ (l : List (Addr × subscriber_fields)), (∀ e ∈ l, e.2.stream ≠ s) →
      writes_to s (l.flatMap (fun e => put_status_events env io mask fmt args e.2)) = 0 := by
  intro l
  induction l with
  | nil => intro _; rfl
  | cons e t ih =>
    intro h
    rw [List.flatMap_cons, writes_to_append,
      writes_to_events_other env io mask fmt args s e.2 (h e (List.mem_cons_self _ _)),
      ih (fun e1 h1 => h e1 (List.mem_cons_of_mem _ h1))]

theorem put_status_list_append (io : FILE → Int) (mask : Nat)
    (A B : List (Addr × subscriber_fields)) :
    put_status_list io mask (A ++ B) = put_status_list io mask A ++ put_status_list io mask B := by
  simp [put_status_list, List.filter_append]

theorem put_status_list_origin (io : FILE → Int) (mask : Nat)
    (l : List (Addr × subscriber_fields)) :
    ∀ e ∈ put_status_list io mask l, ∃ e0 ∈ l, e.1 = e0.1 ∧ e.2.stream = e0.2.stream := by
  intro e he
  simp only [put_status_list, List.mem_map, List.mem_filter] at he
  obtain ⟨e0, ⟨he0, _⟩, rfl⟩ := he
  refine ⟨e0, he0, rfl, ?_⟩
  simp only [subUpdated]
  by_cases hm : subMatches mask e0.2 = true
  · rw [if_pos hm]
  · rw [if_neg hm]

theorem put_status_calls_list_cons (c : PutCall) (cs : List PutCall)
    (l : List (Addr × subscriber_fields)) :
    put_status_calls_list (c :: cs) l = put_status_calls_list cs (put_status_list c.io c.mask l) :=
  rfl

theorem put_status_calls_list_origin :
    ∀ (calls : List PutCall) (l : List (Addr × subscriber_fields)),
      ∀ e ∈ put_status_calls_list calls l, ∃ e0 ∈ l, e.1 = e0.1 ∧ e.2.stream = e0.2.stream := by
  intro calls
  induction calls with
  | nil => intro l e he; exact ⟨e, he, rfl, rfl⟩
  | cons c cs ih =>
    intro l e he
    rw [put_status_calls_list_cons] at he
    obtain ⟨e1, he1, h1, h2⟩ := ih _ e he
    obtain ⟨e0, he0, h3, h4⟩ := put_status_list_origin c.io c.mask l e1 he1
    exact ⟨e0, he0, h1.trans h3, h2.trans h4⟩

theorem writes_to_calls_other (env : SubEnv) (s : FILE) :
    ∀ (calls : List PutCall) (l : List (Addr × subscriber_fields)),
      (∀ e ∈ l, e.2.stream ≠ s) →
      writes_to s (put_status_calls_events env calls l) = 0 := by
  intro calls
  induction calls with
  | nil => intro l _; rfl
  | cons c cs ih =>
    intro l h
    simp only [put_status_calls_events]
    rw [writes_to_append, writes_to_flatMap_other env c.io c.mask c.fmt c.args s l h, ih]
    intro e he
    obtain ⟨e0, he0, _, h4⟩ := put_status_list_origin c.io c.mask l e he
    rw [h4]
    exact h e0 he0

theorem put_status_calls_trace (env : SubEnv) (fuel : Nat) :
    ∀ (calls : List PutCall) (st : SubState) (l : List (Addr × subscriber_fields)),
      SubRepr st l → l.length < fuel →
      ∃ st', put_status_calls env fuel calls st
          = some (st', put_status_calls_events env calls l) ∧
        SubRepr st' (put_status_calls_list calls l) := by
  intro calls
  induction calls with
  | nil => intro st l H _; exact ⟨st, rfl, H⟩
  | cons c cs ih =>
    intro st l H hf
    obtain ⟨st1, h1, H1, _⟩ := put_status_spec env c.io c.mask c.fmt c.args H hf
    obtain ⟨st2, h2, H2⟩ := ih st1 _ H1
      (lt_of_le_of_lt (put_status_list_length c.io c.mask l) hf)
    exact ⟨st2, by simp only [put_status_calls, h1, h2, put_status_calls_events], H2⟩

/-- The messages of one subscriber over a sequence of calls, on the list level: the subscriber
at `a` with stream `s` and positive count receives one message per matching call until its
count is used up, and is then no longer in the list. -/
theorem tracked_calls (env : SubEnv) (s : FILE) (a : Addr) :
    ∀ (calls : List PutCall) (A B : List (Addr × subscriber_fields)) (v : subscriber_fields),
      v.stream = s → 0 < v.count →
      (∀ e ∈ A ++ B, e.2.stream ≠ s ∧ e.1 ≠ a) → (∀ c ∈ calls, c.io s = 0) →
      writes_to s (put_status_calls_events env calls (A ++ (a, v) :: B))
          = min v.count.toNat (matching_calls v.field calls)
      ∧ ((matching_calls v.field calls : Int) < v.count →
          (a, { v with count := v.count - matching_calls v.field calls })
            ∈ put_status_calls_list calls (A ++ (a, v) :: B))
      ∧ (v.count ≤ matching_calls v.field calls →
          ∀ e ∈ put_status_calls_list calls (A ++ (a, v) :: B), e.2.stream ≠ s ∧ e.1 ≠ a) := by
  intro calls
  induction calls with
  | nil =>
    intro A B v hs hc hAB _
    refine ⟨by simp [put_status_calls_events, matching_calls, writes_to], ?_, ?_⟩
    · intro _
      simp [put_status_calls_list, matching_calls]
    · intro h
      simp only [matching_calls, List.filter_nil, List.length_nil, Nat.cast_zero] at h
      omega
  | cons c cs ih =>
    intro A B v hs hc hAB hio
    have hio0 : c.io v.stream = 0 := by rw [hs]; exact hio c (List.mem_cons_self _ _)
    have hioT : ∀ c1 ∈ cs, c1.io s = 0 := fun c1 h1 => hio c1 (List.mem_cons_of_mem _ h1)
    have hA : ∀ e ∈ A, e.2.stream ≠ s :=
      fun e he => (hAB e (List.mem_append_left _ he)).1
    have hB : ∀ e ∈ B, e.2.stream ≠ s :=
      fun e he => (hAB e (List.mem_append_right _ he)).1
    have hAB1 : ∀ e ∈ put_status_list c.io c.mask A ++ put_status_list c.io c.mask B,
        e.2.stream ≠ s ∧ e.1 ≠ a := by
      intro e he
      rw [← put_status_list_append] at he
      obtain ⟨e0, he0, h3, h4⟩ := put_status_list_origin c.io c.mask _ e he
      rw [h3, h4]
      exact hAB e0 he0
    have hsplit : put_status_list c.io c.mask (A ++ (a, v) :: B)
        = put_status_list c.io c.mask A
          ++ (put_status_list c.io c.mask [(a, v)] ++ put_status_list c.io c.mask B) := by
      rw [put_status_list_append, ← put_status_list_append _ _ [(a, v)] B]
      rfl
    have hev : writes_to s ((A ++ (a, v) :: B).flatMap
          (fun e => put_status_events env c.io c.mask c.fmt c.args e.2))
        = writes_to s (put_status_events env c.io c.mask c.fmt c.args v) := by
      rw [List.flatMap_append, List.flatMap_cons, writes_to_append, writes_to_append,
        writes_to_flatMap_other env c.io c.mask c.fmt c.args s A hA,
        writes_to_flatMap_other env c.io c.mask c.fmt c.args s B hB]
      show 0 + (writes_to s (put_status_events env c.io c.mask c.fmt c.args v) + 0) = _
      omega
    simp only [put_status_calls_events, put_status_calls_list_cons]
    rw [writes_to_append, hev, hsplit]
    by_cases hm : subMatches c.mask v = true
    · -- the call addresses the subscriber
      have hmc : matching_calls v.field (c :: cs) = matching_calls v.field cs + 1 := by
        have : (v.field &&& c.mask != 0) = true := hm
        simp [matching_calls, List.filter_cons, this]
      have hw : writes_to s (put_status_events env c.io c.mask c.fmt c.args v) = 1 := by
        unfold put_status_events
        rw [if_pos hm, writes_to_append]
        have h2 : writes_to s
            (if subRemoved c.io c.mask v = true then removeEvents env v else []) = 0 := by
          by_cases hr : subRemoved c.io c.mask v = true
          · rw [if_pos hr]; exact writes_to_removeEvents env s v
          · rw [if_neg hr]; rfl
        rw [h2]
        by_cases hk : c.mask = env.SBSC_MASK_REPORT
        · rw [if_pos hk]; simp [writes_to, isWriteTo, hs]
        · rw [if_neg hk]; simp [writes_to, isWriteTo, hs]
      rw [hw, hmc]
      by_cases h1 : v.count = 1
      · -- last message: the subscriber is removed
        have hrem : subRemoved c.io c.mask v = true := by
          simp [subRemoved, hm, dec_count, h1]
        have hX : put_status_list c.io c.mask [(a, v)] = [] := by
          simp [put_status_list, hrem]
        rw [hX, List.nil_append]
        have hnone : ∀ e ∈ put_status_list c.io c.mask A ++ put_status_list c.io c.mask B,
            e.2.stream ≠ s := fun e he => (hAB1 e he).1
        rw [writes_to_calls_other env s cs _ hnone]
        refine ⟨?_, ?_, ?_⟩
        · rw [h1]
          have : (1 : Int).toNat = 1 := rfl
          rw [this]
          omega
        · intro h; rw [h1] at h; push_cast at h; omega
        · intro _ e he
          obtain ⟨e0, he0, h3, h4⟩ := put_status_calls_list_origin cs _ e he
          rw [h3, h4]
          exact hAB1 e0 he0
      · -- more messages are left
        have hrem : subRemoved c.io c.mask v = false := by
          have : ¬ (v.count - 1 = 0) := by omega
          simp [subRemoved, hm, dec_count, hc, hio0, this]
        have hX : put_status_list c.io c.mask [(a, v)]
            = [(a, { v with count := v.count - 1 })] := by
          simp [put_status_list, hrem, subUpdated, hm, dec_count, hc]
        rw [hX]
        obtain ⟨ih1, ih2, ih3⟩ := ih (put_status_list c.io c.mask A)
          (put_status_list c.io c.mask B) { v with count := v.count - 1 } hs
          (by show 0 < v.count - 1; omega) hAB1 hioT
        simp only [List.singleton_append]
        refine ⟨?_, ?_, ?_⟩
        · rw [ih1]
          show 1 + min (v.count - 1).toNat (matching_calls v.field cs)
            = min v.count.toNat (matching_calls v.field cs + 1)
          omega
        · intro h
          have := ih2 (by show (matching_calls v.field cs : Int) < v.count - 1
                          push_cast at h; omega)
          have e1 : v.count - 1 - (matching_calls v.field cs : Int)
              = v.count - ((matching_calls v.field cs + 1 : Nat) : Int) := by
            push_cast; omega
          simp only [e1] at this
          exact this
        · intro h
          exact ih3 (by show v.count - 1 ≤ (matching_calls v.field cs : Int)
                        push_cast at h; omega)
    · -- the call does not address the subscriber
      have hmc : matching_calls v.field (c :: cs) = matching_calls v.field cs := by
        have : (v.field &&& c.mask != 0) = false := by
          simpa [subMatches] using hm
        simp [matching_calls, List.filter_cons, this]
      have hw : writes_to s (put_status_events env c.io c.mask c.fmt c.args v) = 0 := by
        unfold put_status_events
        rw [if_neg hm]; rfl
      have hX : put_status_list c.io c.mask [(a, v)] = [(a, v)] := by
        simp [put_status_list, subRemoved, subUpdated, hm]
      rw [hw, hmc, hX, Nat.zero_add]
      exact ih (put_status_list c.io c.mask A) (put_status_list c.io c.mask B) v hs hc hAB1 hioT

theorem limit_counts_writes (env : SubEnv) {st : SubState}
    {l : List (Addr × subscriber_fields)} (stream : FILE) (fifo_path : Option String)
    (field : Nat) (N : Nat) (calls : List PutCall) (fuel : Nat)
    (H : SubRepr st l) (hN : 0 < N) (hN2 : (N : Int) < 2 ^ 31)
    (hs : ∀ e ∈ l, e.2.stream ≠ stream) (hio : ∀ c ∈ calls, c.io stream = 0)
    (hf : l.length + 1 < fuel) :
    ∃ st1 ev0 st2 ev l2,
      add_subscriber env (make_subscriber st stream fifo_path field N).1 st.brk = some (st1, ev0)
      ∧ put_status_calls env fuel calls st1 = some (st2, ev) ∧ SubRepr st2 l2
      ∧ writes_to stream (ev0 ++ ev)
          = min N (report_writes env field + matching_calls field calls)
      ∧ (N ≤ report_writes env field + matching_calls field calls →
          ∀ e ∈ l2, e.2.stream ≠ stream ∧ e.1 ≠ st.brk)
      ∧ (report_writes env field + matching_calls field calls < N →
          (st.brk, ⟨stream, fifo_path, field,
              (N : Int) - ((report_writes env field + matching_calls field calls : Nat) : Int)⟩)
            ∈ l2) := by
  obtain ⟨st1, ev0, hadd, hno, hyes⟩ := add_subscriber_spec env stream fifo_path field N H
  have hl : ∀ e ∈ l, e.2.stream ≠ stream ∧ e.1 ≠ st.brk :=
    fun e he => ⟨hs e he, Nat.ne_of_lt (H.2 e he)⟩
  have hl0 : ∀ e ∈ l ++ [], e.2.stream ≠ stream ∧ e.1 ≠ st.brk := by
    rw [List.append_nil]; exact hl
  by_cases hr : field &&& env.SBSC_MASK_REPORT = 0
  · -- no initial report
    obtain ⟨H1, hev0⟩ := hno hr
    have hrw : report_writes env field = 0 := by simp [report_writes, hr]
    obtain ⟨st2, hcalls, H2⟩ := put_status_calls_trace env fuel calls st1 _ H1
      (by simp only [List.length_append, List.length_singleton]; exact hf)
    obtain ⟨t1, t2, t3⟩ := tracked_calls env stream st.brk calls l []
      ⟨stream, fifo_path, field, N⟩ rfl (by show (0 : Int) < N; exact_mod_cast hN) hl0 hio
    refine ⟨st1, ev0, st2, _, _, hadd, hcalls, H2, ?_, ?_, ?_⟩
    · rw [writes_to_append, t1, hev0, hrw]
      simp [writes_to, isWriteTo]
    · intro h
      rw [hrw, Nat.zero_add] at h
      exact t3 (by show (N : Int) ≤ _; exact_mod_cast h)
    · intro h
      rw [hrw, Nat.zero_add] at h ⊢
      exact t2 (by show _ < (N : Int); exact_mod_cast h)
  · -- the initial report is the first message
    obtain ⟨hone, hmore⟩ := hyes hr
    have hrw : report_writes env field = 1 := by simp [report_writes, hr]
    by_cases h1 : (N : Int) = 1
    · obtain ⟨H1, hev0⟩ := hone h1
      have hN1 : N = 1 := by exact_mod_cast h1
      obtain ⟨st2, hcalls, H2⟩ := put_status_calls_trace env fuel calls st1 _ H1 (by omega)
      refine ⟨st1, ev0, st2, _, _, hadd, hcalls, H2, ?_, ?_, ?_⟩
      · rw [writes_to_append, writes_to_calls_other env stream calls l hs, hev0,
          writes_to_append, writes_to_removeEvents, hrw, hN1]
        simp [writes_to, isWriteTo]
      · intro _ e he
        obtain ⟨e0, he0, h3, h4⟩ := put_status_calls_list_origin calls l e he
        rw [h3, h4]
        exact hl e0 he0
      · intro h
        rw [hrw, hN1] at h
        omega
    · obtain ⟨H1, hev0⟩ := hmore h1
      have hN2' : 2 ≤ N := by
        have : N ≠ 1 := fun h => h1 (by exact_mod_cast h)
        omega
      rw [wrap_int_pred (by exact_mod_cast hN) hN2] at H1
      obtain ⟨st2, hcalls, H2⟩ := put_status_calls_trace env fuel calls st1 _ H1
        (by simp only [List.length_append, List.length_singleton]; exact hf)
      obtain ⟨t1, t2, t3⟩ := tracked_calls env stream st.brk calls l []
        ⟨stream, fifo_path, field, (N : Int) - 1⟩ rfl
        (by show (0 : Int) < (N : Int) - 1; omega) hl0 hio
      simp only at t1 t2 t3
      refine ⟨st1, ev0, st2, _, _, hadd, hcalls, H2, ?_, ?_, ?_⟩
      · rw [writes_to_append, t1, hev0, hrw]
        have : writes_to stream [SubEvent.set_cloexec stream, SubEvent.print_report stream]
            = 1 := by simp [writes_to, isWriteTo]
        rw [this]
        omega
      · intro h
        rw [hrw] at h
        exact t3 (by omega)
      · intro h
        rw [hrw] at h ⊢
        have := t2 (by omega)
        have e1 : (N : Int) - 1 - (matching_calls field calls : Int)
            = (N : Int) - ((1 + matching_calls field calls : Nat) : Int) := by
          push_cast; omega
        rw [e1] at this
        exact this

/-- C34: a subscriber made with a positive limit `N` and registered by `add_subscriber`, whose
stream no other subscriber uses and every write to which succeeds, is written to exactly
`min N (r + m)` times by the registration and any following sequence of `put_status` calls,
where `r` is one when its field includes the report category and zero otherwise and `m` is the
number of calls that match its field. So it never gets more than `N` messages; once `r + m`
reaches `N` it has had exactly `N` messages and is no longer in the list, and while `r + m` is
below `N` it is still in the list with the rest of its count. -/
theorem C34_limit_counts_writes (env : SubEnv) (st : SubState)
    (l : List (Addr × subscriber_fields)) (stream : FILE) (fifo_path : Option String)
    (field : Nat) (N : Nat) (calls : List PutCall) (fuel : Nat)
    (H : SubRepr st l) (hN : 0 < N) (hN2 : (N : Int) < 2 ^ 31)
    (hs : ∀ e ∈ l, e.2.stream ≠ stream) (hio : ∀ c ∈ calls, c.io stream = 0)
    (hf : l.length + 1 < fuel) :
    ∃ st1 ev0 st2 ev l2,
      add_subscriber env (make_subscriber st stream fifo_path field N).1 st.brk = some (st1, ev0)
      ∧ put_status_calls env fuel calls st1 = some (st2, ev) ∧ SubRepr st2 l2
      ∧ writes_to stream (ev0 ++ ev)
          = min N (report_writes env field + matching_calls field calls)
      ∧ (N ≤ report_writes env field + matching_calls field calls →
          ∀ e ∈ l2, e.2.stream ≠ stream ∧ e.1 ≠ st.brk)
      ∧ (report_writes env field + matching_calls field calls < N →
          (st.brk, ⟨stream, fifo_path, field,
              (N : Int) - ((report_writes env field + matching_calls field calls : Nat) : Int)⟩)
            ∈ l2) :=
  limit_counts_writes env stream fifo_path field N calls fuel H hN hN2 hs hio hf

/-- Witness for C34: a subscriber of mask bits `1` and `2` on stream `13` with limit two joins
the sample list; it gets the initial report and the first message for mask bit `2`. -/
theorem C34_limit_counts_writes_witness :
    SubRepr sampleSubs sampleSubsList ∧
    ∃ st1 ev0 st2 ev l2,
      add_subscriber sampleSubEnv (make_subscriber sampleSubs 13 none 3 (2 : Nat)).1
          sampleSubs.brk = some (st1, ev0)
      ∧ put_status_calls sampleSubEnv 5
          [⟨2, "a", [], fun _ => 0⟩, ⟨4, "b", [], fun _ => 0⟩, ⟨2, "c", [], fun _ => 0⟩] st1
          = some (st2, ev)
      ∧ SubRepr st2 l2
      ∧ writes_to 13 (ev0 ++ ev)
          = min 2 (report_writes sampleSubEnv 3 + matching_calls 3
              [⟨2, "a", [], fun _ => 0⟩, ⟨4, "b", [], fun _ => 0⟩, ⟨2, "c", [], fun _ => 0⟩])
      ∧ (2 ≤ report_writes sampleSubEnv 3 + matching_calls 3
              [⟨2, "a", [], fun _ => 0⟩, ⟨4, "b", [], fun _ => 0⟩, ⟨2, "c", [], fun _ => 0⟩] →
          ∀ e ∈ l2, e.2.stream ≠ 13 ∧ e.1 ≠ sampleSubs.brk)
      ∧ (report_writes sampleSubEnv 3 + matching_calls 3
              [⟨2, "a", [], fun _ => 0⟩, ⟨4, "b", [], fun _ => 0⟩, ⟨2, "c", [], fun _ => 0⟩] < 2 →
          (sampleSubs.brk, ⟨13, none, 3,
              ((2 : Nat) : Int) - ((report_writes sampleSubEnv 3 + matching_calls 3
                [⟨2, "a", [], fun _ => 0⟩, ⟨4, "b", [], fun _ => 0⟩,
                  ⟨2, "c", [], fun _ => 0⟩] : Nat) : Int)⟩)
            ∈ l2) :=
  ⟨sampleSubs_repr,
    C34_limit_counts_writes sampleSubEnv sampleSubs sampleSubsList 13 none 3 2
      [⟨2, "a", [], fun _ => 0⟩, ⟨4, "b", [], fun _ => 0⟩, ⟨2, "c", [], fun _ => 0⟩] 5
      sampleSubs_repr (by decide) (by decide) (by decide) (by decide) (by decide)⟩

/-! ### jsmn.c: facts about the parts of `jsmn_parse` -/

theorem jsmn_alloc_token_some {p : jsmn_parser_t} {toks : List jsmntok_t} {n : Nat}
    {p1 : jsmn_parser_t} {toks1 : List jsmntok_t} {t : Nat}
    (h : jsmn_alloc_token p toks n = Except.ok (p1, toks1, some t)) :
    t = p.toknext ∧ p.toknext < n ∧ p.toknext < toks.length
      ∧ p1 = { p with toknext := uint_succ p.toknext } ∧ toks1.length = toks.length := by
  unfold jsmn_alloc_token at h
  by_cases hge : p.toknext ≥ n
  · rw [if_pos hge] at h; cases h
  · rw [if_neg hge] at h
    cases hget : toks[p.toknext]? with
    | none => rw [hget] at h; cases h
    | some tok =>
      rw [hget] at h
      simp only [Except.ok.injEq, Prod.mk.injEq, Option.some.injEq] at h
      obtain ⟨h1, h2, h3⟩ := h
      have hlt : p.toknext < toks.length := by
        by_contra hcon
        rw [List.getElem?_eq_none (by omega)] at hget
        cases hget
      refine ⟨h3.symm, by omega, hlt, h1.symm, ?_⟩
      rw [← h2, List.length_set]

theorem jsmn_alloc_token_none {p : jsmn_parser_t} {toks : List jsmntok_t} {n : Nat}
    {p1 : jsmn_parser_t} {toks1 : List jsmntok_t}
    (h : jsmn_alloc_token p toks n = Except.ok (p1, toks1, none)) :
    p1 = p ∧ toks1 = toks ∧ n ≤ p.toknext := by
  unfold jsmn_alloc_token at h
  by_cases hge : p.toknext ≥ n
  · rw [if_pos hge] at h
    simp only [Except.ok.injEq, Prod.mk.injEq, and_true] at h
    exact ⟨h.1.symm, h.2.symm, hge⟩
  · rw [if_neg hge] at h
    cases hget : toks[p.toknext]? with
    | none => rw [hget] at h; cases h
    | some tok =>
      rw [hget] at h
      simp only [Except.ok.injEq, Prod.mk.injEq] at h
      obtain ⟨_, _, h3⟩ := h
      cases h3

theorem string_scan_error_neg (js : List Char) (len : Nat) :
    ∀ (fuel pos : Nat) (code : Int),
      string_scan js len fuel pos = Except.ok (JScan.error code) → code < 0 := by
  intro fuel
  induction fuel with
  | zero => intro pos code h; simp [string_scan] at h
  | succ f ih =>
    intro pos code h
    unfold string_scan at h
    split at h
    · split at h
      · cases h
      · split at h
        · cases h; decide
        · split at h
          · cases h
          · split at h
            · split at h
              · cases h
              · split at h
                · exact ih _ _ h
                · split at h
                  · split at h
                    · cases h
                    · cases h; decide
                    · exact ih _ _ h
                  · cases h; decide
            · exact ih _ _ h
    · cases h; decide

theorem primitive_scan_error_neg (js : List Char) (len : Nat) :
    ∀ (fuel pos : Nat) (code : Int),
      primitive_scan js len fuel pos = Except.ok (JScan.error code) → code < 0 := by
  intro fuel
  induction fuel with
  | zero => intro pos code h; simp [primitive_scan] at h
  | succ f ih =>
    intro pos code h
    unfold primitive_scan at h
    split at h
    · split at h
      · cases h
      · split at h
        · cases h
        · split at h
          · cases h
          · split at h
            · cases h; decide
            · exact ih _ _ h
    · cases h

theorem jsmn_fill_token_length {toks toks1 : List jsmntok_t} {t : Nat} {ty : jsmntype_t}
    {s e : Int} (h : jsmn_fill_token toks t ty s e = some toks1) :
    toks1.length = toks.length := by
  unfold jsmn_fill_token tok_write at h
  split at h
  · cases h; rw [List.length_set]
  · cases h

theorem jsmn_fill_token_some (toks : List jsmntok_t) (t : Nat) (ty : jsmntype_t) (s e : Int)
    (ht : t < toks.length) : ∃ toks1, jsmn_fill_token toks t ty s e = some toks1 := by
  unfold jsmn_fill_token tok_write
  rw [if_pos ⟨Int.natCast_nonneg t, by simpa using ht⟩]
  exact ⟨_, rfl⟩

/-- What `jsmn_parse_string` does in filling mode: it returns a negative code without handing
out a token, or returns zero at the closing quote with one more token. -/
theorem jsmn_parse_string_fill {fuel : Nat} {p : jsmn_parser_t} {js : List Char} {len : Nat}
    {toks : List jsmntok_t} {n : Nat} {p1 : jsmn_parser_t} {t1 : Option (List jsmntok_t)}
    {r : Int} (h : jsmn_parse_string fuel p js len (some toks) n = Except.ok (p1, t1, r)) :
    ∃ toks1, t1 = some toks1 ∧ toks1.length = toks.length ∧ p1.toksuper = p.toksuper
      ∧ ((r < 0 ∧ p1.toknext = p.toknext)
        ∨ (r = 0 ∧ p.toknext < n ∧ p1.toknext = uint_succ p.toknext
            ∧ string_scan js len fuel (uint_succ p.pos) = Except.ok (JScan.found p1.pos))) := by
  unfold jsmn_parse_string at h
  simp only at h
  cases hs : string_scan js len fuel (uint_succ p.pos) with
  | error e => rw [hs] at h; cases h
  | ok sr =>
    rw [hs] at h
    cases sr with
    | error code =>
      simp only [Except.ok.injEq, Prod.mk.injEq] at h
      obtain ⟨h1, h2, h3⟩ := h
      subst h1 h2 h3
      exact ⟨toks, rfl, rfl, rfl, Or.inl ⟨string_scan_error_neg js len _ _ _ hs, rfl⟩⟩
    | found pos =>
      simp only at h
      cases ha : jsmn_alloc_token { p with pos := pos } toks n with
      | error e => rw [ha] at h; cases h
      | ok v =>
        rw [ha] at h
        obtain ⟨pa, ta, oa⟩ := v
        cases oa with
        | none =>
          obtain ⟨e1, e2, _⟩ := jsmn_alloc_token_none ha
          simp only [Except.ok.injEq, Prod.mk.injEq] at h
          obtain ⟨h1, h2, h3⟩ := h
          subst h1 h2 h3
          exact ⟨ta, rfl, by rw [e2], by simp only [e1], Or.inl ⟨by decide, by simp only [e1]⟩⟩
        | some t =>
          obtain ⟨e1, e2, e3, e4, e5⟩ := jsmn_alloc_token_some ha
          simp only at h
          cases hf : jsmn_fill_token ta t jsmntype_t.JSMN_STRING
              (wrap_int (int_of_uint p.pos + 1)) (int_of_uint pa.pos) with
          | none => rw [hf] at h; cases h
          | some toks2 =>
            rw [hf] at h
            simp only [Except.ok.injEq, Prod.mk.injEq] at h
            obtain ⟨h1, h2, h3⟩ := h
            subst h1 h2 h3 e4
            exact ⟨toks2, rfl, (jsmn_fill_token_length hf).trans e5, rfl,
              Or.inr ⟨rfl, e2, rfl, rfl⟩⟩

theorem jsmn_parse_string_count {fuel : Nat} (q : jsmn_parser_t) {js : List Char} {len : Nat}
    (m : Nat) {pos : Nat}
    (h : string_scan js len fuel (uint_succ q.pos) = Except.ok (JScan.found pos)) :
    jsmn_parse_string fuel q js len none m = Except.ok ({ q with pos := pos }, none, 0) := by
  unfold jsmn_parse_string
  simp only [h]

/-- What `jsmn_parse_primitive` does in filling mode. -/
theorem jsmn_parse_primitive_fill {fuel : Nat} {p : jsmn_parser_t} {js : List Char} {len : Nat}
    {toks : List jsmntok_t} {n : Nat} {p1 : jsmn_parser_t} {t1 : Option (List jsmntok_t)}
    {r : Int} (h : jsmn_parse_primitive fuel p js len (some toks) n = Except.ok (p1, t1, r)) :
    ∃ toks1, t1 = some toks1 ∧ toks1.length = toks.length ∧ p1.toksuper = p.toksuper
      ∧ ((r < 0 ∧ p1.toknext = p.toknext)
        ∨ (r = 0 ∧ p.toknext < n ∧ p1.toknext = uint_succ p.toknext
            ∧ ∃ pos, primitive_scan js len fuel p.pos = Except.ok (JScan.found pos)
                ∧ p1.pos = uint_pred pos)) := by
  unfold jsmn_parse_primitive at h
  simp only at h
  cases hs : primitive_scan js len fuel p.pos with
  | error e => rw [hs] at h; cases h
  | ok sr =>
    rw [hs] at h
    cases sr with
    | error code =>
      simp only [Except.ok.injEq, Prod.mk.injEq] at h
      obtain ⟨h1, h2, h3⟩ := h
      subst h1 h2 h3
      exact ⟨toks, rfl, rfl, rfl, Or.inl ⟨primitive_scan_error_neg js len _ _ _ hs, rfl⟩⟩
    | found pos =>
      simp only at h
      cases ha : jsmn_alloc_token { p with pos := pos } toks n with
      | error e => rw [ha] at h; cases h
      | ok v =>
        rw [ha] at h
        obtain ⟨pa, ta, oa⟩ := v
        cases oa with
        | none =>
          obtain ⟨e1, e2, _⟩ := jsmn_alloc_token_none ha
          simp only [Except.ok.injEq, Prod.mk.injEq] at h
          obtain ⟨h1, h2, h3⟩ := h
          subst h1 h2 h3
          exact ⟨ta, rfl, by rw [e2], by simp only [e1], Or.inl ⟨by decide, by simp only [e1]⟩⟩
        | some t =>
          obtain ⟨e1, e2, e3, e4, e5⟩ := jsmn_alloc_token_some ha
          simp only at h
          cases hf : jsmn_fill_token ta t jsmntype_t.JSMN_PRIMITIVE
              (int_of_uint p.pos) (int_of_uint pa.pos) with
          | none => rw [hf] at h; cases h
          | some toks2 =>
            rw [hf] at h
            simp only [Except.ok.injEq, Prod.mk.injEq] at h
            obtain ⟨h1, h2, h3⟩ := h
            subst h1 h2 h3 e4
            exact ⟨toks2, rfl, (jsmn_fill_token_length hf).trans e5, rfl,
              Or.inr ⟨rfl, e2, rfl, pos, rfl, rfl⟩⟩

theorem jsmn_parse_primitive_count {fuel : Nat} (q : jsmn_parser_t) {js : List Char} {len : Nat}
    (m : Nat) {pos : Nat}
    (h : primitive_scan js len fuel q.pos = Except.ok (JScan.found pos)) :
    jsmn_parse_primitive fuel q js len none m
      = Except.ok ({ q with pos := uint_pred pos }, none, 0) := by
  unfold jsmn_parse_primitive
  simp only [h]

theorem tok_size_incr_length {toks toks1 : List jsmntok_t} {i : Int}
    (h : tok_size_incr toks i = some toks1) : toks1.length = toks.length := by
  unfold tok_size_incr at h
  split at h
  · cases h
  · unfold tok_write at h
    split at h
    · cases h; rw [List.length_set]
    · cases h

theorem parent_size_incr_fill {p : jsmn_parser_t} {toks : List jsmntok_t}
    {t2 : Option (List jsmntok_t)} (h : parent_size_incr p (some toks) = some t2) :
    ∃ toks2, t2 = some toks2 ∧ toks2.length = toks.length := by
  unfold parent_size_incr at h
  simp only at h
  split at h
  · split at h
    · cases h
    · rename_i toks1 hi
      cases h
      exact ⟨toks1, rfl, tok_size_incr_length hi⟩
  · cases h
    exact ⟨toks, rfl, rfl⟩

theorem scan_down_le (toks : List jsmntok_t) (pr : jsmntok_t → Bool) :
    ∀ (k : Nat) (j : Int), scan_down toks pr k = some j → -1 ≤ j ∧ j < k := by
  intro k
  induction k with
  | zero => intro j h; simp only [scan_down, Option.some.injEq] at h; subst h; decide
  | succ k ih =>
    intro j h
    unfold scan_down at h
    split at h
    · cases h
    · split at h
      · cases h
        constructor <;> push_cast <;> omega
      · obtain ⟨h1, h2⟩ := ih j h
        constructor
        · exact h1
        · push_cast; omega

theorem scan_down_from_le {toks : List jsmntok_t} {pr : jsmntok_t → Bool} {i j : Int}
    (h : scan_down_from toks pr i = some j) : j ≤ i ∧ (0 ≤ i → -1 ≤ j) := by
  unfold scan_down_from at h
  split at h
  · cases h
    exact ⟨le_refl _, fun h0 => by omega⟩
  · obtain ⟨h1, h2⟩ := scan_down_le toks pr _ j h
    constructor
    · push_cast at h2; omega
    · intro _; exact h1

theorem tok_write_length {toks toks1 : List jsmntok_t} {i : Int} {t : jsmntok_t}
    (h : tok_write toks i t = some toks1) : toks1.length = toks.length := by
  unfold tok_write at h
  split at h
  · cases h; rw [List.length_set]
  · cases h

theorem jsmn_case_open_fill {n : Nat} {c : Char} {p : jsmn_parser_t} {toks : List jsmntok_t}
    {count : Int} {res : JStep}
    (h : jsmn_case_open n c p (some toks) count = Except.ok res) :
    (∀ p1 t1 c1, res = JStep.next p1 t1 c1 →
        jsmn_fill_next n p toks count p1 t1 c1 ∧ p1.pos = p.pos ∧ c1 = wrap_int (count + 1))
    ∧ (∀ p1 t1 r, res = JStep.ret p1 t1 r → jsmn_fill_ret p toks p1 t1 r) := by
  unfold jsmn_case_open at h
  simp only at h
  cases ha : jsmn_alloc_token p toks n with
  | error e => rw [ha] at h; cases h
  | ok v =>
    rw [ha] at h
    obtain ⟨pa, ta, oa⟩ := v
    cases oa with
    | none =>
      obtain ⟨e1, e2, _⟩ := jsmn_alloc_token_none ha
      simp only [Except.ok.injEq] at h
      subst h
      refine ⟨fun p1 t1 c1 hres => (by cases hres), fun p1 t1 r hres => ?_⟩
      cases hres
      exact ⟨by decide, ⟨ta, rfl, by rw [e2]⟩, by rw [e1], by rw [e1]⟩
    | some t =>
      obtain ⟨e1, e2, e3, e4, e5⟩ := jsmn_alloc_token_some ha
      simp only at h
      cases hi : (if pa.toksuper ≠ -1 then tok_size_incr ta pa.toksuper else some ta) with
      | none => rw [hi] at h; cases h
      | some toks2 =>
        rw [hi] at h
        simp only at h
        have hl2 : toks2.length = ta.length := by
          split at hi
          · exact tok_size_incr_length hi
          · cases hi; rfl
        cases hg : toks2[t]? with
        | none => rw [hg] at h; cases h
        | some tok =>
          rw [hg] at h
          simp only [Except.ok.injEq] at h
          subst h
          refine ⟨fun p1 t1 c1 hres => ?_, fun p1 t1 r hres => by cases hres⟩
          cases hres
          exact ⟨⟨⟨_, rfl, by rw [List.length_set, hl2, e5]⟩, Or.inr ⟨rfl, e2, by rw [e4]⟩,
            Or.inr (Or.inr (Or.inl rfl))⟩, by rw [e4], rfl⟩

theorem jsmn_case_close_fill {c : Char} {p : jsmn_parser_t} {toks : List jsmntok_t}
    {count : Int} {res : JStep} (n : Nat)
    (h : jsmn_case_close c p (some toks) count = Except.ok res) :
    (∀ p1 t1 c1, res = JStep.next p1 t1 c1 →
        jsmn_fill_next n p toks count p1 t1 c1 ∧ p1.pos = p.pos ∧ c1 = count)
    ∧ (∀ p1 t1 r, res = JStep.ret p1 t1 r → jsmn_fill_ret p toks p1 t1 r) := by
  unfold jsmn_case_close at h
  simp only at h
  cases hs : scan_down_from toks tok_open (int_of_uint (uint_pred p.toknext)) with
  | none => rw [hs] at h; cases h
  | some i =>
    rw [hs] at h
    simp only at h
    obtain ⟨hi1, _⟩ := scan_down_from_le hs
    by_cases hi0 : 0 ≤ i
    · rw [if_pos hi0] at h
      cases hr : tok_read toks i with
      | none => rw [hr] at h; cases h
      | some token =>
        rw [hr] at h
        simp only at h
        by_cases hty : token.type ≠ (if c = '}' then jsmntype_t.JSMN_OBJECT
            else jsmntype_t.JSMN_ARRAY)
        · rw [if_pos hty] at h
          simp only [Except.ok.injEq] at h
          subst h
          refine ⟨fun p1 t1 c1 hres => (by cases hres), fun p1 t1 r hres => ?_⟩
          cases hres
          exact ⟨by decide, ⟨toks, rfl, rfl⟩, rfl, rfl⟩
        · rw [if_neg hty] at h
          cases hw : tok_write toks i
              { token with end_ := int_of_uint (uint_succ p.pos) } with
          | none => rw [hw] at h; cases h
          | some toks1 =>
            rw [hw] at h
            simp only at h
            cases hs2 : scan_down_from toks1 tok_open i with
            | none => rw [hs2] at h; cases h
            | some j =>
              rw [hs2] at h
              simp only [Except.ok.injEq] at h
              subst h
              obtain ⟨hj1, _⟩ := scan_down_from_le hs2
              refine ⟨fun p1 t1 c1 hres => ?_, fun p1 t1 r hres => by cases hres⟩
              cases hres
              refine ⟨⟨⟨toks1, rfl, tok_write_length hw⟩, Or.inl ⟨rfl, rfl⟩, ?_⟩, rfl, rfl⟩
              by_cases hj0 : 0 ≤ j
              · rw [if_pos hj0]
                exact Or.inr (Or.inr (Or.inr ⟨hj0, le_trans hj1 hi1⟩))
              · rw [if_neg hj0]
                exact Or.inr (Or.inl rfl)
    · rw [if_neg hi0] at h
      by_cases him : i = -1
      · rw [if_pos him] at h
        simp only [Except.ok.injEq] at h
        subst h
        refine ⟨fun p1 t1 c1 hres => (by cases hres), fun p1 t1 r hres => ?_⟩
        cases hres
        exact ⟨by decide, ⟨toks, rfl, rfl⟩, rfl, rfl⟩
      · rw [if_neg him] at h
        simp only [Except.ok.injEq] at h
        subst h
        refine ⟨fun p1 t1 c1 hres => ?_, fun p1 t1 r hres => by cases hres⟩
        cases hres
        exact ⟨⟨⟨toks, rfl, rfl⟩, Or.inl ⟨rfl, rfl⟩, Or.inl rfl⟩, rfl, rfl⟩

theorem jsmn_case_comma_fill {p : jsmn_parser_t} {toks : List jsmntok_t}
    {count : Int} {res : JStep} (n : Nat)
    (h : jsmn_case_comma p (some toks) count = Except.ok res) :
    (∀ p1 t1 c1, res = JStep.next p1 t1 c1 →
        jsmn_fill_next n p toks count p1 t1 c1 ∧ p1.pos = p.pos ∧ c1 = count)
    ∧ (∀ p1 t1 r, res = JStep.ret p1 t1 r → jsmn_fill_ret p toks p1 t1 r) := by
  unfold jsmn_case_comma at h
  simp only at h
  by_cases hsup : p.toksuper ≠ -1
  · rw [if_pos hsup] at h
    cases hr : tok_read toks p.toksuper with
    | none => rw [hr] at h; cases h
    | some sup =>
      rw [hr] at h
      simp only at h
      by_cases hty : sup.type ≠ jsmntype_t.JSMN_ARRAY ∧ sup.type ≠ jsmntype_t.JSMN_OBJECT
      · rw [if_pos hty] at h
        cases hs : scan_down_from toks tok_open_container
            (int_of_uint (uint_pred p.toknext)) with
        | none => rw [hs] at h; cases h
        | some i =>
          rw [hs] at h
          simp only [Except.ok.injEq] at h
          subst h
          obtain ⟨hi1, _⟩ := scan_down_from_le hs
          refine ⟨fun p1 t1 c1 hres => ?_, fun p1 t1 r hres => by cases hres⟩
          cases hres
          refine ⟨⟨⟨toks, rfl, rfl⟩, Or.inl ⟨rfl, rfl⟩, ?_⟩, rfl, rfl⟩
          by_cases hi0 : 0 ≤ i
          · rw [if_pos hi0]
            exact Or.inr (Or.inr (Or.inr ⟨hi0, hi1⟩))
          · rw [if_neg hi0]
            exact Or.inl rfl
      · rw [if_neg hty] at h
        simp only [Except.ok.injEq] at h
        subst h
        refine ⟨fun p1 t1 c1 hres => ?_, fun p1 t1 r hres => by cases hres⟩
        cases hres
        exact ⟨⟨⟨toks, rfl, rfl⟩, Or.inl ⟨rfl, rfl⟩, Or.inl rfl⟩, rfl, rfl⟩
  · rw [if_neg hsup] at h
    simp only [Except.ok.injEq] at h
    subst h
    refine ⟨fun p1 t1 c1 hres => ?_, fun p1 t1 r hres => by cases hres⟩
    cases hres
    exact ⟨⟨⟨toks, rfl, rfl⟩, Or.inl ⟨rfl, rfl⟩, Or.inl rfl⟩, rfl, rfl⟩

theorem jsmn_after_value_fill {n : Nat} {p : jsmn_parser_t} {toks : List jsmntok_t}
    {count : Int} {pa : jsmn_parser_t} {ta : Option (List jsmntok_t)} {r : Int} {res : JStep}
    {Q : Prop}
    (hfill : ∃ toks1, ta = some toks1 ∧ toks1.length = toks.length ∧ pa.toksuper = p.toksuper
      ∧ ((r < 0 ∧ pa.toknext = p.toknext)
        ∨ (r = 0 ∧ p.toknext < n ∧ pa.toknext = uint_succ p.toknext ∧ Q)))
    (h : jsmn_after_value (pa, ta, r) count = Except.ok res) :
    (∀ p1 t1 c1, res = JStep.next p1 t1 c1 →
        jsmn_fill_next n p toks count p1 t1 c1 ∧ p1 = pa ∧ c1 = wrap_int (count + 1) ∧ Q)
    ∧ (∀ p1 t1 r1, res = JStep.ret p1 t1 r1 → jsmn_fill_ret p toks p1 t1 r1) := by
  obtain ⟨toks1, et, el, es, hcase⟩ := hfill
  unfold jsmn_after_value at h
  simp only at h
  by_cases hr : r < 0
  · rw [if_pos hr] at h
    simp only [Except.ok.injEq] at h
    subst h
    refine ⟨fun p1 t1 c1 hres => (by cases hres), fun p1 t1 r1 hres => ?_⟩
    cases hres
    rcases hcase with ⟨_, hk⟩ | ⟨h0, _⟩
    · exact ⟨hr, ⟨toks1, et, el⟩, hk, es⟩
    · omega
  · rw [if_neg hr] at h
    rcases hcase with ⟨hneg, _⟩ | ⟨h0, hlt, hnext, hQ⟩
    · exact absurd hneg hr
    · subst et
      cases hpi : parent_size_incr pa (some toks1) with
      | none => rw [hpi] at h; cases h
      | some tokens2 =>
        rw [hpi] at h
        simp only [Except.ok.injEq] at h
        subst h
        obtain ⟨toks2, e2, l2⟩ := parent_size_incr_fill hpi
        refine ⟨fun p1 t1 c1 hres => ?_, fun p1 t1 r1 hres => by cases hres⟩
        cases hres
        exact ⟨⟨⟨toks2, e2, l2.trans el⟩, Or.inr ⟨rfl, hlt, hnext⟩, Or.inl es⟩, rfl, rfl, hQ⟩

theorem jsmn_after_value_count (q : jsmn_parser_t) (count : Int) :
    jsmn_after_value (q, none, 0) count
      = Except.ok (JStep.next q none (wrap_int (count + 1))) := by
  unfold jsmn_after_value
  rw [if_neg (show ¬ ((0 : Int) < 0) by decide)]
  rfl

/-- What one `switch` of `jsmn_parse` does in filling mode, and that the same `switch` in
counting mode moves `pos` and `count` in the same way. -/
theorem jsmn_switch_fill {fuel : Nat} {js : List Char} {len n : Nat} {c : Char}
    {p : jsmn_parser_t} {toks : List jsmntok_t} {count : Int} {res : JStep}
    (h : jsmn_switch fuel js len n c p (some toks) count = Except.ok res) :
    (∀ p1 t1 c1, res = JStep.next p1 t1 c1 →
        jsmn_fill_next n p toks count p1 t1 c1
        ∧ ∀ (q : jsmn_parser_t) (m : Nat), q.pos = p.pos →
            ∃ q1, jsmn_switch fuel js len m c q none count = Except.ok (JStep.next q1 none c1)
              ∧ q1.pos = p1.pos)
    ∧ (∀ p1 t1 r, res = JStep.ret p1 t1 r → jsmn_fill_ret p toks p1 t1 r) := by
  unfold jsmn_switch at h
  by_cases h1 : c = '{' ∨ c = '['
  · rw [if_pos h1] at h
    obtain ⟨a1, a2⟩ := jsmn_case_open_fill h
    refine ⟨fun p1 t1 c1 hres => ?_, a2⟩
    obtain ⟨b1, b2, b3⟩ := a1 p1 t1 c1 hres
    refine ⟨b1, fun q m hq => ?_⟩
    unfold jsmn_switch
    rw [if_pos h1, b3]
    exact ⟨q, rfl, by rw [hq, b2]⟩
  · rw [if_neg h1] at h
    by_cases h2 : c = '}' ∨ c = ']'
    · rw [if_pos h2] at h
      obtain ⟨a1, a2⟩ := jsmn_case_close_fill n h
      refine ⟨fun p1 t1 c1 hres => ?_, a2⟩
      obtain ⟨b1, b2, b3⟩ := a1 p1 t1 c1 hres
      refine ⟨b1, fun q m hq => ?_⟩
      unfold jsmn_switch
      rw [if_neg h1, if_pos h2, b3]
      exact ⟨q, rfl, by rw [hq, b2]⟩
    · rw [if_neg h2] at h
      by_cases h3 : c = '\"'
      · rw [if_pos h3] at h
        cases hp : jsmn_parse_string fuel p js len (some toks) n with
        | error e => rw [hp] at h; cases h
        | ok v =>
          rw [hp] at h
          obtain ⟨pa, ta, r⟩ := v
          obtain ⟨a1, a2⟩ := jsmn_after_value_fill (jsmn_parse_string_fill hp) h
          refine ⟨fun p1 t1 c1 hres => ?_, a2⟩
          obtain ⟨b1, b2, b3, b4⟩ := a1 p1 t1 c1 hres
          refine ⟨b1, fun q m hq => ?_⟩
          unfold jsmn_switch
          rw [if_neg h1, if_neg h2, if_pos h3,
            jsmn_parse_string_count q m (by rw [hq]; exact b4)]
          simp only
          rw [jsmn_after_value_count, b3]
          exact ⟨_, rfl, by rw [b2]⟩
      · rw [if_neg h3] at h
        by_cases h4 : c = '\t' ∨ c = '\r' ∨ c = '\n' ∨ c = ' '
        · rw [if_pos h4] at h
          simp only [Except.ok.injEq] at h
          subst h
          refine ⟨fun p1 t1 c1 hres => ?_, fun p1 t1 r hres => by cases hres⟩
          cases hres
          refine ⟨⟨⟨toks, rfl, rfl⟩, Or.inl ⟨rfl, rfl⟩, Or.inl rfl⟩, fun q m hq => ?_⟩
          unfold jsmn_switch
          rw [if_neg h1, if_neg h2, if_neg h3, if_pos h4]
          exact ⟨q, rfl, hq⟩
        · rw [if_neg h4] at h
          by_cases h5 : c = ':'
          · rw [if_pos h5] at h
            simp only [Except.ok.injEq] at h
            subst h
            refine ⟨fun p1 t1 c1 hres => ?_, fun p1 t1 r hres => by cases hres⟩
            cases hres
            refine ⟨⟨⟨toks, rfl, rfl⟩, Or.inl ⟨rfl, rfl⟩, Or.inr (Or.inr (Or.inl rfl))⟩,
              fun q m hq => ?_⟩
            unfold jsmn_switch
            rw [if_neg h1, if_neg h2, if_neg h3, if_neg h4, if_pos h5]
            exact ⟨_, rfl, hq⟩
          · rw [if_neg h5] at h
            by_cases h6 : c = ','
            · rw [if_pos h6] at h
              obtain ⟨a1, a2⟩ := jsmn_case_comma_fill n h
              refine ⟨fun p1 t1 c1 hres => ?_, a2⟩
              obtain ⟨b1, b2, b3⟩ := a1 p1 t1 c1 hres
              refine ⟨b1, fun q m hq => ?_⟩
              unfold jsmn_switch
              rw [if_neg h1, if_neg h2, if_neg h3, if_neg h4, if_neg h5, if_pos h6, b3]
              exact ⟨q, rfl, by rw [hq, b2]⟩
            · rw [if_neg h6] at h
              cases hp : jsmn_parse_primitive fuel p js len (some toks) n with
              | error e => rw [hp] at h; cases h
              | ok v =>
                rw [hp] at h
                obtain ⟨pa, ta, r⟩ := v
                obtain ⟨a1, a2⟩ := jsmn_after_value_fill (jsmn_parse_primitive_fill hp) h
                refine ⟨fun p1 t1 c1 hres => ?_, a2⟩
                obtain ⟨b1, b2, b3, pos, b4, b5⟩ := a1 p1 t1 c1 hres
                refine ⟨b1, fun q m hq => ?_⟩
                unfold jsmn_switch
                rw [if_neg h1, if_neg h2, if_neg h3, if_neg h4, if_neg h5, if_neg h6,
                  jsmn_parse_primitive_count q m (by rw [hq]; exact b4)]
                simp only
                rw [jsmn_after_value_count, b3]
                exact ⟨_, rfl, by rw [b2, b5]⟩

theorem jsmn_finish_fill {p : jsmn_parser_t} {toks : List jsmntok_t} {count : Int}
    {res : JStep} (h : jsmn_finish p (some toks) count = Except.ok res) :
    res = JStep.ret p (some toks) JSMN_ERROR_PART ∨ res = JStep.ret p (some toks) count := by
  unfold jsmn_finish at h
  simp only at h
  cases hs : scan_down_from toks tok_open (int_of_uint (uint_pred p.toknext)) with
  | none => rw [hs] at h; cases h
  | some i =>
    rw [hs] at h
    simp only at h
    by_cases hi : 0 ≤ i
    · rw [if_pos hi] at h
      simp only [Except.ok.injEq] at h
      exact Or.inl h.symm
    · rw [if_neg hi] at h
      simp only [Except.ok.injEq] at h
      exact Or.inr h.symm

/-- One round of the main loop in filling mode: it goes on with a state related to the old
one by `jsmn_fill_next`, and the same round in counting mode goes on with the same `pos` and
`count`; or it returns a negative value; or it returns `count` from behind the loop, and so
does the same round in counting mode. -/
theorem jsmn_step_fill {fuel : Nat} {js : List Char} {len n : Nat}
    {p : jsmn_parser_t} {toks : List jsmntok_t} {count : Int} {res : JStep}
    (h : jsmn_step fuel js len n p (some toks) count = Except.ok res) :
    (∀ p1 t1 c1, res = JStep.next p1 t1 c1 →
        jsmn_fill_next n p toks count p1 t1 c1
        ∧ ∀ (q : jsmn_parser_t) (m : Nat), q.pos = p.pos →
            ∃ q1, jsmn_step fuel js len m q none count = Except.ok (JStep.next q1 none c1)
              ∧ q1.pos = p1.pos)
    ∧ (∀ p1 t1 r, res = JStep.ret p1 t1 r →
        jsmn_fill_ret p toks p1 t1 r
        ∨ (p1 = p ∧ t1 = some toks ∧ r = count
            ∧ ∀ (q : jsmn_parser_t) (m : Nat), q.pos = p.pos →
                jsmn_step fuel js len m q none count = Except.ok (JStep.ret q none count))) := by
  have hfin : ∀ res1, jsmn_finish p (some toks) count = Except.ok res1 →
      (∀ (q : jsmn_parser_t), jsmn_finish q none count = Except.ok (JStep.ret q none count)) →
      (∀ p1 t1 c1, res1 = JStep.next p1 t1 c1 → False)
      ∧ (∀ p1 t1 r, res1 = JStep.ret p1 t1 r →
          jsmn_fill_ret p toks p1 t1 r ∨ (p1 = p ∧ t1 = some toks ∧ r = count)) := by
    intro res1 h1 _
    rcases jsmn_finish_fill h1 with e | e
    · subst e
      refine ⟨fun p1 t1 c1 hres => (by cases hres), fun p1 t1 r hres => ?_⟩
      cases hres
      exact Or.inl ⟨by decide, ⟨toks, rfl, rfl⟩, rfl, rfl⟩
    · subst e
      refine ⟨fun p1 t1 c1 hres => (by cases hres), fun p1 t1 r hres => ?_⟩
      cases hres
      exact Or.inr ⟨rfl, rfl, rfl⟩
  have hfq : ∀ (q : jsmn_parser_t), jsmn_finish q none count
      = Except.ok (JStep.ret q none count) := fun q => rfl
  unfold jsmn_step at h
  by_cases hlt : p.pos < len
  · rw [if_pos hlt] at h
    cases hc : js[p.pos]? with
    | none => rw [hc] at h; cases h
    | some c =>
      rw [hc] at h
      simp only at h
      by_cases hnul : c = NUL
      · rw [if_pos hnul] at h
        obtain ⟨f1, f2⟩ := hfin res h hfq
        refine ⟨fun p1 t1 c1 hres => (f1 p1 t1 c1 hres).elim, fun p1 t1 r hres => ?_⟩
        rcases f2 p1 t1 r hres with g | ⟨g1, g2, g3⟩
        · exact Or.inl g
        · refine Or.inr ⟨g1, g2, g3, fun q m hq => ?_⟩
          unfold jsmn_step
          rw [hq, if_pos hlt, hc]
          simp only
          rw [if_pos hnul]
          rfl
      · rw [if_neg hnul] at h
        cases hsw : jsmn_switch fuel js len n c p (some toks) count with
        | error e => rw [hsw] at h; cases h
        | ok sres =>
          rw [hsw] at h
          obtain ⟨s1, s2⟩ := jsmn_switch_fill hsw
          cases sres with
          | ret p1 t1 r =>
            simp only [Except.ok.injEq] at h
            subst h
            refine ⟨fun p2 t2 c2 hres => (by cases hres), fun p2 t2 r2 hres => ?_⟩
            cases hres
            exact Or.inl (s2 p1 t1 r rfl)
          | next p1 t1 c1 =>
            simp only [Except.ok.injEq] at h
            subst h
            obtain ⟨a1, a2⟩ := s1 p1 t1 c1 rfl
            refine ⟨fun p2 t2 c2 hres => ?_, fun p2 t2 r2 hres => by cases hres⟩
            cases hres
            refine ⟨a1, fun q m hq => ?_⟩
            obtain ⟨q1, hq1, hq2⟩ := a2 q m hq
            unfold jsmn_step
            rw [hq, if_pos hlt, hc]
            simp only
            rw [if_neg hnul, hq1]
            exact ⟨_, rfl, by simp only [hq2]⟩
  · rw [if_neg hlt] at h
    obtain ⟨f1, f2⟩ := hfin res h hfq
    refine ⟨fun p1 t1 c1 hres => (f1 p1 t1 c1 hres).elim, fun p1 t1 r hres => ?_⟩
    rcases f2 p1 t1 r hres with g | ⟨g1, g2, g3⟩
    · exact Or.inl g
    · refine Or.inr ⟨g1, g2, g3, fun q m hq => ?_⟩
      unfold jsmn_step
      rw [hq, if_neg hlt]
      rfl

theorem int_of_uint_succ {t : Nat} (h : t < 2 ^ 32) :
    wrap_int (int_of_uint t + 1) = int_of_uint (uint_succ t) := by
  unfold wrap_int int_of_uint uint_succ
  split_ifs <;> omega

theorem int_of_uint_nonneg {t : Nat} (ht : t < 2 ^ 32) (h : 0 ≤ int_of_uint t) :
    int_of_uint t = t := by
  unfold int_of_uint at h ⊢
  split_ifs at h ⊢
  · rfl
  · omega

theorem uint_succ_le {t n : Nat} (h : t < n) : uint_succ t ≤ n := by
  unfold uint_succ
  split_ifs <;> omega

/-- Counting mode follows filling mode: a filling run that returns a value that is not negative
within `k` rounds is matched by the counting run, which returns the same value; the value is
the final `toknext`. -/
theorem jsmn_run_fill_count {fuel : Nat} {js : List Char} {len n : Nat} (m : Nat)
    (hn : n < 2 ^ 32) :
    ∀ (k : Nat) (p : jsmn_parser_t) (toks : List jsmntok_t) (count : Int) (q : jsmn_parser_t),
      q.pos = p.pos → count = int_of_uint p.toknext → p.toknext ≤ n →
      ∀ pf tf r, jsmn_run fuel js len n k p (some toks) count = Except.ok (JStep.ret pf tf r) →
        0 ≤ r →
        (∃ qf, jsmn_run fuel js len m k q none count = Except.ok (JStep.ret qf none r))
        ∧ r = pf.toknext ∧ pf.toknext ≤ n := by
  intro k
  induction k with
  | zero =>
    intro p toks count q _ _ _ pf tf r h _
    simp only [jsmn_run, Except.ok.injEq] at h
    cases h
  | succ k ih =>
    intro p toks count q hq hcount hle pf tf r h hr
    unfold jsmn_run at h
    cases hs : jsmn_step fuel js len n p (some toks) count with
    | error e => rw [hs] at h; cases h
    | ok sres =>
      rw [hs] at h
      obtain ⟨s1, s2⟩ := jsmn_step_fill hs
      cases sres with
      | ret p1 t1 r1 =>
        simp only [Except.ok.injEq, JStep.ret.injEq] at h
        obtain ⟨e1, e2, e3⟩ := h
        subst e1 e2 e3
        rcases s2 p1 t1 r1 rfl with ⟨hneg, _⟩ | ⟨g1, g2, g3, g4⟩
        · omega
        · subst g1
          refine ⟨⟨q, ?_⟩, ?_, hle⟩
          · unfold jsmn_run
            rw [g4 q m hq, g3]
          · rw [g3, hcount]
            rw [g3, hcount] at hr
            exact int_of_uint_nonneg (by omega) hr
      | next p1 t1 c1 =>
        simp only at h
        obtain ⟨⟨⟨toks1, et, _⟩, hcn, _⟩, a2⟩ := s1 p1 t1 c1 rfl
        subst et
        obtain ⟨q1, hq1, hq2⟩ := a2 q m hq
        have hinv : c1 = int_of_uint p1.toknext ∧ p1.toknext ≤ n := by
          rcases hcn with ⟨c1e, tke⟩ | ⟨c1e, hlt, tke⟩
          · rw [c1e, tke]; exact ⟨hcount, hle⟩
          · rw [c1e, tke, hcount]
            exact ⟨int_of_uint_succ (by omega), uint_succ_le hlt⟩
        obtain ⟨⟨qf, hqf⟩, r1, r2⟩ := ih p1 toks1 c1 q1 hq2 hinv.1 hinv.2 pf tf r h hr
        refine ⟨⟨qf, ?_⟩, r1, r2⟩
        unfold jsmn_run
        rw [hq1]
        exact hqf

theorem jsmn_parse_fill_count (fuel : Nat) (js : List Char) (len : Nat)
    (toks : List jsmntok_t) (n m : Nat) (hn : n < 2 ^ 32)
    (pf : jsmn_parser_t) (tf : Option (List jsmntok_t)) (r : Int)
    (h : jsmn_parse fuel jsmn_init js len (some toks) n = Except.ok (pf, tf, r))
    (hr : 0 ≤ r) :
    (∃ qf, jsmn_parse fuel jsmn_init js len none m = Except.ok (qf, none, r))
    ∧ r = pf.toknext ∧ pf.toknext ≤ n := by
  unfold jsmn_parse at h
  cases hrun : jsmn_run fuel js len n fuel jsmn_init (some toks)
      (int_of_uint jsmn_init.toknext) with
  | error e => rw [hrun] at h; cases h
  | ok sres =>
    rw [hrun] at h
    cases sres with
    | next p1 t1 c1 => cases h
    | ret p1 t1 r1 =>
      simp only [Except.ok.injEq, Prod.mk.injEq] at h
      obtain ⟨e1, e2, e3⟩ := h
      subst e1 e2 e3
      obtain ⟨⟨qf, hqf⟩, r1, r2⟩ := jsmn_run_fill_count m hn fuel jsmn_init toks
        (int_of_uint jsmn_init.toknext) jsmn_init rfl rfl (Nat.zero_le n) p1 t1 r1 hrun hr
      refine ⟨⟨qf, ?_⟩, r1, r2⟩
      unfold jsmn_parse
      rw [hqf]

/-- C39: counting mode agrees with filling mode. If `jsmn_parse` on a freshly initialised
parser with a token array and `num_tokens = n` (an `unsigned int`) returns a value `r` that is
not negative, then `jsmn_parse` on a freshly initialised parser with `tokens = NULL` (and any
`num_tokens`) returns the same `r` with the same fuel; `r` is the final `toknext` of the filling
run and is at most `n`. -/
theorem C39_counting_agrees_with_filling (fuel : Nat) (js : List Char) (len : Nat)
    (toks : List jsmntok_t) (n m : Nat) (hn : n < 2 ^ 32)
    (pf : jsmn_parser_t) (tf : Option (List jsmntok_t)) (r : Int)
    (h : jsmn_parse fuel jsmn_init js len (some toks) n = Except.ok (pf, tf, r))
    (hr : 0 ≤ r) :
    (∃ qf, jsmn_parse fuel jsmn_init js len none m = Except.ok (qf, none, r))
    ∧ r = pf.toknext ∧ pf.toknext ≤ n :=
  jsmn_parse_fill_count fuel js len toks n m hn pf tf r h hr

/-- Witness for C39: the sample text with an array of five tokens. -/
theorem C39_counting_agrees_with_filling_witness :
    jsmn_parse 12 jsmn_init sampleJson 11 (some (blank_tokens 5)) 5
        = Except.ok (⟨11, 5, -1⟩, some sampleJsonTokens, 5)
    ∧ (∃ qf, jsmn_parse 12 jsmn_init sampleJson 11 none 0 = Except.ok (qf, none, 5))
    ∧ (5 : Int) = ((⟨11, 5, -1⟩ : jsmn_parser_t).toknext : Int)
    ∧ (⟨11, 5, -1⟩ : jsmn_parser_t).toknext ≤ 5 :=
  ⟨by rfl, C39_counting_agrees_with_filling 12 sampleJson 11 (blank_tokens 5) 5 0 (by decide)
    ⟨11, 5, -1⟩ (some sampleJsonTokens) 5 (by rfl) (by decide)⟩

/-! ### jsmn.c: no access outside the input or the token array -/

theorem js_read {js : List Char} {len pos : Nat} (hlen : len ≤ js.length) (h : pos < len) :
    ∃ c, js[pos]? = some c :=
  ⟨js[pos], List.getElem?_eq_getElem (by omega)⟩

theorem primitive_scan_no_fault {js : List Char} {len : Nat} (hlen : len ≤ js.length) :
    ∀ (fuel pos : Nat), primitive_scan js len fuel pos ≠ Except.error JErr.fault := by
  intro fuel
  induction fuel with
  | zero => intro pos h; simp [primitive_scan] at h
  | succ f ih =>
    intro pos
    unfold primitive_scan
    by_cases hlt : pos < len
    · rw [if_pos hlt]
      obtain ⟨c, hc⟩ := js_read hlen hlt
      rw [hc]
      simp only
      split_ifs <;> first | exact ih _ | (intro h; cases h)
    · rw [if_neg hlt]
      intro h; cases h

theorem hex_scan_no_fault {js : List Char} {len : Nat} (hlen : len ≤ js.length) :
    ∀ (k pos : Nat), hex_scan js len k pos ≠ Except.error JErr.fault := by
  intro k
  induction k with
  | zero => intro pos h; simp [hex_scan] at h
  | succ f ih =>
    intro pos
    unfold hex_scan
    by_cases hlt : pos < len
    · rw [if_pos hlt]
      obtain ⟨c, hc⟩ := js_read hlen hlt
      rw [hc]
      simp only
      split_ifs <;> first | exact ih _ | (intro h; cases h)
    · rw [if_neg hlt]
      intro h; cases h

theorem string_scan_no_fault {js : List Char} {len : Nat} (hlen : len ≤ js.length) :
    ∀ (fuel pos : Nat), string_scan js len fuel pos ≠ Except.error JErr.fault := by
  intro fuel
  induction fuel with
  | zero => intro pos h; simp [string_scan] at h
  | succ f ih =>
    intro pos
    unfold string_scan
    by_cases hlt : pos < len
    · rw [if_pos hlt]
      obtain ⟨c, hc⟩ := js_read hlen hlt
      rw [hc]
      simp only
      by_cases h1 : c = NUL
      · rw [if_pos h1]; intro h; cases h
      · rw [if_neg h1]
        by_cases h2 : c = '\"'
        · rw [if_pos h2]; intro h; cases h
        · rw [if_neg h2]
          by_cases h3 : c = '\\' ∧ uint_succ pos < len
          · rw [if_pos h3]
            obtain ⟨e, he⟩ := js_read hlen h3.2
            rw [he]
            simp only
            by_cases h4 : e = '\"' ∨ e = '/' ∨ e = '\\' ∨ e = 'b' ∨ e = 'f' ∨ e = 'r' ∨ e = 'n'
                ∨ e = 't'
            · rw [if_pos h4]; exact ih _
            · rw [if_neg h4]
              by_cases h5 : e = 'u'
              · rw [if_pos h5]
                cases hh : hex_scan js len 4 (uint_succ (uint_succ pos)) with
                | error err =>
                  simp only
                  intro h
                  simp only [Except.error.injEq] at h
                  subst h
                  exact hex_scan_no_fault hlen _ _ hh
                | ok v =>
                  cases v with
                  | none => simp only; intro h; cases h
                  | some pos1 => simp only; exact ih _
              · rw [if_neg h5]; intro h; cases h
          · rw [if_neg h3]; exact ih _
    · rw [if_neg hlt]
      intro h; cases h

theorem jsmn_alloc_token_no_fault {p : jsmn_parser_t} {toks : List jsmntok_t} {n : Nat}
    (hn : n ≤ toks.length) : jsmn_alloc_token p toks n ≠ Except.error JErr.fault := by
  unfold jsmn_alloc_token
  by_cases hge : p.toknext ≥ n
  · rw [if_pos hge]; intro h; cases h
  · rw [if_neg hge]
    rw [List.getElem?_eq_getElem (by omega)]
    intro h; cases h

theorem jsmn_parse_string_no_fault {fuel : Nat} {p : jsmn_parser_t} {js : List Char}
    {len : Nat} {tokens : Option (List jsmntok_t)} {n : Nat} (hlen : len ≤ js.length)
    (harr : jsmn_array n tokens) :
    jsmn_parse_string fuel p js len tokens n ≠ Except.error JErr.fault := by
  unfold jsmn_parse_string
  simp only
  cases hs : string_scan js len fuel (uint_succ p.pos) with
  | error e =>
    simp only
    intro h
    simp only [Except.error.injEq] at h
    subst h
    exact string_scan_no_fault hlen _ _ hs
  | ok sr =>
    cases sr with
    | error code => simp only; intro h; cases h
    | found pos =>
      simp only
      cases tokens with
      | none => simp only; intro h; cases h
      | some toks =>
        simp only
        have hl := harr toks rfl
        cases ha : jsmn_alloc_token { p with pos := pos } toks n with
        | error e =>
          simp only
          intro h
          simp only [Except.error.injEq] at h
          subst h
          exact jsmn_alloc_token_no_fault (by omega) ha
        | ok v =>
          obtain ⟨pa, ta, oa⟩ := v
          cases oa with
          | none => simp only; intro h; cases h
          | some t =>
            obtain ⟨e1, e2, e3, e4, e5⟩ := jsmn_alloc_token_some ha
            simp only
            obtain ⟨toks2, hf⟩ := jsmn_fill_token_some ta t jsmntype_t.JSMN_STRING
              (wrap_int (int_of_uint p.pos + 1)) (int_of_uint pa.pos) (by omega)
            rw [hf]
            simp only
            intro h; cases h

theorem jsmn_parse_primitive_no_fault {fuel : Nat} {p : jsmn_parser_t} {js : List Char}
    {len : Nat} {tokens : Option (List jsmntok_t)} {n : Nat} (hlen : len ≤ js.length)
    (harr : jsmn_array n tokens) :
    jsmn_parse_primitive fuel p js len tokens n ≠ Except.error JErr.fault := by
  unfold jsmn_parse_primitive
  simp only
  cases hs : primitive_scan js len fuel p.pos with
  | error e =>
    simp only
    intro h
    simp only [Except.error.injEq] at h
    subst h
    exact primitive_scan_no_fault hlen _ _ hs
  | ok sr =>
    cases sr with
    | error code => simp only; intro h; cases h
    | found pos =>
      simp only
      cases tokens with
      | none => simp only; intro h; cases h
      | some toks =>
        simp only
        have hl := harr toks rfl
        cases ha : jsmn_alloc_token { p with pos := pos } toks n with
        | error e =>
          simp only
          intro h
          simp only [Except.error.injEq] at h
          subst h
          exact jsmn_alloc_token_no_fault (by omega) ha
        | ok v =>
          obtain ⟨pa, ta, oa⟩ := v
          cases oa with
          | none => simp only; intro h; cases h
          | some t =>
            obtain ⟨e1, e2, e3, e4, e5⟩ := jsmn_alloc_token_some ha
            simp only
            obtain ⟨toks2, hf⟩ := jsmn_fill_token_some ta t jsmntype_t.JSMN_PRIMITIVE
              (int_of_uint p.pos) (int_of_uint pa.pos) (by omega)
            rw [hf]
            simp only
            intro h; cases h

theorem tok_read_some {toks : List jsmntok_t} {i : Int} (h0 : 0 ≤ i)
    (h1 : i < (toks.length : Int)) : ∃ t, tok_read toks i = some t := by
  unfold tok_read
  rw [if_pos h0]
  exact ⟨toks[i.toNat], List.getElem?_eq_getElem (by omega)⟩

theorem tok_write_some {toks : List jsmntok_t} {i : Int} (t : jsmntok_t) (h0 : 0 ≤ i)
    (h1 : i < (toks.length : Int)) : ∃ toks1, tok_write toks i t = some toks1 := by
  unfold tok_write
  rw [if_pos ⟨h0, by omega⟩]
  exact ⟨_, rfl⟩

theorem tok_size_incr_some {toks : List jsmntok_t} {i : Int} (h0 : 0 ≤ i)
    (h1 : i < (toks.length : Int)) : ∃ toks1, tok_size_incr toks i = some toks1 := by
  unfold tok_size_incr
  obtain ⟨t, ht⟩ := tok_read_some h0 h1
  rw [ht]
  exact tok_write_some _ h0 h1

theorem scan_down_some (toks : List jsmntok_t) (pr : jsmntok_t → Bool) :
    ∀ (k : Nat), k ≤ toks.length → ∃ j, scan_down toks pr k = some j := by
  intro k
  induction k with
  | zero => intro _; exact ⟨-1, rfl⟩
  | succ k ih =>
    intro hk
    unfold scan_down
    rw [List.getElem?_eq_getElem (by omega)]
    simp only
    split_ifs
    · exact ⟨_, rfl⟩
    · exact ih (by omega)

theorem scan_down_from_some (toks : List jsmntok_t) (pr : jsmntok_t → Bool) {i : Int}
    (h : i < (toks.length : Int)) : ∃ j, scan_down_from toks pr i = some j := by
  unfold scan_down_from
  split_ifs
  · exact ⟨_, rfl⟩
  · exact scan_down_some toks pr _ (by omega)

theorem int_of_uint_pred {t : Nat} (h : t ≤ 2 ^ 31) :
    int_of_uint (uint_pred t) = (t : Int) - 1 := by
  unfold int_of_uint uint_pred
  split_ifs <;> omega

theorem uint_succ_eq {t n : Nat} (h : t < n) (hn : n < 2 ^ 31) : uint_succ t = t + 1 := by
  unfold uint_succ
  split_ifs <;> omega

theorem jsmn_case_open_no_fault {n : Nat} {c : Char} {p : jsmn_parser_t}
    {tokens : Option (List jsmntok_t)} {count : Int}
    (hinv : jsmn_inv n p) (harr : jsmn_array n tokens) :
    jsmn_case_open n c p tokens count ≠ Except.error JErr.fault := by
  unfold jsmn_case_open
  simp only
  cases tokens with
  | none => simp only; intro h; cases h
  | some toks =>
    simp only
    have hl := harr toks rfl
    cases ha : jsmn_alloc_token p toks n with
    | error e =>
      simp only
      intro h
      simp only [Except.error.injEq] at h
      subst h
      exact jsmn_alloc_token_no_fault (by omega) ha
    | ok v =>
      obtain ⟨pa, ta, oa⟩ := v
      cases oa with
      | none => simp only; intro h; cases h
      | some t =>
        obtain ⟨e1, e2, e3, e4, e5⟩ := jsmn_alloc_token_some ha
        simp only
        have hsup : pa.toksuper = p.toksuper := by rw [e4]
        obtain ⟨toks2, h2, hl2⟩ : ∃ toks2,
            (if pa.toksuper ≠ -1 then tok_size_incr ta pa.toksuper else some ta) = some toks2
            ∧ toks2.length = ta.length := by
          by_cases hs : pa.toksuper ≠ -1
          · rw [if_pos hs]
            rw [hsup] at hs ⊢
            rcases hinv.2 with h | ⟨h0, h1⟩
            · exact absurd h hs
            · obtain ⟨toks2, h2⟩ := @tok_size_incr_some ta _ h0 (by omega)
              exact ⟨toks2, h2, tok_size_incr_length h2⟩
          · rw [if_neg hs]
            exact ⟨ta, rfl, rfl⟩
        rw [h2]
        simp only
        rw [List.getElem?_eq_getElem (by omega)]
        simp only
        intro h; cases h

theorem jsmn_case_close_no_fault {n : Nat} {c : Char} {p : jsmn_parser_t}
    {tokens : Option (List jsmntok_t)} {count : Int} (hn : n < 2 ^ 31)
    (hinv : jsmn_inv n p) (harr : jsmn_array n tokens) :
    jsmn_case_close c p tokens count ≠ Except.error JErr.fault := by
  unfold jsmn_case_close
  cases tokens with
  | none => simp only; intro h; cases h
  | some toks =>
    simp only
    have hl := harr toks rfl
    have hpred := int_of_uint_pred (t := p.toknext) (by have := hinv.1; omega)
    obtain ⟨i, hi⟩ := scan_down_from_some toks tok_open
      (i := int_of_uint (uint_pred p.toknext)) (by have := hinv.1; omega)
    rw [hi]
    simp only
    obtain ⟨hi1, _⟩ := scan_down_from_le hi
    by_cases hi0 : 0 ≤ i
    · rw [if_pos hi0]
      have hil : i < (toks.length : Int) := by have := hinv.1; omega
      obtain ⟨token, ht⟩ := tok_read_some hi0 hil
      rw [ht]
      simp only
      by_cases hty : token.type ≠ (if c = '}' then jsmntype_t.JSMN_OBJECT
          else jsmntype_t.JSMN_ARRAY)
      · rw [if_pos hty]
        intro h; cases h
      · rw [if_neg hty]
        obtain ⟨toks1, hw⟩ := tok_write_some
          { token with end_ := int_of_uint (uint_succ p.pos) } hi0 hil
        rw [hw]
        simp only
        obtain ⟨j, hj⟩ := scan_down_from_some toks1 tok_open (i := i)
          (by rw [tok_write_length hw]; exact hil)
        rw [hj]
        simp only
        intro h; cases h
    · rw [if_neg hi0]
      split_ifs <;> (intro h; cases h)

theorem jsmn_case_comma_no_fault {n : Nat} {p : jsmn_parser_t}
    {tokens : Option (List jsmntok_t)} {count : Int} (hn : n < 2 ^ 31)
    (hinv : jsmn_inv n p) (harr : jsmn_array n tokens) :
    jsmn_case_comma p tokens count ≠ Except.error JErr.fault := by
  unfold jsmn_case_comma
  cases tokens with
  | none => simp only; intro h; cases h
  | some toks =>
    simp only
    have hl := harr toks rfl
    by_cases hs : p.toksuper ≠ -1
    · rw [if_pos hs]
      rcases hinv.2 with h | ⟨h0, h1⟩
      · exact absurd h hs
      · obtain ⟨sup, hsup⟩ := @tok_read_some toks _ h0 (by have := hinv.1; omega)
        rw [hsup]
        simp only
        split_ifs
        · have hpred := int_of_uint_pred (t := p.toknext) (by have := hinv.1; omega)
          obtain ⟨i, hi⟩ := scan_down_from_some toks tok_open_container
            (i := int_of_uint (uint_pred p.toknext)) (by have := hinv.1; omega)
          rw [hi]
          simp only
          intro h; cases h
        · intro h; cases h
    · rw [if_neg hs]
      intro h; cases h

theorem jsmn_finish_no_fault {n : Nat} {p : jsmn_parser_t}
    {tokens : Option (List jsmntok_t)} {count : Int} (hn : n < 2 ^ 31)
    (hinv : jsmn_inv n p) (harr : jsmn_array n tokens) :
    jsmn_finish p tokens count ≠ Except.error JErr.fault := by
  unfold jsmn_finish
  cases tokens with
  | none => simp only; intro h; cases h
  | some toks =>
    simp only
    have hl := harr toks rfl
    have hpred := int_of_uint_pred (t := p.toknext) (by have := hinv.1; omega)
    obtain ⟨i, hi⟩ := scan_down_from_some toks tok_open
      (i := int_of_uint (uint_pred p.toknext)) (by have := hinv.1; omega)
    rw [hi]
    simp only
    split_ifs <;> (intro h; cases h)

theorem jsmn_parse_string_none {fuel : Nat} {p : jsmn_parser_t} {js : List Char} {len n : Nat}
    {p1 : jsmn_parser_t} {t1 : Option (List jsmntok_t)} {r : Int}
    (h : jsmn_parse_string fuel p js len none n = Except.ok (p1, t1, r)) :
    t1 = none ∧ p1.toknext = p.toknext ∧ p1.toksuper = p.toksuper := by
  unfold jsmn_parse_string at h
  simp only at h
  cases hs : string_scan js len fuel (uint_succ p.pos) with
  | error e => rw [hs] at h; cases h
  | ok sr =>
    rw [hs] at h
    cases sr with
    | error code =>
      simp only [Except.ok.injEq, Prod.mk.injEq] at h
      obtain ⟨h1, h2, _⟩ := h
      subst h1 h2
      exact ⟨rfl, rfl, rfl⟩
    | found pos =>
      simp only [Except.ok.injEq, Prod.mk.injEq] at h
      obtain ⟨h1, h2, _⟩ := h
      subst h1 h2
      exact ⟨rfl, rfl, rfl⟩

theorem jsmn_parse_primitive_none {fuel : Nat} {p : jsmn_parser_t} {js : List Char}
    {len n : Nat} {p1 : jsmn_parser_t} {t1 : Option (List jsmntok_t)} {r : Int}
    (h : jsmn_parse_primitive fuel p js len none n = Except.ok (p1, t1, r)) :
    t1 = none ∧ p1.toknext = p.toknext ∧ p1.toksuper = p.toksuper := by
  unfold jsmn_parse_primitive at h
  simp only at h
  cases hs : primitive_scan js len fuel p.pos with
  | error e => rw [hs] at h; cases h
  | ok sr =>
    rw [hs] at h
    cases sr with
    | error code =>
      simp only [Except.ok.injEq, Prod.mk.injEq] at h
      obtain ⟨h1, h2, _⟩ := h
      subst h1 h2
      exact ⟨rfl, rfl, rfl⟩
    | found pos =>
      simp only [Except.ok.injEq, Prod.mk.injEq] at h
      obtain ⟨h1, h2, _⟩ := h
      subst h1 h2
      exact ⟨rfl, rfl, rfl⟩

theorem jsmn_after_value_none {pa : jsmn_parser_t} {r count : Int} {res : JStep}
    (h : jsmn_after_value (pa, none, r) count = Except.ok res) :
    (∀ p1 t1 c1, res = JStep.next p1 t1 c1 → t1 = none ∧ p1 = pa)
    ∧ (∀ p1 t1 r1, res = JStep.ret p1 t1 r1 → t1 = none ∧ p1 = pa) := by
  unfold jsmn_after_value at h
  simp only at h
  by_cases hr : r < 0
  · rw [if_pos hr] at h
    simp only [Except.ok.injEq] at h
    subst h
    refine ⟨fun p1 t1 c1 hres => (by cases hres), fun p1 t1 r1 hres => ?_⟩
    cases hres
    exact ⟨rfl, rfl⟩
  · rw [if_neg hr] at h
    simp only [parent_size_incr, Except.ok.injEq] at h
    subst h
    refine ⟨fun p1 t1 c1 hres => ?_, fun p1 t1 r1 hres => by cases hres⟩
    cases hres
    exact ⟨rfl, rfl⟩

/-- What one `switch` of `jsmn_parse` does to the parser in counting mode: `toknext` is
unchanged and `toksuper` is unchanged or set by the colon case. -/
theorem jsmn_switch_none {fuel : Nat} {js : List Char} {len n : Nat} {c : Char}
    {p : jsmn_parser_t} {count : Int} {res : JStep}
    (h : jsmn_switch fuel js len n c p none count = Except.ok res) :
    (∀ p1 t1 c1, res = JStep.next p1 t1 c1 →
        t1 = none ∧ p1.toknext = p.toknext
        ∧ (p1.toksuper = p.toksuper ∨ p1.toksuper = int_of_uint (uint_pred p.toknext)))
    ∧ (∀ p1 t1 r, res = JStep.ret p1 t1 r →
        t1 = none ∧ p1.toknext = p.toknext ∧ p1.toksuper = p.toksuper) := by
  unfold jsmn_switch at h
  by_cases h1 : c = '{' ∨ c = '['
  · rw [if_pos h1] at h
    simp only [jsmn_case_open, Except.ok.injEq] at h
    subst h
    refine ⟨fun p1 t1 c1 hres => ?_, fun p1 t1 r hres => by cases hres⟩
    cases hres
    exact ⟨rfl, rfl, Or.inl rfl⟩
  · rw [if_neg h1] at h
    by_cases h2 : c = '}' ∨ c = ']'
    · rw [if_pos h2] at h
      simp only [jsmn_case_close, Except.ok.injEq] at h
      subst h
      refine ⟨fun p1 t1 c1 hres => ?_, fun p1 t1 r hres => by cases hres⟩
      cases hres
      exact ⟨rfl, rfl, Or.inl rfl⟩
    · rw [if_neg h2] at h
      by_cases h3 : c = '\"'
      · rw [if_pos h3] at h
        cases hp : jsmn_parse_string fuel p js len none n with
        | error e => rw [hp] at h; cases h
        | ok v =>
          rw [hp] at h
          obtain ⟨pa, ta, r⟩ := v
          obtain ⟨e1, e2, e3⟩ := jsmn_parse_string_none hp
          subst e1
          obtain ⟨a1, a2⟩ := jsmn_after_value_none h
          refine ⟨fun p1 t1 c1 hres => ?_, fun p1 t1 r1 hres => ?_⟩
          · obtain ⟨b1, b2⟩ := a1 p1 t1 c1 hres
            subst b2
            exact ⟨b1, e2, Or.inl e3⟩
          · obtain ⟨b1, b2⟩ := a2 p1 t1 r1 hres
            subst b2
            exact ⟨b1, e2, e3⟩
      · rw [if_neg h3] at h
        by_cases h4 : c = '\t' ∨ c = '\r' ∨ c = '\n' ∨ c = ' '
        · rw [if_pos h4] at h
          simp only [Except.ok.injEq] at h
          subst h
          refine ⟨fun p1 t1 c1 hres => ?_, fun p1 t1 r hres => by cases hres⟩
          cases hres
          exact ⟨rfl, rfl, Or.inl rfl⟩
        · rw [if_neg h4] at h
          by_cases h5 : c = ':'
          · rw [if_pos h5] at h
            simp only [Except.ok.injEq] at h
            subst h
            refine ⟨fun p1 t1 c1 hres => ?_, fun p1 t1 r hres => by cases hres⟩
            cases hres
            exact ⟨rfl, rfl, Or.inr rfl⟩
          · rw [if_neg h5] at h
            by_cases h6 : c = ','
            · rw [if_pos h6] at h
              simp only [jsmn_case_comma, Except.ok.injEq] at h
              subst h
              refine ⟨fun p1 t1 c1 hres => ?_, fun p1 t1 r hres => by cases hres⟩
              cases hres
              exact ⟨rfl, rfl, Or.inl rfl⟩
            · rw [if_neg h6] at h
              cases hp : jsmn_parse_primitive fuel p js len none n with
              | error e => rw [hp] at h; cases h
              | ok v =>
                rw [hp] at h
                obtain ⟨pa, ta, r⟩ := v
                obtain ⟨e1, e2, e3⟩ := jsmn_parse_primitive_none hp
                subst e1
                obtain ⟨a1, a2⟩ := jsmn_after_value_none h
                refine ⟨fun p1 t1 c1 hres => ?_, fun p1 t1 r1 hres => ?_⟩
                · obtain ⟨b1, b2⟩ := a1 p1 t1 c1 hres
                  subst b2
                  exact ⟨b1, e2, Or.inl e3⟩
                · obtain ⟨b1, b2⟩ := a2 p1 t1 r1 hres
                  subst b2
                  exact ⟨b1, e2, e3⟩

theorem jsmn_inv_of_fill_next {n : Nat} {p : jsmn_parser_t} {toks : List jsmntok_t}
    {count : Int} {p1 : jsmn_parser_t} {t1 : Option (List jsmntok_t)} {c1 : Int}
    (hn : n < 2 ^ 31) (hinv : jsmn_inv n p) (hl : toks.length = n)
    (h : jsmn_fill_next n p toks count p1 t1 c1) : jsmn_inv n p1 ∧ jsmn_array n t1 := by
  obtain ⟨⟨toks1, et, el⟩, hk, hs⟩ := h
  obtain ⟨i1, i2⟩ := hinv
  have hpred := int_of_uint_pred (t := p.toknext) (by omega)
  have hk1 : p.toknext ≤ p1.toknext ∧ p1.toknext ≤ n := by
    rcases hk with ⟨_, e⟩ | ⟨_, hlt, e⟩
    · rw [e]; exact ⟨le_refl _, i1⟩
    · rw [e, uint_succ_eq hlt hn]; omega
  have hpred1 := int_of_uint_pred (t := p1.toknext) (by omega)
  refine ⟨⟨hk1.2, ?_⟩, ?_⟩
  · rcases hs with e | e | e | ⟨e0, e1⟩
    · rw [e]
      rcases i2 with h | ⟨h0, h1⟩
      · exact Or.inl h
      · exact Or.inr ⟨h0, by omega⟩
    · exact Or.inl e
    · rw [e, hpred1]
      by_cases hz : p1.toknext = 0
      · left; omega
      · right; omega
    · right
      exact ⟨e0, by omega⟩
  · intro toks2 h2
    rw [et] at h2
    cases h2
    rw [el, hl]

theorem jsmn_inv_of_fill_ret {n : Nat} {p : jsmn_parser_t} {toks : List jsmntok_t}
    {p1 : jsmn_parser_t} {t1 : Option (List jsmntok_t)} {r : Int}
    (hinv : jsmn_inv n p) (hl : toks.length = n)
    (h : jsmn_fill_ret p toks p1 t1 r) : jsmn_inv n p1 ∧ jsmn_array n t1 := by
  obtain ⟨_, ⟨toks1, et, el⟩, e1, e2⟩ := h
  refine ⟨?_, ?_⟩
  · unfold jsmn_inv
    rw [e1, e2]
    exact hinv
  · intro toks2 h2
    rw [et] at h2
    cases h2
    rw [el, hl]

theorem jsmn_inv_of_none {n : Nat} {p p1 : jsmn_parser_t} (hn : n < 2 ^ 31)
    (hinv : jsmn_inv n p) (e1 : p1.toknext = p.toknext)
    (e2 : p1.toksuper = p.toksuper ∨ p1.toksuper = int_of_uint (uint_pred p.toknext)) :
    jsmn_inv n p1 := by
  obtain ⟨i1, i2⟩ := hinv
  have hpred := int_of_uint_pred (t := p.toknext) (by omega)
  unfold jsmn_inv
  rw [e1]
  refine ⟨i1, ?_⟩
  rcases e2 with e | e
  · rw [e]; exact i2
  · rw [e, hpred]
    by_cases hz : p.toknext = 0
    · left; omega
    · right; omega

theorem jsmn_array_none (n : Nat) : jsmn_array n none := by
  intro toks h
  cases h

theorem jsmn_after_value_no_fault {n : Nat} {pa : jsmn_parser_t}
    {ta : Option (List jsmntok_t)} {r count : Int}
    (hinv : jsmn_inv n pa) (harr : jsmn_array n ta) :
    jsmn_after_value (pa, ta, r) count ≠ Except.error JErr.fault := by
  unfold jsmn_after_value
  simp only
  by_cases hr : r < 0
  · rw [if_pos hr]; intro h; cases h
  · rw [if_neg hr]
    unfold parent_size_incr
    cases ta with
    | none => simp only; intro h; cases h
    | some toks =>
      simp only
      have hl := harr toks rfl
      by_cases hs : pa.toksuper ≠ -1
      · rw [if_pos hs]
        rcases hinv.2 with h | ⟨h0, h1⟩
        · exact absurd h hs
        · obtain ⟨toks1, h1⟩ := @tok_size_incr_some toks _ h0
            (by have := hinv.1; omega)
          rw [h1]
          simp only
          intro h; cases h
      · rw [if_neg hs]
        simp only
        intro h; cases h

/-- The state a value parser leaves behind satisfies the index bounds. -/
theorem jsmn_value_inv {n : Nat} {p : jsmn_parser_t} {tokens : Option (List jsmntok_t)}
    {pa : jsmn_parser_t} {ta : Option (List jsmntok_t)} {r : Int} (hn : n < 2 ^ 31)
    (hinv : jsmn_inv n p) (harr : jsmn_array n tokens)
    (hnone : tokens = none → ta = none ∧ pa.toknext = p.toknext ∧ pa.toksuper = p.toksuper)
    (hsome : ∀ toks, tokens = some toks →
      ∃ toks1, ta = some toks1 ∧ toks1.length = toks.length ∧ pa.toksuper = p.toksuper
        ∧ ((r < 0 ∧ pa.toknext = p.toknext)
          ∨ (r = 0 ∧ p.toknext < n ∧ pa.toknext = uint_succ p.toknext))) :
    jsmn_inv n pa ∧ jsmn_array n ta := by
  cases tokens with
  | none =>
    obtain ⟨e1, e2, e3⟩ := hnone rfl
    subst e1
    exact ⟨jsmn_inv_of_none hn hinv e2 (Or.inl e3), jsmn_array_none n⟩
  | some toks =>
    obtain ⟨toks1, e1, e2, e3, hcase⟩ := hsome toks rfl
    have hl := harr toks rfl
    subst e1
    refine ⟨?_, fun toks2 h2 => by cases h2; rw [e2, hl]⟩
    obtain ⟨i1, i2⟩ := hinv
    unfold jsmn_inv
    rw [e3]
    rcases hcase with ⟨_, e⟩ | ⟨_, hlt, e⟩
    · rw [e]; exact ⟨i1, i2⟩
    · rw [e, uint_succ_eq hlt hn]
      refine ⟨by omega, ?_⟩
      rcases i2 with h | ⟨h0, h1⟩
      · exact Or.inl h
      · exact Or.inr ⟨h0, by omega⟩

theorem jsmn_switch_no_fault {fuel : Nat} {js : List Char} {len n : Nat} {c : Char}
    {p : jsmn_parser_t} {tokens : Option (List jsmntok_t)} {count : Int}
    (hlen : len ≤ js.length) (hn : n < 2 ^ 31)
    (hinv : jsmn_inv n p) (harr : jsmn_array n tokens) :
    jsmn_switch fuel js len n c p tokens count ≠ Except.error JErr.fault := by
  unfold jsmn_switch
  by_cases h1 : c = '{' ∨ c = '['
  · rw [if_pos h1]
    exact jsmn_case_open_no_fault hinv harr
  · rw [if_neg h1]
    by_cases h2 : c = '}' ∨ c = ']'
    · rw [if_pos h2]
      exact jsmn_case_close_no_fault hn hinv harr
    · rw [if_neg h2]
      by_cases h3 : c = '\"'
      · rw [if_pos h3]
        cases hp : jsmn_parse_string fuel p js len tokens n with
        | error e =>
          simp only
          intro h
          simp only [Except.error.injEq] at h
          subst h
          exact jsmn_parse_string_no_fault hlen harr hp
        | ok v =>
          obtain ⟨pa, ta, r⟩ := v
          simp only
          have hv := jsmn_value_inv (r := r) hn hinv harr
            (fun e => by subst e; exact jsmn_parse_string_none hp)
            (fun toks e => by
              subst e
              obtain ⟨toks1, a1, a2, a3, a4⟩ := jsmn_parse_string_fill hp
              refine ⟨toks1, a1, a2, a3, ?_⟩
              rcases a4 with a | ⟨b1, b2, b3, _⟩
              · exact Or.inl a
              · exact Or.inr ⟨b1, b2, b3⟩)
          exact jsmn_after_value_no_fault hv.1 hv.2
      · rw [if_neg h3]
        by_cases h4 : c = '\t' ∨ c = '\r' ∨ c = '\n' ∨ c = ' '
        · rw [if_pos h4]; intro h; cases h
        · rw [if_neg h4]
          by_cases h5 : c = ':'
          · rw [if_pos h5]; intro h; cases h
          · rw [if_neg h5]
            by_cases h6 : c = ','
            · rw [if_pos h6]
              exact jsmn_case_comma_no_fault hn hinv harr
            · rw [if_neg h6]
              cases hp : jsmn_parse_primitive fuel p js len tokens n with
              | error e =>
                simp only
                intro h
                simp only [Except.error.injEq] at h
                subst h
                exact jsmn_parse_primitive_no_fault hlen harr hp
              | ok v =>
                obtain ⟨pa, ta, r⟩ := v
                simp only
                have hv := jsmn_value_inv (r := r) hn hinv harr
                  (fun e => by subst e; exact jsmn_parse_primitive_none hp)
                  (fun toks e => by
                    subst e
                    obtain ⟨toks1, a1, a2, a3, a4⟩ := jsmn_parse_primitive_fill hp
                    refine ⟨toks1, a1, a2, a3, ?_⟩
                    rcases a4 with a | ⟨b1, b2, b3, _⟩
                    · exact Or.inl a
                    · exact Or.inr ⟨b1, b2, b3⟩)
                exact jsmn_after_value_no_fault hv.1 hv.2

/-- The index bounds are kept by one `switch`, in both modes. -/
theorem jsmn_switch_inv {fuel : Nat} {js : List Char} {len n : Nat} {c : Char}
    {p : jsmn_parser_t} {tokens : Option (List jsmntok_t)} {count : Int} {res : JStep}
    (hn : n < 2 ^ 31) (hinv : jsmn_inv n p) (harr : jsmn_array n tokens)
    (h : jsmn_switch fuel js len n c p tokens count = Except.ok res) :
    (∀ p1 t1 c1, res = JStep.next p1 t1 c1 → jsmn_inv n p1 ∧ jsmn_array n t1)
    ∧ (∀ p1 t1 r, res = JStep.ret p1 t1 r → jsmn_inv n p1 ∧ jsmn_array n t1) := by
  cases tokens with
  | none =>
    obtain ⟨a1, a2⟩ := jsmn_switch_none h
    refine ⟨fun p1 t1 c1 hres => ?_, fun p1 t1 r hres => ?_⟩
    · obtain ⟨b1, b2, b3⟩ := a1 p1 t1 c1 hres
      subst b1
      exact ⟨jsmn_inv_of_none hn hinv b2 b3, jsmn_array_none n⟩
    · obtain ⟨b1, b2, b3⟩ := a2 p1 t1 r hres
      subst b1
      exact ⟨jsmn_inv_of_none hn hinv b2 (Or.inl b3), jsmn_array_none n⟩
  | some toks =>
    have hl := harr toks rfl
    obtain ⟨a1, a2⟩ := jsmn_switch_fill h
    refine ⟨fun p1 t1 c1 hres => ?_, fun p1 t1 r hres => ?_⟩
    · exact jsmn_inv_of_fill_next hn hinv hl (a1 p1 t1 c1 hres).1
    · exact jsmn_inv_of_fill_ret hinv hl (a2 p1 t1 r hres)

theorem jsmn_finish_inv {n : Nat} {p : jsmn_parser_t} {tokens : Option (List jsmntok_t)}
    {count : Int} {res : JStep} (hinv : jsmn_inv n p) (harr : jsmn_array n tokens)
    (h : jsmn_finish p tokens count = Except.ok res) :
    (∀ p1 t1 c1, res = JStep.next p1 t1 c1 → jsmn_inv n p1 ∧ jsmn_array n t1)
    ∧ (∀ p1 t1 r, res = JStep.ret p1 t1 r → jsmn_inv n p1 ∧ jsmn_array n t1) := by
  cases tokens with
  | none =>
    simp only [jsmn_finish, Except.ok.injEq] at h
    subst h
    refine ⟨fun p1 t1 c1 hres => (by cases hres), fun p1 t1 r hres => ?_⟩
    cases hres
    exact ⟨hinv, harr⟩
  | some toks =>
    rcases jsmn_finish_fill h with e | e
    · subst e
      refine ⟨fun p1 t1 c1 hres => (by cases hres), fun p1 t1 r hres => ?_⟩
      cases hres
      exact ⟨hinv, harr⟩
    · subst e
      refine ⟨fun p1 t1 c1 hres => (by cases hres), fun p1 t1 r hres => ?_⟩
      cases hres
      exact ⟨hinv, harr⟩

/-- One round of the main loop makes no access outside the input or the token array, and keeps
the index bounds. -/
theorem jsmn_step_safe {fuel : Nat} {js : List Char} {len n : Nat}
    {p : jsmn_parser_t} {tokens : Option (List jsmntok_t)} {count : Int}
    (hlen : len ≤ js.length) (hn : n < 2 ^ 31)
    (hinv : jsmn_inv n p) (harr : jsmn_array n tokens) :
    jsmn_step fuel js len n p tokens count ≠ Except.error JErr.fault
    ∧ ∀ res, jsmn_step fuel js len n p tokens count = Except.ok res →
        (∀ p1 t1 c1, res = JStep.next p1 t1 c1 → jsmn_inv n p1 ∧ jsmn_array n t1)
        ∧ (∀ p1 t1 r, res = JStep.ret p1 t1 r → jsmn_inv n p1 ∧ jsmn_array n t1) := by
  unfold jsmn_step
  by_cases hlt : p.pos < len
  · rw [if_pos hlt]
    obtain ⟨c, hc⟩ := js_read hlen hlt
    rw [hc]
    simp only
    by_cases hnul : c = NUL
    · rw [if_pos hnul]
      exact ⟨jsmn_finish_no_fault hn hinv harr, fun res h => jsmn_finish_inv hinv harr h⟩
    · rw [if_neg hnul]
      cases hsw : jsmn_switch fuel js len n c p tokens count with
      | error e =>
        simp only
        refine ⟨?_, fun res h => by cases h⟩
        intro h
        simp only [Except.error.injEq] at h
        subst h
        exact jsmn_switch_no_fault hlen hn hinv harr hsw
      | ok sres =>
        obtain ⟨s1, s2⟩ := jsmn_switch_inv hn hinv harr hsw
        cases sres with
        | ret p1 t1 r =>
          simp only
          refine ⟨fun h => (by cases h), fun res h => ?_⟩
          simp only [Except.ok.injEq] at h
          subst h
          exact ⟨fun p2 t2 c2 hres => (by cases hres), s2⟩
        | next p1 t1 c1 =>
          simp only
          refine ⟨fun h => (by cases h), fun res h => ?_⟩
          simp only [Except.ok.injEq] at h
          subst h
          refine ⟨fun p2 t2 c2 hres => ?_, fun p2 t2 r2 hres => by cases hres⟩
          cases hres
          exact s1 p1 t1 c1 rfl
  · rw [if_neg hlt]
    exact ⟨jsmn_finish_no_fault hn hinv harr, fun res h => jsmn_finish_inv hinv harr h⟩

/-- No run of the main loop of `jsmn_parse` makes an access outside the input or the token
array, and the index bounds hold after every number of rounds. -/
theorem jsmn_run_safe {fuel : Nat} {js : List Char} {len n : Nat}
    (hlen : len ≤ js.length) (hn : n < 2 ^ 31) :
    ∀ (k : Nat) (p : jsmn_parser_t) (tokens : Option (List jsmntok_t)) (count : Int),
      jsmn_inv n p → jsmn_array n tokens →
      jsmn_run fuel js len n k p tokens count ≠ Except.error JErr.fault
      ∧ (∀ p1 t1 c1, jsmn_run fuel js len n k p tokens count = Except.ok (JStep.next p1 t1 c1) →
          jsmn_inv n p1 ∧ jsmn_array n t1)
      ∧ (∀ p1 t1 r, jsmn_run fuel js len n k p tokens count = Except.ok (JStep.ret p1 t1 r) →
          jsmn_inv n p1 ∧ jsmn_array n t1) := by
  intro k
  induction k with
  | zero =>
    intro p tokens count hinv harr
    unfold jsmn_run
    refine ⟨fun h => (by cases h), fun p1 t1 c1 h => ?_, fun p1 t1 r h => by cases h⟩
    simp only [Except.ok.injEq, JStep.next.injEq] at h
    obtain ⟨e1, e2, _⟩ := h
    subst e1 e2
    exact ⟨hinv, harr⟩
  | succ k ih =>
    intro p tokens count hinv harr
    obtain ⟨hnf, hstep⟩ := @jsmn_step_safe fuel js len n p tokens count hlen hn hinv harr
    unfold jsmn_run
    cases hs : jsmn_step fuel js len n p tokens count with
    | error e =>
      simp only
      refine ⟨?_, fun p1 t1 c1 h => (by cases h), fun p1 t1 r h => by cases h⟩
      intro h
      simp only [Except.error.injEq] at h
      subst h
      exact hnf hs
    | ok sres =>
      obtain ⟨s1, s2⟩ := hstep sres hs
      cases sres with
      | ret p1 t1 r =>
        simp only
        refine ⟨fun h => (by cases h), fun p2 t2 c2 h => (by cases h), fun p2 t2 r2 h => ?_⟩
        simp only [Except.ok.injEq, JStep.ret.injEq] at h
        obtain ⟨e1, e2, _⟩ := h
        subst e1 e2
        exact s2 p1 t1 r rfl
      | next p1 t1 c1 =>
        simp only
        obtain ⟨i1, i2⟩ := s1 p1 t1 c1 rfl
        exact ih p1 t1 c1 i1 i2

/-! ### jsmn.c: `jsmn_parse` returns -/

theorem uint_succ_of_lt {pos len : Nat} (h : pos < len) (hl : len < 2 ^ 32) :
    uint_succ pos = pos + 1 := by
  unfold uint_succ
  split_ifs <;> omega

theorem primitive_scan_returns {js : List Char} {len : Nat} (hlen : len ≤ js.length)
    (hl : len < 2 ^ 32) :
    ∀ (fuel pos : Nat), pos ≤ len → len - pos < fuel →
      ∃ r, primitive_scan js len fuel pos = Except.ok r
        ∧ ∀ q, r = JScan.found q → pos ≤ q ∧ q ≤ len := by
  intro fuel
  induction fuel with
  | zero => intro pos _ h; omega
  | succ f ih =>
    intro pos hp hf
    unfold primitive_scan
    by_cases hlt : pos < len
    · rw [if_pos hlt]
      obtain ⟨c, hc⟩ := js_read hlen hlt
      rw [hc]
      simp only
      have hfound : ∃ r, (Except.ok (JScan.found pos) : Except JErr JScan) = Except.ok r
          ∧ ∀ q, r = JScan.found q → pos ≤ q ∧ q ≤ len :=
        ⟨_, rfl, fun q hq => by cases hq; exact ⟨le_refl _, hp⟩⟩
      have herr : ∃ r, (Except.ok (JScan.error JSMN_ERROR_INVAL) : Except JErr JScan)
          = Except.ok r ∧ ∀ q, r = JScan.found q → pos ≤ q ∧ q ≤ len :=
        ⟨_, rfl, fun q hq => by cases hq⟩
      have hrec : ∃ r, primitive_scan js len f (uint_succ pos) = Except.ok r
          ∧ ∀ q, r = JScan.found q → pos ≤ q ∧ q ≤ len := by
        rw [uint_succ_of_lt hlt hl]
        obtain ⟨r, h1, h2⟩ := ih (pos + 1) (by omega) (by omega)
        exact ⟨r, h1, fun q hq => ⟨by have := (h2 q hq).1; omega, (h2 q hq).2⟩⟩
      split_ifs <;> first | exact hfound | exact herr | exact hrec
    · rw [if_neg hlt]
      exact ⟨_, rfl, fun q hq => by cases hq; exact ⟨le_refl _, hp⟩⟩

theorem hex_scan_returns {js : List Char} {len : Nat} (hlen : len ≤ js.length)
    (hl : len < 2 ^ 32) :
    ∀ (k pos : Nat), pos ≤ len →
      ∃ r, hex_scan js len k pos = Except.ok r ∧ ∀ q, r = some q → pos ≤ q ∧ q ≤ len := by
  intro k
  induction k with
  | zero =>
    intro pos hp
    exact ⟨_, rfl, fun q hq => by cases hq; exact ⟨le_refl _, hp⟩⟩
  | succ f ih =>
    intro pos hp
    unfold hex_scan
    by_cases hlt : pos < len
    · rw [if_pos hlt]
      obtain ⟨c, hc⟩ := js_read hlen hlt
      rw [hc]
      simp only
      have hfound : ∃ r, (Except.ok (some pos) : Except JErr (Option Nat)) = Except.ok r
          ∧ ∀ q, r = some q → pos ≤ q ∧ q ≤ len :=
        ⟨_, rfl, fun q hq => by cases hq; exact ⟨le_refl _, hp⟩⟩
      have herr : ∃ r, (Except.ok none : Except JErr (Option Nat)) = Except.ok r
          ∧ ∀ q, r = some q → pos ≤ q ∧ q ≤ len :=
        ⟨_, rfl, fun q hq => by cases hq⟩
      have hrec : ∃ r, hex_scan js len f (uint_succ pos) = Except.ok r
          ∧ ∀ q, r = some q → pos ≤ q ∧ q ≤ len := by
        rw [uint_succ_of_lt hlt hl]
        obtain ⟨r, h1, h2⟩ := ih (pos + 1) (by omega)
        exact ⟨r, h1, fun q hq => ⟨by have := (h2 q hq).1; omega, (h2 q hq).2⟩⟩
      split_ifs <;> first | exact hfound | exact herr | exact hrec
    · rw [if_neg hlt]
      exact ⟨_, rfl, fun q hq => by cases hq; exact ⟨le_refl _, hp⟩⟩

theorem string_scan_returns {js : List Char} {len : Nat} (hlen : len ≤ js.length)
    (hl : len < 2 ^ 32) :
    ∀ (fuel pos : Nat), pos ≤ len → len - pos < fuel →
      ∃ r, string_scan js len fuel pos = Except.ok r
        ∧ ∀ q, r = JScan.found q → pos ≤ q ∧ q < len := by
  intro fuel
  induction fuel with
  | zero => intro pos _ h; omega
  | succ f ih =>
    intro pos hp hf
    unfold string_scan
    by_cases hlt : pos < len
    · rw [if_pos hlt]
      obtain ⟨c, hc⟩ := js_read hlen hlt
      rw [hc]
      simp only
      have hs1 := uint_succ_of_lt hlt hl
      have hrec : ∀ pos1, pos < pos1 → pos1 ≤ len →
          ∃ r, string_scan js len f pos1 = Except.ok r
            ∧ ∀ q, r = JScan.found q → pos ≤ q ∧ q < len := by
        intro pos1 h1 h2
        obtain ⟨r, e1, e2⟩ := ih pos1 h2 (by omega)
        exact ⟨r, e1, fun q hq => ⟨by have := (e2 q hq).1; omega, (e2 q hq).2⟩⟩
      by_cases h1 : c = NUL
      · rw [if_pos h1]
        exact ⟨_, rfl, fun q hq => by cases hq⟩
      · rw [if_neg h1]
        by_cases h2 : c = '\"'
        · rw [if_pos h2]
          exact ⟨_, rfl, fun q hq => by cases hq; exact ⟨le_refl _, hlt⟩⟩
        · rw [if_neg h2]
          by_cases h3 : c = '\\' ∧ uint_succ pos < len
          · rw [if_pos h3]
            have h3' : pos + 1 < len := by rw [← hs1]; exact h3.2
            obtain ⟨e, he⟩ := js_read hlen h3.2
            rw [he]
            simp only
            have hs2 : uint_succ (uint_succ pos) = pos + 2 := by
              rw [hs1, uint_succ_of_lt h3' hl]
            by_cases h4 : e = '\"' ∨ e = '/' ∨ e = '\\' ∨ e = 'b' ∨ e = 'f' ∨ e = 'r' ∨ e = 'n'
                ∨ e = 't'
            · rw [if_pos h4, hs2]
              exact hrec (pos + 2) (by omega) (by omega)
            · rw [if_neg h4]
              by_cases h5 : e = 'u'
              · rw [if_pos h5, hs2]
                obtain ⟨r, e1, e2⟩ := hex_scan_returns hlen hl 4 (pos + 2) (by omega)
                rw [e1]
                cases r with
                | none =>
                  simp only
                  exact ⟨_, rfl, fun q hq => by cases hq⟩
                | some pos1 =>
                  simp only
                  obtain ⟨g1, g2⟩ := e2 pos1 rfl
                  have hround : uint_succ (uint_pred pos1) = pos1 := by
                    unfold uint_succ uint_pred
                    split_ifs <;> omega
                  rw [hround]
                  exact hrec pos1 (by omega) g2
              · rw [if_neg h5]
                exact ⟨_, rfl, fun q hq => by cases hq⟩
          · rw [if_neg h3, hs1]
            exact hrec (pos + 1) (by omega) (by omega)
    · rw [if_neg hlt]
      exact ⟨_, rfl, fun q hq => by cases hq⟩

theorem jsmn_alloc_token_err {p : jsmn_parser_t} {toks : List jsmntok_t} {n : Nat} {e : JErr}
    (h : jsmn_alloc_token p toks n = Except.error e) : e = JErr.fault := by
  unfold jsmn_alloc_token at h
  split_ifs at h
  split at h
  · simp only [Except.error.injEq] at h
    exact h.symm
  · cases h

theorem jsmn_parse_string_err {fuel : Nat} {p : jsmn_parser_t} {js : List Char} {len : Nat}
    {tokens : Option (List jsmntok_t)} {n : Nat} {e : JErr}
    (h : jsmn_parse_string fuel p js len tokens n = Except.error e) :
    e = JErr.fault ∨ string_scan js len fuel (uint_succ p.pos) = Except.error e := by
  unfold jsmn_parse_string at h
  simp only at h
  cases hs : string_scan js len fuel (uint_succ p.pos) with
  | error e1 =>
    rw [hs] at h
    simp only [Except.error.injEq] at h
    subst h
    exact Or.inr rfl
  | ok sr =>
    rw [hs] at h
    left
    cases sr with
    | error code => cases h
    | found pos =>
      simp only at h
      cases tokens with
      | none => cases h
      | some toks =>
        simp only at h
        cases ha : jsmn_alloc_token { p with pos := pos } toks n with
        | error e1 =>
          rw [ha] at h
          simp only [Except.error.injEq] at h
          subst h
          exact jsmn_alloc_token_err ha
        | ok v =>
          rw [ha] at h
          obtain ⟨pa, ta, oa⟩ := v
          cases oa with
          | none => cases h
          | some t =>
            simp only at h
            split at h
            · simp only [Except.error.injEq] at h
              exact h.symm
            · cases h

theorem jsmn_parse_primitive_err {fuel : Nat} {p : jsmn_parser_t} {js : List Char} {len : Nat}
    {tokens : Option (List jsmntok_t)} {n : Nat} {e : JErr}
    (h : jsmn_parse_primitive fuel p js len tokens n = Except.error e) :
    e = JErr.fault ∨ primitive_scan js len fuel p.pos = Except.error e := by
  unfold jsmn_parse_primitive at h
  simp only at h
  cases hs : primitive_scan js len fuel p.pos with
  | error e1 =>
    rw [hs] at h
    simp only [Except.error.injEq] at h
    subst h
    exact Or.inr rfl
  | ok sr =>
    rw [hs] at h
    left
    cases sr with
    | error code => cases h
    | found pos =>
      simp only at h
      cases tokens with
      | none => cases h
      | some toks =>
        simp only at h
        cases ha : jsmn_alloc_token { p with pos := pos } toks n with
        | error e1 =>
          rw [ha] at h
          simp only [Except.error.injEq] at h
          subst h
          exact jsmn_alloc_token_err ha
        | ok v =>
          rw [ha] at h
          obtain ⟨pa, ta, oa⟩ := v
          cases oa with
          | none => cases h
          | some t =>
            simp only at h
            split at h
            · simp only [Except.error.injEq] at h
              exact h.symm
            · cases h

theorem jsmn_case_open_err {n : Nat} {c : Char} {p : jsmn_parser_t}
    {tokens : Option (List jsmntok_t)} {count : Int} {e : JErr}
    (h : jsmn_case_open n c p tokens count = Except.error e) : e = JErr.fault := by
  unfold jsmn_case_open at h
  simp only at h
  cases tokens with
  | none => cases h
  | some toks =>
    simp only at h
    cases ha : jsmn_alloc_token p toks n with
    | error e1 =>
      rw [ha] at h
      simp only [Except.error.injEq] at h
      subst h
      exact jsmn_alloc_token_err ha
    | ok v =>
      rw [ha] at h
      obtain ⟨pa, ta, oa⟩ := v
      cases oa with
      | none => cases h
      | some t =>
        simp only at h
        split at h
        · simp only [Except.error.injEq] at h
          exact h.symm
        · split at h
          · simp only [Except.error.injEq] at h
            exact h.symm
          · cases h

theorem jsmn_case_close_err {c : Char} {p : jsmn_parser_t}
    {tokens : Option (List jsmntok_t)} {count : Int} {e : JErr}
    (h : jsmn_case_close c p tokens count = Except.error e) : e = JErr.fault := by
  unfold jsmn_case_close at h
  cases tokens with
  | none => cases h
  | some toks =>
    simp only at h
    cases hs : scan_down_from toks tok_open (int_of_uint (uint_pred p.toknext)) with
    | none =>
      rw [hs] at h
      simp only [Except.error.injEq] at h
      exact h.symm
    | some i =>
      rw [hs] at h
      simp only at h
      by_cases hi0 : 0 ≤ i
      · rw [if_pos hi0] at h
        cases hr : tok_read toks i with
        | none =>
          rw [hr] at h
          simp only [Except.error.injEq] at h
          exact h.symm
        | some token =>
          rw [hr] at h
          simp only at h
          by_cases hty : token.type ≠ (if c = '}' then jsmntype_t.JSMN_OBJECT
              else jsmntype_t.JSMN_ARRAY)
          · rw [if_pos hty] at h
            cases h
          · rw [if_neg hty] at h
            cases hw : tok_write toks i
                { token with end_ := int_of_uint (uint_succ p.pos) } with
            | none =>
              rw [hw] at h
              simp only [Except.error.injEq] at h
              exact h.symm
            | some toks1 =>
              rw [hw] at h
              simp only at h
              cases hs2 : scan_down_from toks1 tok_open i with
              | none =>
                rw [hs2] at h
                simp only [Except.error.injEq] at h
                exact h.symm
              | some j =>
                rw [hs2] at h
                cases h
      · rw [if_neg hi0] at h
        by_cases him : i = -1
        · rw [if_pos him] at h; cases h
        · rw [if_neg him] at h; cases h

theorem jsmn_case_comma_err {p : jsmn_parser_t}
    {tokens : Option (List jsmntok_t)} {count : Int} {e : JErr}
    (h : jsmn_case_comma p tokens count = Except.error e) : e = JErr.fault := by
  unfold jsmn_case_comma at h
  cases tokens with
  | none => cases h
  | some toks =>
    simp only at h
    split at h
    · split at h
      · simp only [Except.error.injEq] at h
        exact h.symm
      · split at h
        · split at h
          · simp only [Except.error.injEq] at h
            exact h.symm
          · cases h
        · cases h
    · cases h

theorem jsmn_after_value_err {res : jsmn_parser_t × Option (List jsmntok_t) × Int}
    {count : Int} {e : JErr}
    (h : jsmn_after_value res count = Except.error e) : e = JErr.fault := by
  unfold jsmn_after_value at h
  split at h
  · cases h
  · split at h
    · simp only [Except.error.injEq] at h
      exact h.symm
    · cases h

theorem jsmn_finish_ret {p : jsmn_parser_t} {tokens : Option (List jsmntok_t)}
    {count : Int} :
    (∀ e, jsmn_finish p tokens count = Except.error e → e = JErr.fault)
    ∧ (∀ res, jsmn_finish p tokens count = Except.ok res → ∃ r, res = JStep.ret p tokens r) := by
  unfold jsmn_finish
  cases tokens with
  | none =>
    simp only
    exact ⟨fun e h => (by cases h), fun res h => by cases h; exact ⟨_, rfl⟩⟩
  | some toks =>
    simp only
    cases scan_down_from toks tok_open (int_of_uint (uint_pred p.toknext)) with
    | none =>
      simp only
      refine ⟨fun e h => ?_, fun res h => by cases h⟩
      simp only [Except.error.injEq] at h
      exact h.symm
    | some i =>
      simp only
      split_ifs
      · exact ⟨fun e h => (by cases h), fun res h => by cases h; exact ⟨_, rfl⟩⟩
      · exact ⟨fun e h => (by cases h), fun res h => by cases h; exact ⟨_, rfl⟩⟩

theorem jsmn_switch_err {fuel : Nat} {js : List Char} {len n : Nat} {c : Char}
    {p : jsmn_parser_t} {tokens : Option (List jsmntok_t)} {count : Int} {e : JErr}
    (h : jsmn_switch fuel js len n c p tokens count = Except.error e) :
    e = JErr.fault ∨ string_scan js len fuel (uint_succ p.pos) = Except.error e
      ∨ primitive_scan js len fuel p.pos = Except.error e := by
  unfold jsmn_switch at h
  by_cases h1 : c = '{' ∨ c = '['
  · rw [if_pos h1] at h
    exact Or.inl (jsmn_case_open_err h)
  · rw [if_neg h1] at h
    by_cases h2 : c = '}' ∨ c = ']'
    · rw [if_pos h2] at h
      exact Or.inl (jsmn_case_close_err h)
    · rw [if_neg h2] at h
      by_cases h3 : c = '\"'
      · rw [if_pos h3] at h
        cases hp : jsmn_parse_string fuel p js len tokens n with
        | error e1 =>
          rw [hp] at h
          simp only [Except.error.injEq] at h
          subst h
          rcases jsmn_parse_string_err hp with g | g
          · exact Or.inl g
          · exact Or.inr (Or.inl g)
        | ok v =>
          rw [hp] at h
          exact Or.inl (jsmn_after_value_err h)
      · rw [if_neg h3] at h
        by_cases h4 : c = '\t' ∨ c = '\r' ∨ c = '\n' ∨ c = ' '
        · rw [if_pos h4] at h; cases h
        · rw [if_neg h4] at h
          by_cases h5 : c = ':'
          · rw [if_pos h5] at h; cases h
          · rw [if_neg h5] at h
            by_cases h6 : c = ','
            · rw [if_pos h6] at h
              exact Or.inl (jsmn_case_comma_err h)
            · rw [if_neg h6] at h
              cases hp : jsmn_parse_primitive fuel p js len tokens n with
              | error e1 =>
                rw [hp] at h
                simp only [Except.error.injEq] at h
                subst h
                rcases jsmn_parse_primitive_err hp with g | g
                · exact Or.inl g
                · exact Or.inr (Or.inr g)
              | ok v =>
                rw [hp] at h
                exact Or.inl (jsmn_after_value_err h)

theorem jsmn_after_value_next {pa : jsmn_parser_t} {ta : Option (List jsmntok_t)}
    {r count : Int} {p1 : jsmn_parser_t} {t1 : Option (List jsmntok_t)} {c1 : Int}
    (h : jsmn_after_value (pa, ta, r) count = Except.ok (JStep.next p1 t1 c1)) :
    ¬ r < 0 ∧ p1 = pa := by
  unfold jsmn_after_value at h
  simp only at h
  by_cases hr : r < 0
  · rw [if_pos hr] at h; cases h
  · rw [if_neg hr] at h
    refine ⟨hr, ?_⟩
    cases hp : parent_size_incr pa ta with
    | none => rw [hp] at h; cases h
    | some t2 =>
      rw [hp] at h
      simp only [Except.ok.injEq, JStep.next.injEq] at h
      exact h.1.symm

theorem jsmn_parse_string_none_pos {fuel : Nat} {p : jsmn_parser_t} {js : List Char}
    {len n : Nat} {p1 : jsmn_parser_t} {t1 : Option (List jsmntok_t)} {r : Int}
    (h : jsmn_parse_string fuel p js len none n = Except.ok (p1, t1, r)) (hr : ¬ r < 0) :
    string_scan js len fuel (uint_succ p.pos) = Except.ok (JScan.found p1.pos) := by
  unfold jsmn_parse_string at h
  simp only at h
  cases hs : string_scan js len fuel (uint_succ p.pos) with
  | error e => rw [hs] at h; cases h
  | ok sr =>
    rw [hs] at h
    cases sr with
    | error code =>
      simp only [Except.ok.injEq, Prod.mk.injEq] at h
      obtain ⟨_, _, h3⟩ := h
      subst h3
      exact absurd (string_scan_error_neg js len _ _ _ hs) hr
    | found pos =>
      simp only [Except.ok.injEq, Prod.mk.injEq] at h
      obtain ⟨h1, _, _⟩ := h
      subst h1
      rfl

theorem jsmn_parse_primitive_none_pos {fuel : Nat} {p : jsmn_parser_t} {js : List Char}
    {len n : Nat} {p1 : jsmn_parser_t} {t1 : Option (List jsmntok_t)} {r : Int}
    (h : jsmn_parse_primitive fuel p js len none n = Except.ok (p1, t1, r)) (hr : ¬ r < 0) :
    ∃ q, primitive_scan js len fuel p.pos = Except.ok (JScan.found q) ∧ p1.pos = uint_pred q := by
  unfold jsmn_parse_primitive at h
  simp only at h
  cases hs : primitive_scan js len fuel p.pos with
  | error e => rw [hs] at h; cases h
  | ok sr =>
    rw [hs] at h
    cases sr with
    | error code =>
      simp only [Except.ok.injEq, Prod.mk.injEq] at h
      obtain ⟨_, _, h3⟩ := h
      subst h3
      exact absurd (primitive_scan_error_neg js len _ _ _ hs) hr
    | found pos =>
      simp only [Except.ok.injEq, Prod.mk.injEq] at h
      obtain ⟨h1, _, _⟩ := h
      subst h1
      exact ⟨pos, rfl, rfl⟩

/-- Where one `switch` in counting mode leaves `pos`: unchanged, or at the closing quote of a
string, or on the last character of a primitive. -/
theorem jsmn_switch_none_pos {fuel : Nat} {js : List Char} {len n : Nat} {c : Char}
    {p : jsmn_parser_t} {count : Int} {p1 : jsmn_parser_t} {t1 : Option (List jsmntok_t)}
    {c1 : Int}
    (h : jsmn_switch fuel js len n c p none count = Except.ok (JStep.next p1 t1 c1)) :
    p1.pos = p.pos
    ∨ string_scan js len fuel (uint_succ p.pos) = Except.ok (JScan.found p1.pos)
    ∨ (¬ (c = ':' ∨ c = '\t' ∨ c = '\r' ∨ c = '\n' ∨ c = ' ' ∨ c = ',' ∨ c = ']' ∨ c = '}')
        ∧ ∃ q, primitive_scan js len fuel p.pos = Except.ok (JScan.found q)
            ∧ p1.pos = uint_pred q) := by
  unfold jsmn_switch at h
  by_cases h1 : c = '{' ∨ c = '['
  · rw [if_pos h1] at h
    simp only [jsmn_case_open, Except.ok.injEq, JStep.next.injEq] at h
    left; rw [← h.1]
  · rw [if_neg h1] at h
    by_cases h2 : c = '}' ∨ c = ']'
    · rw [if_pos h2] at h
      simp only [jsmn_case_close, Except.ok.injEq, JStep.next.injEq] at h
      left; rw [← h.1]
    · rw [if_neg h2] at h
      by_cases h3 : c = '\"'
      · rw [if_pos h3] at h
        cases hp : jsmn_parse_string fuel p js len none n with
        | error e => rw [hp] at h; cases h
        | ok v =>
          rw [hp] at h
          obtain ⟨pa, ta, r⟩ := v
          obtain ⟨hr, e1⟩ := jsmn_after_value_next h
          subst e1
          exact Or.inr (Or.inl (jsmn_parse_string_none_pos hp hr))
      · rw [if_neg h3] at h
        by_cases h4 : c = '\t' ∨ c = '\r' ∨ c = '\n' ∨ c = ' '
        · rw [if_pos h4] at h
          simp only [Except.ok.injEq, JStep.next.injEq] at h
          left; rw [← h.1]
        · rw [if_neg h4] at h
          by_cases h5 : c = ':'
          · rw [if_pos h5] at h
            simp only [Except.ok.injEq, JStep.next.injEq] at h
            left; rw [← h.1]
          · rw [if_neg h5] at h
            by_cases h6 : c = ','
            · rw [if_pos h6] at h
              simp only [jsmn_case_comma, Except.ok.injEq, JStep.next.injEq] at h
              left; rw [← h.1]
            · rw [if_neg h6] at h
              cases hp : jsmn_parse_primitive fuel p js len none n with
              | error e => rw [hp] at h; cases h
              | ok v =>
                rw [hp] at h
                obtain ⟨pa, ta, r⟩ := v
                obtain ⟨hr, e1⟩ := jsmn_after_value_next h
                subst e1
                refine Or.inr (Or.inr ⟨?_, jsmn_parse_primitive_none_pos hp hr⟩)
                intro hd
                rcases hd with g | g | g | g | g | g | g | g
                · exact h5 g
                · exact h4 (Or.inl g)
                · exact h4 (Or.inr (Or.inl g))
                · exact h4 (Or.inr (Or.inr (Or.inl g)))
                · exact h4 (Or.inr (Or.inr (Or.inr g)))
                · exact h6 g
                · exact h2 (Or.inr g)
                · exact h2 (Or.inl g)

/-- The same in either mode. -/
theorem jsmn_switch_pos {fuel : Nat} {js : List Char} {len n : Nat} {c : Char}
    {p : jsmn_parser_t} {tokens : Option (List jsmntok_t)} {count : Int}
    {p1 : jsmn_parser_t} {t1 : Option (List jsmntok_t)} {c1 : Int}
    (h : jsmn_switch fuel js len n c p tokens count = Except.ok (JStep.next p1 t1 c1)) :
    p1.pos = p.pos
    ∨ string_scan js len fuel (uint_succ p.pos) = Except.ok (JScan.found p1.pos)
    ∨ (¬ (c = ':' ∨ c = '\t' ∨ c = '\r' ∨ c = '\n' ∨ c = ' ' ∨ c = ',' ∨ c = ']' ∨ c = '}')
        ∧ ∃ q, primitive_scan js len fuel p.pos = Except.ok (JScan.found q)
            ∧ p1.pos = uint_pred q) := by
  cases tokens with
  | none => exact jsmn_switch_none_pos h
  | some toks =>
    obtain ⟨a1, _⟩ := jsmn_switch_fill h
    obtain ⟨q1, hq1, hq2⟩ := (a1 p1 t1 c1 rfl).2 p n rfl
    rw [← hq2]
    exact jsmn_switch_none_pos hq1

theorem primitive_scan_progress {js : List Char} {len : Nat} (hlen : len ≤ js.length)
    (hl : len < 2 ^ 32) {fuel pos : Nat} {c : Char} (hlt : pos < len)
    (hc : js[pos]? = some c) (hnul : c ≠ NUL)
    (hd : ¬ (c = ':' ∨ c = '\t' ∨ c = '\r' ∨ c = '\n' ∨ c = ' ' ∨ c = ',' ∨ c = ']' ∨ c = '}'))
    (hf : len - pos < fuel) {q : Nat}
    (h : primitive_scan js len fuel pos = Except.ok (JScan.found q)) :
    pos < q ∧ q ≤ len := by
  obtain ⟨f, rfl⟩ : ∃ f, fuel = f + 1 := ⟨fuel - 1, by omega⟩
  unfold primitive_scan at h
  rw [if_pos hlt, hc] at h
  simp only at h
  rw [if_neg hnul, if_neg hd] at h
  by_cases hbad : c.toNat < 32 ∨ c.toNat ≥ 127
  · rw [if_pos hbad] at h; cases h
  · rw [if_neg hbad, uint_succ_of_lt hlt hl] at h
    obtain ⟨r, e1, e2⟩ := primitive_scan_returns hlen hl f (pos + 1) (by omega) (by omega)
    rw [e1] at h
    simp only [Except.ok.injEq] at h
    obtain ⟨g1, g2⟩ := e2 q h
    exact ⟨by omega, g2⟩

/-- With enough fuel one round of the main loop has a result, and a round that goes on has
moved `pos` forward, at most to `len`. -/
theorem jsmn_step_returns {fuel : Nat} {js : List Char} {len n : Nat}
    {p : jsmn_parser_t} {tokens : Option (List jsmntok_t)} {count : Int}
    (hlen : len ≤ js.length) (hl : len < 2 ^ 32) (hn : n < 2 ^ 31)
    (hinv : jsmn_inv n p) (harr : jsmn_array n tokens)
    (hpos : p.pos ≤ len) (hf : len - p.pos < fuel) :
    ∃ res, jsmn_step fuel js len n p tokens count = Except.ok res
      ∧ ∀ p1 t1 c1, res = JStep.next p1 t1 c1 → p.pos < p1.pos ∧ p1.pos ≤ len := by
  have hfin : ∃ res, jsmn_finish p tokens count = Except.ok res
      ∧ ∀ p1 t1 c1, res = JStep.next p1 t1 c1 → p.pos < p1.pos ∧ p1.pos ≤ len := by
    obtain ⟨f1, f2⟩ := @jsmn_finish_ret p tokens count
    cases hfi : jsmn_finish p tokens count with
    | error e =>
      have := f1 e hfi
      subst this
      exact absurd hfi (jsmn_finish_no_fault hn hinv harr)
    | ok res =>
      obtain ⟨r, hr⟩ := f2 res hfi
      subst hr
      exact ⟨_, rfl, fun p1 t1 c1 h => by cases h⟩
  unfold jsmn_step
  by_cases hlt : p.pos < len
  · rw [if_pos hlt]
    obtain ⟨c, hc⟩ := js_read hlen hlt
    rw [hc]
    simp only
    by_cases hnul : c = NUL
    · rw [if_pos hnul]
      exact hfin
    · rw [if_neg hnul]
      have hs1 := uint_succ_of_lt hlt hl
      obtain ⟨rs, es1, es2⟩ := string_scan_returns hlen hl fuel (uint_succ p.pos)
        (by rw [hs1]; omega) (by rw [hs1]; omega)
      obtain ⟨rp, ep1, ep2⟩ := primitive_scan_returns hlen hl fuel p.pos hpos hf
      cases hsw : jsmn_switch fuel js len n c p tokens count with
      | error e =>
        rcases jsmn_switch_err hsw with g | g | g
        · subst g
          exact absurd hsw (jsmn_switch_no_fault hlen hn hinv harr)
        · rw [es1] at g; cases g
        · rw [ep1] at g; cases g
      | ok sres =>
        cases sres with
        | ret p1 t1 r =>
          simp only
          exact ⟨_, rfl, fun p2 t2 c2 h => by cases h⟩
        | next p1 t1 c1 =>
          simp only
          refine ⟨_, rfl, fun p2 t2 c2 h => ?_⟩
          simp only [JStep.next.injEq] at h
          obtain ⟨h1, _, _⟩ := h
          subst h1
          simp only
          rcases jsmn_switch_pos hsw with g | g | ⟨gd, q, g1, g2⟩
          · rw [g, hs1]; omega
          · rw [es1] at g
            simp only [Except.ok.injEq] at g
            obtain ⟨b1, b2⟩ := es2 p1.pos g
            rw [hs1] at b1
            rw [uint_succ_of_lt b2 hl]
            omega
          · obtain ⟨b1, b2⟩ := primitive_scan_progress hlen hl hlt hc hnul gd hf g1
            have hq : uint_succ (uint_pred q) = q := by
              unfold uint_succ uint_pred
              split_ifs <;> omega
            rw [g2, hq]
            exact ⟨b1, b2⟩
  · rw [if_neg hlt]
    exact hfin

/-- With enough rounds and fuel the main loop of `jsmn_parse` returns. -/
theorem jsmn_run_returns {fuel : Nat} {js : List Char} {len n : Nat}
    (hlen : len ≤ js.length) (hl : len < 2 ^ 32) (hn : n < 2 ^ 31) :
    ∀ (k : Nat) (p : jsmn_parser_t) (tokens : Option (List jsmntok_t)) (count : Int),
      jsmn_inv n p → jsmn_array n tokens → p.pos ≤ len → len - p.pos < k →
      len - p.pos < fuel →
      ∃ p1 t1 r, jsmn_run fuel js len n k p tokens count = Except.ok (JStep.ret p1 t1 r) := by
  intro k
  induction k with
  | zero => intro p tokens count _ _ _ h _; omega
  | succ k ih =>
    intro p tokens count hinv harr hpos hk hf
    obtain ⟨res, hres, hnext⟩ := @jsmn_step_returns fuel js len n p tokens count hlen hl hn
      hinv harr hpos hf
    obtain ⟨_, hsafe⟩ := @jsmn_step_safe fuel js len n p tokens count hlen hn hinv harr
    obtain ⟨s1, _⟩ := hsafe res hres
    unfold jsmn_run
    rw [hres]
    cases res with
    | ret p1 t1 r => exact ⟨p1, t1, r, rfl⟩
    | next p1 t1 c1 =>
      simp only
      obtain ⟨g1, g2⟩ := hnext p1 t1 c1 rfl
      obtain ⟨i1, i2⟩ := s1 p1 t1 c1 rfl
      exact ih p1 t1 c1 i1 i2 g2 (by omega) (by omega)

/-- For every input of `len` bytes (with `len` in the range of `pos`) and every token array
of `n < 2 ^ 31` entries (or `tokens = NULL`), `jsmn_parse` on a freshly initialised parser
returns once `fuel` exceeds `len`. -/
theorem jsmn_parse_returns (fuel : Nat) (js : List Char) (len n : Nat)
    (tokens : Option (List jsmntok_t)) (hlen : len ≤ js.length) (hl : len < 2 ^ 32)
    (hn : n < 2 ^ 31) (harr : jsmn_array n tokens) (hf : len < fuel) :
    ∃ p t r, jsmn_parse fuel jsmn_init js len tokens n = Except.ok (p, t, r) := by
  obtain ⟨p1, t1, r, h⟩ := @jsmn_run_returns fuel js len n hlen hl hn fuel jsmn_init tokens
    (int_of_uint jsmn_init.toknext) ⟨Nat.zero_le n, Or.inl rfl⟩ harr (Nat.zero_le len)
    (by show len - 0 < fuel; omega) (by show len - 0 < fuel; omega)
  refine ⟨p1, t1, r, ?_⟩
  unfold jsmn_parse
  rw [h]

/-! ### jsmn.c: a run on more than `2 ^ 31` opening brackets -/

theorem bracket_state_zero : bracket_state 0 = jsmn_init := by
  unfold bracket_state jsmn_init uint_pred int_of_uint
  rw [if_pos rfl, if_neg (by norm_num)]
  norm_num

theorem bracket_toksuper {j : Nat} (h0 : 0 < j) (hj : j ≤ 2 ^ 31) :
    int_of_uint (uint_pred j) = (j : Int) - 1 ∧ int_of_uint (uint_pred j) ≠ -1 := by
  rw [int_of_uint_pred hj]
  exact ⟨rfl, by omega⟩

theorem bracket_toksuper_overflow :
    int_of_uint (uint_pred (2 ^ 31 + 1)) = -2 ^ 31 := by
  unfold uint_pred int_of_uint
  rw [if_neg (by norm_num), if_neg (by norm_num)]
  norm_num

theorem jsmn_case_open_bracket {n j : Nat} {toks : List jsmntok_t} {count : Int}
    (hjn : j < n) (hlen : toks.length = n) (hj : j ≤ 2 ^ 31) :
    ∃ toks1, toks1.length = n ∧
      jsmn_case_open n '[' (bracket_state j) (some toks) count
        = Except.ok (JStep.next
            { pos := j, toknext := uint_succ j, toksuper := int_of_uint (uint_pred (uint_succ j)) }
            (some toks1) (wrap_int (count + 1))) := by
  have hget : toks[j]? = some (toks.get ⟨j, by omega⟩) := List.getElem?_eq_getElem (by omega)
  unfold jsmn_case_open jsmn_alloc_token
  simp only [bracket_state]
  rw [if_neg (by omega), hget]
  simp only
  by_cases h0 : j = 0
  · subst h0
    have e : int_of_uint (uint_pred 0) = -1 := by
      unfold uint_pred int_of_uint
      rw [if_pos rfl, if_neg (by norm_num)]
      norm_num
    rw [e, if_neg (by simp)]
    simp only
    rw [List.getElem?_eq_getElem (by rw [List.length_set]; omega)]
    exact ⟨_, by rw [List.length_set, List.length_set]; exact hlen, rfl⟩
  · obtain ⟨e1, e2⟩ := bracket_toksuper (Nat.pos_of_ne_zero h0) hj
    rw [if_pos e2]
    obtain ⟨toks2, h2⟩ := @tok_size_incr_some
      (toks.set j { toks.get ⟨j, by omega⟩ with start := -1, end_ := -1, size := 0 })
      (int_of_uint (uint_pred j)) (by omega) (by rw [List.length_set]; omega)
    have l2 := tok_size_incr_length h2
    rw [List.length_set] at l2
    rw [h2]
    simp only
    rw [List.getElem?_eq_getElem (by omega)]
    exact ⟨_, by rw [List.length_set]; omega, rfl⟩

theorem jsmn_step_open_bracket {fuel : Nat} {js : List Char} {len n j : Nat}
    {toks : List jsmntok_t} {count : Int}
    (hjl : j < len) (hc : js[j]? = some '[') (hjn : j < n) (hlen : toks.length = n)
    (hj : j ≤ 2 ^ 31) :
    ∃ toks1, toks1.length = n ∧
      jsmn_step fuel js len n (bracket_state j) (some toks) count
        = Except.ok (JStep.next (bracket_state (j + 1)) (some toks1) (wrap_int (count + 1))) := by
  obtain ⟨toks1, l1, h1⟩ := @jsmn_case_open_bracket n j toks count hjn hlen hj
  have hs : uint_succ j = j + 1 := by
    unfold uint_succ
    rw [if_neg (by omega)]
  rw [hs] at h1
  refine ⟨toks1, l1, ?_⟩
  unfold jsmn_step
  have hp : (bracket_state j).pos = j := rfl
  rw [hp, if_pos hjl, hc]
  simp only
  rw [if_neg (by decide)]
  unfold jsmn_switch
  rw [if_pos (Or.inr rfl), h1]
  simp only
  rw [hs]
  rfl

theorem jsmn_step_open_bracket_fault {fuel : Nat} {js : List Char} {len n : Nat}
    {toks : List jsmntok_t} {count : Int}
    (hjl : 2 ^ 31 + 1 < len) (hc : js[2 ^ 31 + 1]? = some '[') (hjn : 2 ^ 31 + 1 < n)
    (hlen : toks.length = n) :
    jsmn_step fuel js len n (bracket_state (2 ^ 31 + 1)) (some toks) count
      = Except.error JErr.fault := by
  have hget : toks[2 ^ 31 + 1]? = some (toks.get ⟨2 ^ 31 + 1, by omega⟩) :=
    List.getElem?_eq_getElem (by omega)
  unfold jsmn_step
  have hp : (bracket_state (2 ^ 31 + 1)).pos = 2 ^ 31 + 1 := rfl
  rw [hp, if_pos hjl, hc]
  simp only
  rw [if_neg (by decide)]
  unfold jsmn_switch
  rw [if_pos (Or.inr rfl)]
  unfold jsmn_case_open jsmn_alloc_token
  simp only [bracket_state]
  rw [if_neg (by omega), hget]
  simp only
  rw [bracket_toksuper_overflow, if_pos (by norm_num)]
  have hr : ∀ l : List jsmntok_t, tok_size_incr l (-2 ^ 31) = none := by
    intro l
    unfold tok_size_incr tok_read
    rw [if_neg (by norm_num)]
  rw [hr]

theorem jsmn_run_open_brackets {fuel : Nat} {js : List Char} {len n : Nat}
    (hl : 2 ^ 31 + 1 < len) (hn : 2 ^ 31 + 1 < n)
    (hjs : ∀ i, i ≤ 2 ^ 31 + 1 → js[i]? = some '[') :
    ∀ (k j : Nat) (toks : List jsmntok_t) (count : Int), j + k ≤ 2 ^ 31 + 1 → toks.length = n →
      ∃ toks1 c1, toks1.length = n ∧
        jsmn_run fuel js len n k (bracket_state j) (some toks) count
          = Except.ok (JStep.next (bracket_state (j + k)) (some toks1) c1) := by
  intro k
  induction k with
  | zero => intro j toks count _ hlen; exact ⟨toks, count, hlen, rfl⟩
  | succ k ih =>
    intro j toks count hjk hlen
    obtain ⟨toks1, l1, h1⟩ := @jsmn_step_open_bracket fuel js len n j toks count (by omega)
      (hjs j (by omega)) (by omega) hlen (by omega)
    obtain ⟨toks2, c2, l2, h2⟩ := ih (j + 1) toks1 (wrap_int (count + 1)) (by omega) l1
    refine ⟨toks2, c2, l2, ?_⟩
    unfold jsmn_run
    rw [h1]
    simp only
    rw [h2]
    congr 3
    omega

theorem jsmn_run_open_brackets_fault {fuel : Nat} {js : List Char} {len n : Nat}
    (hl : 2 ^ 31 + 1 < len) (hn : 2 ^ 31 + 1 < n)
    (hjs : ∀ i, i ≤ 2 ^ 31 + 1 → js[i]? = some '[') :
    ∀ (k j : Nat) (toks : List jsmntok_t) (count : Int), j ≤ 2 ^ 31 + 1 → 2 ^ 31 + 2 ≤ j + k →
      toks.length = n →
      jsmn_run fuel js len n k (bracket_state j) (some toks) count = Except.error JErr.fault := by
  intro k
  induction k with
  | zero => intro j toks count h1 h2 _; omega
  | succ k ih =>
    intro j toks count hj hjk hlen
    by_cases he : j = 2 ^ 31 + 1
    · subst he
      unfold jsmn_run
      rw [jsmn_step_open_bracket_fault hl (hjs _ (le_refl _)) hn hlen]
    · obtain ⟨toks1, l1, h1⟩ := @jsmn_step_open_bracket fuel js len n j toks count (by omega)
        (hjs j (by omega)) (by omega) hlen (by omega)
      unfold jsmn_run
      rw [h1]
      simp only
      exact ih (j + 1) toks1 _ (by omega) (by omega) l1

theorem jsmn_parse_open_brackets_fault {fuel : Nat} {js : List Char} {len n : Nat}
    {toks : List jsmntok_t}
    (hl : 2 ^ 31 + 1 < len) (hn : 2 ^ 31 + 1 < n)
    (hjs : ∀ i, i ≤ 2 ^ 31 + 1 → js[i]? = some '[') (hlen : toks.length = n)
    (hf : 2 ^ 31 + 2 ≤ fuel) :
    jsmn_parse fuel jsmn_init js len (some toks) n = Except.error JErr.fault := by
  unfold jsmn_parse
  rw [← bracket_state_zero,
    jsmn_run_open_brackets_fault hl hn hjs fuel 0 toks _ (by omega) (by omega) hlen]

theorem open_brackets_get (m i : Nat) (h : i < m) : (open_brackets m)[i]? = some '[' := by
  unfold open_brackets
  rw [List.getElem?_replicate, if_pos h]

theorem blank_tokens_length (m : Nat) : (blank_tokens m).length = m := by
  unfold blank_tokens
  exact List.length_replicate _ _

theorem jsmn_inv_overflow : ¬ jsmn_inv (2 ^ 31 + 2) ⟨2 ^ 31 + 1, 2 ^ 31 + 1, -2 ^ 31⟩ := by
  unfold jsmn_inv
  rintro ⟨-, h | ⟨h, -⟩⟩
  · exact absurd h (by norm_num)
  · exact absurd h (by norm_num)

theorem jsmn_run_open_brackets_overflow (fuel : Nat) :
    ∃ t c, jsmn_run fuel (open_brackets (2 ^ 31 + 2)) (2 ^ 31 + 2) (2 ^ 31 + 2) (2 ^ 31 + 1)
        jsmn_init (some (blank_tokens (2 ^ 31 + 2))) (int_of_uint jsmn_init.toknext)
      = Except.ok (JStep.next ⟨2 ^ 31 + 1, 2 ^ 31 + 1, -2 ^ 31⟩ (some t) c) := by
  rw [← bracket_state_zero]
  obtain ⟨t, c, -, h⟩ := @jsmn_run_open_brackets fuel (open_brackets (2 ^ 31 + 2))
    (2 ^ 31 + 2) (2 ^ 31 + 2) (by omega) (by omega)
    (fun i hi => open_brackets_get _ i (by omega)) (2 ^ 31 + 1) 0
    (blank_tokens (2 ^ 31 + 2)) (int_of_uint (bracket_state 0).toknext) (by omega)
    (blank_tokens_length _)
  refine ⟨t, c, ?_⟩
  rw [h]
  have e : bracket_state (0 + (2 ^ 31 + 1)) = ⟨2 ^ 31 + 1, 2 ^ 31 + 1, -2 ^ 31⟩ := by
    rw [Nat.zero_add]
    unfold bracket_state
    rw [bracket_toksuper_overflow]
  rw [e]

/-- C40: on a freshly initialised parser, for every input of `len` bytes and every token array
of `n` entries (or `tokens = NULL`) with `n` below `2 ^ 31`, no round of `jsmn_parse` makes an
access outside the input or the token array, and after any number `k` of rounds of the main
loop, as on return, `toknext` is at most `n` and `toksuper` is `-1` or an index below `toknext`;
the array keeps its `n` entries, and when `len` is in the range of `pos` and `fuel` exceeds
`len`, the call returns.  For larger arrays the bound fails: on an input of `2 ^ 31 + 2` opening
brackets with an array of `2 ^ 31 + 2` tokens, after `2 ^ 31 + 1` rounds `toknext` is
`2 ^ 31 + 1` and `toksuper`, the `int` that `toknext - 1` converts to, is `-2 ^ 31`, neither `-1`
nor an index; the next round reads `tokens[toksuper]` outside the array. -/
theorem C40_token_indices_in_bounds_below_int_max (fuel : Nat) (js : List Char) (len n : Nat)
    (tokens : Option (List jsmntok_t)) (k : Nat)
    (hlen : len ≤ js.length) (hn : n < 2 ^ 31) (harr : jsmn_array n tokens) :
    jsmn_run fuel js len n k jsmn_init tokens (int_of_uint jsmn_init.toknext)
        ≠ Except.error JErr.fault
    ∧ (∀ p t c, jsmn_run fuel js len n k jsmn_init tokens (int_of_uint jsmn_init.toknext)
          = Except.ok (JStep.next p t c) → jsmn_inv n p ∧ jsmn_array n t)
    ∧ (∀ p t r, jsmn_run fuel js len n k jsmn_init tokens (int_of_uint jsmn_init.toknext)
          = Except.ok (JStep.ret p t r) → jsmn_inv n p ∧ jsmn_array n t)
    ∧ jsmn_parse fuel jsmn_init js len tokens n ≠ Except.error JErr.fault
    ∧ (∀ p t r, jsmn_parse fuel jsmn_init js len tokens n = Except.ok (p, t, r) →
          jsmn_inv n p ∧ jsmn_array n t)
    ∧ (len < 2 ^ 32 → len < fuel →
          ∃ p t r, jsmn_parse fuel jsmn_init js len tokens n = Except.ok (p, t, r))
    ∧ (∃ t c, jsmn_run fuel (open_brackets (2 ^ 31 + 2)) (2 ^ 31 + 2) (2 ^ 31 + 2) (2 ^ 31 + 1)
          jsmn_init (some (blank_tokens (2 ^ 31 + 2))) (int_of_uint jsmn_init.toknext)
        = Except.ok (JStep.next ⟨2 ^ 31 + 1, 2 ^ 31 + 1, -2 ^ 31⟩ (some t) c))
    ∧ ¬ jsmn_inv (2 ^ 31 + 2) ⟨2 ^ 31 + 1, 2 ^ 31 + 1, -2 ^ 31⟩
    ∧ jsmn_run fuel (open_brackets (2 ^ 31 + 2)) (2 ^ 31 + 2) (2 ^ 31 + 2) (2 ^ 31 + 2)
          jsmn_init (some (blank_tokens (2 ^ 31 + 2))) (int_of_uint jsmn_init.toknext)
        = Except.error JErr.fault
    ∧ (2 ^ 31 + 2 ≤ fuel →
        jsmn_parse fuel jsmn_init (open_brackets (2 ^ 31 + 2)) (2 ^ 31 + 2)
          (some (blank_tokens (2 ^ 31 + 2))) (2 ^ 31 + 2) = Except.error JErr.fault) := by
  have hinit : jsmn_inv n jsmn_init := ⟨Nat.zero_le n, Or.inl rfl⟩
  obtain ⟨a1, a2, a3⟩ := @jsmn_run_safe fuel js len n hlen hn k jsmn_init tokens
    (int_of_uint jsmn_init.toknext) hinit harr
  obtain ⟨b1, _, b3⟩ := @jsmn_run_safe fuel js len n hlen hn fuel jsmn_init tokens
    (int_of_uint jsmn_init.toknext) hinit harr
  have hb : ∀ i, i ≤ 2 ^ 31 + 1 → (open_brackets (2 ^ 31 + 2))[i]? = some '[' :=
    fun i hi => open_brackets_get _ i (by omega)
  refine ⟨a1, a2, a3, ?_, ?_,
    fun hl hf => jsmn_parse_returns fuel js len n tokens hlen hl hn harr hf,
    jsmn_run_open_brackets_overflow fuel, jsmn_inv_overflow, ?_,
    fun hf => jsmn_parse_open_brackets_fault (by omega) (by omega) hb (blank_tokens_length _) hf⟩
  · unfold jsmn_parse
    cases hrun : jsmn_run fuel js len n fuel jsmn_init tokens
        (int_of_uint jsmn_init.toknext) with
    | error e =>
      simp only
      intro h
      simp only [Except.error.injEq] at h
      subst h
      exact b1 hrun
    | ok sres =>
      cases sres with
      | next p1 t1 c1 => simp only; intro h; cases h
      | ret p1 t1 r1 => simp only; intro h; cases h
  · intro p t r h
    unfold jsmn_parse at h
    cases hrun : jsmn_run fuel js len n fuel jsmn_init tokens
        (int_of_uint jsmn_init.toknext) with
    | error e => rw [hrun] at h; cases h
    | ok sres =>
      rw [hrun] at h
      cases sres with
      | next p1 t1 c1 => cases h
      | ret p1 t1 r1 =>
        simp only [Except.ok.injEq, Prod.mk.injEq] at h
        obtain ⟨e1, e2, _⟩ := h
        subst e1 e2
        exact b3 p1 t1 r1 hrun
  · rw [← bracket_state_zero]
    exact jsmn_run_open_brackets_fault (by omega) (by omega) hb (2 ^ 31 + 2) 0 _ _ (by omega)
      (by omega) (blank_tokens_length _)

/-- Witness for C40: the sample text with an array of five tokens, after four rounds and on
return. -/
theorem C40_token_indices_in_bounds_below_int_max_witness :
    jsmn_run 12 sampleJson 11 5 4 jsmn_init (some (blank_tokens 5))
        (int_of_uint jsmn_init.toknext) ≠ Except.error JErr.fault
    ∧ (∀ p t c, jsmn_run 12 sampleJson 11 5 4 jsmn_init (some (blank_tokens 5))
          (int_of_uint jsmn_init.toknext) = Except.ok (JStep.next p t c) →
          jsmn_inv 5 p ∧ jsmn_array 5 t)
    ∧ (∀ p t r, jsmn_run 12 sampleJson 11 5 4 jsmn_init (some (blank_tokens 5))
          (int_of_uint jsmn_init.toknext) = Except.ok (JStep.ret p t r) →
          jsmn_inv 5 p ∧ jsmn_array 5 t)
    ∧ jsmn_parse 12 jsmn_init sampleJson 11 (some (blank_tokens 5)) 5
        ≠ Except.error JErr.fault
    ∧ (∀ p t r, jsmn_parse 12 jsmn_init sampleJson 11 (some (blank_tokens 5)) 5
          = Except.ok (p, t, r) → jsmn_inv 5 p ∧ jsmn_array 5 t)
    ∧ (11 < 2 ^ 32 → 11 < 12 →
          ∃ p t r, jsmn_parse 12 jsmn_init sampleJson 11 (some (blank_tokens 5)) 5
            = Except.ok (p, t, r)) :=
  have h := C40_token_indices_in_bounds_below_int_max 12 sampleJson 11 5
    (some (blank_tokens 5)) 4 (by decide) (by decide) (fun toks h => by cases h; rfl)
  ⟨h.1, h.2.1, h.2.2.1, h.2.2.2.1, h.2.2.2.2.1, h.2.2.2.2.2.1⟩

/-! ### jsmn.c: the 32-bit helpers agree with arithmetic modulo `2 ^ 32` -/

theorem uint_succ_eq_mod (u : Nat) (h : u < 2 ^ 32) : uint_succ u = (u + 1) % 2 ^ 32 := by
  unfold uint_succ
  split_ifs <;> omega

theorem uint_pred_eq_mod (u : Nat) (h : u < 2 ^ 32) :
    uint_pred u = (u + 2 ^ 32 - 1) % 2 ^ 32 := by
  unfold uint_pred
  split_ifs <;> omega

theorem int_of_uint_eq_wrap (u : Nat) (h : u < 2 ^ 32) : int_of_uint u = wrap_int u := by
  unfold int_of_uint wrap_int
  split_ifs <;> omega

theorem uint_of_int_eq_mod (i : Int) (h1 : -2 ^ 31 ≤ i) (h2 : i < 2 ^ 31) :
    (uint_of_int i : Int) = i % 2 ^ 32 := by
  unfold uint_of_int
  split_ifs <;> omega

theorem uint_of_int_of_uint (u : Nat) (h : u < 2 ^ 32) : uint_of_int (int_of_uint u) = u := by
  unfold uint_of_int int_of_uint
  split_ifs <;> omega

end Bspwm
